import Mathlib

/-!
The key decoder and the display metrics of nano (winio.c).

A shallow embedding of the input and display core of `src/nano/src/winio.c`.

* C strings are lists of bytes (`List Nat`) without the terminating NUL; the
  end of the list is the terminator.
* Raw input codes are `Int` (curses returns `int`, and `ERR` is `-1`).
* The `static` variables of `parse_kbinput`, `get_byte_kbinput` and
  `get_unicode_kbinput`, and the file-level keystroke buffer, are the fields
  of one explicit state record that every operation threads through.
-/

namespace Nano

/-! ## Constants of nano.h and curses.h -/

/-- Modelled from the spec: `ERR` of curses.h, the "no key" result. -/
def ERR : Int := -1

/-- Modelled from the spec: `(size_t)-1` on a 64-bit target. -/
def SIZE_MAX : Nat := 2 ^ 64 - 1

/-- Modelled from the spec: nano.h is not under src/; `NANO_CONTROL_3` is
Ctrl-3 (Ctrl-[), the Escape byte. -/
def NANO_CONTROL_3 : Int := 27

/-- Modelled from the spec: `NANO_CONTROL_8` is Ctrl-8 (Ctrl-?), ASCII DEL. -/
def NANO_CONTROL_8 : Int := 127

/-- Modelled from the spec: `NANO_CONTROL_SPACE` is Ctrl-Space, ASCII NUL. -/
def NANO_CONTROL_SPACE : Int := 0

/-- Modelled from the spec: the logical keys of nano.h are the control
characters their shortcuts are bound to; previous line is Ctrl-P. -/
def NANO_PREVLINE_KEY : Int := 16

/-- Modelled from the spec: next line is Ctrl-N. -/
def NANO_NEXTLINE_KEY : Int := 14

/-- Modelled from the spec: forward is Ctrl-F. -/
def NANO_FORWARD_KEY : Int := 6

/-- Modelled from the spec: back is Ctrl-B. -/
def NANO_BACK_KEY : Int := 2

/-- Modelled from the spec: Home is Ctrl-A. -/
def NANO_HOME_KEY : Int := 1

/-- Modelled from the spec: End is Ctrl-E. -/
def NANO_END_KEY : Int := 5

/-- Modelled from the spec: Delete is Ctrl-D. -/
def NANO_DELETE_KEY : Int := 4

/-- Modelled from the spec: Backspace is Ctrl-H. -/
def NANO_BACKSPACE_KEY : Int := 8

/-- Modelled from the spec: Insert File is Ctrl-R. -/
def NANO_INSERTFILE_KEY : Int := 18

/-- Modelled from the spec: next page is Ctrl-V. -/
def NANO_NEXTPAGE_KEY : Int := 22

/-- Modelled from the spec: previous page is Ctrl-Y. -/
def NANO_PREVPAGE_KEY : Int := 25

/-- Modelled from the spec: Enter is Ctrl-M. -/
def NANO_ENTER_KEY : Int := 13

/-- Modelled from the spec: Suspend is Ctrl-Z. -/
def NANO_SUSPEND_KEY : Int := 26

/-- Extended keypad codes as ncurses numbers them (curses.h, octal 0402...). -/
def KEY_DOWN : Int := 258
def KEY_UP : Int := 259
def KEY_LEFT : Int := 260
def KEY_RIGHT : Int := 261
def KEY_HOME : Int := 262
def KEY_BACKSPACE : Int := 263
def KEY_F0 : Int := 264
def KEY_F (n : Int) : Int := KEY_F0 + n
def KEY_DC : Int := 330
def KEY_IC : Int := 331
def KEY_NPAGE : Int := 338
def KEY_PPAGE : Int := 339
def KEY_ENTER : Int := 343
def KEY_A1 : Int := 348
def KEY_A3 : Int := 349
def KEY_B2 : Int := 350
def KEY_C1 : Int := 351
def KEY_C3 : Int := 352
def KEY_BEG : Int := 354
def KEY_END : Int := 360
def KEY_SLEFT : Int := 393
def KEY_SRIGHT : Int := 402
def KEY_SUSPEND : Int := 407
def KEY_RESIZE : Int := 410

/-- The C library `tolower` in the C locale; codes outside `'A'..'Z'` are
returned unchanged. -/
def tolower (c : Int) : Int := if 65 ≤ c ∧ c ≤ 90 then c + 32 else c

/-- Modelled from the spec: `is_byte` of chars.c, "value inside normal byte
range". -/
def is_byte (c : Int) : Bool := decide (0 ≤ c ∧ c ≤ 255)

/-- Modelled from the spec: `make_mbchar` of chars.c, the text encoding of a
code point: the byte itself in single-byte mode, its UTF-8 encoding in
multibyte mode, and nothing for a value that is not a valid code point. -/
def make_mbchar (use_utf8 : Bool) (chr : Int) : List Int :=
  if use_utf8 then
    if chr < 0 then []
    else if chr < 128 then [chr]
    else if chr < 2048 then [192 + chr / 64, 128 + chr % 64]
    else if 55296 ≤ chr ∧ chr ≤ 57343 then []
    else if chr < 65536 then
      [224 + chr / 4096, 128 + (chr / 64) % 64, 128 + chr % 64]
    else if chr ≤ 1114111 then
      [240 + chr / 262144, 128 + (chr / 4096) % 64, 128 + (chr / 64) % 64,
        128 + chr % 64]
    else []
  else [chr % 256]

/-! ## Decoder state and the pending-input queue -/

/-- Build flags and options the decoder reads. -/
structure KbCfg where
  /-- The option flag `REBIND_DELETE`. -/
  rebind_delete : Bool
  /-- The option flag `USE_UTF8`. -/
  use_utf8 : Bool
deriving DecidableEq, Repr

/-- The keystroke buffer and the `static` counters of the input routines,
with the caller's `meta_key` and `func_key` out-parameters. -/
structure KbState where
  /-- The file-level `key_buffer` (its length is `key_buffer_len`). -/
  key_buffer : List Int
  /-- The static `escapes` of `parse_kbinput`. -/
  escapes : Nat
  /-- The static `byte_digits` of `parse_kbinput`. -/
  byte_digits : Nat
  /-- The static `byte_digits` of `get_byte_kbinput`. -/
  gb_digits : Nat
  /-- The static `byte` of `get_byte_kbinput`. -/
  gb_byte : Int
  /-- The static `uni_digits` of `get_unicode_kbinput`. -/
  uni_digits : Nat
  /-- The static `uni` of `get_unicode_kbinput`. -/
  uni : Int
  /-- The caller's variable behind `*meta_key`. -/
  meta_key : Bool
  /-- The caller's variable behind `*func_key`. -/
  func_key : Bool
deriving DecidableEq, Repr

/-- The decoder state after `reset_kbinput`, with the given pending queue. -/
def KbState.reset (q : List Int) : KbState :=
  { key_buffer := q, escapes := 0, byte_digits := 0, gb_digits := 0,
    gb_byte := 0, uni_digits := 0, uni := 0, meta_key := false,
    func_key := false }

/-- The function `get_key_buffer_len`. -/
def get_key_buffer_len (s : KbState) : Nat := s.key_buffer.length

/-- The function `unget_input`: put `input` at the front of the keystroke
buffer, cut down to what still fits below `(size_t)-1` entries. -/
def unget_input (input : List Int) (s : KbState) : KbState :=
  if input.length = 0 then s
  else
    let key_buffer_len := s.key_buffer.length
    let input_len :=
      if (key_buffer_len + input.length) % 2 ^ 64 < key_buffer_len then
        SIZE_MAX - key_buffer_len
      else input.length
    { s with key_buffer := input.take input_len ++ s.key_buffer }

/-- The function `get_input` with `win == NULL`: take up to `input_len` codes
from the front of the keystroke buffer; `none` is the `NULL` returned for an
empty buffer. -/
def get_input (input_len : Nat) (s : KbState) : Option (List Int × KbState) :=
  if s.key_buffer.length = 0 then none
  else
    some (s.key_buffer.take input_len,
      { s with key_buffer := s.key_buffer.drop input_len })

/-! ## Escape sequences -/

/-- The function `get_escape_seq_abcd`. -/
def get_escape_seq_abcd (kbinput : Int) : Int :=
  let c := tolower kbinput
  if c = 97 then NANO_PREVLINE_KEY        -- 'a'
  else if c = 98 then NANO_NEXTLINE_KEY   -- 'b'
  else if c = 99 then NANO_FORWARD_KEY    -- 'c'
  else if c = 100 then NANO_BACK_KEY      -- 'd'
  else ERR

/-- The `case 'O'` arm of `get_escape_seq_kbinput`: `s1` is `seq[1]` and
`t` holds `seq[2..]`. -/
def escape_seq_O (s1 : Int) (t : List Int) : Int × Bool :=
  if s1 = 50 then                          -- '2'
    match t with
    | s2 :: _ =>
      if s2 = 80 then (KEY_F 13, false)        -- 'P'
      else if s2 = 81 then (KEY_F 14, false)   -- 'Q'
      else if s2 = 82 then (KEY_F 15, false)   -- 'R'
      else if s2 = 83 then (KEY_F 16, false)   -- 'S'
      else (ERR, false)
    | [] => (ERR, false)
  else if s1 = 65 ∨ s1 = 66 ∨ s1 = 67 ∨ s1 = 68 then   -- 'A'..'D'
    (get_escape_seq_abcd s1, false)
  else if s1 = 69 then (ERR, true)                   -- 'E'
  else if s1 = 70 then (NANO_END_KEY, false)         -- 'F'
  else if s1 = 72 then (NANO_HOME_KEY, false)        -- 'H'
  else if s1 = 77 then (NANO_ENTER_KEY, false)       -- 'M'
  else if s1 = 80 then (KEY_F 1, false)              -- 'P'
  else if s1 = 81 then (KEY_F 2, false)              -- 'Q'
  else if s1 = 82 then (KEY_F 3, false)              -- 'R'
  else if s1 = 83 then (KEY_F 4, false)              -- 'S'
  else if s1 = 84 then (KEY_F 5, false)              -- 'T'
  else if s1 = 85 then (KEY_F 6, false)              -- 'U'
  else if s1 = 86 then (KEY_F 7, false)              -- 'V'
  else if s1 = 87 then (KEY_F 8, false)              -- 'W'
  else if s1 = 88 then (KEY_F 9, false)              -- 'X'
  else if s1 = 89 then (KEY_F 10, false)             -- 'Y'
  else if s1 = 97 ∨ s1 = 98 ∨ s1 = 99 ∨ s1 = 100 then  -- 'a'..'d'
    (get_escape_seq_abcd s1, false)
  else if s1 = 106 then (42, false)                  -- 'j' is '*'
  else if s1 = 107 then (43, false)                  -- 'k' is '+'
  else if s1 = 108 then (44, false)                  -- 'l' is ','
  else if s1 = 109 then (45, false)                  -- 'm' is '-'
  else if s1 = 110 then (NANO_DELETE_KEY, false)     -- 'n'
  else if s1 = 111 then (47, false)                  -- 'o' is '/'
  else if s1 = 112 then (NANO_INSERTFILE_KEY, false) -- 'p'
  else if s1 = 113 then (NANO_END_KEY, false)        -- 'q'
  else if s1 = 114 then (NANO_NEXTLINE_KEY, false)   -- 'r'
  else if s1 = 115 then (NANO_NEXTPAGE_KEY, false)   -- 's'
  else if s1 = 116 then (NANO_BACK_KEY, false)       -- 't'
  else if s1 = 117 then (ERR, true)                  -- 'u'
  else if s1 = 118 then (NANO_FORWARD_KEY, false)    -- 'v'
  else if s1 = 119 then (NANO_HOME_KEY, false)       -- 'w'
  else if s1 = 120 then (NANO_PREVLINE_KEY, false)   -- 'x'
  else if s1 = 121 then (NANO_PREVPAGE_KEY, false)   -- 'y'
  else (ERR, false)

/-- The `case ';'` arm under `Esc [ 1`: `t` holds `seq[3..]`. -/
def escape_seq_bracket_1_semi (t : List Int) : Int × Bool :=
  match t with
  | s3 :: t4 =>
    if s3 = 50 ∨ s3 = 53 then             -- '2' (Shift) or '5' (Ctrl)
      match t4 with
      | s4 :: _ =>
        if s4 = 65 ∨ s4 = 66 ∨ s4 = 67 ∨ s4 = 68 then
          (get_escape_seq_abcd s4, false)
        else (ERR, false)
      | [] => (ERR, false)
    else (ERR, false)
  | [] => (ERR, false)

/-- The `case '['` arm of `get_escape_seq_kbinput`: `s1` is `seq[1]` and
`t` holds `seq[2..]`. -/
def escape_seq_bracket (s1 : Int) (t : List Int) : Int × Bool :=
  if s1 = 49 then                          -- '1'
    match t with
    | s2 :: t3 =>
      if s2 = 49 then (KEY_F 1, false)         -- '1'
      else if s2 = 50 then (KEY_F 2, false)    -- '2'
      else if s2 = 51 then (KEY_F 3, false)    -- '3'
      else if s2 = 52 then (KEY_F 4, false)    -- '4'
      else if s2 = 53 then (KEY_F 5, false)    -- '5'
      else if s2 = 55 then (KEY_F 6, false)    -- '7'
      else if s2 = 56 then (KEY_F 7, false)    -- '8'
      else if s2 = 57 then (KEY_F 8, false)    -- '9'
      else if s2 = 59 then escape_seq_bracket_1_semi t3   -- ';'
      else (NANO_HOME_KEY, false)
    | [] => (ERR, false)
  else if s1 = 50 then                     -- '2'
    match t with
    | s2 :: _ =>
      if s2 = 48 then (KEY_F 9, false)         -- '0'
      else if s2 = 49 then (KEY_F 10, false)   -- '1'
      else if s2 = 51 then (KEY_F 11, false)   -- '3'
      else if s2 = 52 then (KEY_F 12, false)   -- '4'
      else if s2 = 53 then (KEY_F 13, false)   -- '5'
      else if s2 = 54 then (KEY_F 14, false)   -- '6'
      else if s2 = 56 then (KEY_F 15, false)   -- '8'
      else if s2 = 57 then (KEY_F 16, false)   -- '9'
      else (NANO_INSERTFILE_KEY, false)
    | [] => (ERR, false)
  else if s1 = 51 then (NANO_DELETE_KEY, false)      -- '3'
  else if s1 = 52 then (NANO_END_KEY, false)         -- '4'
  else if s1 = 53 then (NANO_PREVPAGE_KEY, false)    -- '5'
  else if s1 = 54 then (NANO_NEXTPAGE_KEY, false)    -- '6'
  else if s1 = 55 then (NANO_HOME_KEY, false)        -- '7'
  else if s1 = 56 then (NANO_END_KEY, false)         -- '8'
  else if s1 = 57 then (NANO_DELETE_KEY, false)      -- '9'
  else if s1 = 64 then (NANO_INSERTFILE_KEY, false)  -- '@'
  else if s1 = 65 ∨ s1 = 66 ∨ s1 = 67 ∨ s1 = 68 then   -- 'A'..'D'
    (get_escape_seq_abcd s1, false)
  else if s1 = 69 then (ERR, true)                   -- 'E'
  else if s1 = 70 then (NANO_END_KEY, false)         -- 'F'
  else if s1 = 71 then (NANO_NEXTPAGE_KEY, false)    -- 'G'
  else if s1 = 72 then (NANO_HOME_KEY, false)        -- 'H'
  else if s1 = 73 then (NANO_PREVPAGE_KEY, false)    -- 'I'
  else if s1 = 76 then (NANO_INSERTFILE_KEY, false)  -- 'L'
  else if s1 = 77 then (KEY_F 1, false)              -- 'M'
  else if s1 = 78 then (KEY_F 2, false)              -- 'N'
  else if s1 = 79 then                               -- 'O'
    match t with
    | s2 :: _ =>
      if s2 = 80 then (KEY_F 1, false)         -- 'P'
      else if s2 = 81 then (KEY_F 2, false)    -- 'Q'
      else if s2 = 82 then (KEY_F 3, false)    -- 'R'
      else if s2 = 83 then (KEY_F 4, false)    -- 'S'
      else (ERR, false)
    | [] => (KEY_F 3, false)
  else if s1 = 80 then (KEY_F 4, false)              -- 'P'
  else if s1 = 81 then (KEY_F 5, false)              -- 'Q'
  else if s1 = 82 then (KEY_F 6, false)              -- 'R'
  else if s1 = 83 then (KEY_F 7, false)              -- 'S'
  else if s1 = 84 then (KEY_F 8, false)              -- 'T'
  else if s1 = 85 then (NANO_NEXTPAGE_KEY, false)    -- 'U'
  else if s1 = 86 then (NANO_PREVPAGE_KEY, false)    -- 'V'
  else if s1 = 87 then (KEY_F 11, false)             -- 'W'
  else if s1 = 88 then (KEY_F 12, false)             -- 'X'
  else if s1 = 89 then (NANO_END_KEY, false)         -- 'Y'
  else if s1 = 90 then (KEY_F 14, false)             -- 'Z'
  else if s1 = 97 ∨ s1 = 98 ∨ s1 = 99 ∨ s1 = 100 then  -- 'a'..'d'
    (get_escape_seq_abcd s1, false)
  else if s1 = 91 then                               -- '['
    match t with
    | s2 :: _ =>
      if s2 = 65 then (KEY_F 1, false)         -- 'A'
      else if s2 = 66 then (KEY_F 2, false)    -- 'B'
      else if s2 = 67 then (KEY_F 3, false)    -- 'C'
      else if s2 = 68 then (KEY_F 4, false)    -- 'D'
      else if s2 = 69 then (KEY_F 5, false)    -- 'E'
      else (ERR, false)
    | [] => (ERR, false)
  else (ERR, false)

/-- The function `get_escape_seq_kbinput`: the key value of the escape
sequence `seq` (Escape itself already read) and the `ignore_seq` flag. -/
def get_escape_seq_kbinput (seq : List Int) : Int × Bool :=
  match seq with
  | s0 :: s1 :: t =>
    if s0 = 79 then escape_seq_O s1 t              -- 'O'
    else if s0 = 111 then                          -- 'o'
      if s1 = 97 ∨ s1 = 98 ∨ s1 = 99 ∨ s1 = 100 then
        (get_escape_seq_abcd s1, false)
      else (ERR, false)
    else if s0 = 91 then escape_seq_bracket s1 t   -- '['
    else (ERR, false)
  | _ => (ERR, false)

/-! ## Byte, Unicode and control-character literals -/

/-- The function `get_byte_kbinput` with `reset == FALSE`. -/
def get_byte_kbinput (kbinput : Int) (s : KbState) : Int × KbState :=
  let byte_digits := s.gb_digits + 1
  let r : Int × Int :=          -- (retval, byte)
    if byte_digits = 1 then
      if 48 ≤ kbinput ∧ kbinput ≤ 50 then (ERR, 0 + (kbinput - 48) * 100)
      else (kbinput, 0)
    else if byte_digits = 2 then
      if (48 ≤ kbinput ∧ kbinput ≤ 53) ∨
          (s.gb_byte < 200 ∧ 54 ≤ kbinput ∧ kbinput ≤ 57) then
        (ERR, s.gb_byte + (kbinput - 48) * 10)
      else (kbinput, s.gb_byte)
    else if byte_digits = 3 then
      if (48 ≤ kbinput ∧ kbinput ≤ 53) ∨
          (s.gb_byte < 250 ∧ 54 ≤ kbinput ∧ kbinput ≤ 57) then
        (s.gb_byte + (kbinput - 48), s.gb_byte + (kbinput - 48))
      else (kbinput, s.gb_byte)
    else (kbinput, s.gb_byte)
  if r.1 ≠ ERR then (r.1, { s with gb_digits := 0, gb_byte := 0 })
  else (r.1, { s with gb_digits := byte_digits, gb_byte := r.2 })

/-- The function `get_control_kbinput`. -/
def get_control_kbinput (kbinput : Int) : Int :=
  if kbinput = 50 ∨ kbinput = 32 ∨ kbinput = 64 ∨ kbinput = 96 then
    NANO_CONTROL_SPACE
  else if 51 ≤ kbinput ∧ kbinput ≤ 55 then kbinput - 24
  else if kbinput = 56 ∨ kbinput = 63 then NANO_CONTROL_8
  else if 65 ≤ kbinput ∧ kbinput ≤ 95 then kbinput - 64
  else if 97 ≤ kbinput ∧ kbinput ≤ 126 then kbinput - 96
  else kbinput

/-! ## The key decoder -/

/-- The inner `switch (*kbinput)` of `parse_kbinput` for `escapes == 0`: the
fixed table from extended keypad codes to logical keys.  `ERR` is the result
of the arms that leave `retval` untouched. -/
def ground_key (cfg : KbCfg) (kbinput : Int) : Int :=
  if kbinput = NANO_CONTROL_8 then
    if cfg.rebind_delete then NANO_DELETE_KEY else NANO_BACKSPACE_KEY
  else if kbinput = KEY_DOWN then NANO_NEXTLINE_KEY
  else if kbinput = KEY_UP then NANO_PREVLINE_KEY
  else if kbinput = KEY_LEFT then NANO_BACK_KEY
  else if kbinput = KEY_RIGHT then NANO_FORWARD_KEY
  else if kbinput = KEY_HOME then NANO_HOME_KEY
  else if kbinput = KEY_BACKSPACE then NANO_BACKSPACE_KEY
  else if kbinput = KEY_DC then
    if cfg.rebind_delete then NANO_BACKSPACE_KEY else NANO_DELETE_KEY
  else if kbinput = KEY_IC then NANO_INSERTFILE_KEY
  else if kbinput = KEY_NPAGE then NANO_NEXTPAGE_KEY
  else if kbinput = KEY_PPAGE then NANO_PREVPAGE_KEY
  else if kbinput = KEY_ENTER then NANO_ENTER_KEY
  else if kbinput = KEY_A1 then NANO_HOME_KEY
  else if kbinput = KEY_A3 then NANO_PREVPAGE_KEY
  else if kbinput = KEY_B2 then ERR
  else if kbinput = KEY_C1 then NANO_END_KEY
  else if kbinput = KEY_C3 then NANO_NEXTPAGE_KEY
  else if kbinput = KEY_BEG then ERR
  else if kbinput = KEY_END then NANO_END_KEY
  else if kbinput = KEY_SUSPEND then NANO_SUSPEND_KEY
  else if kbinput = KEY_SLEFT then NANO_BACK_KEY
  else if kbinput = KEY_SRIGHT then NANO_FORWARD_KEY
  else kbinput

/-- The `case 1` arm of `switch (escapes)` in `parse_kbinput`: one escape
followed by the non-escape `kbinput`, already taken off the queue of `s`. -/
def parse_one_escape (kbinput : Int) (s : KbState) : Int × KbState :=
  let s1 := { s with escapes := 0 }
  if get_key_buffer_len s1 = 0 then
    (tolower kbinput, { s1 with meta_key := true })
  else
    let s2 := unget_input [kbinput] s1
    let seq_len := get_key_buffer_len s2
    match get_input seq_len s2 with
    | none => (ERR, s2)
    | some (seq, s3) =>
      let r := get_escape_seq_kbinput seq
      if r.1 = ERR ∧ r.2 = false then (r.1, unget_input seq s3) else (r.1, s3)

/-- The `case 2` arm of `switch (escapes)` in `parse_kbinput`: two escapes
followed by `kbinput`. -/
def parse_two_escapes (cfg : KbCfg) (kbinput : Int) (s : KbState) :
    Int × KbState :=
  if (48 ≤ kbinput ∧ kbinput ≤ 54 ∧ s.byte_digits = 0) ∨
      (48 ≤ kbinput ∧ kbinput ≤ 57 ∧ s.byte_digits > 0) then
    let s1 := { s with byte_digits := s.byte_digits + 1 }
    let r := get_byte_kbinput kbinput s1
    if r.1 ≠ ERR then
      let s2 := { r.2 with byte_digits := 0, escapes := 0 }
      (ERR, unget_input (make_mbchar cfg.use_utf8 r.1) s2)
    else (ERR, r.2)
  else
    let s1 := { s with escapes := 0 }
    if s.byte_digits = 0 then (get_control_kbinput kbinput, s1)
    else (kbinput, { s1 with byte_digits := 0 })

/-- The function `parse_kbinput` with `reset == FALSE`.  `none` stands for
the point where the C code waits in `get_input(win, 1)` because the
keystroke buffer is empty.  The arms under `#ifdef PDCURSES` are left out:
the keypad codes are those of ncurses. -/
def parse_kbinput (cfg : KbCfg) (s : KbState) : Option (Int × KbState) :=
  match get_input 1 { s with meta_key := false, func_key := false } with
  | none => none
  | some (inp, s1) =>
    match inp with
    | [] => none
    | kbinput :: _ =>
      let r : Int × KbState :=
        if kbinput = ERR then (ERR, s1)
        else if kbinput = NANO_CONTROL_3 then
          let escapes := s1.escapes + 1
          (ERR, { s1 with
            escapes := if escapes = 1 ∨ escapes = 2 then escapes else 0 })
        else if kbinput = KEY_RESIZE then (ERR, s1)
        else if s1.escapes = 0 then (ground_key cfg kbinput, s1)
        else if s1.escapes = 1 then parse_one_escape kbinput s1
        else if s1.escapes = 2 then parse_two_escapes cfg kbinput s1
        else (ERR, s1)
      if r.1 ≠ ERR then some (r.1, { r.2 with func_key := !is_byte r.1 })
      else some (r.1, r.2)

/-- The function `parse_kbinput` with `reset == TRUE`. -/
def parse_kbinput_reset (s : KbState) : KbState :=
  { s with escapes := 0, byte_digits := 0 }

/-- The function `get_kbinput`: call `parse_kbinput` until it yields a key.
`fuel` bounds the number of rounds; `none` is returned when the keystroke
buffer runs empty first (the C code then waits for the terminal). -/
def get_kbinput (cfg : KbCfg) : Nat → KbState → Option (Int × KbState)
  | 0, _ => none
  | fuel + 1, s =>
    match parse_kbinput cfg s with
    | none => none
    | some (kbinput, s1) =>
      if kbinput = ERR then get_kbinput cfg fuel s1 else some (kbinput, s1)

/-! ## Display metrics -/

/-- Modelled from the spec: chars.c and global.c are not under src/.  The
record holds what the display code reads from them: the configured tab size,
the screen width `COLS`, the `USE_UTF8` and `WHITESPACE_DISPLAY` flags with
the whitespace glyphs, and the character-level helpers (`mb_cur_max`, the
byte length of the multibyte character at the head of a buffer, the control
test `is_cntrl_mbchar`, the visible forms `control_mbrep` and `mbrep`, and
the display width `mbwidth`), each acting on the bytes of one character.
It also holds what the C implementation leaves open about the type `char`:
whether it is signed. -/
structure Env where
  tabsize : Nat
  COLS : Nat
  use_utf8 : Bool
  whitespace_display : Bool
  whitespace : List Nat
  whitespace_len : Nat × Nat
  mb_cur_max : Nat
  mblen : List Nat → Nat
  is_cntrl_mbchar : List Nat → Bool
  control_mbrep : List Nat → List Nat
  mbrep : List Nat → List Nat
  mbwidth : List Nat → Nat
  char_signed : Bool

/-- Modelled from the spec: the return value of `parse_mbchar` of chars.c,
the number of bytes of the character at `buf`; at the terminator it is the
single NUL byte. -/
def parse_mbchar_len (E : Env) (buf : List Nat) : Nat :=
  match buf with
  | [] => 1
  | _ => E.mblen buf

/-- Modelled from the spec: the `chr` output of `parse_mbchar` of chars.c,
the bytes of the character at `buf`. -/
def parse_mbchar_chr (E : Env) (buf : List Nat) : List Nat :=
  match buf with
  | [] => [0]
  | _ => buf.take (E.mblen buf)

/-- Modelled from the spec: the `col` output of `parse_mbchar` of chars.c:
a tab advances to the next multiple of the tab size, a control character
takes one column for the caret and the width of its visible form, any other
character takes its display width. -/
def parse_mbchar_col (E : Env) (buf : List Nat) (col : Nat) : Nat :=
  if buf.head? = some 9 then col + (E.tabsize - col % E.tabsize)
  else if E.is_cntrl_mbchar (parse_mbchar_chr E buf) then
    col + 1 + E.mbwidth (E.control_mbrep (parse_mbchar_chr E buf))
  else col + E.mbwidth (parse_mbchar_chr E buf)

/-- The loop of `actual_x`: `str` is what is left of the string, `i` the
position reached and `length` the display width up to there.  Every round
consumes at least one byte, so `fuel` is the number of bytes left. -/
def actual_x_loop (E : Env) (xplus : Nat) :
    Nat → List Nat → Nat → Nat → Nat
  | 0, _, i, _ => i
  | fuel + 1, str, i, length =>
    match str with
    | [] => i
    | _ :: _ =>
      let str_len := parse_mbchar_len E str
      let length1 := parse_mbchar_col E str length
      if length1 > xplus then i
      else actual_x_loop E xplus fuel (str.drop str_len) (i + str_len) length1

/-- The function `actual_x`. -/
def actual_x (E : Env) (str : List Nat) (xplus : Nat) : Nat :=
  actual_x_loop E xplus str.length str 0 0

/-- The loop of `strnlenpt`. -/
def strnlenpt_loop (E : Env) : Nat → List Nat → Nat → Nat → Nat
  | 0, _, _, length => length
  | fuel + 1, str, size, length =>
    match str with
    | [] => length
    | _ :: _ =>
      let str_len := parse_mbchar_len E str
      let length1 := parse_mbchar_col E str length
      if size ≤ str_len then length1
      else strnlenpt_loop E fuel (str.drop str_len) (size - str_len) length1

/-- The function `strnlenpt`. -/
def strnlenpt (E : Env) (str : List Nat) (size : Nat) : Nat :=
  if size = 0 then 0 else strnlenpt_loop E str.length str size 0

/-- The function `strlenpt`. -/
def strlenpt (E : Env) (buf : List Nat) : Nat := strnlenpt E buf SIZE_MAX

/-- The function `xplustabs`, on the text `data` of the current line and the
cursor offset `current_x`. -/
def xplustabs (E : Env) (data : List Nat) (current_x : Nat) : Nat :=
  strnlenpt E data current_x

/-- The inner `while (start_col % tabsize != 0)` loop of `display_string`:
pad with spaces up to the next tab stop. -/
def tab_fill (tabsize : Nat) : Nat → Nat → List Nat → Nat × List Nat
  | 0, start_col, converted => (start_col, converted)
  | fuel + 1, start_col, converted =>
    if start_col % tabsize ≠ 0 then
      tab_fill tabsize fuel (start_col + 1) (converted ++ [32])
    else (start_col, converted)

/-- One round of the main loop of `display_string`: convert the character at
`buf`, giving the new `start_col` and the new `converted`. -/
def display_step (E : Env) (buf : List Nat) (start_col : Nat)
    (converted : List Nat) : Nat × List Nat :=
  let buf_mb := parse_mbchar_chr E buf
  if buf_mb.head? = some 9 then
    let c1 :=
      if E.whitespace_display then
        converted ++ E.whitespace.take E.whitespace_len.1
      else converted ++ [32]
    tab_fill E.tabsize E.tabsize (start_col + 1) c1
  else if E.is_cntrl_mbchar buf_mb then
    let ctrl_buf_mb := E.control_mbrep buf_mb
    (start_col + 1 + E.mbwidth ctrl_buf_mb, converted ++ [94] ++ ctrl_buf_mb)
  else if buf_mb.head? = some 32 then
    let c1 :=
      if E.whitespace_display then
        converted ++ (E.whitespace.drop E.whitespace_len.1).take
          E.whitespace_len.2
      else converted ++ [32]
    (start_col + 1, c1)
  else
    let nctrl_buf_mb := E.mbrep buf_mb
    (start_col + E.mbwidth nctrl_buf_mb, converted ++ nctrl_buf_mb)

/-- The main loop of `display_string`; `index` is the length of
`converted`, the bytes written so far.  The buffer `converted` is allocated
with `alloc_len + 1` bytes, `alloc_len` being `mb_cur_max * (COLS + 1)`, and
the loop tests `index < alloc_len - 1` only before it converts a character:
the result is `none` when a round writes past the last byte of the
allocation, where the behaviour of the C code is undefined. -/
def display_loop (E : Env) :
    Nat → List Nat → Nat → List Nat → Option (List Nat)
  | 0, _, _, converted => some converted
  | fuel + 1, buf, start_col, converted =>
    if converted.length < E.mb_cur_max * (E.COLS + 1) - 1 ∧ buf ≠ [] then
      let r := display_step E buf start_col converted
      if r.2.length ≤ E.mb_cur_max * (E.COLS + 1) + 1 then
        display_loop E fuel (buf.drop (parse_mbchar_len E buf)) r.1 r.2
      else none
    else some converted

/-- The partly shown first character of `display_string`: `rest` is the
buffer from `start_index` on; the result is the new `start_col`, the number
of bytes `start_index` moves on, and what was put into `converted`. -/
def display_first (E : Env) (rest : List Nat) (column start_col : Nat)
    (dollars : Bool) : Nat × Nat × List Nat :=
  if rest.head? ≠ some 9 ∧
      (column < start_col ∨ (dollars = true ∧ column > 0)) then
    let buf_mb := parse_mbchar_chr E rest
    if E.is_cntrl_mbchar buf_mb then
      if column < start_col then
        let ctrl_buf_mb := E.control_mbrep buf_mb
        (start_col + E.mbwidth ctrl_buf_mb, parse_mbchar_len E rest,
          ctrl_buf_mb)
      else (start_col, 0, [])
    else if E.use_utf8 = true ∧ E.mbwidth buf_mb > 1 then
      (start_col + 1, parse_mbchar_len E rest, [32])
    else (start_col, 0, [])
  else (start_col, 0, [])

/-- The first statement of `display_string`: with `dollars` set, give up one
column of `len` for the `$` when the line runs past the window. -/
def display_len (E : Env) (buf : List Nat) (start_col len : Nat)
    (dollars : Bool) : Nat :=
  if dollars = true ∧ len > 0 ∧
      strlenpt E buf > (start_col + len) % 2 ^ 64 then len - 1
  else len

/-- The bytes written to the buffer `converted` of `display_string` when
its main loop ends; `none` when a write goes past the allocation. -/
def display_converted (E : Env) (buf : List Nat) (start_col : Nat)
    (dollars : Bool) : Option (List Nat) :=
  let start_index := actual_x E buf start_col
  let column := strnlenpt E buf start_index
  let rest := buf.drop start_index
  let first := display_first E rest column start_col dollars
  let rest1 := rest.drop first.2.1
  if first.2.2.length ≤ E.mb_cur_max * (E.COLS + 1) + 1 then
    display_loop E rest1.length rest1 first.1 first.2.2
  else none

/-- The function `display_string`.  After its main loop the C code
terminates `converted` only `if (index < alloc_len - 1)`, and then cuts it
at `actual_x(converted, len)`.  The result is `none` where the C code does
not define what is returned: when a write went past the allocation, and
when `converted` is left unterminated and `actual_x` does not stop inside
the bytes written, so that it reads the bytes behind them, which were never
set. -/
def display_string (E : Env) (buf : List Nat) (start_col len : Nat)
    (dollars : Bool) : Option (List Nat) :=
  let len1 := display_len E buf start_col len dollars
  if len1 = 0 then some []
  else
    match display_converted E buf start_col dollars with
    | none => none
    | some converted =>
      if converted.length < E.mb_cur_max * (E.COLS + 1) - 1 ∨
          actual_x E converted len1 < converted.length then
        some (converted.take (actual_x E converted len1))
      else none

/-- Whether the byte offset `o` of `buf` is where a character starts (or the
end of the text), following the character lengths of `parse_mbchar`. -/
def char_boundary (E : Env) : Nat → List Nat → Nat → Bool
  | _, _, 0 => true
  | 0, _, _ + 1 => false
  | fuel + 1, buf, o + 1 =>
    match buf with
    | [] => false
    | _ :: _ =>
      decide (parse_mbchar_len E buf ≤ o + 1) &&
        char_boundary E fuel (buf.drop (parse_mbchar_len E buf))
          (o + 1 - parse_mbchar_len E buf)

/-- What the display code relies on from the character helpers: a positive
tab size, at least one byte per character in every locale, and characters
that lie inside the buffer and are recognised from their own bytes alone. -/
structure Env.WF (E : Env) : Prop where
  tabsize_pos : 0 < E.tabsize
  mb_cur_max_pos : 0 < E.mb_cur_max
  mblen_pos : ∀ buf : List Nat, buf ≠ [] → 1 ≤ E.mblen buf
  mblen_le : ∀ buf : List Nat, buf ≠ [] → E.mblen buf ≤ buf.length
  mblen_take : ∀ (buf : List Nat) (n : Nat), buf ≠ [] → E.mblen buf ≤ n →
    E.mblen (buf.take n) = E.mblen buf

/-- Modelled from the spec: `is_cntrl_char` of chars.c, the control bytes
of a single-byte locale (0..31 and 127..159). -/
def is_cntrl_char (c : Nat) : Bool := decide (c < 32 ∨ (127 ≤ c ∧ c < 160))

/-- Modelled from the spec: `control_rep` of chars.c, the visible form of a
control byte: `@` for an embedded newline, `?` for DEL, else the byte plus
64. -/
def control_rep (c : Nat) : Nat :=
  if c = 10 then 64 else if c = 127 then 63 else (c + 64) % 256

/-- Modelled from the spec: the character helpers of a single-byte locale
(`USE_UTF8` off): every character is one byte and one column wide. -/
def byte_env (tabsize COLS : Nat) : Env :=
  { tabsize := tabsize, COLS := COLS, use_utf8 := false,
    whitespace_display := false, whitespace := [], whitespace_len := (0, 0),
    mb_cur_max := 1,
    mblen := fun _ => 1,
    is_cntrl_mbchar := fun c => is_cntrl_char (c.headD 0),
    control_mbrep := fun c => [control_rep (c.headD 0)],
    mbrep := fun c => c.take 1,
    mbwidth := fun _ => 1,
    char_signed := true }

/-- Modelled from the spec: the byte length of the UTF-8 character at the
head of `buf`; a byte that does not start a complete sequence stands alone. -/
def utf8_len (buf : List Nat) : Nat :=
  match buf with
  | b0 :: b1 :: b2 :: b3 :: _ =>
    if 194 ≤ b0 ∧ b0 ≤ 223 ∧ b1 / 64 = 2 then 2
    else if 224 ≤ b0 ∧ b0 ≤ 239 ∧ b1 / 64 = 2 ∧ b2 / 64 = 2 then 3
    else if 240 ≤ b0 ∧ b0 ≤ 244 ∧ b1 / 64 = 2 ∧ b2 / 64 = 2 ∧ b3 / 64 = 2
      then 4
    else 1
  | b0 :: b1 :: b2 :: [] =>
    if 194 ≤ b0 ∧ b0 ≤ 223 ∧ b1 / 64 = 2 then 2
    else if 224 ≤ b0 ∧ b0 ≤ 239 ∧ b1 / 64 = 2 ∧ b2 / 64 = 2 then 3
    else 1
  | b0 :: b1 :: [] => if 194 ≤ b0 ∧ b0 ≤ 223 ∧ b1 / 64 = 2 then 2 else 1
  | _ => 1

/-- Modelled from the spec: the code point of one UTF-8 character (the byte
itself for a lone byte). -/
def utf8_code (c : List Nat) : Nat :=
  match c with
  | [b0, b1] => (b0 % 32) * 64 + b1 % 64
  | [b0, b1, b2] => (b0 % 16) * 4096 + (b1 % 64) * 64 + b2 % 64
  | [b0, b1, b2, b3] =>
    (b0 % 8) * 262144 + (b1 % 64) * 4096 + (b2 % 64) * 64 + b3 % 64
  | _ => c.headD 0

/-- Modelled from the spec: display width of a code point: none for the
combining marks U+0300..U+036F, two columns for the East Asian wide blocks,
one otherwise. -/
def utf8_width (cp : Nat) : Nat :=
  if 768 ≤ cp ∧ cp ≤ 879 then 0
  else if (4352 ≤ cp ∧ cp ≤ 4447) ∨ (11904 ≤ cp ∧ cp ≤ 42191) ∨
      (44032 ≤ cp ∧ cp ≤ 55203) ∨ (63744 ≤ cp ∧ cp ≤ 64255) ∨
      (65280 ≤ cp ∧ cp ≤ 65376) then 2
  else 1

/-- Modelled from the spec: the UTF-8 encoding of a code point below
U+0800, one byte below 128 and two bytes from there on. -/
def utf8_encode (cp : Nat) : List Nat :=
  if cp < 128 then [cp] else [192 + cp / 64, 128 + cp % 64]

/-- Modelled from the spec: the character helpers of a UTF-8 locale
(`USE_UTF8` on); the visible form of a control character is the encoding of
the code point `control_rep` gives. -/
def utf8_env (tabsize COLS : Nat) : Env :=
  { tabsize := tabsize, COLS := COLS, use_utf8 := true,
    whitespace_display := false, whitespace := [], whitespace_len := (0, 0),
    mb_cur_max := 6,
    mblen := utf8_len,
    is_cntrl_mbchar := fun c => is_cntrl_char (utf8_code c),
    control_mbrep := fun c => utf8_encode (control_rep (utf8_code c)),
    mbrep := fun c => c,
    mbwidth := fun c => utf8_width (utf8_code c),
    char_signed := true }

/-- The column after the byte `b` shown at column `col` in a single-byte
locale: a tab runs to the next tab stop, a control byte takes two columns,
any other byte one. -/
def byte_col (tabsize b col : Nat) : Nat :=
  if b = 9 then col + (tabsize - col % tabsize)
  else if is_cntrl_char b then col + 2
  else col + 1

/-- A single-byte locale with `WHITESPACE_DISPLAY` on: tabs start with the
glyph 187 and spaces are shown as the glyph 183. -/
def byte_env_whitespace (tabsize COLS : Nat) : Env :=
  { byte_env tabsize COLS with
    whitespace_display := true, whitespace := [187, 183],
    whitespace_len := (1, 1) }

/-- The cells the spec describes for the character at the head of `buf`
shown at column `col`: a tab becomes spaces up to the next tab stop, a
control character becomes a caret and its visible form, any other character
is shown as it is. -/
def glyph (E : Env) (buf : List Nat) (col : Nat) : List Nat :=
  if buf.head? = some 9 then List.replicate (E.tabsize - col % E.tabsize) 32
  else if E.is_cntrl_mbchar (parse_mbchar_chr E buf) then
    94 :: E.control_mbrep (parse_mbchar_chr E buf)
  else parse_mbchar_chr E buf

/-- The rendering the spec describes for a whole line: `T` with every tab
expanded to spaces up to the next tab stop and every control character
replaced by its `^X` form; `col` is the column the text starts at. -/
def expand_chars (E : Env) : Nat → List Nat → Nat → List Nat
  | 0, _, _ => []
  | _ + 1, [], _ => []
  | fuel + 1, b :: t, col =>
    glyph E (b :: t) col ++
      expand_chars E fuel ((b :: t).drop (parse_mbchar_len E (b :: t)))
        (parse_mbchar_col E (b :: t) col)

/-- The display width of the whole of `T` starting at column `col`. -/
def width_chars (E : Env) : Nat → List Nat → Nat → Nat
  | 0, _, col => col
  | _ + 1, [], col => col
  | fuel + 1, b :: t, col =>
    width_chars E fuel ((b :: t).drop (parse_mbchar_len E (b :: t)))
      (parse_mbchar_col E (b :: t) col)

/-- A character that is shown as itself: it is recognised whatever follows
it, is neither a tab nor a control character, and is what `display_string`
writes for it; a space is one column wide.  It may be of no width, as a
combining mark is. -/
structure Env.Stable (E : Env) (a : List Nat) : Prop where
  ne_nil : a ≠ []
  mblen_eq : ∀ rest : List Nat, E.mblen (a ++ rest) = a.length
  not_tab : a.head? ≠ some 9
  not_cntrl : E.is_cntrl_mbchar a = false
  shown : (if a.head? = some 32 then [32] else E.mbrep a) = a
  space_width : a.head? = some 32 → E.mbwidth a = 1

/-- What rendering relies on from the option flags and the visible forms:
`WHITESPACE_DISPLAY` is off, and the space, the caret and the visible form of
every control character are shown as themselves, the caret in one column. -/
structure Env.Glyphs (E : Env) : Prop where
  whitespace_off : E.whitespace_display = false
  space : E.Stable [32]
  caret : E.Stable [94]
  caret_width : E.mbwidth [94] = 1
  control : ∀ chr : List Nat, E.is_cntrl_mbchar chr = true →
    E.Stable (E.control_mbrep chr)

/-- A text made of tabs, control characters and characters shown as
themselves. -/
def Env.Clean (E : Env) : Nat → List Nat → Prop
  | _, [] => True
  | 0, _ :: _ => False
  | fuel + 1, b :: t =>
    (b = 9 ∨ E.is_cntrl_mbchar (parse_mbchar_chr E (b :: t)) = true ∨
        E.Stable (parse_mbchar_chr E (b :: t))) ∧
      Env.Clean E fuel ((b :: t).drop (parse_mbchar_len E (b :: t)))

/-- A text made only of characters shown as themselves. -/
def Env.Plain (E : Env) : Nat → List Nat → Prop
  | _, [] => True
  | 0, _ :: _ => False
  | fuel + 1, b :: t =>
    E.Stable (parse_mbchar_chr E (b :: t)) ∧
      Env.Plain E fuel ((b :: t).drop (parse_mbchar_len E (b :: t)))

/-! ## Unicode literals and the resets -/

/-- One hexadecimal position of `get_unicode_kbinput` (the arms for three to
five digits): add the digit times `weight`, or give the code back. -/
def unicode_digit (kbinput uni weight : Int) : Int × Int :=
  if 48 ≤ kbinput ∧ kbinput ≤ 57 then (ERR, uni + (kbinput - 48) * weight)
  else if 97 ≤ tolower kbinput ∧ tolower kbinput ≤ 102 then
    (ERR, uni + (tolower kbinput + 10 - 97) * weight)
  else (kbinput, uni)

/-- The function `get_unicode_kbinput` with `reset == FALSE`. -/
def get_unicode_kbinput (kbinput : Int) (s : KbState) : Int × KbState :=
  let uni_digits := s.uni_digits + 1
  let r : Int × Int :=          -- (retval, uni)
    if uni_digits = 1 then
      if 48 ≤ kbinput ∧ kbinput ≤ 49 then (ERR, 0 + (kbinput - 48) * 1048576)
      else (kbinput, 0)
    else if uni_digits = 2 then
      if kbinput = 48 ∨ (s.uni < 1048576 ∧ 49 ≤ kbinput ∧ kbinput ≤ 57) then
        (ERR, s.uni + (kbinput - 48) * 65536)
      else if s.uni < 1048576 ∧ 97 ≤ tolower kbinput ∧
          tolower kbinput ≤ 102 then
        (ERR, s.uni + (tolower kbinput + 10 - 97) * 65536)
      else (kbinput, s.uni)
    else if uni_digits = 3 then unicode_digit kbinput s.uni 4096
    else if uni_digits = 4 then unicode_digit kbinput s.uni 256
    else if uni_digits = 5 then unicode_digit kbinput s.uni 16
    else if uni_digits = 6 then
      if 48 ≤ kbinput ∧ kbinput ≤ 57 then
        (s.uni + (kbinput - 48), s.uni + (kbinput - 48))
      else if 97 ≤ tolower kbinput ∧ tolower kbinput ≤ 102 then
        (s.uni + (tolower kbinput + 10 - 97),
          s.uni + (tolower kbinput + 10 - 97))
      else (kbinput, s.uni)
    else (kbinput, s.uni)
  if r.1 ≠ ERR then (r.1, { s with uni_digits := 0, uni := 0 })
  else (r.1, { s with uni_digits := uni_digits, uni := r.2 })

/-- The function `get_byte_kbinput` with `reset == TRUE`. -/
def get_byte_kbinput_reset (s : KbState) : KbState :=
  { s with gb_digits := 0, gb_byte := 0 }

/-- The function `get_unicode_kbinput` with `reset == TRUE`. -/
def get_unicode_kbinput_reset (s : KbState) : KbState :=
  { s with uni_digits := 0, uni := 0 }

/-- The function `reset_kbinput`. -/
def reset_kbinput (s : KbState) : KbState :=
  get_unicode_kbinput_reset (get_byte_kbinput_reset (parse_kbinput_reset s))

/-- The value of a hexadecimal digit character, upper or lower case. -/
def hex_value (k : Int) : Option Int :=
  if 48 ≤ k ∧ k ≤ 57 then some (k - 48)
  else if 97 ≤ k ∧ k ≤ 102 then some (k - 87)
  else if 65 ≤ k ∧ k ≤ 70 then some (k - 55)
  else none

/-- Whether the code `k` is a hexadecimal digit that keeps the code point
within U+10FFFF at the position after `uni_digits` accepted digits with the
value `uni` accumulated: `0` or `1` first, then only `0` after a leading
`1`, then any hexadecimal digit up to the sixth position. -/
def unicode_digit_ok (uni_digits : Nat) (uni k : Int) : Bool :=
  match hex_value k with
  | none => false
  | some d =>
    if uni_digits = 0 then decide (d ≤ 1)
    else if uni_digits = 1 then decide (uni < 1048576 ∨ d = 0)
    else decide (uni_digits < 6)

/-- Feed the codes one after the other to `get_unicode_kbinput`, collecting
what each call returns. -/
def feed_unicode : List Int → KbState → List Int × KbState
  | [], s => ([], s)
  | k :: ks, s =>
    let r := get_unicode_kbinput k s
    let rs := feed_unicode ks r.2
    (r.1 :: rs.1, rs.2)

/-- Feed the codes one after the other to `get_byte_kbinput`, collecting
what each call returns. -/
def feed_byte : List Int → KbState → List Int × KbState
  | [], s => ([], s)
  | k :: ks, s =>
    let r := get_byte_kbinput k s
    let rs := feed_byte ks r.2
    (r.1 :: rs.1, rs.2)

/-- The states `get_unicode_kbinput` can be in: with `n` digits counted, the
accumulated value leaves room for the remaining `6 - n` digits below
U+110000. -/
def unicode_inv (s : KbState) : Prop :=
  s.uni_digits = 0 ∨ (s.uni_digits = 1 ∧ (s.uni = 0 ∨ s.uni = 1048576)) ∨
  (s.uni_digits = 2 ∧ 0 ≤ s.uni ∧ s.uni + 65536 ≤ 1114112) ∨
  (s.uni_digits = 3 ∧ 0 ≤ s.uni ∧ s.uni + 4096 ≤ 1114112) ∨
  (s.uni_digits = 4 ∧ 0 ≤ s.uni ∧ s.uni + 256 ≤ 1114112) ∨
  (5 ≤ s.uni_digits ∧ 0 ≤ s.uni ∧ s.uni + 16 ≤ 1114112)

/-! ## The cut buffer (cut.c) -/

/-- The fields of `openfile` that cut.c reads and writes.  The linked list
`fileage .. filebot` is the list `lines` of the bytes of each line (never
empty: a file has at least one line); `current` and `mark_begin` are indices
into it. -/
structure OpenFile where
  lines : List (List Nat)
  current : Nat
  current_x : Nat
  placewewant : Nat
  mark_set : Bool
  mark_begin : Nat
  mark_begin_x : Nat
  modified : Bool
deriving DecidableEq

/-- The state of cut.c: the open file, the global `cutbuffer` (`none` is
`NULL`; `cutbottom` is its last line) and the static `keep_cutbuffer`. -/
structure CutState where
  openfile : OpenFile
  cutbuffer : Option (List (List Nat))
  keep_cutbuffer : Bool
deriving DecidableEq

/-- The text of line `i`, the `data` of a `filestruct`. -/
def line_data (lines : List (List Nat)) (i : Nat) : List Nat := lines.getD i []

/-- The index of `openfile->filebot`, the last line. -/
def filebot (f : OpenFile) : Nat := f.lines.length - 1

/-- Modelled from the spec: `move_to_filestruct` of nano.c is not under src/.
The run of text from `(top, top_x)` up to `(bot, bot_x)`, as a detached
sequence of lines: the tail of the first line, the lines between, and the
head of the last line. -/
def text_between (lines : List (List Nat)) (top top_x bot bot_x : Nat) :
    List (List Nat) :=
  if top = bot then [((line_data lines top).take bot_x).drop top_x]
  else
    [(line_data lines top).drop top_x] ++
      (lines.take bot).drop (top + 1) ++ [(line_data lines bot).take bot_x]

/-- Modelled from the spec: `move_to_filestruct` of nano.c is not under src/.
The lines that stay when the run from `(top, top_x)` up to `(bot, bot_x)`
is spliced out: the head of the first line is joined to the tail of the
last. -/
def text_without (lines : List (List Nat)) (top top_x bot bot_x : Nat) :
    List (List Nat) :=
  lines.take top ++
    [(line_data lines top).take top_x ++ (line_data lines bot).drop bot_x] ++
    lines.drop (bot + 1)

/-- Modelled from the spec: `move_to_filestruct` of nano.c is not under src/.
Text `b` tacked onto the end of text `a`: the first line of `b` continues
the last line of `a`. -/
def append_text (a b : List (List Nat)) : List (List Nat) :=
  match b with
  | [] => a
  | b0 :: bt => a.dropLast ++ [a.getLastD [] ++ b0] ++ bt

/-- Modelled from the spec: `move_to_filestruct` of nano.c is not under src/.
Splice the text from `(top, top_x)` up to `(bot, bot_x)` out of the file and
add it to the end of the buffer `file_top`, which it creates when that is
`NULL`; an empty range is a no-op.  The cursor is left where the text used to
start.  The mark and the line numbers are not followed. -/
def move_to_filestruct (file_top : Option (List (List Nat))) (f : OpenFile)
    (top top_x bot bot_x : Nat) : Option (List (List Nat)) × OpenFile :=
  if top = bot ∧ top_x = bot_x then (file_top, f)
  else
    let cut := text_between f.lines top top_x bot bot_x
    let file_top1 :=
      match file_top with
      | none => some cut
      | some old => some (append_text old cut)
    (file_top1,
      { f with lines := text_without f.lines top top_x bot bot_x,
               current := top, current_x := top_x })

/-- Modelled from the spec: `mark_order` of nano.c is not under src/.  The
mark and the cursor, the one that comes first in the file first. -/
def mark_order (f : OpenFile) : Nat × Nat × Nat × Nat :=
  if f.mark_begin < f.current ∨
      (f.mark_begin = f.current ∧ f.mark_begin_x < f.current_x) then
    (f.mark_begin, f.mark_begin_x, f.current, f.current_x)
  else (f.current, f.current_x, f.mark_begin, f.mark_begin_x)

/-- The function `set_modified`; the title bar it repaints is not part of
the state. -/
def set_modified (f : OpenFile) : OpenFile :=
  if !f.modified then { f with modified := true } else f

/-- The function `cutbuffer_reset`. -/
def cutbuffer_reset (c : CutState) : CutState :=
  { c with keep_cutbuffer := false }

/-- The function `cut_line`. -/
def cut_line (c : CutState) : CutState :=
  let f := c.openfile
  let r :=
    if f.current ≠ filebot f then
      move_to_filestruct c.cutbuffer f f.current 0 (f.current + 1) 0
    else
      move_to_filestruct c.cutbuffer f f.current 0 f.current
        (line_data f.lines f.current).length
  { c with cutbuffer := r.1, openfile := { r.2 with placewewant := 0 } }

/-- The function `cut_marked`. -/
def cut_marked (E : Env) (c : CutState) : CutState :=
  let m := mark_order c.openfile
  let r := move_to_filestruct c.cutbuffer c.openfile m.1 m.2.1 m.2.2.1 m.2.2.2
  { c with
    cutbuffer := r.1,
    openfile := { r.2 with
      placewewant := xplustabs E (line_data r.2.lines r.2.current) r.2.current_x } }

/-- The function `cut_to_eol`. -/
def cut_to_eol (E : Env) (c : CutState) : CutState :=
  let f := c.openfile
  let data_len := (line_data f.lines f.current).length
  if f.current_x < data_len then
    let r := move_to_filestruct c.cutbuffer f f.current f.current_x f.current
      data_len
    { c with cutbuffer := r.1, openfile := r.2 }
  else if f.current ≠ filebot f then
    let r := move_to_filestruct c.cutbuffer f f.current f.current_x
      (f.current + 1) 0
    { c with
      cutbuffer := r.1,
      openfile := { r.2 with
        placewewant :=
          xplustabs E (line_data r.2.lines r.2.current) r.2.current_x } }
  else c

/-- The function `do_cut_text`; `cut_to_end` is the flag `CUT_TO_END`.  The
status bar and the edit window it repaints are not part of the state. -/
def do_cut_text (E : Env) (cut_to_end : Bool) (c : CutState) : CutState :=
  let c1 :=
    if !c.keep_cutbuffer ∧ c.cutbuffer ≠ none then { c with cutbuffer := none }
    else c
  let c2 := { c1 with keep_cutbuffer := true }
  let c3 :=
    if c2.openfile.mark_set then
      let c4 := cut_marked E c2
      { c4 with openfile := { c4.openfile with mark_set := false } }
    else if cut_to_end then cut_to_eol E c2
    else cut_line c2
  { c3 with openfile := set_modified c3.openfile }

/-- The function `do_cut_till_end`. -/
def do_cut_till_end (c : CutState) : CutState :=
  let f := c.openfile
  let r := move_to_filestruct c.cutbuffer f f.current f.current_x (filebot f)
    (line_data f.lines (filebot f)).length
  { c with cutbuffer := r.1, openfile := set_modified r.2 }

/-! ## The viewport (winio.c) -/

/-- The function `get_page_start`: `COLS` is the screen width, positive by
the assertion at its head.  No subtraction wraps: past the first test
`column ≥ COLS - 1`. -/
def get_page_start (COLS column : Nat) : Nat :=
  if column = 0 ∨ column < COLS - 1 then 0
  else if COLS > 9 then column - 7 - (column - 7) % (COLS - 8)
  else if COLS > 2 then column - (COLS - 2)
  else column - (COLS - 1)

/-- The edit window over an open file: `edittop` is the index of the line
shown in the top row and `current_y` the row of the cursor line as
`reset_cursor` last computed it.  Line numbers are consecutive, so a
difference of `lineno` fields is a difference of indices. -/
structure EditWin where
  openfile : OpenFile
  edittop : Nat
  current_y : Int
deriving DecidableEq

/-- What `update_line` puts on one row of the edit window: the row, the
page start, the text from `display_string` that `edit_add` paints from
column 0 (`none` where `display_string` does not define it), and whether a
`$` is put at column 0 and at column `COLS - 1`. -/
structure LineDraw where
  row : Nat
  page_start : Nat
  converted : Option (List Nat)
  left_dollar : Bool
  right_dollar : Bool
deriving DecidableEq

/-- The calls that change the edit window, in the order they are made:
`update_line` on a visible row, `blank_line` on a row, `wscrl` by a number
of rows, and the `wmove` of `reset_cursor`. -/
inductive Paint where
  | line (d : LineDraw)
  | blank (row : Nat)
  | scroll (n : Int)
  | cursor (y : Int) (x : Nat)
deriving DecidableEq

/-- The type `scroll_dir`. -/
inductive scroll_dir where
  | UP
  | DOWN
deriving DecidableEq

/-- The type `update_type`. -/
inductive update_type where
  | CENTER
  | NONE
deriving DecidableEq

/-- The function `update_line`; `none` when the line is outside the window
and nothing is drawn.  The colours of `edit_add` are not followed. -/
def update_line (E : Env) (editwinrows : Nat) (w : EditWin)
    (fileptr index : Nat) : Option LineDraw :=
  let line : Int := (fileptr : Int) - (w.edittop : Int)
  if line < 0 ∨ line ≥ (editwinrows : Int) then none
  else
    let data := line_data w.openfile.lines fileptr
    let index1 :=
      if fileptr = w.openfile.current then strnlenpt E data index else 0
    let page_start := get_page_start E.COLS index1
    some
      { row := line.toNat,
        page_start := page_start,
        converted := display_string E data page_start E.COLS true,
        left_dollar := decide (page_start > 0),
        right_dollar :=
          decide (strlenpt E data > (page_start + E.COLS) % 2 ^ 64) }

/-- The call `update_line(foo, (foo == current) ? current_x : 0)` as the
list of what it draws. -/
def update_line_paint (E : Env) (editwinrows : Nat) (w : EditWin)
    (foo : Nat) : List Paint :=
  match update_line E editwinrows w foo
      (if foo = w.openfile.current then w.openfile.current_x else 0) with
  | none => []
  | some d => [Paint.line d]

/-- The function `need_vertical_update`. -/
def need_vertical_update (E : Env) (w : EditWin) (old_pww : Nat) : Bool :=
  w.openfile.mark_set ||
    decide (get_page_start E.COLS old_pww ≠
      get_page_start E.COLS w.openfile.placewewant)

/-- The loop of `edit_update`: walk `foo` up while `goal > 0` and there is a
line before it. -/
def edit_update_walk : Nat → Nat → Nat
  | 0, foo => foo
  | goal + 1, foo => if foo = 0 then foo else edit_update_walk goal (foo - 1)

/-- The function `edit_update`. -/
def edit_update (editwinrows : Nat) (location : update_type) (w : EditWin) :
    EditWin :=
  let goal : Int :=
    if location = update_type.CENTER then (editwinrows : Int) / 2
    else
      if w.current_y > (editwinrows : Int) - 1 then (editwinrows : Int) - 1
      else w.current_y
  { w with edittop := edit_update_walk goal.toNat w.openfile.current }

/-- The function `reset_cursor` for an open file: it stores `current_y` and,
when that is less than `editwinrows`, calls `wmove` with it, also when it is
negative. -/
def reset_cursor (E : Env) (editwinrows : Nat) (w : EditWin) :
    EditWin × List Paint :=
  let current_y : Int := (w.openfile.current : Int) - (w.edittop : Int)
  let w1 := { w with current_y := current_y }
  if current_y < (editwinrows : Int) then
    let x := xplustabs E (line_data w.openfile.lines w.openfile.current)
      w.openfile.current_x
    (w1, [Paint.cursor current_y
      ((x + 2 ^ 64 - get_page_start E.COLS x) % 2 ^ 64)])
  else (w1, [])

/-- The two loops of `edit_refresh`: draw the lines from `foo` on, one per
row, and blank the rows that are left; `n` counts the rows still to do. -/
def edit_refresh_rows (E : Env) (editwinrows : Nat) (w : EditWin) :
    Nat → Nat → List Paint
  | 0, _ => []
  | n + 1, foo =>
    if foo < w.openfile.lines.length then
      update_line_paint E editwinrows w foo ++
        edit_refresh_rows E editwinrows w n (foo + 1)
    else
      Paint.blank (editwinrows - (n + 1)) ::
        edit_refresh_rows E editwinrows w n foo

/-- The function `edit_refresh`; `smooth` is the flag `SMOOTH_SCROLL`. -/
def edit_refresh (E : Env) (editwinrows : Nat) (smooth : Bool) (w : EditWin) :
    EditWin × List Paint :=
  let w1 :=
    if w.openfile.current < w.edittop ∨
        w.openfile.current ≥ w.edittop + editwinrows then
      edit_update editwinrows
        (if smooth then update_type.NONE else update_type.CENTER) w
    else w
  let rows := edit_refresh_rows E editwinrows w1 editwinrows w1.edittop
  let r := reset_cursor E editwinrows w1
  (r.1, rows ++ r.2)

/-- The first loop of `edit_scroll`: move `edittop` up or down `i` lines or
as many as there are; the result is the new `edittop` and the `i` the loop
ends with. -/
def edit_scroll_top (direction : scroll_dir) (nl : Nat) : Nat → Nat → Nat × Nat
  | 0, edittop => (edittop, 0)
  | i + 1, edittop =>
    if direction = scroll_dir.UP then
      if edittop = 0 then (edittop, i + 1)
      else edit_scroll_top direction nl i (edittop - 1)
    else
      if edittop + 1 ≥ nl then (edittop, i + 1)
      else edit_scroll_top direction nl i (edittop + 1)

/-- The loop `for (i = ...; i > 0 && foo != NULL; i--) foo = foo->next` of
`edit_scroll`; the index `nl` stands for `NULL`. -/
def edit_scroll_skip (nl : Nat) : Nat → Nat → Nat
  | 0, foo => foo
  | i + 1, foo => if foo < nl then edit_scroll_skip nl i (foo + 1) else foo

/-- The drawing loop of `edit_scroll`. -/
def edit_scroll_draw (E : Env) (editwinrows : Nat) (w : EditWin)
    (direction : scroll_dir) (do_redraw : Bool) (nlines : Nat) :
    Nat → Nat → List Paint
  | 0, _ => []
  | i + 1, foo =>
    if foo < w.openfile.lines.length then
      (if (i + 1 = nlines ∧ direction = scroll_dir.DOWN) ∨
          (i + 1 = 1 ∧ direction = scroll_dir.UP) then
        if do_redraw then update_line_paint E editwinrows w foo else []
      else update_line_paint E editwinrows w foo) ++
        edit_scroll_draw E editwinrows w direction do_redraw nlines i (foo + 1)
    else []

/-- The function `edit_scroll`. -/
def edit_scroll (E : Env) (editwinrows : Nat) (smooth : Bool)
    (direction : scroll_dir) (nlines : Int) (w : EditWin) :
    EditWin × List Paint :=
  let do_redraw := need_vertical_update E w 0
  if nlines < 1 then (w, [])
  else
    let m := edit_scroll_top direction w.openfile.lines.length nlines.toNat
      w.edittop
    let w1 := { w with edittop := m.1 }
    let nlines1 := nlines.toNat - m.2
    if nlines1 = 0 then (w1, [])
    else if nlines1 ≥ editwinrows then edit_refresh E editwinrows smooth w1
    else
      let nlines2 :=
        if (direction = scroll_dir.UP ∧ w1.edittop = 0) ∨
            (direction = scroll_dir.DOWN ∧
              w1.edittop + editwinrows - 1 ≥ filebot w1.openfile) then
          editwinrows
        else nlines1
      let nlines3 := nlines2 + (if nlines2 = 1 then 1 else 2)
      let nlines4 := if nlines3 > editwinrows then editwinrows else nlines3
      let foo :=
        if direction = scroll_dir.DOWN then
          edit_scroll_skip w1.openfile.lines.length (editwinrows - nlines4)
            w1.edittop
        else w1.edittop
      (w1,
        Paint.scroll (if direction = scroll_dir.UP then -(nlines1 : Int)
          else (nlines1 : Int)) ::
          edit_scroll_draw E editwinrows w1 direction do_redraw nlines4
            nlines4 foo)

/-! ## Pasting the cut buffer (cut.c) -/

/-- Modelled from the spec: `copy_from_filestruct` of nano.c is not under
src/.  The lines of the file after the text `cb` is inserted at offset `x` of
line `cur`: the line is split there, the first line of `cb` continues its
head and its tail continues the last line of `cb`. -/
def paste_lines (lines : List (List Nat)) (cur x : Nat)
    (cb : List (List Nat)) : List (List Nat) :=
  lines.take cur ++
    append_text (append_text [(line_data lines cur).take x] cb)
      [(line_data lines cur).drop x] ++
    lines.drop (cur + 1)

/-- Modelled from the spec: `copy_from_filestruct` of nano.c is not under
src/.  Insert a copy of the text `cb` at the cursor and leave the cursor at
the end of the inserted text. -/
def copy_from_filestruct (f : OpenFile) (cb : List (List Nat)) : OpenFile :=
  { f with
    lines := paste_lines f.lines f.current f.current_x cb,
    current := f.current + (cb.length - 1),
    current_x :=
      (if cb.length ≤ 1 then f.current_x else 0) + (cb.getLastD []).length }

/-- The function `do_uncut_text`.  The wrapping state, the status bar and the
edit window are not part of the state. -/
def do_uncut_text (E : Env) (c : CutState) : CutState :=
  match c.cutbuffer with
  | none => c
  | some cb =>
    let f1 := copy_from_filestruct c.openfile cb
    let f2 := { f1 with
      placewewant := xplustabs E (line_data f1.lines f1.current) f1.current_x }
    { c with openfile := set_modified f2 }

/-! ## The statusbar prompt (winio.c) -/

/-- The globals `answer` and `statusbar_x`: the text at the prompt and the
cursor offset in it. -/
structure Prompt where
  answer : List Nat
  statusbar_x : Nat
deriving DecidableEq

/-- Modelled from the spec: `move_mbleft` of chars.c is not under src/.  The
loop walks over the characters from the start of `buf` until the next one
would reach `pos`; `pos_prev` is what is left of `pos`. -/
def move_mbleft_loop (E : Env) : Nat → List Nat → Nat → Nat
  | 0, _, pos_prev => pos_prev
  | fuel + 1, buf, pos_prev =>
    if pos_prev ≤ parse_mbchar_len E buf then pos_prev
    else
      move_mbleft_loop E fuel (buf.drop (parse_mbchar_len E buf))
        (pos_prev - parse_mbchar_len E buf)

/-- Modelled from the spec: `move_mbleft` of chars.c is not under src/.  The
offset of the character before offset `pos` of `buf`. -/
def move_mbleft (E : Env) (buf : List Nat) (pos : Nat) : Nat :=
  pos - move_mbleft_loop E pos buf pos

/-- The local variables of the word motions at the prompt: the cursor, the
length of the character last parsed, `end_line` or `begin_line`, and
`started_on_word`. -/
structure WordScan where
  x : Nat
  char_mb_len : Nat
  at_end : Bool
  started : Bool
deriving DecidableEq

/-- The forward loops of `do_statusbar_next_word`, which share one shape:
parse the character at the cursor, leave the loop when it is a word
character (`stop_on_word`) or when it is none (`!stop_on_word`), else step
over it or stop at the end of the text.  `mark` tells the first loop, which
sets `started_on_word`, from the second.  `is_word` stands for
`is_word_mbchar` of chars.c, which is not under src/. -/
def sb_forward (E : Env) (is_word : List Nat → Bool → Bool) (allow_punct : Bool)
    (answer : List Nat) (stop_on_word mark : Bool) : Nat → WordScan → WordScan
  | 0, st => st
  | fuel + 1, st =>
    if st.at_end then st
    else
      let st1 := { st with char_mb_len := parse_mbchar_len E (answer.drop st.x) }
      if is_word (parse_mbchar_chr E (answer.drop st.x)) allow_punct =
          stop_on_word then st1
      else
        let st2 := { st1 with started := st1.started || mark }
        if answer.drop st.x = [] then { st2 with at_end := true }
        else
          sb_forward E is_word allow_punct answer stop_on_word mark fuel
            { st2 with x := st2.x + st2.char_mb_len }

/-- The backward loops of `do_statusbar_prev_word`, which share one shape:
parse the character at the cursor, leave the loop when it is a word
character (`stop_on_word`) or when it is none (`!stop_on_word`), else move
one character left or stop at the start of the text. -/
def sb_backward (E : Env) (is_word : List Nat → Bool → Bool) (allow_punct : Bool)
    (answer : List Nat) (stop_on_word mark : Bool) : Nat → WordScan → WordScan
  | 0, st => st
  | fuel + 1, st =>
    if st.at_end then st
    else
      let st1 := { st with char_mb_len := parse_mbchar_len E (answer.drop st.x) }
      if is_word (parse_mbchar_chr E (answer.drop st.x)) allow_punct =
          stop_on_word then st1
      else
        let st2 := { st1 with started := st1.started || mark }
        if st2.x = 0 then { st2 with at_end := true }
        else
          sb_backward E is_word allow_punct answer stop_on_word mark fuel
            { st2 with x := move_mbleft E answer st2.x }

/-- The step between the loops of `do_statusbar_next_word`: one character
forward unless the cursor is at the end of the text. -/
def sb_step_forward (answer : List Nat) (st : WordScan) : WordScan :=
  if answer.drop st.x = [] then { st with at_end := true }
  else { st with x := st.x + st.char_mb_len }

/-- The step between the loops of `do_statusbar_prev_word`: one character
back unless the cursor is at the start of the text. -/
def sb_step_backward (E : Env) (answer : List Nat) (st : WordScan) : WordScan :=
  if st.x = 0 then { st with at_end := true }
  else { st with x := move_mbleft E answer st.x }

/-- The function `do_statusbar_next_word`: the value returned and the prompt
it leaves. -/
def do_statusbar_next_word (E : Env) (is_word : List Nat → Bool → Bool)
    (allow_punct : Bool) (p : Prompt) : Bool × Prompt :=
  let fuel := p.answer.length + 1
  let st1 := sb_forward E is_word allow_punct p.answer false true fuel
    ⟨p.statusbar_x, 0, false, false⟩
  let st2 := sb_step_forward p.answer st1
  let st3 := sb_forward E is_word allow_punct p.answer true false fuel st2
  (st3.started, { p with statusbar_x := st3.x })

/-- The function `do_statusbar_prev_word`: the value returned and the prompt
it leaves. -/
def do_statusbar_prev_word (E : Env) (is_word : List Nat → Bool → Bool)
    (allow_punct : Bool) (p : Prompt) : Bool × Prompt :=
  let fuel := p.answer.length + 1
  let st1 := sb_backward E is_word allow_punct p.answer false true fuel
    ⟨p.statusbar_x, 0, false, false⟩
  let st2 := sb_step_backward E p.answer st1
  let st3 := sb_backward E is_word allow_punct p.answer true false fuel st2
  let st4 :=
    if !st3.at_end then
      let st5 := sb_step_backward E p.answer st3
      let st6 := sb_backward E is_word allow_punct p.answer false false fuel st5
      if !st6.at_end then { st6 with x := st6.x + st6.char_mb_len } else st6
    else st3
  (st4.started, { p with statusbar_x := st4.x })
/-- The text as its sequence of characters: every character is non-empty and
is what `parse_mbchar` finds at the head of the text from it on. -/
def chars_ok (E : Env) : List (List Nat) → Prop
  | [] => True
  | c :: t => c ≠ [] ∧ E.mblen (c ++ t.flatten) = c.length ∧ chars_ok E t

/-- The byte offset at which character `k` of the text starts. -/
def char_off (cs : List (List Nat)) (k : Nat) : Nat :=
  (cs.take k).flatten.length

/-- Whether character `k` of the text is a word character; past the last
character it is the terminator that is tested. -/
def word_at (E : Env) (is_word : List Nat → Bool → Bool) (allow_punct : Bool)
    (cs : List (List Nat)) (k : Nat) : Bool :=
  is_word (parse_mbchar_chr E (cs.drop k).flatten) allow_punct

/-- The conversion `(int)output[i]` of a plain `char` holding the byte `b`:
the byte itself, but the byte less 256 for a byte of 128 or more where
`char` is signed. -/
def char_to_int (char_signed : Bool) (b : Nat) : Int :=
  if char_signed = true ∧ 128 ≤ b then (b : Int) - 256 else (b : Int)

/-- The function `unparse_kbinput`: put the bytes of `output` back at the
front of the keystroke buffer, each converted from `char` to `int` with no
cast to `unsigned char`. -/
def unparse_kbinput (char_signed : Bool) (output : List Nat) (s : KbState) :
    KbState :=
  if output.length = 0 then s
  else unget_input (output.map (char_to_int char_signed)) s

/-- The loop of `do_statusbar_output`: `output` is what is left of the
characters typed, from `output[i]` on.  The result is the prompt, `got_enter`
and the keystroke buffer.  The test `is_cntrl_mbchar` is given the character
just parsed, which is the one it reads at `output + i - char_buf_len`. -/
def do_statusbar_output_loop (E : Env) (allow_cntrls : Bool) :
    Nat → List Nat → Prompt → KbState → Prompt × Bool × KbState
  | 0, _, p, s => (p, false, s)
  | _ + 1, [], p, s => (p, false, s)
  | fuel + 1, b :: rest, p, s =>
    if allow_cntrls = true ∧ b ≠ 0 ∧ b = 10 then
      (p, true, unparse_kbinput E.char_signed (b :: rest) s)
    else
      let output := if allow_cntrls = true ∧ b = 0 then 10 :: rest else b :: rest
      let char_buf := parse_mbchar_chr E output
      let char_buf_len := parse_mbchar_len E output
      if allow_cntrls = false ∧ E.is_cntrl_mbchar char_buf = true then
        do_statusbar_output_loop E allow_cntrls fuel (output.drop char_buf_len)
          p s
      else
        do_statusbar_output_loop E allow_cntrls fuel (output.drop char_buf_len)
          { answer := p.answer.take p.statusbar_x ++ char_buf ++
              p.answer.drop p.statusbar_x,
            statusbar_x := p.statusbar_x + char_buf_len } s

/-- The function `do_statusbar_output`: the prompt it leaves, `*got_enter`
and the keystroke buffer. -/
def do_statusbar_output (E : Env) (output : List Nat) (allow_cntrls : Bool)
    (p : Prompt) (s : KbState) : Prompt × Bool × KbState :=
  do_statusbar_output_loop E allow_cntrls output.length output p s

/-- The loop `while (uni == ERR)` of `parse_verbatim_kbinput`: read codes
until `get_unicode_kbinput` gives a result; `none` when the keystroke buffer
runs empty first and the C code waits for the terminal. -/
def parse_verbatim_unicode : Nat → KbState → Option (Int × KbState)
  | 0, _ => none
  | fuel + 1, s =>
    match get_input 1 s with
    | none => none
    | some (inp, s1) =>
      match inp with
      | [] => none
      | kbinput :: _ =>
        let r := get_unicode_kbinput kbinput s1
        if r.1 = ERR then parse_verbatim_unicode fuel r.2 else some (r.1, r.2)

/-- The function `parse_verbatim_kbinput`: the codes it returns (none when
the keystroke buffer is empty at the end) and the state; `none` when the C
code waits for the terminal. -/
def parse_verbatim_kbinput (cfg : KbCfg) (s : KbState) :
    Option (List Int × KbState) :=
  match get_input 1 s with
  | none => none
  | some (inp, s1) =>
    match inp with
    | [] => none
    | kbinput :: _ =>
      let r := get_unicode_kbinput kbinput s1
      let s3 : Option KbState :=
        if r.1 ≠ ERR then some (unget_input [kbinput] r.2)
        else
          match parse_verbatim_unicode (r.2.key_buffer.length + 1) r.2 with
          | none => none
          | some (uni, s2) => some (unget_input (make_mbchar cfg.use_utf8 uni) s2)
      match s3 with
      | none => none
      | some s4 =>
        match get_input (get_key_buffer_len s4) s4 with
        | none => some ([], s4)
        | some (retval, s5) => some (retval, s5)

/-- The function `get_verbatim_kbinput`; flow control and the keypad mode
are not part of the state. -/
def get_verbatim_kbinput (cfg : KbCfg) (s : KbState) :
    Option (List Int × KbState) :=
  parse_verbatim_kbinput cfg s

/-- The function `do_statusbar_verbatim_input`: each code read is stored as a
`char`, its value modulo 256. -/
def do_statusbar_verbatim_input (E : Env) (cfg : KbCfg) (p : Prompt)
    (s : KbState) : Option (Prompt × Bool × KbState) :=
  match get_verbatim_kbinput cfg s with
  | none => none
  | some (kbinput, s1) =>
    some (do_statusbar_output E (kbinput.map (fun k => (k % 256).toNat)) true
      p s1)

/-- How a byte typed verbatim is stored at the prompt: a NUL as a newline,
any other byte as it is. -/
def nul_to_newline (b : Nat) : Nat := if b = 0 then 10 else b

/-- No character runs over a NUL or a newline: the bytes of a character
after its first are neither. -/
def Env.NoBreak (E : Env) : Prop :=
  ∀ (b : Nat) (rest : List Nat),
    ∀ c ∈ rest.take (E.mblen (b :: rest) - 1), c ≠ 0 ∧ c ≠ 10

/-- Modelled from the spec: `move_mbright` of chars.c is not under src/.  The
offset of the character after the one at offset `pos` of `buf`. -/
def move_mbright (E : Env) (buf : List Nat) (pos : Nat) : Nat :=
  pos + parse_mbchar_len E (buf.drop pos)

/-- Modelled from the spec: the loop of `indent_length` of chars.c, which is
not under src/: step over the characters of `line` while they are blank and
count their bytes.  `is_blank` stands for `is_blank_mbchar` of chars.c. -/
def indent_length_loop (E : Env) (is_blank : List Nat → Bool) :
    Nat → List Nat → Nat
  | 0, _ => 0
  | fuel + 1, line =>
    if line = [] then 0
    else if is_blank (parse_mbchar_chr E line) then
      parse_mbchar_len E line +
        indent_length_loop E is_blank fuel (line.drop (parse_mbchar_len E line))
    else 0

/-- Modelled from the spec: `indent_length` of chars.c is not under src/.
The number of bytes of the blank characters that `line` begins with. -/
def indent_length (E : Env) (is_blank : List Nat → Bool) (line : List Nat) :
    Nat :=
  indent_length_loop E is_blank line.length line

/-- Modelled from the spec: `null_at` of utils.c is not under src/.  The
string cut off at offset `index`. -/
def null_at (data : List Nat) (index : Nat) : List Nat := data.take index

/-- The function `do_statusbar_home`; `smart_home` is the flag `SMART_HOME`. -/
def do_statusbar_home (E : Env) (is_blank : List Nat → Bool)
    (smart_home : Bool) (p : Prompt) : Prompt :=
  if smart_home then
    let statusbar_x_save := p.statusbar_x
    let statusbar_x := indent_length E is_blank p.answer
    if statusbar_x = statusbar_x_save ∨ statusbar_x = p.answer.length then
      { p with statusbar_x := 0 }
    else { p with statusbar_x := statusbar_x }
  else { p with statusbar_x := 0 }

/-- The function `do_statusbar_end`. -/
def do_statusbar_end (p : Prompt) : Prompt :=
  { p with statusbar_x := p.answer.length }

/-- The function `do_statusbar_right`. -/
def do_statusbar_right (E : Env) (p : Prompt) : Prompt :=
  if p.statusbar_x < p.answer.length then
    { p with statusbar_x := move_mbright E p.answer p.statusbar_x }
  else p

/-- The function `do_statusbar_left`. -/
def do_statusbar_left (E : Env) (p : Prompt) : Prompt :=
  if p.statusbar_x > 0 then
    { p with statusbar_x := move_mbleft E p.answer p.statusbar_x }
  else p

/-- The function `do_statusbar_delete`: the character at the cursor is
taken out by moving the rest of the text down over it and cutting the text
off at its new end.  The test `answer[statusbar_x] != 0` is that text is left
from the cursor on. -/
def do_statusbar_delete (E : Env) (p : Prompt) : Prompt :=
  if p.answer.drop p.statusbar_x ≠ [] then
    let char_buf_len := parse_mbchar_len E (p.answer.drop p.statusbar_x)
    let line_len := (p.answer.drop p.statusbar_x).length
    let moved := p.answer.take p.statusbar_x ++
      p.answer.drop (p.statusbar_x + char_buf_len)
    { p with
      answer := null_at moved (p.statusbar_x + line_len - char_buf_len) }
  else p

/-- The function `do_statusbar_backspace`. -/
def do_statusbar_backspace (E : Env) (p : Prompt) : Prompt :=
  if p.statusbar_x > 0 then do_statusbar_delete E (do_statusbar_left E p)
  else p

/-- The function `do_statusbar_cut_text`; `cut_to_end` is the flag
`CUT_TO_END`. -/
def do_statusbar_cut_text (cut_to_end : Bool) (p : Prompt) : Prompt :=
  if cut_to_end then { p with answer := null_at p.answer p.statusbar_x }
  else { answer := null_at p.answer 0, statusbar_x := 0 }

/-! ## Syntax highlighting of one line (winio.c) -/

/-- What one round of the single-line loop of `edit_add` does with its
match, the offsets counted from the start of the line: it refuses a
zero-length match with a warning on the status bar, paints a match that
shows in the window, or passes over it. -/
inductive HlEvent where
  | refused (rm_so : Nat)
  | painted (rm_so rm_eo : Nat)
  | passed (rm_so rm_eo : Nat)
deriving DecidableEq, Repr

/-- The loop `while (k < endpos)` of `edit_add` for a single-line colour
expression.  `regexec` stands for the C library matcher run on the text from
`data[k]` on, the flag being `REG_NOTBOL`; its result is `none` for
`REG_NOMATCH`, else the offsets `rm_so` and `rm_eo` of the match from
`data[k]`, which are byte counts.  The result lists for every round the `k`
it starts with and what it does; `none` means the rounds allowed by `fuel`
did not reach the end of the loop.  The columns handed to `mvwaddnstr` are
not followed. -/
def edit_add_single (regexec : List Nat → Bool → Option (Nat × Nat))
    (data : List Nat) (startpos endpos : Nat) :
    Nat → Nat → Option (List (Nat × HlEvent))
  | 0, _ => none
  | fuel + 1, k =>
    if k < endpos then
      match regexec (data.drop k) (decide (k ≠ 0)) with
      | none => some []
      | some (so, eo) =>
        let rm_so := so + k
        let rm_eo := eo + k
        if rm_so = rm_eo then
          (edit_add_single regexec data startpos endpos fuel (rm_eo + 1)).map
            (fun l => (k, HlEvent.refused rm_so) :: l)
        else if rm_so < endpos ∧ rm_eo > startpos then
          (edit_add_single regexec data startpos endpos fuel rm_eo).map
            (fun l => (k, HlEvent.painted rm_so rm_eo) :: l)
        else
          (edit_add_single regexec data startpos endpos fuel rm_eo).map
            (fun l => (k, HlEvent.passed rm_so rm_eo) :: l)
    else some []

/-! ## Mouse clicks on the shortcut list (winio.c) -/

/-- How the shortcut branch of `get_mouseinput` ends: with the division
`*mouse_x / i` by an `i` of zero, with `return FALSE` before a shortcut is
picked, or with the walk `j` links down the shortcut list. -/
inductive MouseIndex where
  | div_by_zero
  | no_shortcut
  | shortcut (i : Nat) (j : Int)
deriving DecidableEq, Repr

/-- The number of shortcuts shown, `currslen` of `get_mouseinput`:
`MAIN_VISIBLE` (nano.h, not under src/) for the main list, else the length of
the list, at most `MAIN_VISIBLE`. -/
def get_mouseinput_currslen (MAIN_VISIBLE : Nat) (main_list : Bool)
    (length_of_list : Nat) : Nat :=
  if main_list then MAIN_VISIBLE
  else if length_of_list > MAIN_VISIBLE then MAIN_VISIBLE
  else length_of_list

/-- The width `i` of one shortcut in `get_mouseinput`. -/
def get_mouseinput_width (COLS currslen : Nat) : Nat :=
  if currslen < 2 then COLS / 6
  else COLS / ((currslen / 2) + (currslen % 2))

/-- The function `get_mouseinput` from the mouse event up to the walk down
the shortcut list.  `enclosed` is the result of `wenclose(bottomwin, ..)`,
`no_help` the flag `NO_HELP`, `no_more_space` the result of the function of
that name (nano.c, not under src/); the click is at column `mouse_x` and row
`mouse_y` of the screen, neither negative. -/
def get_mouseinput (COLS editwinrows MAIN_VISIBLE : Nat)
    (no_help no_more_space main_list : Bool) (length_of_list : Nat)
    (mouse_x mouse_y : Nat) (allow_shortcuts enclosed : Bool) : MouseIndex :=
  if allow_shortcuts ∧ !no_help ∧ enclosed then
    let currslen := get_mouseinput_currslen MAIN_VISIBLE main_list length_of_list
    let i := get_mouseinput_width COLS currslen
    let j : Int := (mouse_y : Int) -
      ((2 - (if no_more_space then 1 else 0)) + 1) - (editwinrows : Int)
    if j < 0 then MouseIndex.no_shortcut
    else if i = 0 then MouseIndex.div_by_zero
    else if mouse_x / i ≥ currslen then MouseIndex.no_shortcut
    else
      let j1 : Int := ((mouse_x / i : Nat) : Int) * 2 + j
      if j1 ≥ (currslen : Int) then MouseIndex.no_shortcut
      else MouseIndex.shortcut i j1
  else MouseIndex.no_shortcut

/-! ## Theorems: the key decoder -/

/-- Below the capacity bound `unget_input` puts the whole of `input` at the
front of the queue. -/
theorem unget_input_eq (input : List Int) (s : KbState)
    (h : s.key_buffer.length + input.length < 2 ^ 64) :
    unget_input input s = { s with key_buffer := input ++ s.key_buffer } := by
  unfold unget_input
  by_cases h0 : input.length = 0
  · have : input = [] := List.length_eq_zero.mp h0
    subst this
    simp
  · have hmod : ¬ (s.key_buffer.length + input.length) % 2 ^ 64 <
        s.key_buffer.length := by
      rw [Nat.mod_eq_of_lt h]; omega
    simp only [h0, if_false, hmod, List.take_length]

/-- Asking `get_input` for as many codes as the queue holds empties it. -/
theorem get_input_all (s : KbState) (h : s.key_buffer ≠ []) :
    get_input s.key_buffer.length s =
      some (s.key_buffer, { s with key_buffer := [] }) := by
  have hl : s.key_buffer.length ≠ 0 := fun h0 => h (List.length_eq_zero.mp h0)
  simp [get_input, hl]

/-- The one-escape arm with further codes buffered: the whole buffered run
is handed to `get_escape_seq_kbinput`; it is put back only when the run is
unrecognised and not ignored. -/
theorem parse_one_escape_buffered (k : Int) (s : KbState)
    (hrest : s.key_buffer ≠ []) (hlen : s.key_buffer.length + 1 < 2 ^ 64) :
    parse_one_escape k s =
      if (get_escape_seq_kbinput (k :: s.key_buffer)).1 = ERR ∧
          (get_escape_seq_kbinput (k :: s.key_buffer)).2 = false then
        ((get_escape_seq_kbinput (k :: s.key_buffer)).1,
          { s with escapes := 0, key_buffer := k :: s.key_buffer })
      else
        ((get_escape_seq_kbinput (k :: s.key_buffer)).1,
          { s with escapes := 0, key_buffer := [] }) := by
  have hl : s.key_buffer.length ≠ 0 :=
    fun h0 => hrest (List.length_eq_zero.mp h0)
  have hu : unget_input [k] { s with escapes := 0 } =
      { s with escapes := 0, key_buffer := k :: s.key_buffer } := by
    rw [unget_input_eq _ _ (by simpa using hlen)]
    rfl
  have hg : get_input (get_key_buffer_len
        ({ s with escapes := 0, key_buffer := k :: s.key_buffer } : KbState))
      { s with escapes := 0, key_buffer := k :: s.key_buffer } =
      some (k :: s.key_buffer, { s with escapes := 0, key_buffer := [] }) := by
    have := get_input_all
      ({ s with escapes := 0, key_buffer := k :: s.key_buffer } : KbState)
      (by simp)
    simpa [get_key_buffer_len] using this
  have hu2 : unget_input (k :: s.key_buffer)
      ({ s with escapes := 0, key_buffer := [] } : KbState) =
      { s with escapes := 0, key_buffer := k :: s.key_buffer } := by
    rw [unget_input_eq _ _ (by simp; omega)]
    simp
  unfold parse_one_escape
  simp only [get_key_buffer_len, hl, if_false, hu, hu2]
  simp only [get_key_buffer_len] at hg
  rw [hg]
  simp only [hu2]

/-- The encoding `make_mbchar` produces is at most four bytes long. -/
theorem make_mbchar_length_le (u8 : Bool) (chr : Int) :
    (make_mbchar u8 chr).length ≤ 4 := by
  unfold make_mbchar
  split_ifs <;> simp

/-- The helper `get_byte_kbinput` only touches its own two counters. -/
theorem get_byte_kbinput_key_buffer (k : Int) (s : KbState) :
    (get_byte_kbinput k s).2.key_buffer = s.key_buffer := by
  unfold get_byte_kbinput
  simp only [apply_ite Prod.snd, apply_ite KbState.key_buffer, ite_self]

/-- The two-escapes arm leaves the queue as it is, except that a completed
byte literal is put back at its front in its text encoding. -/
theorem parse_two_escapes_key_buffer (cfg : KbCfg) (k : Int) (s : KbState)
    (hlen : s.key_buffer.length + 4 < 2 ^ 64) :
    (parse_two_escapes cfg k s).2.key_buffer = s.key_buffer ∨
      ((parse_two_escapes cfg k s).1 = ERR ∧
        ∃ b : Int, (parse_two_escapes cfg k s).2.key_buffer =
          make_mbchar cfg.use_utf8 b ++ s.key_buffer) := by
  have hb := get_byte_kbinput_key_buffer k
    { s with byte_digits := s.byte_digits + 1 }
  have hm := make_mbchar_length_le cfg.use_utf8
    (get_byte_kbinput k { s with byte_digits := s.byte_digits + 1 }).1
  simp only [parse_two_escapes]
  by_cases h1 : (48 ≤ k ∧ k ≤ 54 ∧ s.byte_digits = 0) ∨
      (48 ≤ k ∧ k ≤ 57 ∧ s.byte_digits > 0)
  · simp only [h1, if_true]
    by_cases h2 : (get_byte_kbinput k
        { s with byte_digits := s.byte_digits + 1 }).1 = ERR
    · left
      simp only [h2, ne_eq, not_true_eq_false, if_false]
      exact hb
    · right
      simp only [h2, ne_eq, not_false_eq_true, if_true, true_and]
      refine ⟨(get_byte_kbinput k
        { s with byte_digits := s.byte_digits + 1 }).1, ?_⟩
      rw [unget_input_eq _ _ (by simp only [hb]; omega)]
      simp only [hb]
  · left
    simp only [h1, if_false]
    split_ifs <;> rfl

/-- A run that `get_escape_seq_kbinput` maps to a key has at least two
codes and starts with `O`, `o` or `[`. -/
theorem get_escape_seq_kbinput_head (k : Int) (rest : List Int)
    (h : (get_escape_seq_kbinput (k :: rest)).1 ≠ ERR) :
    rest ≠ [] ∧ (k = 79 ∨ k = 111 ∨ k = 91) := by
  cases rest with
  | nil => exact absurd rfl h
  | cons s1 t =>
    refine ⟨by simp, ?_⟩
    by_contra hk
    simp only [not_or] at hk
    apply h
    simp [get_escape_seq_kbinput, hk.1, hk.2.1, hk.2.2]

/-- More fuel never changes a result `get_kbinput` has already produced. -/
theorem get_kbinput_fuel_add (cfg : KbCfg) (k : Nat) :
    ∀ (fuel : Nat) (s : KbState) (r : Int × KbState),
      get_kbinput cfg fuel s = some r → get_kbinput cfg (k + fuel) s = some r := by
  intro fuel
  induction fuel with
  | zero => intro s r h; simp [get_kbinput] at h
  | succ n ih =>
    intro s r h
    rw [← Nat.add_assoc]
    simp only [get_kbinput] at h ⊢
    cases hp : parse_kbinput cfg s with
    | none => simp [hp] at h
    | some p =>
      obtain ⟨kb, s1⟩ := p
      simp only [hp] at h ⊢
      by_cases hk : kb = ERR
      · simp only [hk, if_true] at h ⊢
        exact ih s1 r h
      · simp only [hk, if_false] at h ⊢
        exact h

/-- C6: from the reset state with exactly ESC, 'O', 'A' pending,
`get_kbinput` returns the previous-line key and leaves the queue empty and
every decoder counter (the escape counter included) at zero, for every
setting of the option flags. -/
theorem get_kbinput_esc_O_A (cfg : KbCfg) (fuel : Nat) :
    get_kbinput cfg (fuel + 2) (KbState.reset [27, 79, 65]) =
      some (NANO_PREVLINE_KEY, KbState.reset []) := by
  apply get_kbinput_fuel_add cfg fuel 2
  obtain ⟨rd, u8⟩ := cfg
  cases rd <;> cases u8 <;> rfl

/-- The byte literals below 128 other than Escape and Ctrl-8, decoded with
six rounds of fuel: a table over the three digits, checked by evaluation. -/
theorem get_kbinput_byte_literal_table (rd u8 : Bool) :
    (List.range 2).all (fun d1 => (List.range 10).all (fun d2 =>
      (List.range 10).all (fun d3 =>
        decide ((100 * d1 + 10 * d2 + d3 ≤ 127 ∧ 100 * d1 + 10 * d2 + d3 ≠ 27 ∧
            100 * d1 + 10 * d2 + d3 ≠ 127) →
          get_kbinput ⟨rd, u8⟩ 6
              (KbState.reset [27, 27, 48 + (d1 : Int), 48 + (d2 : Int),
                48 + (d3 : Int)]) =
            some (((100 * d1 + 10 * d2 + d3 : Nat) : Int),
              KbState.reset []))))) = true := by
  set_option maxRecDepth 1000000 in
  cases rd <;> cases u8 <;> decide

/-- C7 (counterexample): ESC ESC 1 2 7 does not decode to the byte 127: the
byte pushed back is Ctrl-8, which the Ground table turns into Backspace; and
ESC ESC 0 2 7 yields no key at all, because the byte pushed back is Escape
and the decoder then waits for more input, whatever the fuel. -/
theorem get_kbinput_byte_127_is_backspace :
    get_kbinput ⟨false, false⟩ 6 (KbState.reset [27, 27, 49, 50, 55]) =
        some (NANO_BACKSPACE_KEY, KbState.reset []) ∧
      NANO_BACKSPACE_KEY ≠ 127 ∧
      ∀ fuel, get_kbinput ⟨false, false⟩ fuel
        (KbState.reset [27, 27, 48, 50, 55]) = none := by
  refine ⟨by decide, by decide, ?_⟩
  intro fuel
  rcases fuel with _ | _ | _ | _ | _ | _ | _ | fuel <;> rfl

/-- C7 (amended): from the reset state ESC ESC d1 d2 d3 with
n = 100*d1 + 10*d2 + d3 at most 127, and n neither 27 (Escape) nor 127
(Ctrl-8), makes `get_kbinput` return n, as a non-function key, with the
queue empty and every counter of the decoder back at zero. -/
theorem get_kbinput_byte_literal (cfg : KbCfg) (fuel d1 d2 d3 : Nat)
    (h1 : d1 ≤ 9) (h2 : d2 ≤ 9) (h3 : d3 ≤ 9)
    (hn : 100 * d1 + 10 * d2 + d3 ≤ 127)
    (hesc : 100 * d1 + 10 * d2 + d3 ≠ 27)
    (hdel : 100 * d1 + 10 * d2 + d3 ≠ 127) :
    get_kbinput cfg (fuel + 6)
        (KbState.reset [27, 27, 48 + (d1 : Int), 48 + (d2 : Int),
          48 + (d3 : Int)]) =
      some (((100 * d1 + 10 * d2 + d3 : Nat) : Int), KbState.reset []) := by
  apply get_kbinput_fuel_add cfg fuel 6
  have ht := get_kbinput_byte_literal_table cfg.rebind_delete cfg.use_utf8
  simp only [List.all_eq_true, List.mem_range, decide_eq_true_eq] at ht
  exact ht d1 (by omega) d2 (by omega) d3 (by omega) ⟨hn, hesc, hdel⟩

/-- C7 (witness): ESC ESC 0 6 5 decodes to the byte 65, the letter A. -/
theorem get_kbinput_byte_literal_witness :
    get_kbinput ⟨false, false⟩ (0 + 6)
        (KbState.reset [27, 27, 48 + ((0 : Nat) : Int), 48 + ((6 : Nat) : Int),
          48 + ((5 : Nat) : Int)]) =
      some (((100 * 0 + 10 * 6 + 5 : Nat) : Int), KbState.reset []) :=
  get_kbinput_byte_literal ⟨false, false⟩ 0 0 6 5 (by decide) (by decide)
    (by decide) (by decide) (by decide) (by decide)

/-- C8 (counterexample): ESC [ Z Z is not unmatched: Esc [ Z is F14, so the
escape-sequence round emits `KEY_F(14)`, a function key, and nothing is
pushed back: the queue is empty and the first key is not the literal `[`. -/
theorem get_kbinput_esc_bracket_Z_Z_is_F14 :
    get_kbinput ⟨false, false⟩ 2 (KbState.reset [27, 91, 90, 90]) =
        some (KEY_F 14, { KbState.reset [] with func_key := true }) ∧
      KEY_F 14 ≠ 91 := by
  decide

/-- C8 (amended): ESC [ Z Z is recognised as F14 and consumed whole.  An
unmatched sequence such as ESC [ J J is put back and read again: the
escape-sequence round emits no key and pushes `[`, `J`, `J` back, and the
next three keys are the Ground-state literals `[`, `J`, `J` in order. -/
theorem get_kbinput_esc_bracket_J_J (cfg : KbCfg) :
    get_kbinput cfg 2 (KbState.reset [27, 91, 90, 90]) =
        some (KEY_F 14, { KbState.reset [] with func_key := true }) ∧
      parse_kbinput cfg (KbState.reset [27, 91, 74, 74]) =
        some (ERR, { KbState.reset [91, 74, 74] with escapes := 1 }) ∧
      parse_kbinput cfg { KbState.reset [91, 74, 74] with escapes := 1 } =
        some (ERR, KbState.reset [91, 74, 74]) ∧
      get_kbinput cfg 1 (KbState.reset [91, 74, 74]) =
        some (91, KbState.reset [74, 74]) ∧
      get_kbinput cfg 1 (KbState.reset [74, 74]) =
        some (74, KbState.reset [74]) ∧
      get_kbinput cfg 1 (KbState.reset [74]) = some (74, KbState.reset []) := by
  obtain ⟨rd, u8⟩ := cfg
  cases rd <;> cases u8 <;> decide

/-- C9 (counterexample): with ESC O A x pending, the round that recognises
Esc O A takes the `x` with it: the key is previous-line and the queue is
empty afterwards, not `[x]`. -/
theorem parse_kbinput_match_drops_rest :
    get_kbinput ⟨false, false⟩ 2 (KbState.reset [27, 79, 65, 120]) =
        some (NANO_PREVLINE_KEY, KbState.reset []) ∧
      get_escape_seq_kbinput [79, 65] = (NANO_PREVLINE_KEY, false) := by
  decide

/-- C9 (amended): in the one-escape state, when `get_escape_seq_kbinput`
recognises the codes buffered after the ESC, `parse_kbinput` emits the
mapped key and consumes the whole buffered run: the queue is empty
afterwards, whatever followed the matched sequence, and the escape counter
is back at zero. -/
theorem parse_kbinput_match_consumes_all (cfg : KbCfg) (s : KbState)
    (hlen : s.key_buffer.length < 2 ^ 64) (hesc : s.escapes = 1)
    (hm : (get_escape_seq_kbinput s.key_buffer).1 ≠ ERR) :
    parse_kbinput cfg s =
      some ((get_escape_seq_kbinput s.key_buffer).1,
        { s with key_buffer := [], escapes := 0, meta_key := false,
                 func_key := !is_byte (get_escape_seq_kbinput s.key_buffer).1 }) := by
  obtain ⟨kb, e, bd, gd, gb, ud, u, m, f⟩ := s
  simp only at hlen hesc hm
  subst hesc
  cases kb with
  | nil => exact absurd rfl hm
  | cons k rest =>
    obtain ⟨hrest, hk⟩ := get_escape_seq_kbinput_head k rest hm
    have hk1 : k ≠ ERR := by rcases hk with h | h | h <;> rw [h] <;> decide
    have hk2 : k ≠ NANO_CONTROL_3 := by
      rcases hk with h | h | h <;> rw [h] <;> decide
    have hk3 : k ≠ KEY_RESIZE := by
      rcases hk with h | h | h <;> rw [h] <;> decide
    have h2 := parse_one_escape_buffered k
      ⟨rest, 1, bd, gd, gb, ud, u, false, false⟩ hrest
      (by simpa using hlen)
    simp only [hm, false_and, if_false] at h2
    simp [parse_kbinput, get_input, hk1, hk2, hk3, h2, hm]

/-- C9 (witness): ESC O A followed by a buffered `x`. -/
theorem parse_kbinput_match_consumes_all_witness :
    parse_kbinput ⟨false, false⟩ { KbState.reset [79, 65, 120] with escapes := 1 } =
      some (NANO_PREVLINE_KEY, KbState.reset []) :=
  parse_kbinput_match_consumes_all ⟨false, false⟩
    { KbState.reset [79, 65, 120] with escapes := 1 } (by decide) rfl
    (by decide)

/-- C10 (counterexample): input is dropped without being emitted or pushed
back.  With ESC [ A B pending, the round that recognises Esc [ A also takes
the `B`: the key is the one Esc [ A alone maps to and the queue is empty.
And ESC ESC 1 x returns the literal `x`: the digit `1` left the queue and
is neither part of a key nor put back. -/
theorem parse_kbinput_discards_input :
    parse_kbinput ⟨false, false⟩ { KbState.reset [91, 65, 66] with escapes := 1 } =
        some (NANO_PREVLINE_KEY, KbState.reset []) ∧
      get_escape_seq_kbinput [91, 65] = (NANO_PREVLINE_KEY, false) ∧
      get_kbinput ⟨false, false⟩ 4 (KbState.reset [27, 27, 49, 120]) =
        some (120, { KbState.reset [] with gb_digits := 1, gb_byte := 100 }) := by
  decide

/-- C10 (amended): what one call of `parse_kbinput` does to a pending queue
`k :: rest`.  It takes only the head code `k`; or, in the one-escape state
with more codes buffered, it either puts the whole run back when the run is
an unrecognised escape sequence (no key, nothing lost) or consumes the whole
run when the run is recognised or ignored (every code after the matched
prefix goes with it); or, in the two-escapes state, it replaces the last
digit of a completed byte literal by the text encoding of the byte. -/
theorem parse_kbinput_queue (cfg : KbCfg) (s : KbState) (k : Int)
    (rest : List Int) (hq : s.key_buffer = k :: rest)
    (hlen : rest.length + 4 < 2 ^ 64) :
    ∃ r s1, parse_kbinput cfg s = some (r, s1) ∧
      (s1.key_buffer = rest ∨
        (s.escapes = 1 ∧ rest ≠ [] ∧
          get_escape_seq_kbinput (k :: rest) = (ERR, false) ∧ r = ERR ∧
          s1.key_buffer = k :: rest) ∨
        (s.escapes = 1 ∧ rest ≠ [] ∧
          get_escape_seq_kbinput (k :: rest) ≠ (ERR, false) ∧
          r = (get_escape_seq_kbinput (k :: rest)).1 ∧ s1.key_buffer = []) ∨
        (s.escapes = 2 ∧ r = ERR ∧
          ∃ b : Int, s1.key_buffer = make_mbchar cfg.use_utf8 b ++ rest)) := by
  obtain ⟨kb, e, bd, gd, gb, ud, u, m, f⟩ := s
  simp only at hq
  subst hq
  have key : ∀ p : Int × KbState,
      (p.2.key_buffer = rest ∨
        (e = 1 ∧ rest ≠ [] ∧
          get_escape_seq_kbinput (k :: rest) = (ERR, false) ∧ p.1 = ERR ∧
          p.2.key_buffer = k :: rest) ∨
        (e = 1 ∧ rest ≠ [] ∧
          get_escape_seq_kbinput (k :: rest) ≠ (ERR, false) ∧
          p.1 = (get_escape_seq_kbinput (k :: rest)).1 ∧ p.2.key_buffer = []) ∨
        (e = 2 ∧ p.1 = ERR ∧
          ∃ b : Int, p.2.key_buffer = make_mbchar cfg.use_utf8 b ++ rest)) →
      ∃ r s1, (if p.1 ≠ ERR then
            some (p.1, { p.2 with func_key := !is_byte p.1 })
          else some (p.1, p.2)) = some (r, s1) ∧
        (s1.key_buffer = rest ∨
          (e = 1 ∧ rest ≠ [] ∧
            get_escape_seq_kbinput (k :: rest) = (ERR, false) ∧ r = ERR ∧
            s1.key_buffer = k :: rest) ∨
          (e = 1 ∧ rest ≠ [] ∧
            get_escape_seq_kbinput (k :: rest) ≠ (ERR, false) ∧
            r = (get_escape_seq_kbinput (k :: rest)).1 ∧ s1.key_buffer = []) ∨
          (e = 2 ∧ r = ERR ∧
            ∃ b : Int, s1.key_buffer = make_mbchar cfg.use_utf8 b ++ rest)) := by
    intro p hp
    by_cases h : p.1 = ERR
    · exact ⟨p.1, p.2, by simp [h], hp⟩
    · exact ⟨p.1, { p.2 with func_key := !is_byte p.1 }, by simp [h], hp⟩
  simp only [parse_kbinput, get_input, List.length_cons, Nat.add_one_ne_zero,
    if_false, List.take_succ_cons, List.take_zero, List.drop_succ_cons,
    List.drop_zero]
  apply key
  by_cases hk1 : k = ERR
  · left; rw [if_pos hk1]
  rw [if_neg hk1]
  by_cases hk2 : k = NANO_CONTROL_3
  · left; rw [if_pos hk2]
  rw [if_neg hk2]
  by_cases hk3 : k = KEY_RESIZE
  · left; rw [if_pos hk3]
  rw [if_neg hk3]
  by_cases he0 : e = 0
  · left; rw [if_pos he0]
  rw [if_neg (by exact he0)]
  by_cases he1 : e = 1
  · subst he1
    rw [if_pos (by rfl)]
    by_cases hrest : rest = []
    · left
      subst hrest
      simp [parse_one_escape, get_key_buffer_len]
    · have h2 := parse_one_escape_buffered k
        ⟨rest, 1, bd, gd, gb, ud, u, false, false⟩ hrest (by simp only; omega)
      rw [h2]
      by_cases hu : (get_escape_seq_kbinput (k :: rest)).1 = ERR ∧
          (get_escape_seq_kbinput (k :: rest)).2 = false
      · right; left
        rw [if_pos hu]
        exact ⟨rfl, hrest, Prod.ext hu.1 hu.2, hu.1, rfl⟩
      · right; right; left
        rw [if_neg hu]
        refine ⟨rfl, hrest, ?_, rfl, rfl⟩
        intro hc
        apply hu
        rw [hc]
        exact ⟨rfl, rfl⟩
  rw [if_neg (by exact he1)]
  by_cases he2 : e = 2
  · subst he2
    rw [if_pos (by rfl)]
    rcases parse_two_escapes_key_buffer cfg k
        ⟨rest, 2, bd, gd, gb, ud, u, false, false⟩ (by simp only; omega) with
      h | ⟨h, b, hb⟩
    · left; exact h
    · right; right; right
      exact ⟨rfl, h, b, hb⟩
  · left; rw [if_neg (by exact he2)]

/-- C10 (witness): the unrecognised run `[`, `J`, `J` in the one-escape
state, well below the capacity bound. -/
theorem parse_kbinput_queue_witness :
    ∃ r s1, parse_kbinput ⟨false, false⟩
        { KbState.reset [91, 74, 74] with escapes := 1 } = some (r, s1) ∧
      (s1.key_buffer = [74, 74] ∨
        (({ KbState.reset [91, 74, 74] with escapes := 1 } : KbState).escapes = 1 ∧
          ([74, 74] : List Int) ≠ [] ∧
          get_escape_seq_kbinput (91 :: [74, 74]) = (ERR, false) ∧ r = ERR ∧
          s1.key_buffer = 91 :: [74, 74]) ∨
        (({ KbState.reset [91, 74, 74] with escapes := 1 } : KbState).escapes = 1 ∧
          ([74, 74] : List Int) ≠ [] ∧
          get_escape_seq_kbinput (91 :: [74, 74]) ≠ (ERR, false) ∧
          r = (get_escape_seq_kbinput (91 :: [74, 74])).1 ∧ s1.key_buffer = []) ∨
        (({ KbState.reset [91, 74, 74] with escapes := 1 } : KbState).escapes = 2 ∧
          r = ERR ∧
          ∃ b : Int, s1.key_buffer =
            make_mbchar (⟨false, false⟩ : KbCfg).use_utf8 b ++ [74, 74])) :=
  parse_kbinput_queue ⟨false, false⟩
    { KbState.reset [91, 74, 74] with escapes := 1 } 91 [74, 74] rfl
    (by decide)

/-! ## Theorems: display metrics -/

/-- A character never moves the column to the left. -/
theorem parse_mbchar_col_ge (E : Env) (buf : List Nat) (col : Nat) :
    col ≤ parse_mbchar_col E buf col := by
  unfold parse_mbchar_col
  split_ifs <;> omega

/-- Under `Env.WF` a character at the head of a non-empty buffer has at
least one byte and lies inside the buffer. -/
theorem parse_mbchar_len_bounds (E : Env) (hE : E.WF) (b : Nat)
    (t : List Nat) :
    1 ≤ parse_mbchar_len E (b :: t) ∧
      parse_mbchar_len E (b :: t) ≤ (b :: t).length :=
  ⟨hE.mblen_pos _ (by simp), hE.mblen_le _ (by simp)⟩

/-- The width `strnlenpt_loop` returns is at least the width it starts
from. -/
theorem strnlenpt_loop_ge (E : Env) :
    ∀ (fuel : Nat) (str : List Nat) (size length : Nat),
      length ≤ strnlenpt_loop E fuel str size length := by
  intro fuel
  induction fuel with
  | zero => intro str size length; simp [strnlenpt_loop]
  | succ n ih =>
    intro str size length
    cases str with
    | nil => simp [strnlenpt_loop]
    | cons b t =>
      simp only [strnlenpt_loop]
      split_ifs
      · exact parse_mbchar_col_ge E _ _
      · exact le_trans (parse_mbchar_col_ge E _ _) (ih _ _ _)

/-- The position `actual_x_loop` returns is the start position plus what the
loop finds from position zero. -/
theorem actual_x_loop_add (E : Env) (x : Nat) :
    ∀ (fuel : Nat) (str : List Nat) (i c : Nat),
      actual_x_loop E x fuel str i c = i + actual_x_loop E x fuel str 0 c := by
  intro fuel
  induction fuel with
  | zero => intro str i c; simp [actual_x_loop]
  | succ n ih =>
    intro str i c
    cases str with
    | nil => simp [actual_x_loop]
    | cons b t =>
      simp only [actual_x_loop]
      split_ifs
      · rfl
      · rw [ih _ (i + _), ih _ (0 + _)]
        omega

/-- The width up to the offset `actual_x_loop` finds does not exceed the
wanted column. -/
theorem strnlenpt_loop_actual_x_loop_le (E : Env) (hE : E.WF) (x : Nat) :
    ∀ (fuel : Nat) (str : List Nat) (c : Nat), str.length ≤ fuel → c ≤ x →
      (if actual_x_loop E x fuel str 0 c = 0 then c
        else strnlenpt_loop E fuel str (actual_x_loop E x fuel str 0 c) c) ≤ x := by
  intro fuel
  induction fuel with
  | zero => intro str c _ hc; simpa [actual_x_loop] using hc
  | succ n ih =>
    intro str c hlen hc
    cases str with
    | nil => simpa [actual_x_loop] using hc
    | cons b t =>
      obtain ⟨hl1, hl2⟩ := parse_mbchar_len_bounds E hE b t
      simp only [actual_x_loop, strnlenpt_loop]
      by_cases h : parse_mbchar_col E (b :: t) c > x
      · simpa [h] using hc
      · rw [if_neg h, actual_x_loop_add]
        have hdrop : ((b :: t).drop (parse_mbchar_len E (b :: t))).length ≤ n := by
          rw [List.length_drop]
          simp only [List.length_cons] at hlen hl2 ⊢
          omega
        have ih1 := ih _ (parse_mbchar_col E (b :: t) c) hdrop (by omega)
        by_cases ha : actual_x_loop E x n
            ((b :: t).drop (parse_mbchar_len E (b :: t))) 0
            (parse_mbchar_col E (b :: t) c) = 0
        · rw [ha]
          have hne : ¬ (0 + parse_mbchar_len E (b :: t) + 0 = 0) := by omega
          rw [if_neg hne, if_pos (by omega)]
          omega
        · rw [if_neg ha] at ih1
          have hne : ¬ (0 + parse_mbchar_len E (b :: t) +
              actual_x_loop E x n ((b :: t).drop (parse_mbchar_len E (b :: t))) 0
                (parse_mbchar_col E (b :: t) c) = 0) := by omega
          rw [if_neg hne, if_neg (by omega)]
          have he : 0 + parse_mbchar_len E (b :: t) +
              actual_x_loop E x n ((b :: t).drop (parse_mbchar_len E (b :: t))) 0
                (parse_mbchar_col E (b :: t) c) - parse_mbchar_len E (b :: t) =
              actual_x_loop E x n ((b :: t).drop (parse_mbchar_len E (b :: t))) 0
                (parse_mbchar_col E (b :: t) c) := by omega
          rw [he]
          exact ih1

/-- The offset `actual_x_loop` finds lies inside the string. -/
theorem actual_x_loop_le_length (E : Env) (hE : E.WF) (x : Nat) :
    ∀ (fuel : Nat) (str : List Nat) (c : Nat),
      actual_x_loop E x fuel str 0 c ≤ str.length := by
  intro fuel
  induction fuel with
  | zero => intro str c; simp [actual_x_loop]
  | succ n ih =>
    intro str c
    cases str with
    | nil => simp [actual_x_loop]
    | cons b t =>
      obtain ⟨hl1, hl2⟩ := parse_mbchar_len_bounds E hE b t
      simp only [actual_x_loop]
      split_ifs
      · omega
      · rw [actual_x_loop_add]
        have ih1 := ih ((b :: t).drop (parse_mbchar_len E (b :: t)))
          (parse_mbchar_col E (b :: t) c)
        rw [List.length_drop] at ih1
        omega

/-- Every offset whose width fits in the wanted column is at most the offset
`actual_x_loop` finds. -/
theorem le_actual_x_loop (E : Env) (hE : E.WF) (x : Nat) :
    ∀ (fuel : Nat) (str : List Nat) (c i : Nat), str.length ≤ fuel →
      i ≤ str.length →
      (if i = 0 then c else strnlenpt_loop E fuel str i c) ≤ x →
      i ≤ actual_x_loop E x fuel str 0 c := by
  intro fuel
  induction fuel with
  | zero =>
    intro str c i hlen hi _
    have : i = 0 := by omega
    simp [this]
  | succ n ih =>
    intro str c i hlen hi hw
    cases str with
    | nil =>
      have : i = 0 := by simpa using hi
      simp [this]
    | cons b t =>
      obtain ⟨hl1, hl2⟩ := parse_mbchar_len_bounds E hE b t
      by_cases hi0 : i = 0
      · simp [hi0]
      rw [if_neg hi0] at hw
      simp only [strnlenpt_loop] at hw
      simp only [actual_x_loop]
      have hdrop : ((b :: t).drop (parse_mbchar_len E (b :: t))).length ≤ n := by
        rw [List.length_drop]
        simp only [List.length_cons] at hlen hl2 ⊢
        omega
      by_cases hs : i ≤ parse_mbchar_len E (b :: t)
      · rw [if_pos hs] at hw
        rw [if_neg (by omega), actual_x_loop_add]
        omega
      · rw [if_neg hs] at hw
        have hge := strnlenpt_loop_ge E n
          ((b :: t).drop (parse_mbchar_len E (b :: t)))
          (i - parse_mbchar_len E (b :: t)) (parse_mbchar_col E (b :: t) c)
        rw [if_neg (by omega), actual_x_loop_add]
        have ih1 := ih ((b :: t).drop (parse_mbchar_len E (b :: t)))
          (parse_mbchar_col E (b :: t) c) (i - parse_mbchar_len E (b :: t))
          hdrop (by rw [List.length_drop]; omega)
          (by rw [if_neg (by omega)]; exact hw)
        omega

/-- The offset `actual_x` returns lies inside the string, is at most
`xplus` columns wide, and is at least every offset that wide. -/
theorem actual_x_spec (E : Env) (hE : E.WF) (str : List Nat) (xplus : Nat) :
    actual_x E str xplus ≤ str.length ∧
      strnlenpt E str (actual_x E str xplus) ≤ xplus ∧
      ∀ i, i ≤ str.length → strnlenpt E str i ≤ xplus →
        i ≤ actual_x E str xplus := by
  refine ⟨actual_x_loop_le_length E hE xplus _ _ _, ?_, ?_⟩
  · have h := strnlenpt_loop_actual_x_loop_le E hE xplus str.length str 0
      (le_refl _) (Nat.zero_le _)
    unfold strnlenpt actual_x
    exact h
  · intro i hi hw
    unfold strnlenpt at hw
    exact le_actual_x_loop E hE xplus str.length str 0 i (le_refl _) hi hw

/-- C2: `actual_x(str, xplus)` is the largest byte offset `i <= len(str)`
with `strnlenpt(str, i) <= xplus`: it lies inside the string, its own width
is at most `xplus` (the assertion `column <= start_col` of
`display_string`), and every offset of the string whose width is at most
`xplus` is at most `actual_x(str, xplus)`. -/
theorem actual_x_largest (E : Env) (hE : E.WF) (str : List Nat)
    (xplus : Nat) :
    actual_x E str xplus ≤ str.length ∧
      strnlenpt E str (actual_x E str xplus) ≤ xplus ∧
      ∀ i, i ≤ str.length → strnlenpt E str i ≤ xplus →
        i ≤ actual_x E str xplus :=
  actual_x_spec E hE str xplus

/-- One round of `strnlenpt_loop` on a non-empty string. -/
theorem strnlenpt_loop_succ (E : Env) (fuel : Nat) (str : List Nat)
    (size length : Nat) (h : str ≠ []) :
    strnlenpt_loop E (fuel + 1) str size length =
      if size ≤ parse_mbchar_len E str then parse_mbchar_col E str length
      else strnlenpt_loop E fuel (str.drop (parse_mbchar_len E str))
        (size - parse_mbchar_len E str) (parse_mbchar_col E str length) := by
  cases str with
  | nil => exact absurd rfl h
  | cons b t => rfl

/-- On the empty string `strnlenpt_loop` returns the width it starts from. -/
theorem strnlenpt_loop_nil (E : Env) (fuel size length : Nat) :
    strnlenpt_loop E fuel [] size length = length := by
  cases fuel <;> rfl

/-- A character is recognised from its own bytes: cutting the buffer after
it changes neither its length nor its column. -/
theorem parse_mbchar_take (E : Env) (hE : E.WF) (buf : List Nat) (k : Nat)
    (h : buf ≠ []) (hk : parse_mbchar_len E buf ≤ k) :
    buf.take k ≠ [] ∧
      parse_mbchar_len E (buf.take k) = parse_mbchar_len E buf ∧
      ∀ col, parse_mbchar_col E (buf.take k) col = parse_mbchar_col E buf col := by
  cases buf with
  | nil => exact absurd rfl h
  | cons b t =>
    obtain ⟨hl1, hl2⟩ := parse_mbchar_len_bounds E hE b t
    obtain ⟨k1, rfl⟩ : ∃ k1, k = k1 + 1 := ⟨k - 1, by omega⟩
    have hlen : E.mblen (b :: t.take k1) = E.mblen (b :: t) := by
      have := hE.mblen_take (b :: t) (k1 + 1) (by simp) hk
      simpa using this
    have hchr : parse_mbchar_chr E ((b :: t).take (k1 + 1)) =
        parse_mbchar_chr E (b :: t) := by
      simp only [List.take_succ_cons, parse_mbchar_chr, hlen]
      have := List.take_take (E.mblen (b :: t)) (k1 + 1) (b :: t)
      simp only [List.take_succ_cons] at this
      have hk1 : E.mblen (b :: t) ≤ k1 + 1 := hk
      rw [this, Nat.min_eq_left hk1]
    refine ⟨by simp, ?_, ?_⟩
    · simpa [parse_mbchar_len] using hlen
    · intro col
      unfold parse_mbchar_col
      rw [hchr]
      simp

/-- The text cut at the offset `actual_x_loop` finds is no wider than the
wanted column. -/
theorem strnlenpt_loop_take_actual_x (E : Env) (hE : E.WF) (x : Nat) :
    ∀ (n : Nat) (conv : List Nat) (c m size : Nat), conv.length ≤ n →
      (conv.take (actual_x_loop E x n conv 0 c)).length ≤ m → c ≤ x →
      strnlenpt_loop E m (conv.take (actual_x_loop E x n conv 0 c)) size c ≤ x := by
  intro n
  induction n with
  | zero =>
    intro conv c m size _ _ hc
    simpa [actual_x_loop, strnlenpt_loop_nil] using hc
  | succ n ih =>
    intro conv c m size hlen hm hc
    cases conv with
    | nil => simpa [strnlenpt_loop_nil] using hc
    | cons b t =>
      obtain ⟨hl1, hl2⟩ := parse_mbchar_len_bounds E hE b t
      simp only [actual_x_loop] at hm ⊢
      by_cases h : parse_mbchar_col E (b :: t) c > x
      · simpa [h, strnlenpt_loop_nil] using hc
      · rw [if_neg h, actual_x_loop_add] at hm ⊢
        obtain ⟨hne, htl, htc⟩ := parse_mbchar_take E hE (b :: t)
          (0 + parse_mbchar_len E (b :: t) + actual_x_loop E x n
            ((b :: t).drop (parse_mbchar_len E (b :: t))) 0
            (parse_mbchar_col E (b :: t) c)) (by simp) (by omega)
        have hdrop : ((b :: t).drop (parse_mbchar_len E (b :: t))).length ≤ n := by
          rw [List.length_drop]
          simp only [List.length_cons] at hlen hl2 ⊢
          omega
        have hpos : 0 < m := by
          have := List.length_pos.mpr hne
          omega
        obtain ⟨m1, rfl⟩ : ∃ m1, m = m1 + 1 := ⟨m - 1, by omega⟩
        rw [strnlenpt_loop_succ E m1 _ size c hne, htl, htc]
        split_ifs
        · omega
        · rw [List.drop_take]
          have he : 0 + parse_mbchar_len E (b :: t) + actual_x_loop E x n
              ((b :: t).drop (parse_mbchar_len E (b :: t))) 0
              (parse_mbchar_col E (b :: t) c) - parse_mbchar_len E (b :: t) =
              actual_x_loop E x n
              ((b :: t).drop (parse_mbchar_len E (b :: t))) 0
              (parse_mbchar_col E (b :: t) c) := by omega
          rw [he]
          apply ih _ _ _ _ hdrop _ (by omega)
          have hl := List.length_take
            (0 + parse_mbchar_len E (b :: t) + actual_x_loop E x n
              ((b :: t).drop (parse_mbchar_len E (b :: t))) 0
              (parse_mbchar_col E (b :: t) c)) (b :: t)
          have hl3 := List.length_take (actual_x_loop E x n
              ((b :: t).drop (parse_mbchar_len E (b :: t))) 0
              (parse_mbchar_col E (b :: t) c))
              ((b :: t).drop (parse_mbchar_len E (b :: t)))
          rw [List.length_drop] at hl3
          rw [hl] at hm
          rw [hl3]
          omega

/-- A string cut by `actual_x` at column `x` is at most `x` columns wide. -/
theorem strlenpt_take_actual_x (E : Env) (hE : E.WF) (conv : List Nat)
    (x : Nat) : strlenpt E (conv.take (actual_x E conv x)) ≤ x := by
  unfold strlenpt strnlenpt actual_x
  split_ifs
  · exact Nat.zero_le _
  · exact strnlenpt_loop_take_actual_x E hE x conv.length conv 0 _ _
      (le_refl _) (le_refl _) (Nat.zero_le _)

/-- The empty string is zero columns wide. -/
theorem strlenpt_nil (E : Env) : strlenpt E [] = 0 := by
  simp [strlenpt, strnlenpt, strnlenpt_loop]

/-- The text `display_string` returns is no wider than the length it
settles on in its first statement. -/
theorem display_string_le_display_len (E : Env) (hE : E.WF) (buf : List Nat)
    (start_col len : Nat) (dollars : Bool) (r : List Nat)
    (h : display_string E buf start_col len dollars = some r) :
    strlenpt E r ≤ display_len E buf start_col len dollars := by
  simp only [display_string] at h
  split_ifs at h with h0
  · simp only [Option.some.injEq] at h
    rw [← h, strlenpt_nil]; exact Nat.zero_le _
  · cases hc : display_converted E buf start_col dollars with
    | none => rw [hc] at h; simp at h
    | some converted =>
      rw [hc] at h
      simp only at h
      split_ifs at h
      simp only [Option.some.injEq] at h
      rw [← h]
      exact strlenpt_take_actual_x E hE _ _

/-- The single-byte locale with a positive tab size meets `Env.WF`. -/
theorem byte_env_WF (tabsize COLS : Nat) (h : 0 < tabsize) :
    (byte_env tabsize COLS).WF where
  tabsize_pos := h
  mb_cur_max_pos := Nat.one_pos
  mblen_pos := fun _ _ => le_refl _
  mblen_le := fun _ hb => List.length_pos.mpr hb
  mblen_take := fun _ _ _ _ => rfl

/-- The UTF-8 character helpers are well-formed: a character has one to four
bytes, lies inside the buffer, and is read the same from any prefix of the
buffer that holds it. -/
theorem utf8_env_WF (tabsize COLS : Nat) (h : 0 < tabsize) :
    (utf8_env tabsize COLS).WF where
  tabsize_pos := h
  mb_cur_max_pos := by simp [utf8_env]
  mblen_pos := by
    intro buf _
    simp only [utf8_env]
    unfold utf8_len
    split <;> (try split_ifs) <;> exact Nat.le_of_ble_eq_true rfl
  mblen_le := by
    intro buf hne
    simp only [utf8_env]
    unfold utf8_len
    split
    · split_ifs <;> simp
    · split_ifs <;> simp
    · split_ifs <;> simp
    · have : 1 ≤ buf.length :=
        Nat.pos_of_ne_zero (fun h0 => hne (List.length_eq_zero.mp h0))
      omega
  mblen_take := by
    intro buf n hne hle
    simp only [utf8_env] at hle ⊢
    rcases buf with _ | ⟨b0, _ | ⟨b1, _ | ⟨b2, _ | ⟨b3, t⟩⟩⟩⟩
    · exact absurd rfl hne
    · rcases n with _ | n
      · simp [utf8_len] at hle
      · simp [utf8_len]
    · rcases n with _ | _ | n <;>
        simp only [List.take_succ_cons, List.take_zero, List.take_nil,
          utf8_len] at hle ⊢ <;>
        (try split_ifs at hle ⊢) <;> first | rfl | omega
    · rcases n with _ | _ | _ | n <;>
        simp only [List.take_succ_cons, List.take_zero, List.take_nil,
          utf8_len] at hle ⊢ <;>
        (try split_ifs at hle ⊢) <;> first | rfl | omega
    · rcases n with _ | _ | _ | _ | n <;>
        simp only [List.take_succ_cons, List.take_zero, List.take_nil,
          utf8_len] at hle ⊢ <;>
        (try split_ifs at hle ⊢) <;> first | rfl | omega

/-- C2 (witness): the text `a`, tab, Ctrl-A, `b` with tab size 8, looked up
at column 5, which falls inside the tab. -/
theorem actual_x_largest_witness :
    actual_x (byte_env 8 80) [97, 9, 1, 98] 5 ≤ [97, 9, 1, 98].length ∧
      strnlenpt (byte_env 8 80) [97, 9, 1, 98]
        (actual_x (byte_env 8 80) [97, 9, 1, 98] 5) ≤ 5 ∧
      ∀ i, i ≤ [97, 9, 1, 98].length →
        strnlenpt (byte_env 8 80) [97, 9, 1, 98] i ≤ 5 →
        i ≤ actual_x (byte_env 8 80) [97, 9, 1, 98] 5 :=
  actual_x_largest (byte_env 8 80) (byte_env_WF 8 80 (by decide))
    [97, 9, 1, 98] 5

/-- The offset found for the width of a character boundary is that
boundary, unless a zero-width character starts there. -/
theorem actual_x_loop_strnlenpt_loop_eq (E : Env) (hE : E.WF) :
    ∀ (fuel : Nat) (str : List Nat) (c o : Nat), str.length ≤ fuel →
      char_boundary E fuel str o = true →
      (str.drop o = [] ∨
        (if o = 0 then c else strnlenpt_loop E fuel str o c) <
          parse_mbchar_col E (str.drop o)
            (if o = 0 then c else strnlenpt_loop E fuel str o c)) →
      actual_x_loop E (if o = 0 then c else strnlenpt_loop E fuel str o c)
        fuel str 0 c = o := by
  intro fuel
  induction fuel with
  | zero =>
    intro str c o _ hb _
    cases o with
    | zero => simp [actual_x_loop]
    | succ o => simp [char_boundary] at hb
  | succ n ih =>
    intro str c o hlen hb hp
    cases o with
    | zero =>
      cases str with
      | nil => simp [actual_x_loop]
      | cons b t =>
        simp only [List.drop_zero, if_true] at hp
        rcases hp with hp | hp
        · exact absurd hp (by simp)
        · simp only [if_true, actual_x_loop]
          rw [if_pos hp]
    | succ o =>
      cases str with
      | nil => simp [char_boundary] at hb
      | cons b t =>
        obtain ⟨hl1, hl2⟩ := parse_mbchar_len_bounds E hE b t
        simp only [char_boundary, Bool.and_eq_true, decide_eq_true_eq] at hb
        obtain ⟨hb1, hb2⟩ := hb
        have hdrop : ((b :: t).drop (parse_mbchar_len E (b :: t))).length ≤ n := by
          rw [List.length_drop]
          simp only [List.length_cons] at hlen hl2 ⊢
          omega
        have hx : (if o + 1 = 0 then c
            else strnlenpt_loop E (n + 1) (b :: t) (o + 1) c) =
            (if o + 1 - parse_mbchar_len E (b :: t) = 0 then
              parse_mbchar_col E (b :: t) c
            else strnlenpt_loop E n
              ((b :: t).drop (parse_mbchar_len E (b :: t)))
              (o + 1 - parse_mbchar_len E (b :: t))
              (parse_mbchar_col E (b :: t) c)) := by
          rw [if_neg (by omega)]
          simp only [strnlenpt_loop]
          by_cases hs : o + 1 ≤ parse_mbchar_len E (b :: t)
          · rw [if_pos hs, if_pos (by omega)]
          · rw [if_neg hs, if_neg (by omega)]
        have hdd : ((b :: t).drop (parse_mbchar_len E (b :: t))).drop
            (o + 1 - parse_mbchar_len E (b :: t)) = (b :: t).drop (o + 1) := by
          rw [List.drop_drop]
          congr 1
          omega
        rw [hx] at hp ⊢
        rw [← hdd] at hp
        have ih1 := ih _ (parse_mbchar_col E (b :: t) c) _ hdrop hb2 hp
        have hge : parse_mbchar_col E (b :: t) c ≤
            (if o + 1 - parse_mbchar_len E (b :: t) = 0 then
              parse_mbchar_col E (b :: t) c
            else strnlenpt_loop E n
              ((b :: t).drop (parse_mbchar_len E (b :: t)))
              (o + 1 - parse_mbchar_len E (b :: t))
              (parse_mbchar_col E (b :: t) c)) := by
          split_ifs
          · exact le_refl _
          · exact strnlenpt_loop_ge E _ _ _ _
        simp only [actual_x_loop]
        rw [if_neg (by omega), actual_x_loop_add, ih1]
        omega

/-- C1 (counterexample): in a UTF-8 locale the round trip can exceed the
offset.  For the two-byte character U+00E9 and the offset 1 inside it,
`actual_x(T, strnlenpt(T, 1))` is 2; and for `e` followed by the zero-width
combining mark U+0301, the character boundary 1 is carried to 3. -/
theorem actual_x_strnlenpt_exceeds :
    ¬ (actual_x (utf8_env 8 80) [195, 169]
        (strnlenpt (utf8_env 8 80) [195, 169] 1) ≤ 1) ∧
      char_boundary (utf8_env 8 80) 3 [101, 204, 129] 1 = true ∧
      actual_x (utf8_env 8 80) [101, 204, 129]
        (strnlenpt (utf8_env 8 80) [101, 204, 129] 1) ≠ 1 := by
  decide

/-- C1 (amended): for every text `T` and offset `o <= len(T)`,
`actual_x(T, strnlenpt(T, o)) >= o` (the width of an offset inside a
multibyte character is that of the whole character, so the round trip ends
at the end of the character); and it equals `o` whenever `o` lies on a
character boundary and the character that starts at `o`, if there is one,
is at least one column wide. -/
theorem actual_x_strnlenpt (E : Env) (hE : E.WF) (T : List Nat) (o : Nat)
    (ho : o ≤ T.length) :
    o ≤ actual_x E T (strnlenpt E T o) ∧
      (char_boundary E T.length T o = true →
        (T.drop o = [] ∨
          strnlenpt E T o < parse_mbchar_col E (T.drop o) (strnlenpt E T o)) →
        actual_x E T (strnlenpt E T o) = o) := by
  refine ⟨(actual_x_spec E hE T _).2.2 o ho (le_refl _), ?_⟩
  intro hb hp
  have h := actual_x_loop_strnlenpt_loop_eq E hE T.length T 0 o
    (le_refl _) hb
  unfold actual_x strnlenpt at *
  exact h hp

/-- C1 (witness): the text `a`, tab, Ctrl-A, `b` in a single-byte locale,
at the offset 2 just after the tab, where the two-column Ctrl-A starts. -/
theorem actual_x_strnlenpt_witness :
    2 ≤ actual_x (byte_env 8 80) [97, 9, 1, 98]
        (strnlenpt (byte_env 8 80) [97, 9, 1, 98] 2) ∧
      actual_x (byte_env 8 80) [97, 9, 1, 98]
        (strnlenpt (byte_env 8 80) [97, 9, 1, 98] 2) = 2 :=
  ⟨(actual_x_strnlenpt (byte_env 8 80) (byte_env_WF 8 80 (by decide))
      [97, 9, 1, 98] 2 (by decide)).1,
    (actual_x_strnlenpt (byte_env 8 80) (byte_env_WF 8 80 (by decide))
      [97, 9, 1, 98] 2 (by decide)).2 (by decide) (by decide)⟩

/-- C5 (failing input): in a UTF-8 locale, on the line holding the two-byte
character U+00E9 with the cursor at its end (`current_x == 2`), `xplustabs`
is 1, smaller than `current_x`. -/
theorem xplustabs_lt_current_x :
    xplustabs (utf8_env 8 80) [195, 169] 2 = 1 ∧
      xplustabs (utf8_env 8 80) [195, 169] 2 < 2 := by
  decide

/-- In a single-byte locale `parse_mbchar` advances the column by
`byte_col`. -/
theorem parse_mbchar_col_byte (ts C b : Nat) (t : List Nat) (c : Nat) :
    parse_mbchar_col (byte_env ts C) (b :: t) c = byte_col ts b c := by
  simp [parse_mbchar_col, parse_mbchar_chr, byte_env, byte_col]

/-- With a positive tab size every byte takes at least one column. -/
theorem byte_col_gt (ts b c : Nat) (h : 0 < ts) : c < byte_col ts b c := by
  have := Nat.mod_lt c h
  unfold byte_col
  split_ifs <;> omega

/-- The padding loop of `display_string` adds exactly the spaces that
remain up to the next tab stop. -/
theorem tab_fill_eq (ts : Nat) :
    ∀ (d fuel sc : Nat) (conv : List Nat), d ≤ fuel → (sc + d) % ts = 0 →
      (∀ j, j < d → (sc + j) % ts ≠ 0) →
      tab_fill ts fuel sc conv = (sc + d, conv ++ List.replicate d 32) := by
  intro d
  induction d with
  | zero =>
    intro fuel sc conv _ h0 _
    cases fuel with
    | zero => simp [tab_fill]
    | succ f =>
      simp only [tab_fill]
      rw [if_neg (by simpa using h0)]
      simp
  | succ d ih =>
    intro fuel sc conv hf h0 hj
    obtain ⟨f, rfl⟩ : ∃ f, fuel = f + 1 := ⟨fuel - 1, by omega⟩
    simp only [tab_fill]
    rw [if_pos (by simpa using hj 0 (by omega))]
    rw [ih f (sc + 1) (conv ++ [32]) (by omega)
      (by rw [← h0]; congr 1; omega)
      (fun j hjd => by
        have := hj (j + 1) (by omega)
        rw [show sc + 1 + j = sc + (j + 1) by omega]
        exact this)]
    simp only [List.replicate_succ, List.append_assoc, List.singleton_append,
      Prod.mk.injEq, and_true]
    omega

/-- The tab arm of `display_string` in terms of the column: one space, then
padding up to the next tab stop. -/
theorem tab_fill_tab (ts c : Nat) (conv : List Nat) (h : 0 < ts) :
    tab_fill ts ts (c + 1) (conv ++ [32]) =
      (c + (ts - c % ts), conv ++ List.replicate (ts - c % ts) 32) := by
  have hm := Nat.mod_lt c h
  have hdm := Nat.div_add_mod c ts
  have key := tab_fill_eq ts (ts - 1 - c % ts) ts (c + 1) (conv ++ [32])
    (by omega)
    (by
      have : c + 1 + (ts - 1 - c % ts) = ts * (c / ts + 1) := by
        rw [Nat.mul_add, Nat.mul_one]; omega
      rw [this]
      exact Nat.mul_mod_right _ _)
    (fun j hj => by
      have : c + 1 + j = c % ts + 1 + j + ts * (c / ts) := by omega
      rw [this, Nat.add_mul_mod_self_left, Nat.mod_eq_of_lt (by omega)]
      omega)
  rw [key]
  have h1 : ts - c % ts = (ts - 1 - c % ts) + 1 := by omega
  rw [h1, List.replicate_succ]
  simp only [List.append_assoc, List.singleton_append, Prod.mk.injEq, and_true]
  omega

/-- The visible form of a control byte is neither a tab nor a control
byte. -/
theorem control_rep_plain :
    ∀ b, b < 160 → is_cntrl_char b = true →
      control_rep b ≠ 9 ∧ is_cntrl_char (control_rep b) = false := by
  set_option maxRecDepth 100000 in
  decide

/-- In a single-byte locale with a positive tab size the width of the first
`size` bytes is at least the number of bytes counted. -/
theorem strnlenpt_loop_byte_ge (ts C : Nat) (h : 0 < ts) :
    ∀ (n : Nat) (T : List Nat) (size c : Nat), T.length ≤ n → 0 < size →
      c + min size T.length ≤ strnlenpt_loop (byte_env ts C) n T size c := by
  intro n
  induction n with
  | zero =>
    intro T size c hn _
    have : T = [] := List.length_eq_zero.mp (by omega)
    subst this
    simp [strnlenpt_loop]
  | succ n ih =>
    intro T size c hn hpos
    cases T with
    | nil => simp [strnlenpt_loop]
    | cons b t =>
      simp only [List.length_cons] at hn ⊢
      have hgt := byte_col_gt ts b c h
      rw [strnlenpt_loop_succ _ _ _ _ _ (by simp), parse_mbchar_col_byte]
      have hlen : parse_mbchar_len (byte_env ts C) (b :: t) = 1 := rfl
      have hdrop : (b :: t).drop 1 = t := rfl
      rw [hlen, hdrop]
      by_cases h1 : size ≤ 1
      · rw [if_pos h1]
        omega
      · rw [if_neg h1]
        have := ih t (size - 1) (byte_col ts b c) (by omega) (by omega)
        omega

/-- In a single-byte locale with a positive tab size the cursor column is
no smaller than the cursor offset. -/
theorem xplustabs_ge_byte (ts C : Nat) (h : 0 < ts) (data : List Nat)
    (current_x : Nat) (hx : current_x ≤ data.length) :
    current_x ≤ xplustabs (byte_env ts C) data current_x := by
  unfold xplustabs strnlenpt
  split_ifs with h0
  · omega
  · have := strnlenpt_loop_byte_ge ts C h data.length data current_x 0
      (le_refl _) (by omega)
    rw [Nat.min_eq_left hx] at this
    omega

/-- The character at the head of a non-empty buffer starts with the
buffer's first byte. -/
theorem parse_mbchar_chr_head (E : Env) (hE : E.WF) (b : Nat) (t : List Nat) :
    (parse_mbchar_chr E (b :: t)).head? = some b := by
  have h1 := hE.mblen_pos (b :: t) (by simp)
  obtain ⟨k, hk⟩ : ∃ k, E.mblen (b :: t) = k + 1 := ⟨E.mblen (b :: t) - 1, by omega⟩
  simp [parse_mbchar_chr, hk]

/-- The character at the head of a buffer followed by what is left after it
is the buffer. -/
theorem parse_mbchar_chr_append_drop (E : Env) (b : Nat) (t : List Nat) :
    parse_mbchar_chr E (b :: t) ++
      (b :: t).drop (parse_mbchar_len E (b :: t)) = b :: t :=
  List.take_append_drop _ _

/-- How `parse_mbchar` reads a character shown as itself, whatever follows
it. -/
theorem parse_mbchar_stable (E : Env) (a X : List Nat) (ha : E.Stable a) :
    ∃ b t, a ++ X = b :: t ∧ parse_mbchar_len E (b :: t) = a.length ∧
      parse_mbchar_chr E (b :: t) = a ∧
      (b :: t).drop (parse_mbchar_len E (b :: t)) = X ∧
      ∀ c, parse_mbchar_col E (b :: t) c = c + E.mbwidth a := by
  obtain ⟨x, a1, rfl⟩ : ∃ x a1, a = x :: a1 := by
    cases a with
    | nil => exact absurd rfl ha.ne_nil
    | cons x a1 => exact ⟨x, a1, rfl⟩
  have hlen : parse_mbchar_len E (x :: (a1 ++ X)) = (x :: a1).length :=
    ha.mblen_eq X
  have hchr : parse_mbchar_chr E (x :: (a1 ++ X)) = x :: a1 := by
    have h1 : E.mblen (x :: (a1 ++ X)) = (x :: a1).length := ha.mblen_eq X
    show (x :: (a1 ++ X)).take (E.mblen (x :: (a1 ++ X))) = x :: a1
    rw [h1]
    exact List.take_left (x :: a1) X
  refine ⟨x, a1 ++ X, rfl, hlen, hchr, ?_, ?_⟩
  · rw [hlen]
    exact List.drop_left (x :: a1) X
  · intro c
    have hnt : ¬ (x = 9) := by
      have := ha.not_tab
      simpa using this
    simp only [parse_mbchar_col, hchr, List.head?_cons, Option.some.injEq, hnt,
      if_false, ha.not_cntrl, Bool.false_eq_true]

/-- The width of a character shown as itself followed by `X`. -/
theorem width_chars_stable (E : Env) (a X : List Nat) (ha : E.Stable a)
    (n c : Nat) :
    width_chars E (n + 1) (a ++ X) c = width_chars E n X (c + E.mbwidth a) := by
  obtain ⟨b, t, hbt, -, -, hd, hc⟩ := parse_mbchar_stable E a X ha
  rw [hbt]
  simp only [width_chars, hd, hc]

/-- A character shown as itself in front of a plain text gives a plain
text. -/
theorem plain_stable (E : Env) (a X : List Nat) (ha : E.Stable a) (n : Nat)
    (hX : E.Plain n X) : E.Plain (n + 1) (a ++ X) := by
  obtain ⟨b, t, hbt, -, hchr, hd, -⟩ := parse_mbchar_stable E a X ha
  rw [hbt]
  simp only [Env.Plain, hchr, hd]
  exact ⟨ha, hX⟩

/-- The width does not depend on fuel beyond the length of the text. -/
theorem width_chars_fuel (E : Env) (hE : E.WF) :
    ∀ (n m : Nat) (T : List Nat) (c : Nat), T.length ≤ n → T.length ≤ m →
      width_chars E n T c = width_chars E m T c := by
  intro n
  induction n with
  | zero =>
    intro m T c hn _
    have : T = [] := List.length_eq_zero.mp (by omega)
    subst this
    cases m <;> rfl
  | succ n ih =>
    intro m T c hn hm
    cases T with
    | nil => cases m <;> rfl
    | cons b t =>
      obtain ⟨hl1, hl2⟩ := parse_mbchar_len_bounds E hE b t
      simp only [List.length_cons] at hn hm hl2
      obtain ⟨m1, rfl⟩ : ∃ m1, m = m1 + 1 := ⟨m - 1, by omega⟩
      simp only [width_chars]
      apply ih <;> rw [List.length_drop] <;> simp only [List.length_cons] <;> omega

/-- Being plain does not depend on fuel beyond the length of the text. -/
theorem plain_fuel (E : Env) (hE : E.WF) :
    ∀ (n m : Nat) (T : List Nat), T.length ≤ n → T.length ≤ m →
      E.Plain n T → E.Plain m T := by
  intro n
  induction n with
  | zero =>
    intro m T hn _ _
    have : T = [] := List.length_eq_zero.mp (by omega)
    subst this
    cases m <;> trivial
  | succ n ih =>
    intro m T hn hm hp
    cases T with
    | nil => cases m <;> trivial
    | cons b t =>
      obtain ⟨hl1, hl2⟩ := parse_mbchar_len_bounds E hE b t
      simp only [List.length_cons] at hn hm hl2
      obtain ⟨m1, rfl⟩ : ∃ m1, m = m1 + 1 := ⟨m - 1, by omega⟩
      simp only [Env.Plain] at hp ⊢
      refine ⟨hp.1, ih m1 _ ?_ ?_ hp.2⟩ <;> rw [List.length_drop] <;>
        simp only [List.length_cons] <;> omega

/-- A plain text is its own expansion. -/
theorem expand_chars_plain (E : Env) (hE : E.WF) :
    ∀ (n : Nat) (R : List Nat) (c : Nat), E.Plain n R →
      expand_chars E n R c = R := by
  intro n
  induction n with
  | zero =>
    intro R c hp
    cases R with
    | nil => rfl
    | cons b t => exact absurd hp (by simp [Env.Plain])
  | succ n ih =>
    intro R c hp
    cases R with
    | nil => rfl
    | cons b t =>
      simp only [Env.Plain] at hp
      have hhead := parse_mbchar_chr_head E hE b t
      have hnt : ¬ (b = 9) := by
        have := hp.1.not_tab
        rw [hhead] at this
        simpa using this
      simp only [expand_chars, glyph, List.head?_cons, Option.some.injEq, hnt,
        if_false, hp.1.not_cntrl, Bool.false_eq_true, ih _ _ hp.2]
      exact parse_mbchar_chr_append_drop E b t

/-- A plain text is clean. -/
theorem clean_of_plain (E : Env) :
    ∀ (n : Nat) (R : List Nat), E.Plain n R → E.Clean n R := by
  intro n
  induction n with
  | zero =>
    intro R hp
    cases R with
    | nil => trivial
    | cons b t => exact absurd hp (by simp [Env.Plain])
  | succ n ih =>
    intro R hp
    cases R with
    | nil => trivial
    | cons b t =>
      simp only [Env.Plain] at hp
      simp only [Env.Clean]
      exact ⟨Or.inr (Or.inr hp.1), ih _ hp.2⟩

/-- The width of a text is at least the column it starts at. -/
theorem width_chars_ge (E : Env) :
    ∀ (n : Nat) (T : List Nat) (c : Nat), c ≤ width_chars E n T c := by
  intro n
  induction n with
  | zero => intro T c; exact le_refl _
  | succ n ih =>
    intro T c
    cases T with
    | nil => exact le_refl _
    | cons b t =>
      simp only [width_chars]
      exact le_trans (parse_mbchar_col_ge E _ _) (ih _ _)

/-- Spaces in front of a text add one column each. -/
theorem width_chars_spaces (E : Env) (hG : E.Glyphs) :
    ∀ (k n : Nat) (X : List Nat) (c : Nat),
      width_chars E (n + k) (List.replicate k 32 ++ X) c =
        width_chars E n X (c + k) := by
  intro k
  induction k with
  | zero => intro n X c; rfl
  | succ k ih =>
    intro n X c
    have h1 : List.replicate (k + 1) 32 ++ X =
        [32] ++ (List.replicate k 32 ++ X) := rfl
    have hw : E.mbwidth [32] = 1 := hG.space.space_width rfl
    rw [h1, ← Nat.add_assoc, width_chars_stable E [32] _ hG.space, ih, hw]
    congr 1
    omega

/-- Spaces in front of a plain text give a plain text. -/
theorem plain_spaces (E : Env) (hG : E.Glyphs) :
    ∀ (k n : Nat) (X : List Nat), E.Plain n X →
      E.Plain (n + k) (List.replicate k 32 ++ X) := by
  intro k
  induction k with
  | zero => intro n X h; exact h
  | succ k ih =>
    intro n X h
    have h1 : List.replicate (k + 1) 32 ++ X =
        [32] ++ (List.replicate k 32 ++ X) := rfl
    rw [h1, ← Nat.add_assoc]
    exact plain_stable E [32] _ hG.space _ (ih n X h)

/-- One round of the main loop of `display_string` on a clean character
appends the cells `glyph` gives for it and moves the column as
`parse_mbchar` does. -/
theorem display_step_clean (E : Env) (hE : E.WF) (hG : E.Glyphs) (b : Nat)
    (t : List Nat) (c : Nat) (conv : List Nat)
    (hc : b = 9 ∨ E.is_cntrl_mbchar (parse_mbchar_chr E (b :: t)) = true ∨
      E.Stable (parse_mbchar_chr E (b :: t))) :
    display_step E (b :: t) c conv =
      (parse_mbchar_col E (b :: t) c, conv ++ glyph E (b :: t) c) := by
  have hhead := parse_mbchar_chr_head E hE b t
  unfold display_step
  simp only [hhead, Option.some.injEq, parse_mbchar_col, glyph,
    List.head?_cons, hG.whitespace_off, Bool.false_eq_true, if_false]
  by_cases h9 : b = 9
  · simp only [h9, if_true]
    exact tab_fill_tab E.tabsize c conv hE.tabsize_pos
  · simp only [h9, if_false]
    by_cases hctl : E.is_cntrl_mbchar (parse_mbchar_chr E (b :: t)) = true
    · simp only [hctl, if_true, List.append_assoc, List.singleton_append]
    · have hst : E.Stable (parse_mbchar_chr E (b :: t)) := by
        rcases hc with h | h | h
        · exact absurd h h9
        · exact absurd h hctl
        · exact h
      have hsh := hst.shown
      rw [hhead] at hsh
      simp only [Option.some.injEq] at hsh
      simp only [hctl, Bool.false_eq_true, if_false]
      by_cases h32 : b = 32
      · subst h32
        rw [if_pos rfl] at hsh
        have hw := hst.space_width hhead
        simp only [if_true]
        rw [hw, ← hsh]
      · rw [if_neg h32] at hsh
        simp only [h32, if_false, hsh]

/-- The cells of a clean character, read back, are as wide as the
character, whatever follows them. -/
theorem width_chars_glyph (E : Env) (hE : E.WF) (hG : E.Glyphs) (b : Nat)
    (t : List Nat) (c : Nat)
    (hc : b = 9 ∨ E.is_cntrl_mbchar (parse_mbchar_chr E (b :: t)) = true ∨
      E.Stable (parse_mbchar_chr E (b :: t)))
    (X : List Nat) (c0 n m : Nat)
    (hn : (glyph E (b :: t) c ++ X).length ≤ n) (hm : X.length ≤ m) :
    width_chars E n (glyph E (b :: t) c ++ X) c0 =
      width_chars E m X (c0 + (parse_mbchar_col E (b :: t) c - c)) := by
  have hts := hE.tabsize_pos
  have hmod := Nat.mod_lt c hts
  simp only [parse_mbchar_col, glyph, List.head?_cons, Option.some.injEq]
    at hn ⊢
  by_cases h9 : b = 9
  · simp only [h9, if_true, List.length_append, List.length_replicate] at hn ⊢
    obtain ⟨n1, rfl⟩ : ∃ n1, n = n1 + (E.tabsize - c % E.tabsize) :=
      ⟨n - (E.tabsize - c % E.tabsize), by omega⟩
    rw [width_chars_spaces E hG, width_chars_fuel E hE n1 m X _ (by omega) hm]
    congr 1
    omega
  · simp only [h9, if_false] at hn ⊢
    by_cases hctl : E.is_cntrl_mbchar (parse_mbchar_chr E (b :: t)) = true
    · have hs := hG.control _ hctl
      have hl : 1 ≤ (E.control_mbrep (parse_mbchar_chr E (b :: t))).length :=
        List.length_pos.mpr hs.ne_nil
      simp only [hctl, if_true, List.length_append, List.length_cons] at hn ⊢
      obtain ⟨n1, rfl⟩ : ∃ n1, n = n1 + 1 + 1 := ⟨n - 2, by omega⟩
      have h1 : 94 :: E.control_mbrep (parse_mbchar_chr E (b :: t)) ++ X =
          [94] ++ (E.control_mbrep (parse_mbchar_chr E (b :: t)) ++ X) := rfl
      rw [h1, width_chars_stable E [94] _ hG.caret,
        width_chars_stable E _ X hs, hG.caret_width,
        width_chars_fuel E hE n1 m X _ (by omega) hm]
      congr 1
      omega
    · have hst : E.Stable (parse_mbchar_chr E (b :: t)) := by
        rcases hc with h | h | h
        · exact absurd h h9
        · exact absurd h hctl
        · exact h
      have hl : 1 ≤ (parse_mbchar_chr E (b :: t)).length :=
        List.length_pos.mpr hst.ne_nil
      simp only [hctl, Bool.false_eq_true, if_false, List.length_append]
        at hn ⊢
      obtain ⟨n1, rfl⟩ : ∃ n1, n = n1 + 1 := ⟨n - 1, by omega⟩
      rw [width_chars_stable E _ X hst,
        width_chars_fuel E hE n1 m X _ (by omega) hm]
      congr 1
      omega

/-- The cells of a clean character in front of a plain text give a plain
text. -/
theorem plain_glyph (E : Env) (hE : E.WF) (hG : E.Glyphs) (b : Nat)
    (t : List Nat) (c : Nat)
    (hc : b = 9 ∨ E.is_cntrl_mbchar (parse_mbchar_chr E (b :: t)) = true ∨
      E.Stable (parse_mbchar_chr E (b :: t)))
    (X : List Nat) (n m : Nat) (hX : E.Plain m X) (hm : X.length ≤ m)
    (hn : (glyph E (b :: t) c ++ X).length ≤ n) :
    E.Plain n (glyph E (b :: t) c ++ X) := by
  simp only [glyph, List.head?_cons, Option.some.injEq] at hn ⊢
  by_cases h9 : b = 9
  · simp only [h9, if_true, List.length_append, List.length_replicate] at hn ⊢
    obtain ⟨n1, rfl⟩ : ∃ n1, n = n1 + (E.tabsize - c % E.tabsize) :=
      ⟨n - (E.tabsize - c % E.tabsize), by omega⟩
    exact plain_spaces E hG _ n1 X (plain_fuel E hE m n1 X hm (by omega) hX)
  · simp only [h9, if_false] at hn ⊢
    by_cases hctl : E.is_cntrl_mbchar (parse_mbchar_chr E (b :: t)) = true
    · have hs := hG.control _ hctl
      have hl : 1 ≤ (E.control_mbrep (parse_mbchar_chr E (b :: t))).length :=
        List.length_pos.mpr hs.ne_nil
      simp only [hctl, if_true, List.length_append, List.length_cons] at hn ⊢
      obtain ⟨n1, rfl⟩ : ∃ n1, n = n1 + 1 + 1 := ⟨n - 2, by omega⟩
      have h1 : 94 :: E.control_mbrep (parse_mbchar_chr E (b :: t)) ++ X =
          [94] ++ (E.control_mbrep (parse_mbchar_chr E (b :: t)) ++ X) := rfl
      rw [h1]
      exact plain_stable E [94] _ hG.caret _
        (plain_stable E _ X hs _ (plain_fuel E hE m n1 X hm (by omega) hX))
    · have hst : E.Stable (parse_mbchar_chr E (b :: t)) := by
        rcases hc with h | h | h
        · exact absurd h h9
        · exact absurd h hctl
        · exact h
      have hl : 1 ≤ (parse_mbchar_chr E (b :: t)).length :=
        List.length_pos.mpr hst.ne_nil
      simp only [hctl, Bool.false_eq_true, if_false, List.length_append]
        at hn ⊢
      obtain ⟨n1, rfl⟩ : ∃ n1, n = n1 + 1 := ⟨n - 1, by omega⟩
      exact plain_stable E _ X hst _ (plain_fuel E hE m n1 X hm (by omega) hX)

/-- On a clean text whose expansion leaves room in `converted`, the main
loop of `display_string` appends `expand_chars` of the remaining text and
writes nothing past the allocation. -/
theorem display_loop_clean (E : Env) (hE : E.WF) (hG : E.Glyphs) :
    ∀ (n : Nat) (T : List Nat) (c : Nat) (conv : List Nat), T.length ≤ n →
      E.Clean n T →
      conv.length + (expand_chars E n T c).length <
        E.mb_cur_max * (E.COLS + 1) - 1 →
      display_loop E n T c conv = some (conv ++ expand_chars E n T c) := by
  intro n
  induction n with
  | zero =>
    intro T c conv hn _ _
    have : T = [] := List.length_eq_zero.mp (by omega)
    subst this
    simp [display_loop, expand_chars]
  | succ n ih =>
    intro T c conv hn hcl hcap
    cases T with
    | nil => simp [display_loop, expand_chars]
    | cons b t =>
      obtain ⟨hl1, hl2⟩ := parse_mbchar_len_bounds E hE b t
      simp only [Env.Clean] at hcl
      obtain ⟨hc, hcl1⟩ := hcl
      simp only [expand_chars, List.length_append] at hcap
      have hdrop : ((b :: t).drop (parse_mbchar_len E (b :: t))).length ≤ n := by
        rw [List.length_drop]
        simp only [List.length_cons] at hn hl2 ⊢
        omega
      simp only [display_loop]
      rw [if_pos ⟨by omega, by simp⟩, display_step_clean E hE hG b t c conv hc]
      dsimp only
      rw [if_pos (by rw [List.length_append]; omega),
        ih _ _ _ hdrop hcl1 (by rw [List.length_append]; omega)]
      simp only [expand_chars, List.append_assoc]

/-- The expansion of a clean text, read back, is as wide as the text. -/
theorem width_chars_expand (E : Env) (hE : E.WF) (hG : E.Glyphs) :
    ∀ (f : Nat) (T : List Nat) (c : Nat), T.length ≤ f → E.Clean f T →
      ∀ (n c0 : Nat), (expand_chars E f T c).length ≤ n →
        width_chars E n (expand_chars E f T c) c0 =
          c0 + (width_chars E f T c - c) := by
  intro f
  induction f with
  | zero =>
    intro T c _ _ n c0 _
    cases n <;> simp [expand_chars, width_chars]
  | succ f ih =>
    intro T c hf hcl n c0 hn
    cases T with
    | nil => cases n <;> simp [expand_chars, width_chars]
    | cons b t =>
      obtain ⟨hl1, hl2⟩ := parse_mbchar_len_bounds E hE b t
      simp only [Env.Clean] at hcl
      obtain ⟨hc, hcl1⟩ := hcl
      have hgt := parse_mbchar_col_ge E (b :: t) c
      have hge := width_chars_ge E f
        ((b :: t).drop (parse_mbchar_len E (b :: t)))
        (parse_mbchar_col E (b :: t) c)
      have hdrop : ((b :: t).drop (parse_mbchar_len E (b :: t))).length ≤ f := by
        rw [List.length_drop]
        simp only [List.length_cons] at hf hl2 ⊢
        omega
      simp only [expand_chars, width_chars] at hn ⊢
      rw [width_chars_glyph E hE hG b t c hc _ c0 n _ hn (le_refl _),
        ih _ _ hdrop hcl1 _ _ (le_refl _)]
      omega

/-- The expansion of a clean text is plain. -/
theorem plain_expand (E : Env) (hE : E.WF) (hG : E.Glyphs) :
    ∀ (f : Nat) (T : List Nat) (c : Nat), T.length ≤ f → E.Clean f T →
      ∀ n : Nat, (expand_chars E f T c).length ≤ n →
        E.Plain n (expand_chars E f T c) := by
  intro f
  induction f with
  | zero =>
    intro T c _ _ n _
    cases n <;> simp [expand_chars, Env.Plain]
  | succ f ih =>
    intro T c hf hcl n hn
    cases T with
    | nil => cases n <;> simp [expand_chars, Env.Plain]
    | cons b t =>
      obtain ⟨hl1, hl2⟩ := parse_mbchar_len_bounds E hE b t
      simp only [Env.Clean] at hcl
      obtain ⟨hc, hcl1⟩ := hcl
      have hdrop : ((b :: t).drop (parse_mbchar_len E (b :: t))).length ≤ f := by
        rw [List.length_drop]
        simp only [List.length_cons] at hf hl2 ⊢
        omega
      simp only [expand_chars] at hn ⊢
      exact plain_glyph E hE hG b t c hc _ n _
        (ih _ _ hdrop hcl1 _ (le_refl _)) (le_refl _) hn

/-- Over the whole text `strnlenpt_loop` computes `width_chars`. -/
theorem strnlenpt_loop_eq_width (E : Env) (hE : E.WF) :
    ∀ (n : Nat) (T : List Nat) (size c : Nat), T.length ≤ n →
      T.length ≤ size → 0 < size →
      strnlenpt_loop E n T size c = width_chars E n T c := by
  intro n
  induction n with
  | zero =>
    intro T size c hn _ _
    have : T = [] := List.length_eq_zero.mp (by omega)
    subst this
    rfl
  | succ n ih =>
    intro T size c hn hs hpos
    cases T with
    | nil => rfl
    | cons b t =>
      obtain ⟨hl1, hl2⟩ := parse_mbchar_len_bounds E hE b t
      simp only [List.length_cons] at hn hs hl2
      rw [strnlenpt_loop_succ _ _ _ _ _ (by simp)]
      simp only [width_chars]
      by_cases h1 : size ≤ parse_mbchar_len E (b :: t)
      · rw [if_pos h1]
        have hnil : (b :: t).drop (parse_mbchar_len E (b :: t)) = [] := by
          apply List.drop_eq_nil_of_le
          simp only [List.length_cons]
          omega
        rw [hnil]
        cases n <;> rfl
      · rw [if_neg h1]
        apply ih
        · rw [List.length_drop]; simp only [List.length_cons]; omega
        · rw [List.length_drop]; simp only [List.length_cons]; omega
        · omega

/-- The function `strlenpt` of a text that fits in memory is its
`width_chars`. -/
theorem strlenpt_eq_width (E : Env) (hE : E.WF) (T : List Nat)
    (hT : T.length ≤ SIZE_MAX) :
    strlenpt E T = width_chars E T.length T 0 := by
  unfold strlenpt strnlenpt
  rw [if_neg (by decide)]
  exact strnlenpt_loop_eq_width E hE _ T _ 0 (le_refl _) hT (by decide)

/-- Rendering a whole clean line that does not start with a character of no
width, and whose expansion leaves room in `converted`, gives
`expand_chars`. -/
theorem display_string_clean (E : Env) (hE : E.WF) (hG : E.Glyphs)
    (T : List Nat) (hcl : E.Clean T.length T)
    (hfirst : T ≠ [] → 0 < parse_mbchar_col E T 0)
    (hfit : (expand_chars E T.length T 0).length <
      E.mb_cur_max * (E.COLS + 1) - 1) :
    display_string E T 0 (width_chars E T.length T 0) false =
      some (expand_chars E T.length T 0) := by
  cases T with
  | nil => simp [display_string, display_len, width_chars, expand_chars]
  | cons b t =>
    have hgt := hfirst (by simp)
    have hge := width_chars_ge E t.length
      ((b :: t).drop (parse_mbchar_len E (b :: t)))
      (parse_mbchar_col E (b :: t) 0)
    have hpos : width_chars E (b :: t).length (b :: t) 0 ≠ 0 := by
      simp only [List.length_cons, width_chars]; omega
    have hax : actual_x E (b :: t) 0 = 0 := by
      simp only [actual_x, List.length_cons, actual_x_loop]
      rw [if_pos hgt]
    have hconv : display_converted E (b :: t) 0 false =
        some (expand_chars E (b :: t).length (b :: t) 0) := by
      simp only [display_converted, hax, List.drop_zero]
      have hs : strnlenpt E (b :: t) 0 = 0 := by
        simp [strnlenpt]
      have hf : display_first E (b :: t) 0 0 false = (0, 0, []) := by
        simp [display_first]
      rw [hs, hf]
      simp only [List.drop_zero, List.length_nil, Nat.zero_le, if_true]
      rw [display_loop_clean E hE hG _ _ _ _ (le_refl _) hcl
        (by simpa using hfit)]
      rfl
    have hwid := width_chars_expand E hE hG (b :: t).length (b :: t) 0
      (le_refl _) hcl (expand_chars E (b :: t).length (b :: t) 0).length 0
      (le_refl _)
    have hfull : actual_x E (expand_chars E (b :: t).length (b :: t) 0)
        (width_chars E (b :: t).length (b :: t) 0) =
        (expand_chars E (b :: t).length (b :: t) 0).length := by
      have hl := actual_x_spec E hE
        (expand_chars E (b :: t).length (b :: t) 0)
        (width_chars E (b :: t).length (b :: t) 0)
      apply le_antisymm hl.1
      apply hl.2.2 _ (le_refl _)
      unfold strnlenpt
      split_ifs with h0
      · exact Nat.zero_le _
      · rw [strnlenpt_loop_eq_width E hE _ _ _ 0 (le_refl _) (le_refl _)
          (by omega), hwid]
        omega
    simp only [display_string, display_len, Bool.false_eq_true, false_and,
      if_false, hpos, hconv, hfull, List.take_length]
    rw [if_pos (Or.inl hfit)]

/-- The expansion of a clean text starts with a character that takes a
column when the text does. -/
theorem expand_chars_first (E : Env) (hE : E.WF) (hG : E.Glyphs) (b : Nat)
    (t X : List Nat)
    (hc : b = 9 ∨ E.is_cntrl_mbchar (parse_mbchar_chr E (b :: t)) = true ∨
      E.Stable (parse_mbchar_chr E (b :: t)))
    (hpos : 0 < parse_mbchar_col E (b :: t) 0) :
    glyph E (b :: t) 0 ++ X ≠ [] ∧
      0 < parse_mbchar_col E (glyph E (b :: t) 0 ++ X) 0 := by
  have hhead := parse_mbchar_chr_head E hE b t
  have hts := hE.tabsize_pos
  by_cases h9 : b = 9
  · have hg : glyph E (b :: t) 0 =
        [32] ++ List.replicate (E.tabsize - 1) 32 := by
      simp only [glyph, List.head?_cons, h9, if_true, Nat.zero_mod,
        Nat.sub_zero]
      obtain ⟨k, hk⟩ : ∃ k, E.tabsize = k + 1 := ⟨E.tabsize - 1, by omega⟩
      rw [hk]
      rfl
    obtain ⟨x, y, hxy, -, -, -, hcol⟩ :=
      parse_mbchar_stable E [32] (List.replicate (E.tabsize - 1) 32 ++ X)
        hG.space
    rw [hg, List.append_assoc, hxy, hcol 0, hG.space.space_width rfl]
    exact ⟨by simp, by omega⟩
  · by_cases hctl : E.is_cntrl_mbchar (parse_mbchar_chr E (b :: t)) = true
    · have hg : glyph E (b :: t) 0 =
          [94] ++ E.control_mbrep (parse_mbchar_chr E (b :: t)) := by
        simp only [glyph, List.head?_cons, Option.some.injEq, h9, if_false,
          hctl, if_true, List.singleton_append]
      obtain ⟨x, y, hxy, -, -, -, hcol⟩ :=
        parse_mbchar_stable E [94]
          (E.control_mbrep (parse_mbchar_chr E (b :: t)) ++ X) hG.caret
      rw [hg, List.append_assoc, hxy, hcol 0, hG.caret_width]
      exact ⟨by simp, by omega⟩
    · have hst : E.Stable (parse_mbchar_chr E (b :: t)) := by
        rcases hc with h | h | h
        · exact absurd h h9
        · exact absurd h hctl
        · exact h
      have hg : glyph E (b :: t) 0 = parse_mbchar_chr E (b :: t) := by
        simp only [glyph, List.head?_cons, Option.some.injEq, h9, if_false,
          hctl, Bool.false_eq_true]
      have hw : parse_mbchar_col E (b :: t) 0 =
          0 + E.mbwidth (parse_mbchar_chr E (b :: t)) := by
        simp only [parse_mbchar_col, List.head?_cons, Option.some.injEq, h9,
          if_false, hctl, Bool.false_eq_true]
      obtain ⟨x, y, hxy, -, -, -, hcol⟩ :=
        parse_mbchar_stable E (parse_mbchar_chr E (b :: t)) X hst
      rw [hg, hxy, hcol 0, ← hw]
      exact ⟨by simp, hpos⟩

/-- The single-byte locale meets `Env.Glyphs`. -/
theorem byte_env_Glyphs (ts C : Nat) : (byte_env ts C).Glyphs where
  whitespace_off := rfl
  space :=
    { ne_nil := by simp
      mblen_eq := fun _ => rfl
      not_tab := by decide
      not_cntrl := by simp [byte_env, is_cntrl_char]
      shown := rfl
      space_width := fun _ => rfl }
  caret :=
    { ne_nil := by simp
      mblen_eq := fun _ => rfl
      not_tab := by decide
      not_cntrl := by simp [byte_env, is_cntrl_char]
      shown := rfl
      space_width := fun _ => rfl }
  caret_width := rfl
  control := fun chr hc => by
    have hc1 : is_cntrl_char (chr.headD 0) = true := hc
    have hb : chr.headD 0 < 160 := by
      simp only [is_cntrl_char, decide_eq_true_eq] at hc1
      omega
    obtain ⟨h9, hn⟩ := control_rep_plain (chr.headD 0) hb hc1
    exact
      { ne_nil := by simp [byte_env]
        mblen_eq := fun _ => rfl
        not_tab := by simpa [byte_env] using h9
        not_cntrl := hn
        shown := by
          show (if [control_rep (chr.headD 0)].head? = some 32 then [32]
            else [control_rep (chr.headD 0)].take 1) = [control_rep (chr.headD 0)]
          split_ifs with h32
          · simp only [List.head?_cons, Option.some.injEq] at h32
            rw [h32]
          · rfl
        space_width := fun _ => rfl }

/-- In the single-byte locale every text is clean. -/
theorem byte_env_Clean (ts C : Nat) :
    ∀ (n : Nat) (T : List Nat), T.length ≤ n → (byte_env ts C).Clean n T := by
  intro n
  induction n with
  | zero =>
    intro T hn
    have : T = [] := List.length_eq_zero.mp (by omega)
    subst this
    trivial
  | succ n ih =>
    intro T hn
    cases T with
    | nil => trivial
    | cons b t =>
      simp only [List.length_cons] at hn
      simp only [Env.Clean]
      refine ⟨?_, ih t (by omega)⟩
      by_cases h9 : b = 9
      · exact Or.inl h9
      by_cases hc : is_cntrl_char b = true
      · exact Or.inr (Or.inl hc)
      · refine Or.inr (Or.inr ?_)
        exact
          { ne_nil := by simp [parse_mbchar_chr, byte_env]
            mblen_eq := fun _ => rfl
            not_tab := by simpa [parse_mbchar_chr, byte_env] using h9
            not_cntrl := by simpa [parse_mbchar_chr, byte_env] using hc
            shown := by
              show (if [b].head? = some 32 then [32] else [b].take 1) = [b]
              split_ifs with h32
              · simp only [List.head?_cons, Option.some.injEq] at h32
                rw [h32]
              · rfl
            space_width := fun _ => rfl }

/-- The offset `actual_x` finds for fewer columns than a string takes lies
before the end of the string. -/
theorem actual_x_lt_length (E : Env) (hE : E.WF) (str : List Nat)
    (xplus : Nat) (hlen : str.length ≤ SIZE_MAX)
    (h : xplus < strlenpt E str) : actual_x E str xplus < str.length := by
  have hs := actual_x_spec E hE str xplus
  by_contra hcon
  have heq : actual_x E str xplus = str.length := by omega
  have h2 := hs.2.1
  rw [heq] at h2
  have h3 : strnlenpt E str str.length = strlenpt E str := by
    by_cases h0 : str.length = 0
    · have : str = [] := List.length_eq_zero.mp h0
      subst this
      simp [strlenpt, strnlenpt, strnlenpt_loop]
    · unfold strlenpt strnlenpt
      rw [if_neg h0, if_neg (by decide),
        strnlenpt_loop_eq_width E hE _ _ _ 0 (le_refl _) (le_refl _)
          (by omega),
        strnlenpt_loop_eq_width E hE _ _ _ 0 (le_refl _) hlen (by decide)]
  omega

/-- In a single-byte locale one round of the main loop of `display_string`
on a byte that is no tab writes at most two bytes. -/
theorem display_step_byte_length (ts C b : Nat) (t : List Nat) (c : Nat)
    (conv : List Nat) (h9 : b ≠ 9) :
    (display_step (byte_env ts C) (b :: t) c conv).2.length ≤
      conv.length + 2 := by
  simp only [display_step, byte_env, parse_mbchar_chr, List.take_succ_cons,
    List.take_zero, List.head?_cons, Option.some.injEq, h9, if_false,
    List.headD_cons, Bool.false_eq_true]
  split_ifs <;> simp

/-- In a single-byte locale the main loop of `display_string` on a text
without tabs never writes past the allocation. -/
theorem display_loop_byte (ts C : Nat) :
    ∀ (fuel : Nat) (buf : List Nat) (c : Nat) (conv : List Nat),
      9 ∉ buf → conv.length ≤ C + 2 →
      ∃ r, display_loop (byte_env ts C) fuel buf c conv = some r ∧
        r.length ≤ C + 2 := by
  intro fuel
  induction fuel with
  | zero => intro buf c conv _ h; exact ⟨conv, rfl, h⟩
  | succ fuel ih =>
    intro buf c conv hnt hl
    have hm : (byte_env ts C).mb_cur_max * ((byte_env ts C).COLS + 1) =
        C + 1 := by
      show 1 * (C + 1) = C + 1
      omega
    rw [display_loop, hm]
    by_cases h1 : conv.length < C + 1 - 1 ∧ buf ≠ []
    · rw [if_pos h1]
      obtain ⟨b, t, rfl⟩ : ∃ b t, buf = b :: t := by
        cases buf with
        | nil => exact absurd rfl h1.2
        | cons b t => exact ⟨b, t, rfl⟩
      have h9 : b ≠ 9 := fun h => hnt (by simp [h])
      have hs := display_step_byte_length ts C b t c conv h9
      have hc := h1.1
      dsimp only
      rw [if_pos (by omega)]
      exact ih _ _ _ (fun hm => hnt (List.mem_of_mem_drop hm)) (by omega)
    · rw [if_neg h1]
      exact ⟨conv, rfl, hl⟩

/-- In a single-byte locale `display_string` defines what it returns for
every text without tabs when fewer than `COLS` columns are asked for, as
they are when `update_line` keeps a column for the `$`. -/
theorem display_string_defined_byte (ts C : Nat) (hts : 0 < ts)
    (hC : C + 2 ≤ SIZE_MAX) (buf : List Nat) (start_col len : Nat)
    (dollars : Bool) (hnt : 9 ∉ buf)
    (hlen : display_len (byte_env ts C) buf start_col len dollars < C) :
    ∃ r, display_string (byte_env ts C) buf start_col len dollars = some r
      := by
  have hE := byte_env_WF ts C hts
  simp only [display_string]
  split_ifs with h0
  · exact ⟨[], rfl⟩
  · have hfirst : ∀ (rest : List Nat) (column : Nat),
        (display_first (byte_env ts C) rest column start_col dollars
          ).2.2.length ≤ 1 := by
      intro rest column
      simp only [display_first]
      split_ifs <;> simp [byte_env]
    have hconv : ∃ r, display_converted (byte_env ts C) buf start_col dollars
        = some r ∧ r.length ≤ C + 2 := by
      simp only [display_converted]
      have h1 := hfirst (buf.drop (actual_x (byte_env ts C) buf start_col))
        (strnlenpt (byte_env ts C) buf
          (actual_x (byte_env ts C) buf start_col))
      have hm : (byte_env ts C).mb_cur_max * ((byte_env ts C).COLS + 1) =
          C + 1 := by
        show 1 * (C + 1) = C + 1
        omega
      rw [hm, if_pos (by omega)]
      exact display_loop_byte ts C _ _ _ _
        (fun hm => hnt (List.mem_of_mem_drop (List.mem_of_mem_drop hm)))
        (by omega)
    obtain ⟨r, hr, hrl⟩ := hconv
    rw [hr]
    simp only
    have hm : (byte_env ts C).mb_cur_max * ((byte_env ts C).COLS + 1) =
        C + 1 := by
      show 1 * (C + 1) = C + 1
      omega
    rw [hm]
    by_cases ht : r.length < C + 1 - 1
    · rw [if_pos (Or.inl ht)]
      exact ⟨_, rfl⟩
    · have hge : C ≤ r.length := by omega
      have hw : r.length ≤ strlenpt (byte_env ts C) r := by
        have := strnlenpt_loop_byte_ge ts C hts r.length r SIZE_MAX 0
          (le_refl _) (by decide)
        unfold strlenpt strnlenpt
        rw [if_neg (by decide)]
        rw [Nat.min_eq_right (by omega)] at this
        omega
      rw [if_pos (Or.inr (actual_x_lt_length _ hE r _ (by omega) (by omega)))]
      exact ⟨_, rfl⟩

/-- A write past the end of `converted`.  In a window of 82 columns with tab
size 8, a line of 81 letters and a tab: `converted` has 84 bytes, the loop
still runs at `index` 81, and the tab writes the seven spaces up to column
88, four of them past the allocation. -/
theorem display_string_overrun :
    display_converted (byte_env 8 82) (List.replicate 81 97 ++ [9]) 0 true =
      none ∧
    display_string (byte_env 8 82) (List.replicate 81 97 ++ [9]) 0 82 true =
      none := by
  set_option maxRecDepth 100000 in
  decide

/-- In UTF-8 a byte below 194 is a character by itself, whatever follows
it. -/
theorem utf8_len_single (b : Nat) (rest : List Nat) (h : b < 194) :
    utf8_len (b :: rest) = 1 := by
  have h1 : ¬ 194 ≤ b := by omega
  have h2 : ¬ 224 ≤ b := by omega
  have h3 : ¬ 240 ≤ b := by omega
  rcases rest with _ | ⟨a1, _ | ⟨a2, _ | ⟨a3, r⟩⟩⟩ <;>
    simp [utf8_len, h1, h2, h3]

/-- In UTF-8 a lead byte 194..223 and a continuation byte are a character of
two bytes, whatever follows them. -/
theorem utf8_len_two (b0 b1 : Nat) (rest : List Nat)
    (h0 : 194 ≤ b0 ∧ b0 ≤ 223) (h1 : b1 / 64 = 2) :
    utf8_len (b0 :: b1 :: rest) = 2 := by
  rcases rest with _ | ⟨a2, _ | ⟨a3, r⟩⟩ <;> simp [utf8_len, h0, h1]

/-- In the UTF-8 locale a byte from 32 to 126 is a character shown as
itself. -/
theorem utf8_env_Stable_single (ts C b : Nat) (h : 32 ≤ b ∧ b < 127) :
    (utf8_env ts C).Stable [b] where
  ne_nil := by simp
  mblen_eq := fun rest => utf8_len_single b rest (by omega)
  not_tab := by
    simp only [List.head?_cons, ne_eq, Option.some.injEq]
    omega
  not_cntrl := by
    simp only [utf8_env, utf8_code, List.headD_cons, is_cntrl_char,
      decide_eq_false_iff_not]
    omega
  shown := by
    show (if [b].head? = some 32 then [32] else [b]) = [b]
    split_ifs with h32
    · simp only [List.head?_cons, Option.some.injEq] at h32
      rw [h32]
    · rfl
  space_width := by
    intro h32
    simp only [List.head?_cons, Option.some.injEq] at h32
    subst h32
    rfl

/-- In the UTF-8 locale a well-formed character of two bytes that is no
control character is shown as itself. -/
theorem utf8_env_Stable_two (ts C b0 b1 : Nat)
    (h0 : 194 ≤ b0 ∧ b0 ≤ 223) (h1 : 128 ≤ b1 ∧ b1 < 192)
    (hc : ¬ (b0 = 194 ∧ b1 < 160)) :
    (utf8_env ts C).Stable [b0, b1] where
  ne_nil := by simp
  mblen_eq := fun rest => utf8_len_two b0 b1 rest h0 (by omega)
  not_tab := by
    simp only [List.head?_cons, ne_eq, Option.some.injEq]
    omega
  not_cntrl := by
    simp only [utf8_env, utf8_code, is_cntrl_char, decide_eq_false_iff_not]
    omega
  shown := by
    show (if [b0, b1].head? = some 32 then [32] else [b0, b1]) = [b0, b1]
    rw [if_neg]
    simp only [List.head?_cons, Option.some.injEq]
    omega
  space_width := by
    intro h32
    simp only [List.head?_cons, Option.some.injEq] at h32
    omega

/-- The UTF-8 locale meets `Env.Glyphs`. -/
theorem utf8_env_Glyphs (ts C : Nat) : (utf8_env ts C).Glyphs where
  whitespace_off := rfl
  space := utf8_env_Stable_single ts C 32 (by decide)
  caret := utf8_env_Stable_single ts C 94 (by decide)
  caret_width := rfl
  control := fun chr hc => by
    have hc1 : is_cntrl_char (utf8_code chr) = true := hc
    simp only [is_cntrl_char, decide_eq_true_eq] at hc1
    show (utf8_env ts C).Stable (utf8_encode (control_rep (utf8_code chr)))
    generalize utf8_code chr = n at hc1
    by_cases hlow : n < 32 ∨ n = 127
    · have hr : 32 ≤ control_rep n ∧ control_rep n < 127 := by
        unfold control_rep
        split_ifs <;> omega
      have he : utf8_encode (control_rep n) = [control_rep n] := by
        unfold utf8_encode
        rw [if_pos (by omega)]
      rw [he]
      exact utf8_env_Stable_single ts C _ hr
    · have hr : control_rep n = n + 64 := by
        unfold control_rep
        rw [if_neg (by omega), if_neg (by omega)]
        omega
      have he : utf8_encode (control_rep n) = [195, n] := by
        unfold utf8_encode
        rw [hr, if_neg (by omega)]
        have e1 : 192 + (n + 64) / 64 = 195 := by omega
        have e2 : 128 + (n + 64) % 64 = n := by omega
        rw [e1, e2]
      rw [he]
      exact utf8_env_Stable_two ts C 195 n (by decide) (by omega) (by omega)

/-- C4 (counterexample): rendering a whole line does not always give the
expanded text.  With `WHITESPACE_DISPLAY` on, a tab begins with the tab
glyph instead of a space and rendering the result again changes it.  In a
UTF-8 locale a line that starts with the zero-width mark U+0301 loses that
mark.  And a line of 30 letters on a 20-column screen stops the loop at the
capacity of `converted`, which is left unterminated while `actual_x` reads on
for the 30 columns asked for: what is returned is not defined by the
line. -/
theorem display_string_not_expand :
    strlenpt (byte_env_whitespace 8 80) [9] = 8 ∧
    display_string (byte_env_whitespace 8 80) [9] 0 8 false =
      some [187, 32, 32, 32, 32, 32, 32, 32] ∧
    display_string (byte_env_whitespace 8 80)
        [187, 32, 32, 32, 32, 32, 32, 32] 0 8 false =
      some [187, 183, 183, 183, 183, 183, 183, 183] ∧
    display_string (utf8_env 8 80) [204, 129, 101] 0
        (strlenpt (utf8_env 8 80) [204, 129, 101]) false = some [101] ∧
    strlenpt (byte_env 8 20) (List.replicate 30 97) = 30 ∧
    display_string (byte_env 8 20) (List.replicate 30 97) 0 30 false =
      none := by
  set_option maxRecDepth 100000 in
  decide

/-- C4 (amended): with `WHITESPACE_DISPLAY` off and the space, the caret and
the visible forms of the control characters shown as themselves, for every
text `T` made of tabs, control characters and characters that are shown as
themselves, which does not begin with a character of no width and whose
expansion is shorter than `mb_cur_max * (COLS + 1) - 1` bytes, and with
`w = strlenpt(T)`: `display_string(T, 0, w, false)` returns `R`, which is
`T` with every tab expanded to spaces up to the next tab stop and every
control character replaced by its `^X` form; `R` is `w` columns wide; and
rendering `R` again returns `R`. -/
theorem display_string_render (E : Env) (hE : E.WF) (hG : E.Glyphs)
    (T : List Nat) (hT : T.length ≤ SIZE_MAX) (hcl : E.Clean T.length T)
    (hfirst : T ≠ [] → 0 < parse_mbchar_col E T 0)
    (hfit : (expand_chars E T.length T 0).length <
      E.mb_cur_max * (E.COLS + 1) - 1)
    (hcap : E.mb_cur_max * (E.COLS + 1) ≤ SIZE_MAX) :
    display_string E T 0 (strlenpt E T) false =
        some (expand_chars E T.length T 0) ∧
      strlenpt E (expand_chars E T.length T 0) = strlenpt E T ∧
      display_string E (expand_chars E T.length T 0) 0 (strlenpt E T) false =
        some (expand_chars E T.length T 0) := by
  have hwid := strlenpt_eq_width E hE T hT
  rw [hwid]
  have hR := display_string_clean E hE hG T hcl hfirst hfit
  have hRw := width_chars_expand E hE hG T.length T 0 (le_refl _) hcl
    (expand_chars E T.length T 0).length 0 (le_refl _)
  have hRplain := plain_expand E hE hG T.length T 0 (le_refl _) hcl
    (expand_chars E T.length T 0).length (le_refl _)
  have hbytes : (expand_chars E T.length T 0).length ≤ SIZE_MAX := by omega
  have hRs : strlenpt E (expand_chars E T.length T 0) =
      width_chars E T.length T 0 := by
    rw [strlenpt_eq_width E hE _ hbytes, hRw]
    omega
  have hRx : expand_chars E (expand_chars E T.length T 0).length
      (expand_chars E T.length T 0) 0 = expand_chars E T.length T 0 :=
    expand_chars_plain E hE _ _ 0 hRplain
  have hRfirst : expand_chars E T.length T 0 ≠ [] →
      0 < parse_mbchar_col E (expand_chars E T.length T 0) 0 := by
    intro _
    cases T with
    | nil => simp [expand_chars] at *
    | cons b t =>
      have hcl0 := hcl
      simp only [List.length_cons, Env.Clean] at hcl0
      simp only [List.length_cons, expand_chars]
      exact (expand_chars_first E hE hG b t _ hcl0.1 (hfirst (by simp))).2
  refine ⟨hR, hRs, ?_⟩
  have h2 := display_string_clean E hE hG (expand_chars E T.length T 0)
    (clean_of_plain E _ _ hRplain) hRfirst (by rw [hRx]; exact hfit)
  rw [hRw, hRx] at h2
  simpa using h2

/-- C4 (witness): in a UTF-8 locale, the text `e`, the combining mark U+0301,
tab, Ctrl-A with tab size 8 on an 80-column screen: the mark stays after the
`e`, the tab becomes seven spaces and Ctrl-A becomes `^A`; and in a
single-byte locale the text `a`, tab, Ctrl-A, `b`, space, DEL. -/
theorem display_string_render_witness :
    display_string (utf8_env 8 80) [101, 204, 129, 9, 1] 0
        (strlenpt (utf8_env 8 80) [101, 204, 129, 9, 1]) false =
      some [101, 204, 129, 32, 32, 32, 32, 32, 32, 32, 94, 65] ∧
    strlenpt (utf8_env 8 80)
        [101, 204, 129, 32, 32, 32, 32, 32, 32, 32, 94, 65] =
      strlenpt (utf8_env 8 80) [101, 204, 129, 9, 1] ∧
    display_string (utf8_env 8 80)
        [101, 204, 129, 32, 32, 32, 32, 32, 32, 32, 94, 65] 0
        (strlenpt (utf8_env 8 80) [101, 204, 129, 9, 1]) false =
      some [101, 204, 129, 32, 32, 32, 32, 32, 32, 32, 94, 65] ∧
    display_string (byte_env 8 80) [97, 9, 1, 98, 32, 127] 0
        (strlenpt (byte_env 8 80) [97, 9, 1, 98, 32, 127]) false =
      some [97, 32, 32, 32, 32, 32, 32, 32, 94, 65, 98, 32, 94, 63] :=
  ⟨(display_string_render (utf8_env 8 80) (utf8_env_WF 8 80 (by decide))
      (utf8_env_Glyphs 8 80) [101, 204, 129, 9, 1] (by decide)
      ⟨Or.inr (Or.inr (utf8_env_Stable_single 8 80 101 (by decide))),
        Or.inr (Or.inr (utf8_env_Stable_two 8 80 204 129 (by decide)
          (by decide) (by decide))),
        Or.inl rfl, Or.inr (Or.inl rfl), trivial⟩
      (fun _ => by decide) (by decide) (by decide)).1,
    (display_string_render (utf8_env 8 80) (utf8_env_WF 8 80 (by decide))
      (utf8_env_Glyphs 8 80) [101, 204, 129, 9, 1] (by decide)
      ⟨Or.inr (Or.inr (utf8_env_Stable_single 8 80 101 (by decide))),
        Or.inr (Or.inr (utf8_env_Stable_two 8 80 204 129 (by decide)
          (by decide) (by decide))),
        Or.inl rfl, Or.inr (Or.inl rfl), trivial⟩
      (fun _ => by decide) (by decide) (by decide)).2.1,
    (display_string_render (utf8_env 8 80) (utf8_env_WF 8 80 (by decide))
      (utf8_env_Glyphs 8 80) [101, 204, 129, 9, 1] (by decide)
      ⟨Or.inr (Or.inr (utf8_env_Stable_single 8 80 101 (by decide))),
        Or.inr (Or.inr (utf8_env_Stable_two 8 80 204 129 (by decide)
          (by decide) (by decide))),
        Or.inl rfl, Or.inr (Or.inl rfl), trivial⟩
      (fun _ => by decide) (by decide) (by decide)).2.2,
    (display_string_render (byte_env 8 80) (byte_env_WF 8 80 (by decide))
      (byte_env_Glyphs 8 80) [97, 9, 1, 98, 32, 127] (by decide)
      (byte_env_Clean 8 80 _ _ (le_refl _)) (fun _ => by decide) (by decide)
      (by decide)).1⟩

/-! ## Theorems: decoder states, literals and tables -/

/-- C11: in the one-escape state, when the codes buffered after the ESC (two
or more, the first an ordinary code that `parse_kbinput` hands to the
escape arm) are neither a recognised nor an ignored escape sequence,
`parse_kbinput` returns no key (`ERR`), resets the escape counter to 0 and
leaves the pending queue equal to exactly those codes in their original
order. -/
theorem parse_kbinput_unrecognised (cfg : KbCfg) (s : KbState) (k : Int)
    (rest : List Int) (hq : s.key_buffer = k :: rest) (hrest : rest ≠ [])
    (hlen : rest.length + 1 < 2 ^ 64) (hesc : s.escapes = 1)
    (hk1 : k ≠ ERR) (hk2 : k ≠ NANO_CONTROL_3) (hk3 : k ≠ KEY_RESIZE)
    (hu : get_escape_seq_kbinput (k :: rest) = (ERR, false)) :
    parse_kbinput cfg s =
      some (ERR, { s with key_buffer := k :: rest, escapes := 0,
                          meta_key := false, func_key := false }) := by
  obtain ⟨kb, e, bd, gd, gb, ud, u, m, f⟩ := s
  simp only at hq hesc
  subst hq hesc
  have h2 := parse_one_escape_buffered k
    ⟨rest, 1, bd, gd, gb, ud, u, false, false⟩ hrest hlen
  simp only [hu, and_self, if_true] at h2
  simp [parse_kbinput, get_input, hk1, hk2, hk3, h2]

/-- C11 (witness): the run `[`, `J`, `J` buffered after an ESC. -/
theorem parse_kbinput_unrecognised_witness :
    parse_kbinput ⟨false, false⟩ { KbState.reset [91, 74, 74] with escapes := 1 } =
      some (ERR, KbState.reset [91, 74, 74]) :=
  parse_kbinput_unrecognised ⟨false, false⟩
    { KbState.reset [91, 74, 74] with escapes := 1 } 91 [74, 74] rfl
    (by decide) (by decide) rfl (by decide) (by decide) (by decide)
    (by decide)

/-- C12: in the one-escape state, for every byte `b` other than Escape that
is read while the pending queue is then empty, `parse_kbinput` returns
`tolower(b)`, sets `meta_key`, and resets the escape counter to 0; the
result is not a function key. -/
theorem parse_kbinput_meta (cfg : KbCfg) (s : KbState) (b : Int)
    (hq : s.key_buffer = [b]) (hesc : s.escapes = 1)
    (hb0 : 0 ≤ b) (hb1 : b ≤ 255) (hb : b ≠ NANO_CONTROL_3) :
    parse_kbinput cfg s =
      some (tolower b, { s with key_buffer := [], escapes := 0,
                                meta_key := true, func_key := false }) := by
  obtain ⟨kb, e, bd, gd, gb, ud, u, m, f⟩ := s
  simp only at hq hesc
  subst hq hesc
  have hk1 : b ≠ ERR := by unfold ERR; omega
  have hk3 : b ≠ KEY_RESIZE := by unfold KEY_RESIZE; omega
  have ht : tolower b ≠ ERR := by
    unfold tolower ERR
    split_ifs <;> omega
  have hbyte : is_byte (tolower b) = true := by
    unfold is_byte tolower
    split_ifs <;> simp <;> omega
  simp [parse_kbinput, get_input, hk1, hb, hk3, parse_one_escape,
    get_key_buffer_len, ht, hbyte]

/-- C12 (witness): ESC followed by the letter `X` alone. -/
theorem parse_kbinput_meta_witness :
    parse_kbinput ⟨false, false⟩ { KbState.reset [88] with escapes := 1 } =
      some (120, { KbState.reset [] with meta_key := true }) :=
  parse_kbinput_meta ⟨false, false⟩ { KbState.reset [88] with escapes := 1 }
    88 rfl rfl (by decide) (by decide) (by decide)

/-- The helper `get_byte_kbinput` reads and writes only its own two
counters: its result on any state is its result on the reset state that
holds the same counters. -/
theorem get_byte_kbinput_frame (k : Int) (s : KbState) :
    get_byte_kbinput k s =
      ((get_byte_kbinput k
          { KbState.reset [] with gb_digits := s.gb_digits, gb_byte := s.gb_byte }).1,
        { s with
          gb_digits := (get_byte_kbinput k
            { KbState.reset [] with gb_digits := s.gb_digits,
                                    gb_byte := s.gb_byte }).2.gb_digits,
          gb_byte := (get_byte_kbinput k
            { KbState.reset [] with gb_digits := s.gb_digits,
                                    gb_byte := s.gb_byte }).2.gb_byte }) := by
  simp only [get_byte_kbinput, KbState.reset]
  split_ifs <;> rfl

/-- The same for a run of calls. -/
theorem feed_byte_frame :
    ∀ (ks : List Int) (s : KbState),
      feed_byte ks s =
        ((feed_byte ks
            { KbState.reset [] with gb_digits := s.gb_digits,
                                    gb_byte := s.gb_byte }).1,
          { s with
            gb_digits := (feed_byte ks
              { KbState.reset [] with gb_digits := s.gb_digits,
                                      gb_byte := s.gb_byte }).2.gb_digits,
            gb_byte := (feed_byte ks
              { KbState.reset [] with gb_digits := s.gb_digits,
                                      gb_byte := s.gb_byte }).2.gb_byte }) := by
  intro ks
  induction ks with
  | nil => intro s; rfl
  | cons k ks ih =>
    intro s
    simp only [feed_byte]
    rw [ih (get_byte_kbinput k s).2,
      ih (get_byte_kbinput k
        { KbState.reset [] with gb_digits := s.gb_digits,
                                gb_byte := s.gb_byte }).2]
    rw [get_byte_kbinput_frame k s]

/-- Three decimal digits fed to `get_byte_kbinput` from its reset state: a
table over the digits, checked by evaluation. -/
theorem feed_byte_table :
    (List.range 10).all (fun d1 => (List.range 10).all (fun d2 =>
      (List.range 10).all (fun d3 =>
        decide (
          (100 * d1 + 10 * d2 + d3 ≤ 255 →
            feed_byte [48 + (d1 : Int), 48 + (d2 : Int), 48 + (d3 : Int)]
                (KbState.reset []) =
              ([ERR, ERR, ((100 * d1 + 10 * d2 + d3 : Nat) : Int)],
                KbState.reset [])) ∧
          (255 < 100 * d1 + 10 * d2 + d3 →
            (feed_byte [48 + (d1 : Int), 48 + (d2 : Int), 48 + (d3 : Int)]
                (KbState.reset [])).1 ≠
              [ERR, ERR, ((100 * d1 + 10 * d2 + d3 : Nat) : Int)]) ∧
          (3 ≤ d1 →
            feed_byte [48 + (d1 : Int)] (KbState.reset []) =
              ([48 + (d1 : Int)], KbState.reset [])) ∧
          (d1 = 2 → 6 ≤ d2 →
            feed_byte [48 + (d1 : Int), 48 + (d2 : Int)] (KbState.reset []) =
              ([ERR, 48 + (d2 : Int)], KbState.reset [])) ∧
          (d1 = 2 → d2 = 5 → 6 ≤ d3 →
            feed_byte [48 + (d1 : Int), 48 + (d2 : Int), 48 + (d3 : Int)]
                (KbState.reset []) =
              ([ERR, ERR, 48 + (d3 : Int)], KbState.reset [])))))) = true := by
  set_option maxRecDepth 1000000 in
  decide

/-- C16: from its reset state (both counters zero), `get_byte_kbinput` fed
the characters of three decimal digits `d1 d2 d3` answers `ERR`, `ERR` and
then `n = 100*d1 + 10*d2 + d3` when `n ≤ 255`, and does not answer so when
`n > 255`.  When `n > 255` the call for the first digit that takes the prefix
out of byte range (the first digit when `d1 ≥ 3`; the second when `d1 = 2`
and `d2 ≥ 6`; the third when `d1 = 2`, `d2 = 5` and `d3 ≥ 6`) answers that
digit's character code and leaves both counters zero.  Since the value `n`
is answered only when `n ≤ 255`, every value answered on an accepted third
digit lies in 0..255. -/
theorem get_byte_kbinput_three_digits (s : KbState)
    (hd : s.gb_digits = 0) (hb : s.gb_byte = 0)
    (d1 d2 d3 : Nat) (h1 : d1 ≤ 9) (h2 : d2 ≤ 9) (h3 : d3 ≤ 9) :
    (100 * d1 + 10 * d2 + d3 ≤ 255 →
      feed_byte [48 + (d1 : Int), 48 + (d2 : Int), 48 + (d3 : Int)] s =
        ([ERR, ERR, ((100 * d1 + 10 * d2 + d3 : Nat) : Int)], s)) ∧
    (255 < 100 * d1 + 10 * d2 + d3 →
      (feed_byte [48 + (d1 : Int), 48 + (d2 : Int), 48 + (d3 : Int)] s).1 ≠
        [ERR, ERR, ((100 * d1 + 10 * d2 + d3 : Nat) : Int)]) ∧
    (3 ≤ d1 → feed_byte [48 + (d1 : Int)] s = ([48 + (d1 : Int)], s)) ∧
    (d1 = 2 → 6 ≤ d2 →
      feed_byte [48 + (d1 : Int), 48 + (d2 : Int)] s =
        ([ERR, 48 + (d2 : Int)], s)) ∧
    (d1 = 2 → d2 = 5 → 6 ≤ d3 →
      feed_byte [48 + (d1 : Int), 48 + (d2 : Int), 48 + (d3 : Int)] s =
        ([ERR, ERR, 48 + (d3 : Int)], s)) := by
  have ht := feed_byte_table
  simp only [List.all_eq_true, List.mem_range, decide_eq_true_eq] at ht
  obtain ⟨t1, t2, t3, t4, t5⟩ := ht d1 (by omega) d2 (by omega) d3 (by omega)
  have hs : ({ KbState.reset [] with gb_digits := s.gb_digits,
                                     gb_byte := s.gb_byte } : KbState)
      = KbState.reset [] := by rw [hd, hb]; rfl
  have hs2 : ({ s with gb_digits := 0, gb_byte := 0 } : KbState) = s := by
    obtain ⟨q, e, bd, gd, gb, ud, u, m, f⟩ := s
    simp only at hd hb
    subst hd; subst hb; rfl
  refine ⟨?_, ?_, ?_, ?_, ?_⟩
  · intro h
    rw [feed_byte_frame, hs, t1 h]
    exact congrArg (Prod.mk _) hs2
  · intro h
    rw [feed_byte_frame, hs]
    exact t2 h
  · intro h
    rw [feed_byte_frame, hs, t3 h]
    exact congrArg (Prod.mk _) hs2
  · intro h h'
    rw [feed_byte_frame, hs, t4 h h']
    exact congrArg (Prod.mk _) hs2
  · intro h h' h''
    rw [feed_byte_frame, hs, t5 h h' h'']
    exact congrArg (Prod.mk _) hs2

/-- C16 (witness): the digits 2 5 5 give `ERR`, `ERR`, 255, and the digits
2 5 6 give `ERR`, `ERR` and the character code of 6. -/
theorem get_byte_kbinput_three_digits_witness :
    feed_byte [48 + ((2 : Nat) : Int), 48 + ((5 : Nat) : Int), 48 + ((5 : Nat) : Int)]
        (KbState.reset []) =
      ([ERR, ERR, ((100 * 2 + 10 * 5 + 5 : Nat) : Int)], KbState.reset []) :=
  (get_byte_kbinput_three_digits (KbState.reset []) rfl rfl 2 5 5
    (by decide) (by decide) (by decide)).1 (by decide)

/-- The function `reset_kbinput` zeroes every counter of the decoder: the
escape counter, the digit counter of `parse_kbinput`, and the digit counters
and accumulators of `get_byte_kbinput` and `get_unicode_kbinput`. -/
theorem reset_kbinput_zero (s : KbState) :
    (reset_kbinput s).escapes = 0 ∧ (reset_kbinput s).byte_digits = 0 ∧
    (reset_kbinput s).gb_digits = 0 ∧ (reset_kbinput s).gb_byte = 0 ∧
    (reset_kbinput s).uni_digits = 0 ∧ (reset_kbinput s).uni = 0 ∧
    (reset_kbinput s).key_buffer = s.key_buffer :=
  ⟨rfl, rfl, rfl, rfl, rfl, rfl, rfl⟩

/-- C13: the counters of `get_byte_kbinput` are not zero after every key.
From the reset state, ESC ESC 1 x makes `parse_kbinput` return the key `x`
(120) with its own counters zero but with the digit counter of
`get_byte_kbinput` at 1 and its accumulated byte at 100.  The literal
ESC ESC 0 6 5 that follows is then not decoded as from the reset state
(where it is the byte 65): the decoder yields the byte 106 after the digits
0 and 6, and then the digit 5 as a key of its own.  Likewise ESC ESC 1 ESC a
returns the key `a` with the digit counter of `parse_kbinput` still at 1. -/
theorem get_kbinput_stale_byte_counters :
    get_kbinput ⟨false, false⟩ 4
        (KbState.reset [27, 27, 49, 120, 27, 27, 48, 54, 53]) =
      some (120, { KbState.reset [27, 27, 48, 54, 53] with
                    gb_digits := 1, gb_byte := 100 }) ∧
    get_kbinput ⟨false, false⟩ 5
        { KbState.reset [27, 27, 48, 54, 53] with gb_digits := 1, gb_byte := 100 } =
      some (106, KbState.reset [53]) ∧
    get_kbinput ⟨false, false⟩ 1 (KbState.reset [53]) =
      some (53, KbState.reset []) ∧
    get_kbinput ⟨false, false⟩ 6 (KbState.reset [27, 27, 48, 54, 53]) =
      some (65, KbState.reset []) ∧
    get_kbinput ⟨false, false⟩ 5 (KbState.reset [27, 27, 49, 27, 97]) =
      some (97, { KbState.reset [] with
                    byte_digits := 1, gb_digits := 1, gb_byte := 100 }) := by
  refine ⟨?_, ?_, ?_, ?_, ?_⟩ <;> decide

/-- The control-character shorthand where it does apply: in the two-escapes
state with no digit accumulated, an ordinary code outside the digits 0 to 6
is answered by `get_control_kbinput` of it, and the escape counter returns
to 0. -/
theorem parse_kbinput_control_shorthand (cfg : KbCfg) (s : KbState) (k : Int)
    (rest : List Int) (hq : s.key_buffer = k :: rest) (hesc : s.escapes = 2)
    (hbd : s.byte_digits = 0) (hk0 : 0 ≤ k) (hk2 : k ≠ NANO_CONTROL_3)
    (hk3 : k ≠ KEY_RESIZE) (hd : ¬ (48 ≤ k ∧ k ≤ 54)) :
    parse_kbinput cfg s =
      some (get_control_kbinput k,
        { s with key_buffer := rest, escapes := 0, meta_key := false,
                 func_key := !is_byte (get_control_kbinput k) }) := by
  obtain ⟨kb, e, bd, gd, gb, ud, u, m, f⟩ := s
  simp only at hq hesc hbd
  subst hq hesc hbd
  have hk1 : k ≠ ERR := by unfold ERR; omega
  have hc : get_control_kbinput k ≠ ERR := by
    unfold get_control_kbinput NANO_CONTROL_SPACE NANO_CONTROL_8 ERR
    split_ifs <;> omega
  simp [parse_kbinput, get_input, hk1, hk2, hk3, parse_two_escapes, hc, hd]

/-- C14: in the two-escapes state with no digit accumulated, the digits 3 to
6 are not decoded as control characters.  ESC ESC 3 yields the character 3
itself (51), not `get_control_kbinput 51 = 27`; the same holds for 4, 5 and
6.  Only from 7 on does the shorthand apply: ESC ESC 7 yields 31. -/
theorem get_kbinput_esc_esc_digit :
    get_kbinput ⟨false, false⟩ 4 (KbState.reset [27, 27, 51]) =
      some (51, KbState.reset []) ∧ get_control_kbinput 51 = 27 ∧
    get_kbinput ⟨false, false⟩ 4 (KbState.reset [27, 27, 52]) =
      some (52, KbState.reset []) ∧ get_control_kbinput 52 = 28 ∧
    get_kbinput ⟨false, false⟩ 4 (KbState.reset [27, 27, 53]) =
      some (53, KbState.reset []) ∧ get_control_kbinput 53 = 29 ∧
    get_kbinput ⟨false, false⟩ 4 (KbState.reset [27, 27, 54]) =
      some (54, KbState.reset []) ∧ get_control_kbinput 54 = 30 ∧
    get_kbinput ⟨false, false⟩ 3 (KbState.reset [27, 27, 55]) =
      some (31, KbState.reset []) ∧ get_control_kbinput 55 = 31 := by
  refine ⟨?_, ?_, ?_, ?_, ?_, ?_, ?_, ?_, ?_, ?_⟩ <;> decide

/-- C15: `get_control_kbinput` maps the characters 2, space, at-sign and
backtick to Ctrl-Space (0); 3..7 to `c - 24`; 8 and the question mark to
Ctrl-8 (127); A.._ to `c - 64`; a..~ to `c - 96`; and returns every other
code unchanged.  For every code in the mapped set the result is a control
character: in 0..31 or equal to 127. -/
theorem get_control_kbinput_table (c : Int) :
    ((c = 50 ∨ c = 32 ∨ c = 64 ∨ c = 96) →
      get_control_kbinput c = NANO_CONTROL_SPACE ∧ NANO_CONTROL_SPACE = 0) ∧
    ((51 ≤ c ∧ c ≤ 55) → get_control_kbinput c = c - 24) ∧
    ((c = 56 ∨ c = 63) →
      get_control_kbinput c = NANO_CONTROL_8 ∧ NANO_CONTROL_8 = 127) ∧
    ((65 ≤ c ∧ c ≤ 95) → get_control_kbinput c = c - 64) ∧
    ((97 ≤ c ∧ c ≤ 126) → get_control_kbinput c = c - 96) ∧
    (¬ (c = 32 ∨ (50 ≤ c ∧ c ≤ 56) ∨ (63 ≤ c ∧ c ≤ 126)) →
      get_control_kbinput c = c) ∧
    ((c = 32 ∨ (50 ≤ c ∧ c ≤ 56) ∨ (63 ≤ c ∧ c ≤ 126)) →
      (0 ≤ get_control_kbinput c ∧ get_control_kbinput c ≤ 31) ∨
        get_control_kbinput c = 127) := by
  unfold get_control_kbinput NANO_CONTROL_SPACE NANO_CONTROL_8
  refine ⟨?_, ?_, ?_, ?_, ?_, ?_, ?_⟩ <;> intro h <;> split_ifs <;> omega

/-- C18: `get_escape_seq_kbinput` settles the documented terminal conflicts
for the documented winner, whatever follows the two characters: after ESC,
`[ I` is PageUp, `[ G` is PageDown, `[ M` is F1, `[ U` is PageDown, `[ V` is
PageUp, `[ Y` is End, `[ a` is Up (previous line) and `[ b` is Down (next
line); none of them sets the ignore flag. -/
theorem get_escape_seq_kbinput_conflicts (t : List Int) :
    get_escape_seq_kbinput (91 :: 73 :: t) = (NANO_PREVPAGE_KEY, false) ∧
    get_escape_seq_kbinput (91 :: 71 :: t) = (NANO_NEXTPAGE_KEY, false) ∧
    get_escape_seq_kbinput (91 :: 77 :: t) = (KEY_F 1, false) ∧
    get_escape_seq_kbinput (91 :: 85 :: t) = (NANO_NEXTPAGE_KEY, false) ∧
    get_escape_seq_kbinput (91 :: 86 :: t) = (NANO_PREVPAGE_KEY, false) ∧
    get_escape_seq_kbinput (91 :: 89 :: t) = (NANO_END_KEY, false) ∧
    get_escape_seq_kbinput (91 :: 97 :: t) = (NANO_PREVLINE_KEY, false) ∧
    get_escape_seq_kbinput (91 :: 98 :: t) = (NANO_NEXTLINE_KEY, false) := by
  refine ⟨?_, ?_, ?_, ?_, ?_, ?_, ?_, ?_⟩ <;>
    simp [get_escape_seq_kbinput, escape_seq_bracket, get_escape_seq_abcd, tolower]

/-- C19: in the ground state (no escape pending) Ctrl-8 and the keypad code
`KEY_DC` decode to the two different keys Backspace and Delete.  Without
`REBIND_DELETE` Ctrl-8 is Backspace and `KEY_DC` is Delete; with it they are
swapped; `KEY_BACKSPACE` is Backspace under both settings.  The key is taken
off the queue and is not flagged as a meta or function key. -/
theorem parse_kbinput_backspace_delete (u8 : Bool) (s : KbState)
    (rest : List Int) (hesc : s.escapes = 0) :
    NANO_BACKSPACE_KEY ≠ NANO_DELETE_KEY ∧
    (s.key_buffer = NANO_CONTROL_8 :: rest →
      parse_kbinput ⟨false, u8⟩ s =
          some (NANO_BACKSPACE_KEY,
            { s with key_buffer := rest, meta_key := false, func_key := false }) ∧
      parse_kbinput ⟨true, u8⟩ s =
          some (NANO_DELETE_KEY,
            { s with key_buffer := rest, meta_key := false, func_key := false })) ∧
    (s.key_buffer = KEY_DC :: rest →
      parse_kbinput ⟨false, u8⟩ s =
          some (NANO_DELETE_KEY,
            { s with key_buffer := rest, meta_key := false, func_key := false }) ∧
      parse_kbinput ⟨true, u8⟩ s =
          some (NANO_BACKSPACE_KEY,
            { s with key_buffer := rest, meta_key := false, func_key := false })) ∧
    (s.key_buffer = KEY_BACKSPACE :: rest →
      parse_kbinput ⟨false, u8⟩ s =
          some (NANO_BACKSPACE_KEY,
            { s with key_buffer := rest, meta_key := false, func_key := false }) ∧
      parse_kbinput ⟨true, u8⟩ s =
          some (NANO_BACKSPACE_KEY,
            { s with key_buffer := rest, meta_key := false, func_key := false })) := by
  obtain ⟨q, e, bd, gd, gb, ud, u, m, f⟩ := s
  simp only at hesc
  subst hesc
  refine ⟨by decide, ?_, ?_, ?_⟩ <;> intro hq <;> simp only at hq <;> subst hq <;>
    constructor <;>
    simp [parse_kbinput, get_input, ground_key, NANO_CONTROL_8, KEY_DC,
      KEY_BACKSPACE, NANO_BACKSPACE_KEY, NANO_DELETE_KEY, ERR, NANO_CONTROL_3,
      KEY_RESIZE, KEY_DOWN, KEY_UP, KEY_LEFT, KEY_RIGHT, KEY_HOME, is_byte]

/-- C19 (witness): with the queue holding Ctrl-8 alone, the key is Backspace
without `REBIND_DELETE` and Delete with it. -/
theorem parse_kbinput_backspace_delete_witness :
    parse_kbinput ⟨false, false⟩ (KbState.reset [NANO_CONTROL_8]) =
        some (NANO_BACKSPACE_KEY, KbState.reset []) ∧
    parse_kbinput ⟨true, false⟩ (KbState.reset [NANO_CONTROL_8]) =
        some (NANO_DELETE_KEY, KbState.reset []) :=
  (parse_kbinput_backspace_delete false (KbState.reset [NANO_CONTROL_8]) []
    rfl).2.1 rfl

/-- The three shapes of a hexadecimal digit character. -/
theorem hex_value_some (k d : Int) (h : hex_value k = some d) :
    (48 ≤ k ∧ k ≤ 57 ∧ d = k - 48) ∨ (97 ≤ k ∧ k ≤ 102 ∧ d = k - 87) ∨
      (65 ≤ k ∧ k ≤ 70 ∧ d = k - 55) := by
  unfold hex_value at h
  split_ifs at h with h1 h2 h3 <;> simp only [Option.some.injEq, reduceCtorEq] at h <;> omega

/-- A code that is no hexadecimal digit character. -/
theorem hex_value_none (k : Int) (h : hex_value k = none) :
    ¬ (48 ≤ k ∧ k ≤ 57) ∧ ¬ (97 ≤ k ∧ k ≤ 102) ∧ ¬ (65 ≤ k ∧ k ≤ 70) := by
  unfold hex_value at h
  split_ifs at h with h1 h2 h3
  exact ⟨h1, h2, h3⟩

/-- One middle position of `get_unicode_kbinput` on a hexadecimal digit. -/
theorem unicode_digit_some (k d uni w : Int) (h : hex_value k = some d) :
    unicode_digit k uni w = (ERR, uni + d * w) := by
  rcases hex_value_some k d h with ⟨h1, h2, h3⟩ | ⟨h1, h2, h3⟩ | ⟨h1, h2, h3⟩
  · subst h3
    simp [unicode_digit, h1, h2]
  · subst h3
    have hl : tolower k = k := by
      unfold tolower; rw [if_neg (by omega)]
    have hn : ¬ (48 ≤ k ∧ k ≤ 57) := by omega
    simp only [unicode_digit, hl, if_neg hn]
    rw [if_pos ⟨h1, h2⟩, show k + 10 - 97 = k - 87 by omega]
  · subst h3
    have hl : tolower k = k + 32 := by
      unfold tolower; rw [if_pos (by omega)]
    have hn : ¬ (48 ≤ k ∧ k ≤ 57) := by omega
    simp only [unicode_digit, hl, if_neg hn]
    rw [if_pos (by omega), show k + 32 + 10 - 97 = k - 55 by omega]

/-- One middle position of `get_unicode_kbinput` on any other code. -/
theorem unicode_digit_none (k uni w : Int) (h : hex_value k = none) :
    unicode_digit k uni w = (k, uni) := by
  obtain ⟨h1, h2, h3⟩ := hex_value_none k h
  have hl : ¬ (97 ≤ tolower k ∧ tolower k ≤ 102) := by
    unfold tolower; split_ifs <;> omega
  simp only [unicode_digit, if_neg h1, if_neg hl]
/-- The letter arm of the second position of `get_unicode_kbinput`. -/
theorem tolower_hex (k : Int) :
    (97 ≤ tolower k ∧ tolower k ≤ 102) ↔ (97 ≤ k ∧ k ≤ 102) ∨ (65 ≤ k ∧ k ≤ 70) := by
  unfold tolower; split_ifs <;> omega

/-- An acceptable hexadecimal digit at one of the first five positions: the
call answers `ERR`, counts the digit and adds it at its weight. -/
theorem get_unicode_kbinput_accept (s : KbState) (k d : Int)
    (hk : hex_value k = some d) (hud : s.uni_digits < 5)
    (hok : unicode_digit_ok s.uni_digits s.uni k = true) :
    get_unicode_kbinput k s =
      (ERR, { s with
        uni_digits := s.uni_digits + 1,
        uni := (if s.uni_digits = 0 then 0 else s.uni) +
          d * (16 : Int) ^ (5 - s.uni_digits) }) := by
  obtain ⟨q, e, bd, gd, gb, ud, u, m, f⟩ := s
  simp only at hud hok ⊢
  simp only [unicode_digit_ok, hk] at hok
  have hERR : (ERR, (0 : Int)).1 = ERR := rfl
  interval_cases ud
  · simp only [if_true, decide_eq_true_eq] at hok
    have h48 : 48 ≤ k ∧ k ≤ 49 := by
      rcases hex_value_some k d hk with h | h | h <;> omega
    have hd : d = k - 48 := by
      rcases hex_value_some k d hk with h | h | h <;> omega
    subst hd
    simp [get_unicode_kbinput, h48, ERR]
  · simp only [one_ne_zero, if_false, if_true, decide_eq_true_eq] at hok
    rcases hex_value_some k d hk with ⟨h1, h2, h3⟩ | ⟨h1, h2, h3⟩ | ⟨h1, h2, h3⟩
    · subst h3
      have hc : k = 48 ∨ (u < 1048576 ∧ 49 ≤ k ∧ k ≤ 57) := by omega
      simp [get_unicode_kbinput, hc, ERR]
    · subst h3
      have hu : u < 1048576 := by omega
      have hc : ¬ (k = 48 ∨ (u < 1048576 ∧ 49 ≤ k ∧ k ≤ 57)) := by omega
      have hl : tolower k = k := by unfold tolower; rw [if_neg (by omega)]
      have hc2 : u < 1048576 ∧ 97 ≤ k ∧ k ≤ 102 := ⟨hu, h1, h2⟩
      have hc3 : ¬ (k = 48 ∨ (49 ≤ k ∧ k ≤ 57)) := by omega
      simp only [get_unicode_kbinput, hl]
      simp [hc, hc3, hc2, ERR, show k + 10 - 97 = k - 87 by omega]
    · subst h3
      have hu : u < 1048576 := by omega
      have hc : ¬ (k = 48 ∨ (u < 1048576 ∧ 49 ≤ k ∧ k ≤ 57)) := by omega
      have hl : tolower k = k + 32 := by unfold tolower; rw [if_pos (by omega)]
      have hc2 : u < 1048576 ∧ 97 ≤ k + 32 ∧ k + 32 ≤ 102 := ⟨hu, by omega, by omega⟩
      have hc3 : ¬ (k = 48 ∨ (49 ≤ k ∧ k ≤ 57)) := by omega
      simp only [get_unicode_kbinput, hl]
      simp [hc, hc3, hc2, ERR, show k + 32 + 10 - 97 = k - 55 by omega]
  · simp [get_unicode_kbinput, unicode_digit_some k d _ _ hk, ERR]
  · simp [get_unicode_kbinput, unicode_digit_some k d _ _ hk, ERR]
  · simp [get_unicode_kbinput, unicode_digit_some k d _ _ hk, ERR]

/-- A hexadecimal digit at the sixth position: the call answers the
accumulated value plus the digit and resets the accumulator. -/
theorem get_unicode_kbinput_last (s : KbState) (k d : Int)
    (hk : hex_value k = some d) (hud : s.uni_digits = 5) (hu : 0 ≤ s.uni) :
    get_unicode_kbinput k s =
      (s.uni + d, { s with uni_digits := 0, uni := 0 }) := by
  obtain ⟨q, e, bd, gd, gb, ud, u, m, f⟩ := s
  simp only at hud hu ⊢
  subst hud
  rcases hex_value_some k d hk with ⟨h1, h2, h3⟩ | ⟨h1, h2, h3⟩ | ⟨h1, h2, h3⟩
  · subst h3
    have hne : ¬ (u + (k - 48) = -1) := by omega
    simp [get_unicode_kbinput, h1, h2, ERR, hne]
  · subst h3
    have hc : ¬ (48 ≤ k ∧ k ≤ 57) := by omega
    have hl : tolower k = k := by unfold tolower; rw [if_neg (by omega)]
    have hne : ¬ (u + (k + 10 - 97) = -1) := by omega
    simp only [get_unicode_kbinput, hl]
    simp [hc, h1, h2, ERR, hne]
    omega
  · subst h3
    have hc : ¬ (48 ≤ k ∧ k ≤ 57) := by omega
    have hl : tolower k = k + 32 := by unfold tolower; rw [if_pos (by omega)]
    have hc2 : 97 ≤ k + 32 ∧ k + 32 ≤ 102 := by omega
    have hne : ¬ (u + (k + 32 + 10 - 97) = -1) := by omega
    simp only [get_unicode_kbinput, hl]
    simp [hc, hc2, ERR, hne]
    omega
/-- A code other than `ERR` that is not an acceptable hexadecimal digit at
its position is answered itself, and the accumulator is reset. -/
theorem get_unicode_kbinput_reject (s : KbState) (k : Int) (hk : k ≠ ERR)
    (hud : s.uni_digits < 6)
    (hok : unicode_digit_ok s.uni_digits s.uni k = false) :
    get_unicode_kbinput k s = (k, { s with uni_digits := 0, uni := 0 }) := by
  obtain ⟨q, e, bd, gd, gb, ud, u, m, f⟩ := s
  simp only at hud hok ⊢
  have hk1 : ¬ (k = -1) := hk
  cases hh : hex_value k with
  | none =>
    obtain ⟨n1, n2, n3⟩ := hex_value_none k hh
    have hl : ¬ (97 ≤ tolower k ∧ tolower k ≤ 102) := by
      rw [tolower_hex]; omega
    have n4 : ¬ (48 ≤ k ∧ k ≤ 49) := by omega
    have n5 : ¬ (k = 48 ∨ (u < 1048576 ∧ 49 ≤ k ∧ k ≤ 57)) := by omega
    have n6 : ¬ (u < 1048576 ∧ 97 ≤ tolower k ∧ tolower k ≤ 102) := by
      intro h; exact hl h.2
    interval_cases ud
    · simp only [get_unicode_kbinput]
      simp [n4, ERR, hk1]
    · simp only [get_unicode_kbinput]
      simp [n5, n6, ERR, hk1]
    · simp [get_unicode_kbinput, unicode_digit_none k _ _ hh, ERR, hk1]
    · simp [get_unicode_kbinput, unicode_digit_none k _ _ hh, ERR, hk1]
    · simp [get_unicode_kbinput, unicode_digit_none k _ _ hh, ERR, hk1]
    · simp only [get_unicode_kbinput]
      simp [n1, hl, ERR, hk1]
  | some d =>
    simp only [unicode_digit_ok, hh] at hok
    have hd := hex_value_some k d hh
    have hl := tolower_hex k
    interval_cases ud
    · simp only [if_true, decide_eq_false_iff_not] at hok
      have n4 : ¬ (48 ≤ k ∧ k ≤ 49) := by omega
      simp only [get_unicode_kbinput]
      simp [n4, ERR, hk1]
    · simp only [one_ne_zero, if_false, if_true, decide_eq_false_iff_not] at hok
      have n5 : ¬ (k = 48 ∨ (u < 1048576 ∧ 49 ≤ k ∧ k ≤ 57)) := by omega
      have n6 : ¬ (u < 1048576 ∧ 97 ≤ tolower k ∧ tolower k ≤ 102) := by
        intro h; omega
      simp only [get_unicode_kbinput]
      simp [n5, n6, ERR, hk1]
    · simp at hok
    · simp at hok
    · simp at hok
    · simp at hok

/-- Whether a digit is acceptable, position by position. -/
theorem unicode_digit_ok_first (u k d : Int) (hk : hex_value k = some d)
    (hd : d ≤ 1) : unicode_digit_ok 0 u k = true := by
  simp [unicode_digit_ok, hk, hd]

/-- The second position takes any digit after a leading 0 and only 0 after
a leading 1. -/
theorem unicode_digit_ok_second (u k d : Int) (hk : hex_value k = some d)
    (hd : u < 1048576 ∨ d = 0) : unicode_digit_ok 1 u k = true := by
  simp [unicode_digit_ok, hk, hd]

/-- The third to sixth positions take any hexadecimal digit. -/
theorem unicode_digit_ok_later (n : Nat) (u k d : Int)
    (hk : hex_value k = some d) (h2 : 2 ≤ n) (h6 : n < 6) :
    unicode_digit_ok n u k = true := by
  have h0 : n ≠ 0 := by omega
  have h1 : n ≠ 1 := by omega
  simp [unicode_digit_ok, hk, h0, h1, h6]

/-- The value of a hexadecimal digit character lies in 0..15. -/
theorem hex_value_range (k d : Int) (h : hex_value k = some d) :
    0 ≤ d ∧ d ≤ 15 := by
  rcases hex_value_some k d h with h | h | h <;> omega

/-- Six hexadecimal digits whose value is at most 0x10FFFF, fed from a state
whose digit counter is zero: `ERR` five times, then the value. -/
theorem feed_unicode_six (s : KbState) (hud : s.uni_digits = 0)
    (k1 k2 k3 k4 k5 k6 d1 d2 d3 d4 d5 d6 : Int)
    (h1 : hex_value k1 = some d1) (h2 : hex_value k2 = some d2)
    (h3 : hex_value k3 = some d3) (h4 : hex_value k4 = some d4)
    (h5 : hex_value k5 = some d5) (h6 : hex_value k6 = some d6)
    (hv : d1 * 1048576 + d2 * 65536 + d3 * 4096 + d4 * 256 + d5 * 16 + d6
      ≤ 1114111) :
    feed_unicode [k1, k2, k3, k4, k5, k6] s =
      ([ERR, ERR, ERR, ERR, ERR,
          d1 * 1048576 + d2 * 65536 + d3 * 4096 + d4 * 256 + d5 * 16 + d6],
        { s with uni_digits := 0, uni := 0 }) := by
  obtain ⟨q, e, bd, gd, gb, ud, u, m, f⟩ := s
  simp only at hud ⊢
  subst hud
  have b1 := hex_value_range k1 d1 h1
  have b2 := hex_value_range k2 d2 h2
  have b3 := hex_value_range k3 d3 h3
  have b4 := hex_value_range k4 d4 h4
  have b5 := hex_value_range k5 d5 h5
  have b6 := hex_value_range k6 d6 h6
  have e1 : get_unicode_kbinput k1 ⟨q, e, bd, gd, gb, 0, u, m, f⟩ =
      (ERR, ⟨q, e, bd, gd, gb, 1, d1 * 1048576, m, f⟩) := by
    rw [get_unicode_kbinput_accept _ k1 d1 h1 (by simp)
      (unicode_digit_ok_first _ k1 d1 h1 (by omega))]
    simp
  have e2 : get_unicode_kbinput k2 ⟨q, e, bd, gd, gb, 1, d1 * 1048576, m, f⟩ =
      (ERR, ⟨q, e, bd, gd, gb, 2, d1 * 1048576 + d2 * 65536, m, f⟩) := by
    rw [get_unicode_kbinput_accept _ k2 d2 h2 (by simp)
      (unicode_digit_ok_second _ k2 d2 h2 (by simp only; omega))]
    simp
  have e3 : get_unicode_kbinput k3
      ⟨q, e, bd, gd, gb, 2, d1 * 1048576 + d2 * 65536, m, f⟩ =
      (ERR, ⟨q, e, bd, gd, gb, 3, d1 * 1048576 + d2 * 65536 + d3 * 4096, m, f⟩) := by
    rw [get_unicode_kbinput_accept _ k3 d3 h3 (by simp)
      (unicode_digit_ok_later 2 _ k3 d3 h3 (by decide) (by decide))]
    simp
  have e4 : get_unicode_kbinput k4
      ⟨q, e, bd, gd, gb, 3, d1 * 1048576 + d2 * 65536 + d3 * 4096, m, f⟩ =
      (ERR, ⟨q, e, bd, gd, gb, 4,
        d1 * 1048576 + d2 * 65536 + d3 * 4096 + d4 * 256, m, f⟩) := by
    rw [get_unicode_kbinput_accept _ k4 d4 h4 (by simp)
      (unicode_digit_ok_later 3 _ k4 d4 h4 (by decide) (by decide))]
    simp
  have e5 : get_unicode_kbinput k5
      ⟨q, e, bd, gd, gb, 4,
        d1 * 1048576 + d2 * 65536 + d3 * 4096 + d4 * 256, m, f⟩ =
      (ERR, ⟨q, e, bd, gd, gb, 5,
        d1 * 1048576 + d2 * 65536 + d3 * 4096 + d4 * 256 + d5 * 16, m, f⟩) := by
    rw [get_unicode_kbinput_accept _ k5 d5 h5 (by simp)
      (unicode_digit_ok_later 4 _ k5 d5 h5 (by decide) (by decide))]
    simp
  have e6 : get_unicode_kbinput k6
      ⟨q, e, bd, gd, gb, 5,
        d1 * 1048576 + d2 * 65536 + d3 * 4096 + d4 * 256 + d5 * 16, m, f⟩ =
      (d1 * 1048576 + d2 * 65536 + d3 * 4096 + d4 * 256 + d5 * 16 + d6,
        ⟨q, e, bd, gd, gb, 0, 0, m, f⟩) :=
    get_unicode_kbinput_last _ k6 d6 h6 rfl (by simp only; omega)
  simp only [feed_unicode, e1, e2, e3, e4, e5, e6]
/-- The code `ERR` is counted like a digit and adds nothing. -/
theorem get_unicode_kbinput_ERR (s : KbState) :
    get_unicode_kbinput ERR s =
      (ERR, { s with
        uni_digits := s.uni_digits + 1,
        uni := if s.uni_digits = 0 then 0 else s.uni }) := by
  obtain ⟨q, e, bd, gd, gb, ud, u, m, f⟩ := s
  have hh : hex_value ERR = none := by decide
  have ht : tolower ERR = ERR := by decide
  have hd : ∀ u w : Int, unicode_digit (-1) u w = (-1, u) :=
    fun u w => unicode_digit_none (-1) u w hh
  simp only
  rcases Nat.lt_or_ge ud 6 with h | h
  · interval_cases ud
    · simp [get_unicode_kbinput, ERR]
    · simp only [get_unicode_kbinput, ht]
      simp [ERR]
    · simp [get_unicode_kbinput, hd, ERR]
    · simp [get_unicode_kbinput, hd, ERR]
    · simp [get_unicode_kbinput, hd, ERR]
    · simp only [get_unicode_kbinput, ht]
      simp [ERR]
  · obtain ⟨n, rfl⟩ : ∃ n, ud = n + 6 := ⟨ud - 6, by omega⟩
    simp [get_unicode_kbinput, ERR]

/-- Past the sixth position every code other than `ERR` is answered itself
and the accumulator is reset. -/
theorem get_unicode_kbinput_beyond (s : KbState) (k : Int) (hk : k ≠ ERR)
    (hud : 6 ≤ s.uni_digits) :
    get_unicode_kbinput k s = (k, { s with uni_digits := 0, uni := 0 }) := by
  obtain ⟨q, e, bd, gd, gb, ud, u, m, f⟩ := s
  simp only at hud ⊢
  have hk1 : ¬ (k = -1) := hk
  obtain ⟨n, rfl⟩ : ∃ n, ud = n + 6 := ⟨ud - 6, by omega⟩
  simp [get_unicode_kbinput, ERR, hk1]

/-- An acceptable code is a hexadecimal digit that is in range at its
position. -/
theorem unicode_digit_ok_true (n : Nat) (u k : Int)
    (h : unicode_digit_ok n u k = true) :
    ∃ d, hex_value k = some d ∧ (n = 0 → d ≤ 1) ∧
      (n = 1 → u < 1048576 ∨ d = 0) := by
  unfold unicode_digit_ok at h
  cases hh : hex_value k with
  | none => simp [hh] at h
  | some d =>
    refine ⟨d, rfl, ?_, ?_⟩
    · intro h0; subst h0; simpa [hh] using h
    · intro h1; subst h1; simpa [hh] using h

/-- Every call of `get_unicode_kbinput` keeps the accumulator in range. -/
theorem get_unicode_kbinput_inv (s : KbState) (k : Int) (hs : unicode_inv s) :
    unicode_inv (get_unicode_kbinput k s).2 := by
  by_cases hk : k = ERR
  · subst hk
    rw [get_unicode_kbinput_ERR]
    obtain ⟨q, e, bd, gd, gb, ud, u, m, f⟩ := s
    simp only [unicode_inv] at hs ⊢
    split_ifs <;> omega
  · rcases Nat.lt_or_ge s.uni_digits 6 with h6 | h6
    · cases hok : unicode_digit_ok s.uni_digits s.uni k with
      | false =>
        rw [get_unicode_kbinput_reject s k hk h6 hok]
        exact Or.inl rfl
      | true =>
        obtain ⟨d, hd, c0, c1⟩ := unicode_digit_ok_true _ _ _ hok
        have hr := hex_value_range k d hd
        rcases Nat.lt_or_ge s.uni_digits 5 with h5 | h5
        · rw [get_unicode_kbinput_accept s k d hd h5 hok]
          obtain ⟨q, e, bd, gd, gb, ud, u, m, f⟩ := s
          simp only [unicode_inv] at hs h5 c0 c1 ⊢
          interval_cases ud <;> simp <;> omega
        · have h5e : s.uni_digits = 5 := by omega
          have hu : 0 ≤ s.uni := by
            simp only [unicode_inv] at hs; omega
          rw [get_unicode_kbinput_last s k d hd h5e hu]
          exact Or.inl rfl
    · rw [get_unicode_kbinput_beyond s k hk h6]
      exact Or.inl rfl

/-- Every run of calls keeps the accumulator in range. -/
theorem feed_unicode_inv :
    ∀ (ks : List Int) (s : KbState), unicode_inv s →
      unicode_inv (feed_unicode ks s).2 := by
  intro ks
  induction ks with
  | nil => intro s hs; exact hs
  | cons k ks ih =>
    intro s hs
    simp only [feed_unicode]
    exact ih _ (get_unicode_kbinput_inv s k hs)

/-- A hexadecimal digit at the sixth position of a state in range is
answered by a value in 0..0x10FFFF. -/
theorem get_unicode_kbinput_sixth (s : KbState) (k d : Int)
    (hs : unicode_inv s) (hud : s.uni_digits = 5)
    (hk : hex_value k = some d) :
    0 ≤ (get_unicode_kbinput k s).1 ∧ (get_unicode_kbinput k s).1 ≤ 1114111 := by
  have hr := hex_value_range k d hk
  have hu : 0 ≤ s.uni ∧ s.uni + 16 ≤ 1114112 := by
    simp only [unicode_inv] at hs; omega
  rw [get_unicode_kbinput_last s k d hk hud hu.1]
  simp only
  omega
/-- C17: from a state whose digit counter is zero, `get_unicode_kbinput` fed
six hexadecimal digit characters (upper or lower case) with the digit values
`d1 .. d6` whose value `v` is at most 0x10FFFF answers `ERR` for the first
five and `v` for the sixth, and ends with the accumulator reset; `v` lies in
0..0x10FFFF.  After any run of calls from that state, a hexadecimal digit at
the sixth position is answered by a value in 0..0x10FFFF.  In every state
with at most five digits counted, a code other than `ERR` that is not an
acceptable hexadecimal digit at its position is answered itself, with the
accumulator reset. -/
theorem get_unicode_kbinput_six_digits (s : KbState) (hud : s.uni_digits = 0)
    (k1 k2 k3 k4 k5 k6 d1 d2 d3 d4 d5 d6 : Int)
    (h1 : hex_value k1 = some d1) (h2 : hex_value k2 = some d2)
    (h3 : hex_value k3 = some d3) (h4 : hex_value k4 = some d4)
    (h5 : hex_value k5 = some d5) (h6 : hex_value k6 = some d6)
    (hv : d1 * 1048576 + d2 * 65536 + d3 * 4096 + d4 * 256 + d5 * 16 + d6
      ≤ 1114111) :
    feed_unicode [k1, k2, k3, k4, k5, k6] s =
      ([ERR, ERR, ERR, ERR, ERR,
          d1 * 1048576 + d2 * 65536 + d3 * 4096 + d4 * 256 + d5 * 16 + d6],
        { s with uni_digits := 0, uni := 0 }) ∧
    0 ≤ d1 * 1048576 + d2 * 65536 + d3 * 4096 + d4 * 256 + d5 * 16 + d6 ∧
    (∀ (ks : List Int) (k d : Int),
      (feed_unicode ks s).2.uni_digits = 5 → hex_value k = some d →
        0 ≤ (get_unicode_kbinput k (feed_unicode ks s).2).1 ∧
          (get_unicode_kbinput k (feed_unicode ks s).2).1 ≤ 1114111) ∧
    (∀ (t : KbState) (k : Int), t.uni_digits < 6 → k ≠ ERR →
      unicode_digit_ok t.uni_digits t.uni k = false →
        get_unicode_kbinput k t = (k, { t with uni_digits := 0, uni := 0 })) := by
  have b1 := hex_value_range k1 d1 h1
  have b2 := hex_value_range k2 d2 h2
  have b3 := hex_value_range k3 d3 h3
  have b4 := hex_value_range k4 d4 h4
  have b5 := hex_value_range k5 d5 h5
  have b6 := hex_value_range k6 d6 h6
  refine ⟨feed_unicode_six s hud k1 k2 k3 k4 k5 k6 d1 d2 d3 d4 d5 d6
    h1 h2 h3 h4 h5 h6 hv, by omega, ?_, ?_⟩
  · intro ks k d h5 hk
    exact get_unicode_kbinput_sixth _ k d
      (feed_unicode_inv ks s (Or.inl hud)) h5 hk
  · intro t k ht hk hok
    exact get_unicode_kbinput_reject t k hk ht hok

/-- C17 (witness): the digits 1 0 F f A 9 give `ERR` five times and then
0x10FFA9 = 1114025. -/
theorem get_unicode_kbinput_six_digits_witness :
    feed_unicode [49, 48, 70, 102, 65, 57] (KbState.reset []) =
      ([ERR, ERR, ERR, ERR, ERR, 1114025], KbState.reset []) :=
  (get_unicode_kbinput_six_digits (KbState.reset []) rfl 49 48 70 102 65 57
    1 0 15 15 10 9 (by decide) (by decide) (by decide) (by decide) (by decide)
    (by decide) (by decide)).1

/-! ## Theorems: the cut buffer -/

/-- After `cutbuffer_reset`, `do_cut_text` starts from an empty cut buffer:
what it leaves does not depend on the text cut before. -/
theorem do_cut_text_after_reset (E : Env) (cut_to_end : Bool) (c : CutState) :
    do_cut_text E cut_to_end (cutbuffer_reset c) =
      do_cut_text E cut_to_end { c with cutbuffer := none, keep_cutbuffer := false } := by
  obtain ⟨f, cb, k⟩ := c
  cases cb <;> simp [do_cut_text, cutbuffer_reset]

/-- The function `do_cut_till_end` neither reads nor writes
`keep_cutbuffer`: it hands the cut buffer as it is to `move_to_filestruct`. -/
theorem do_cut_till_end_keep (c : CutState) (b : Bool) :
    (do_cut_till_end { c with keep_cutbuffer := b }).cutbuffer =
        (do_cut_till_end c).cutbuffer ∧
      (do_cut_till_end c).keep_cutbuffer = c.keep_cutbuffer :=
  ⟨rfl, rfl⟩

/-- C20: `do_cut_till_end` does not discard the old cut buffer after
`cutbuffer_reset`.  In the file of the three lines a, b, c with the cursor
at the start, `do_cut_text` cuts the line a (cut buffer: a and a line
break).  After `cutbuffer_reset`, `do_cut_till_end` leaves the cut buffer
a, b, c: the old line a followed by the newly cut b, c, where `do_cut_text`
in its place leaves only the newly cut line b.  And since `do_cut_till_end`
does not set `keep_cutbuffer`, a `do_cut_text` that follows it directly does
not append: in the one-line file ab with the cursor after a,
`do_cut_till_end` cuts b and the following `do_cut_text` leaves only a. -/
theorem do_cut_till_end_ignores_reset :
    (do_cut_text (byte_env 8 80) false
        ⟨⟨[[97], [98], [99]], 0, 0, 0, false, 0, 0, false⟩, none, false⟩) =
      ⟨⟨[[98], [99]], 0, 0, 0, false, 0, 0, true⟩, some [[97], []], true⟩ ∧
    do_cut_till_end (cutbuffer_reset
        ⟨⟨[[98], [99]], 0, 0, 0, false, 0, 0, true⟩, some [[97], []], true⟩) =
      ⟨⟨[[]], 0, 0, 0, false, 0, 0, true⟩, some [[97], [98], [99]], false⟩ ∧
    do_cut_text (byte_env 8 80) false (cutbuffer_reset
        ⟨⟨[[98], [99]], 0, 0, 0, false, 0, 0, true⟩, some [[97], []], true⟩) =
      ⟨⟨[[99]], 0, 0, 0, false, 0, 0, true⟩, some [[98], []], true⟩ ∧
    do_cut_till_end ⟨⟨[[97, 98]], 0, 1, 0, false, 0, 0, false⟩, none, false⟩ =
      ⟨⟨[[97]], 0, 1, 0, false, 0, 0, true⟩, some [[98]], false⟩ ∧
    do_cut_text (byte_env 8 80) false
        ⟨⟨[[97]], 0, 1, 0, false, 0, 0, true⟩, some [[98]], false⟩ =
      ⟨⟨[[]], 0, 0, 0, false, 0, 0, true⟩, some [[97]], true⟩ := by
  refine ⟨?_, ?_, ?_, ?_, ?_⟩ <;> decide

/-! ## Theorems: the viewport -/

/-- Past the first page with more than nine columns, the page start is the
largest multiple of `COLS - 8` that is at most `column - 7`. -/
theorem get_page_start_wide (COLS c : Nat) (hC : 9 < COLS) (hc : COLS - 1 ≤ c) :
    get_page_start COLS c = (COLS - 8) * ((c - 7) / (COLS - 8)) := by
  unfold get_page_start
  rw [if_neg (by omega), if_pos hC]
  have h := Nat.div_add_mod (c - 7) (COLS - 8)
  omega

/-- The page start is at most the column, and the column is less than
`COLS` past it. -/
theorem get_page_start_le (COLS c : Nat) (hC : 0 < COLS) :
    get_page_start COLS c ≤ c ∧ c - get_page_start COLS c < COLS := by
  unfold get_page_start
  split_ifs with h1 h2 h3
  · omega
  · have hm : (c - 7) % (COLS - 8) < COLS - 8 := Nat.mod_lt _ (by omega)
    have hl : (c - 7) % (COLS - 8) ≤ c - 7 := Nat.mod_le _ _
    omega
  · omega
  · omega

/-- The function `get_page_start` is monotone in the column. -/
theorem get_page_start_mono (COLS c1 c2 : Nat) (hC : 0 < COLS) (h : c1 ≤ c2) :
    get_page_start COLS c1 ≤ get_page_start COLS c2 := by
  by_cases h1 : c1 = 0 ∨ c1 < COLS - 1
  · have : get_page_start COLS c1 = 0 := by
      unfold get_page_start; rw [if_pos h1]
    omega
  · have h2 : ¬ (c2 = 0 ∨ c2 < COLS - 1) := by omega
    by_cases h9 : 9 < COLS
    · rw [get_page_start_wide COLS c1 h9 (by omega),
        get_page_start_wide COLS c2 h9 (by omega)]
      exact Nat.mul_le_mul_left _ (Nat.div_le_div_right (by omega))
    · unfold get_page_start
      rw [if_neg h1, if_neg h2, if_neg (by omega)]
      split_ifs <;> omega

/-- C23: for every `COLS > 0` and every column `c`, the page start is at
most `c` and `c` is less than `COLS` columns past it.  Hence the `wmove` of
`reset_cursor` goes to a column inside the window (and to a row inside it),
for a cursor column that fits a `size_t`. -/
theorem get_page_start_bounds (COLS c : Nat) (hC : 0 < COLS) :
    get_page_start COLS c ≤ c ∧ c - get_page_start COLS c < COLS ∧
    ∀ (E : Env) (editwinrows : Nat) (w : EditWin), E.COLS = COLS →
      xplustabs E (line_data w.openfile.lines w.openfile.current)
        w.openfile.current_x < 2 ^ 64 →
      ∀ (y : Int) (x : Nat),
        Paint.cursor y x ∈ (reset_cursor E editwinrows w).2 →
        x < COLS ∧
          (w.edittop ≤ w.openfile.current → 0 ≤ y ∧ y < editwinrows) := by
  refine ⟨(get_page_start_le COLS c hC).1, (get_page_start_le COLS c hC).2, ?_⟩
  intro E editwinrows w hE hx y x hmem
  simp only [reset_cursor] at hmem
  split_ifs at hmem with hy
  · simp only [List.mem_singleton, Paint.cursor.injEq] at hmem
    obtain ⟨rfl, rfl⟩ := hmem
    have hb := get_page_start_le E.COLS
      (xplustabs E (line_data w.openfile.lines w.openfile.current)
        w.openfile.current_x) (by omega)
    constructor
    · omega
    · intro ht
      omega
  · simp at hmem

/-- C23 (witness): 80 columns, cursor column 200: the page starts at column
144 and the cursor is shown at column 56.  And in a 10-column window with the
cursor at offset 11 of a line of letters, `reset_cursor` moves to column 7 of
row 0. -/
theorem get_page_start_bounds_witness :
    get_page_start 80 200 ≤ 200 ∧ 200 - get_page_start 80 200 < 80 ∧
    Paint.cursor 0 7 ∈ (reset_cursor (byte_env 8 10) 3
      ⟨⟨[List.replicate 12 97], 0, 11, 0, false, 0, 0, false⟩, 0, 0⟩).2 ∧
    7 < 10 ∧ ((0 : Int) ≤ 0 ∧ (0 : Int) < ((3 : Nat) : Int)) :=
  ⟨(get_page_start_bounds 80 200 (by decide)).1,
    (get_page_start_bounds 80 200 (by decide)).2.1,
    by decide,
    ((get_page_start_bounds 10 0 (by decide)).2.2 (byte_env 8 10) 3
      ⟨⟨[List.replicate 12 97], 0, 11, 0, false, 0, 0, false⟩, 0, 0⟩ rfl
      (by decide) 0 7 (by decide)).1,
    ((get_page_start_bounds 10 0 (by decide)).2.2 (byte_env 8 10) 3
      ⟨⟨[List.replicate 12 97], 0, 11, 0, false, 0, 0, false⟩, 0, 0⟩ rfl
      (by decide) 0 7 (by decide)).2 (by decide)⟩

/-- C24 (counterexample): with 80 columns, column 79 is not on page 0: its
page starts at column 72. -/
theorem get_page_start_last_column :
    (0 : Nat) ≤ 79 ∧ 79 < 80 ∧ get_page_start 80 79 = 72 := by decide

/-- C24: page 0 covers the columns `[0, COLS - 1)`: for every `COLS > 0` the
page start is 0 for column 0 and for every column below `COLS - 1`; and with
three or more columns the last column `COLS - 1` is already past page 0. -/
theorem get_page_start_page_zero (COLS c : Nat) (_hC : 0 < COLS)
    (hc : c = 0 ∨ c < COLS - 1) :
    get_page_start COLS c = 0 ∧
      (3 ≤ COLS → 0 < get_page_start COLS (COLS - 1)) := by
  constructor
  · unfold get_page_start
    rw [if_pos hc]
  · intro h3
    by_cases h9 : 9 < COLS
    · rw [get_page_start_wide COLS (COLS - 1) h9 (le_refl _)]
      have : COLS - 1 - 7 = COLS - 8 := by omega
      rw [this, Nat.div_self (by omega)]
      omega
    · unfold get_page_start
      rw [if_neg (by omega), if_neg h9, if_pos (by omega)]
      omega

/-- C24 (witness): with 80 columns, column 78 is on page 0. -/
theorem get_page_start_page_zero_witness :
    get_page_start 80 78 = 0 :=
  (get_page_start_page_zero 80 78 (by decide) (Or.inr (by decide))).1

/-- C25: for every `COLS > 9` and every column `c ≥ COLS - 1`, the page
start is a positive multiple of `COLS - 8` and the cursor is shown at a
column in `[7, COLS - 2]`; and for every `COLS > 0` the page start is
monotone non-decreasing in the column. -/
theorem get_page_start_overlap (COLS c : Nat) (hC : 9 < COLS)
    (hc : COLS - 1 ≤ c) :
    (∃ k, 0 < k ∧ get_page_start COLS c = k * (COLS - 8)) ∧
    7 ≤ c - get_page_start COLS c ∧ c - get_page_start COLS c ≤ COLS - 2 ∧
    (∀ W c1 c2 : Nat, 0 < W → c1 ≤ c2 →
      get_page_start W c1 ≤ get_page_start W c2) := by
  refine ⟨⟨(c - 7) / (COLS - 8), ?_, ?_⟩, ?_, ?_, ?_⟩
  · exact Nat.div_pos (by omega) (by omega)
  · rw [get_page_start_wide COLS c hC hc, Nat.mul_comm]
  · unfold get_page_start
    rw [if_neg (by omega), if_pos hC]
    have hl : (c - 7) % (COLS - 8) ≤ c - 7 := Nat.mod_le _ _
    omega
  · unfold get_page_start
    rw [if_neg (by omega), if_pos hC]
    have hm : (c - 7) % (COLS - 8) < COLS - 8 := Nat.mod_lt _ (by omega)
    have hl : (c - 7) % (COLS - 8) ≤ c - 7 := Nat.mod_le _ _
    omega
  · intro W c1 c2 hW h
    exact get_page_start_mono W c1 c2 hW h

/-- C25 (witness): 80 columns, column 200: the page start 193 - 193 % 72 =
144 is 2 * 72 and the cursor is shown at column 56. -/
theorem get_page_start_overlap_witness :
    (∃ k, 0 < k ∧ get_page_start 80 200 = k * (80 - 8)) ∧
      7 ≤ 200 - get_page_start 80 200 ∧ 200 - get_page_start 80 200 ≤ 80 - 2 :=
  ⟨(get_page_start_overlap 80 200 (by decide) (by decide)).1,
    (get_page_start_overlap 80 200 (by decide) (by decide)).2.1,
    (get_page_start_overlap 80 200 (by decide) (by decide)).2.2.1⟩

/-- The loop of `edit_update` walks up `goal` lines, or to the first line. -/
theorem edit_update_walk_eq : ∀ goal foo : Nat,
    edit_update_walk goal foo = foo - min goal foo := by
  intro goal
  induction goal with
  | zero => intro foo; simp [edit_update_walk]
  | succ g ih =>
    intro foo
    simp only [edit_update_walk]
    split_ifs with h
    · subst h; simp
    · rw [ih]; omega

/-- C27: after `edit_update(CENTER)` the top line is the line
`min(editwinrows / 2, lines before the cursor line)` lines before the cursor
line; the cursor line then sits `editwinrows / 2` rows below the top
whenever that many lines precede it; the file, the cursor line and the
cursor offset are unchanged. -/
theorem edit_update_center (editwinrows : Nat) (w : EditWin) :
    (edit_update editwinrows update_type.CENTER w).edittop =
        w.openfile.current - min (editwinrows / 2) w.openfile.current ∧
      (editwinrows / 2 ≤ w.openfile.current →
        w.openfile.current -
          (edit_update editwinrows update_type.CENTER w).edittop =
            editwinrows / 2) ∧
      (edit_update editwinrows update_type.CENTER w).openfile = w.openfile := by
  have h2 : ((editwinrows : Int) / 2).toNat = editwinrows / 2 := by
    have : ((editwinrows : Int) / 2) = ((editwinrows / 2 : Nat) : Int) := by
      norm_cast
    rw [this, Int.toNat_ofNat]
  have he : (edit_update editwinrows update_type.CENTER w).edittop =
      w.openfile.current - min (editwinrows / 2) w.openfile.current := by
    simp only [edit_update, if_true, h2, edit_update_walk_eq]
  refine ⟨he, ?_, rfl⟩
  intro h
  rw [he]
  omega
/-- C27 (witness): five rows, cursor on line 7: the top is line 5 and the
cursor line sits two rows below it. -/
theorem edit_update_center_witness :
    (edit_update 5 update_type.CENTER
        ⟨⟨List.replicate 10 [97], 7, 0, 0, false, 0, 0, false⟩, 0, 0⟩).edittop
      = 7 - min (5 / 2) 7 ∧
    7 - (edit_update 5 update_type.CENTER
        ⟨⟨List.replicate 10 [97], 7, 0, 0, false, 0, 0, false⟩, 0, 0⟩).edittop
      = 5 / 2 :=
  ⟨(edit_update_center 5
      ⟨⟨List.replicate 10 [97], 7, 0, 0, false, 0, 0, false⟩, 0, 0⟩).1,
    (edit_update_center 5
      ⟨⟨List.replicate 10 [97], 7, 0, 0, false, 0, 0, false⟩, 0, 0⟩).2.1
      (by decide)⟩

/-- The first loop of `edit_scroll` going down: the top line moves `i` lines
down or to the last line, and `i` keeps what could not be walked. -/
theorem edit_scroll_top_down (nl : Nat) : ∀ i top : Nat, top < nl →
    edit_scroll_top scroll_dir.DOWN nl i top =
      (min (top + i) (nl - 1), i - (min (top + i) (nl - 1) - top)) := by
  intro i
  induction i with
  | zero =>
    intro top h
    have e1 : top ≤ nl - 1 := by omega
    simp [edit_scroll_top, e1]
  | succ i ih =>
    intro top h
    simp only [edit_scroll_top, reduceCtorEq, if_false]
    split_ifs with h1
    · have e1 : min (top + (i + 1)) (nl - 1) = top := by omega
      rw [e1]; simp
    · rw [ih (top + 1) (by omega)]
      have e1 : min (top + 1 + i) (nl - 1) = min (top + (i + 1)) (nl - 1) := by
        congr 1; omega
      rw [e1]
      congr 1
      omega

/-- A row of the edit window is repainted by a run of calls when one of
them is `update_line` or `blank_line` on that row. -/
theorem edit_refresh_rows_all (E : Env) (editwinrows : Nat) (w : EditWin) :
    ∀ n foo : Nat, n ≤ editwinrows →
      (foo < w.openfile.lines.length → foo = w.edittop + (editwinrows - n)) →
      ∀ row : Nat, editwinrows - n ≤ row → row < editwinrows →
        (∃ d : LineDraw, d.row = row ∧
          Paint.line d ∈ edit_refresh_rows E editwinrows w n foo) ∨
        Paint.blank row ∈ edit_refresh_rows E editwinrows w n foo := by
  intro n
  induction n with
  | zero => intro foo _ _ row h1 h2; omega
  | succ n ih =>
    intro foo hn hfoo row h1 h2
    simp only [edit_refresh_rows]
    split_ifs with hlt
    · have hf := hfoo hlt
      by_cases hrow : row = editwinrows - (n + 1)
      · left
        have hwin : ¬ (((foo : Int) - (w.edittop : Int) < 0) ∨
            ((foo : Int) - (w.edittop : Int) ≥ (editwinrows : Int))) := by
          omega
        simp only [update_line_paint, update_line, if_neg hwin]
        refine ⟨_, ?_, List.mem_append_left _ (List.mem_singleton.mpr rfl)⟩
        simp only
        omega
      · rcases ih (foo + 1) (by omega) (fun _ => by omega) row (by omega) h2
          with ⟨d, hd, hm⟩ | hm
        · exact Or.inl ⟨d, hd, List.mem_append_right _ hm⟩
        · exact Or.inr (List.mem_append_right _ hm)
    · by_cases hrow : row = editwinrows - (n + 1)
      · right
        rw [hrow]
        exact List.mem_cons_self _ _
      · rcases ih foo (by omega) (fun h => absurd h hlt) row (by omega) h2
          with ⟨d, hd, hm⟩ | hm
        · exact Or.inl ⟨d, hd, List.mem_cons_of_mem _ hm⟩
        · exact Or.inr (List.mem_cons_of_mem _ hm)

/-- The function `edit_refresh` repaints every row of the edit window. -/
theorem edit_refresh_all (E : Env) (editwinrows : Nat) (smooth : Bool)
    (w : EditWin) (row : Nat) (hrow : row < editwinrows) :
    (∃ d : LineDraw, d.row = row ∧
      Paint.line d ∈ (edit_refresh E editwinrows smooth w).2) ∨
    Paint.blank row ∈ (edit_refresh E editwinrows smooth w).2 := by
  simp only [edit_refresh]
  generalize (if w.openfile.current < w.edittop ∨
      w.openfile.current ≥ w.edittop + editwinrows then
    edit_update editwinrows
      (if smooth = true then update_type.NONE else update_type.CENTER) w
    else w) = w1
  rcases edit_refresh_rows_all E editwinrows w1 editwinrows w1.edittop
      (le_refl _) (fun _ => by simp) row (by omega) hrow with ⟨d, hd, hm⟩ | hm
  · exact Or.inl ⟨d, hd, List.mem_append_left _ hm⟩
  · exact Or.inr (List.mem_append_left _ hm)

/-- The function `edit_refresh` leaves `edittop` alone exactly when the
cursor line is in the window; otherwise `edittop` ends at or above the
cursor line. -/
theorem edit_refresh_edittop (E : Env) (editwinrows : Nat) (smooth : Bool)
    (w : EditWin) :
    (w.edittop ≤ w.openfile.current ∧
        w.openfile.current < w.edittop + editwinrows →
      (edit_refresh E editwinrows smooth w).1.edittop = w.edittop) ∧
    (¬ (w.edittop ≤ w.openfile.current ∧
        w.openfile.current < w.edittop + editwinrows) →
      (edit_refresh E editwinrows smooth w).1.edittop ≤ w.openfile.current) := by
  constructor
  · intro h
    have hc : ¬ (w.openfile.current < w.edittop ∨
        w.openfile.current ≥ w.edittop + editwinrows) := by omega
    simp only [edit_refresh, if_neg hc, reset_cursor]
    split_ifs <;> rfl
  · intro h
    have hc : w.openfile.current < w.edittop ∨
        w.openfile.current ≥ w.edittop + editwinrows := by omega
    simp only [edit_refresh, if_pos hc, reset_cursor]
    have hw : ∀ g, edit_update_walk g w.openfile.current ≤ w.openfile.current := by
      intro g; rw [edit_update_walk_eq]; omega
    split_ifs <;> simp only [edit_update] <;> exact hw _
/-- The drawing loop of `edit_scroll` draws nothing from `NULL` on. -/
theorem edit_scroll_draw_null (E : Env) (editwinrows : Nat) (w : EditWin)
    (direction : scroll_dir) (do_redraw : Bool) (nlines i foo : Nat)
    (h : w.openfile.lines.length ≤ foo) :
    edit_scroll_draw E editwinrows w direction do_redraw nlines i foo = [] := by
  cases i with
  | zero => rfl
  | succ i =>
    simp only [edit_scroll_draw]
    rw [if_neg (by omega)]

/-- C26 (counterexample): scrolling down past the end does not always leave
the top at the last line, and does not always repaint the window.  With two
rows and four lines, top and cursor on the first line, `edit_scroll(DOWN, 4)`
ends with the top back on the first line: `edit_refresh` puts it in range of
the cursor.  With five rows and two lines, top on the first line and cursor
on the second, `edit_scroll(DOWN, 5)` scrolls the window by one row with
`wscrl` and repaints no row at all. -/
theorem edit_scroll_down_not_full :
    (edit_scroll (byte_env 8 80) 2 false scroll_dir.DOWN 4
        ⟨⟨[[97], [98], [99], [100]], 0, 0, 0, false, 0, 0, false⟩, 0, 0⟩).1.edittop
      = 0 ∧
    edit_scroll (byte_env 8 80) 5 false scroll_dir.DOWN 5
        ⟨⟨[[97], [98]], 1, 0, 0, false, 0, 0, false⟩, 0, 1⟩ =
      (⟨⟨[[97], [98]], 1, 0, 0, false, 0, 0, false⟩, 1, 1⟩,
        [Paint.scroll 1]) := by
  constructor <;> decide

/-- C26: for every `n ≥ 1` greater than the number `r` of lines after the
top line, `edit_scroll(DOWN, n)` first moves the top to the last line.  When
`r = 0` it then returns with nothing drawn.  When `0 < r < editwinrows` it
scrolls the window by `r` rows with `wscrl` and redraws only the top row, and
that only when the mark is on or the cursor is past the first page; the top
stays at the last line.  When `r ≥ editwinrows` it calls `edit_refresh`,
which repaints every row of the window; the top then stays at the last line
when the cursor line is the last line, and ends above it otherwise. -/
theorem edit_scroll_down_past_end (E : Env) (editwinrows : Nat) (smooth : Bool)
    (w : EditWin) (n : Nat) (htop : w.edittop < w.openfile.lines.length)
    (hn : 1 ≤ n) (hr : w.openfile.lines.length - 1 - w.edittop < n) :
    (w.openfile.lines.length - 1 - w.edittop = 0 →
      edit_scroll E editwinrows smooth scroll_dir.DOWN (n : Int) w = (w, [])) ∧
    (0 < w.openfile.lines.length - 1 - w.edittop →
      w.openfile.lines.length - 1 - w.edittop < editwinrows →
      edit_scroll E editwinrows smooth scroll_dir.DOWN (n : Int) w =
        ({ w with edittop := w.openfile.lines.length - 1 },
          Paint.scroll ((w.openfile.lines.length - 1 - w.edittop : Nat) : Int) ::
            (if need_vertical_update E w 0 then
              update_line_paint E editwinrows
                { w with edittop := w.openfile.lines.length - 1 }
                (w.openfile.lines.length - 1)
            else []))) ∧
    (0 < w.openfile.lines.length - 1 - w.edittop →
      editwinrows ≤ w.openfile.lines.length - 1 - w.edittop →
      edit_scroll E editwinrows smooth scroll_dir.DOWN (n : Int) w =
        edit_refresh E editwinrows smooth
          { w with edittop := w.openfile.lines.length - 1 } ∧
      (∀ row : Nat, row < editwinrows →
        (∃ d : LineDraw, d.row = row ∧ Paint.line d ∈
          (edit_scroll E editwinrows smooth scroll_dir.DOWN (n : Int) w).2) ∨
        Paint.blank row ∈
          (edit_scroll E editwinrows smooth scroll_dir.DOWN (n : Int) w).2) ∧
      (0 < editwinrows →
        w.openfile.current = w.openfile.lines.length - 1 →
        (edit_scroll E editwinrows smooth scroll_dir.DOWN (n : Int) w).1.edittop =
          w.openfile.lines.length - 1) ∧
      (w.openfile.current < w.openfile.lines.length - 1 →
        (edit_scroll E editwinrows smooth scroll_dir.DOWN (n : Int) w).1.edittop <
          w.openfile.lines.length - 1)) := by
  obtain ⟨f, top, cy⟩ := w
  simp only at htop hr ⊢
  have hn1 : ¬ ((n : Int) < 1) := by omega
  have hmin : min (top + n) (f.lines.length - 1) = f.lines.length - 1 := by
    omega
  have hm := edit_scroll_top_down f.lines.length n top htop
  rw [hmin] at hm
  have hl1 : n - (n - (f.lines.length - 1 - top)) = f.lines.length - 1 - top := by
    omega
  refine ⟨?_, ?_, ?_⟩
  · intro h0
    have ht : f.lines.length - 1 = top := by omega
    simp only [edit_scroll, if_neg hn1, Int.toNat_ofNat, hm, hl1]
    rw [if_pos h0, ht]
  · intro h0 hlt
    have hne : ¬ (f.lines.length - 1 - top = 0) := by omega
    have hge : ¬ (f.lines.length - 1 - top ≥ editwinrows) := by omega
    have hbot : f.lines.length - 1 + editwinrows - 1 ≥ filebot f := by
      unfold filebot; omega
    have he1 : ¬ (editwinrows = 1) := by omega
    have hgt : editwinrows + 2 > editwinrows := by omega
    simp only [edit_scroll, if_neg hn1, Int.toNat_ofNat, hm, hl1, if_neg hne,
      if_neg hge, reduceCtorEq, false_and, false_or, true_and, if_pos hbot,
      if_neg he1, if_pos hgt, if_true, if_false, Nat.sub_self, edit_scroll_skip]
    obtain ⟨k, hk⟩ : ∃ k, editwinrows = k + 1 := ⟨editwinrows - 1, by omega⟩
    rw [hk]
    simp only [edit_scroll_draw, true_and, reduceCtorEq, and_false, or_false,
      if_true]
    rw [if_pos (by omega), edit_scroll_draw_null _ _ _ _ _ _ _ _ (by simp; omega)]
    simp [need_vertical_update]
  · intro h0 hge
    have hne : ¬ (f.lines.length - 1 - top = 0) := by omega
    have hes : edit_scroll E editwinrows smooth scroll_dir.DOWN (n : Int)
        ⟨f, top, cy⟩ =
        edit_refresh E editwinrows smooth ⟨f, f.lines.length - 1, cy⟩ := by
      simp only [edit_scroll, if_neg hn1, Int.toNat_ofNat, hm, hl1, if_neg hne,
        if_pos hge]
    refine ⟨hes, ?_, ?_, ?_⟩
    · intro row hrow
      rw [hes]
      exact edit_refresh_all E editwinrows smooth _ row hrow
    · intro hpos hcur
      rw [hes]
      exact (edit_refresh_edittop E editwinrows smooth
        ⟨f, f.lines.length - 1, cy⟩).1 ⟨by simp only; omega, by simp only; omega⟩
    · intro hcur
      rw [hes]
      have h := (edit_refresh_edittop E editwinrows smooth
        ⟨f, f.lines.length - 1, cy⟩).2 (by simp only; omega)
      simp only at h
      omega

/-- C26 (witness): three rows and ten lines, top on the first line and the
cursor on the last: `edit_scroll(DOWN, 20)` is `edit_refresh` with the top
on the last line. -/
theorem edit_scroll_down_past_end_witness :
    edit_scroll (byte_env 8 80) 3 false scroll_dir.DOWN ((20 : Nat) : Int)
        ⟨⟨List.replicate 10 [97], 9, 0, 0, false, 0, 0, false⟩, 0, 0⟩ =
      edit_refresh (byte_env 8 80) 3 false
        ⟨⟨List.replicate 10 [97], 9, 0, 0, false, 0, 0, false⟩, 9, 0⟩ :=
  ((edit_scroll_down_past_end (byte_env 8 80) 3 false
    ⟨⟨List.replicate 10 [97], 9, 0, 0, false, 0, 0, false⟩, 0, 0⟩ 20
    (by decide) (by decide) (by decide)).2.2 (by decide) (by decide)).1

/-- C28: for a line inside the window, `update_line` draws the row of that
line; it puts the `$` at column 0 exactly when the page start of the row is
greater than 0, and the `$` at column `COLS - 1` exactly when
`strlenpt(line) > page_start + COLS`; and whenever the right `$` is drawn
the text that `display_string` returns, which is painted from column 0,
occupies at most `COLS - 1` columns, so the `$` is not put on a text cell.
The text is what `display_string` returns for the line, the page start,
`COLS` and `dollars` set, on every run on which it is defined. -/
theorem update_line_dollars (E : Env) (hE : E.WF) (editwinrows : Nat)
    (w : EditWin) (fileptr index : Nat) (hC : 0 < E.COLS)
    (h1 : w.edittop ≤ fileptr) (h2 : fileptr < w.edittop + editwinrows)
    (hfit : get_page_start E.COLS
      (if fileptr = w.openfile.current then
        strnlenpt E (line_data w.openfile.lines fileptr) index else 0) +
        E.COLS < 2 ^ 64) :
    ∃ d : LineDraw, update_line E editwinrows w fileptr index = some d ∧
      d.row = fileptr - w.edittop ∧
      d.page_start = get_page_start E.COLS
        (if fileptr = w.openfile.current then
          strnlenpt E (line_data w.openfile.lines fileptr) index else 0) ∧
      d.converted = display_string E (line_data w.openfile.lines fileptr)
        d.page_start E.COLS true ∧
      (d.left_dollar = true ↔ 0 < d.page_start) ∧
      (d.right_dollar = true ↔
        strlenpt E (line_data w.openfile.lines fileptr) >
          d.page_start + E.COLS) ∧
      (∀ r : List Nat, d.converted = some r → d.right_dollar = true →
        strlenpt E r ≤ E.COLS - 1) := by
  have hwin : ¬ (((fileptr : Int) - (w.edittop : Int) < 0) ∨
      ((fileptr : Int) - (w.edittop : Int) ≥ (editwinrows : Int))) := by
    omega
  have hmod := Nat.mod_eq_of_lt hfit
  refine ⟨_, by simp only [update_line, if_neg hwin]; rfl, ?_, rfl, rfl, ?_, ?_, ?_⟩
  · simp only
    omega
  · simp only [decide_eq_true_eq, gt_iff_lt]
  · simp only [decide_eq_true_eq, hmod]
  · intro r hconv hr
    simp only [decide_eq_true_eq, hmod] at hr
    refine le_trans (display_string_le_display_len E hE _ _ _ _ r hconv) ?_
    simp only [display_len, hmod]
    rw [if_pos ⟨trivial, hC, hr⟩]

/-- C28 (witness): a line of twelve letters in a 10-column window, cursor
at the start: the page starts at column 0, a `$` is put at the right, and the
text painted is nine letters, 9 columns wide. -/
theorem update_line_dollars_witness :
    ∃ d : LineDraw,
      update_line (byte_env 8 10) 3
        ⟨⟨[List.replicate 12 97], 0, 0, 0, false, 0, 0, false⟩, 0, 0⟩ 0 0 =
          some d ∧
      d.page_start = 0 ∧ d.right_dollar = true ∧
      d.converted = some (List.replicate 9 97) ∧
      strlenpt (byte_env 8 10) (List.replicate 9 97) ≤ 10 - 1 := by
  obtain ⟨d, h1, _, h3, h4, _, h6, h7⟩ :=
    update_line_dollars (byte_env 8 10) (byte_env_WF 8 10 (by decide)) 3
      ⟨⟨[List.replicate 12 97], 0, 0, 0, false, 0, 0, false⟩, 0, 0⟩ 0 0
      (by decide) (by decide) (by decide) (by decide)
  have hp : d.page_start = 0 := h3.trans (by decide)
  have hr : d.right_dollar = true := by
    rw [h6, hp]
    decide
  have hc : d.converted = some (List.replicate 9 97) := by
    rw [h4, hp]
    decide
  exact ⟨d, h1, hp, hr, hc, h7 _ hc hr⟩

/-! ## Theorems: cut and paste -/

/-- A list of lines is the lines before line `t`, line `t`, and the lines
after it. -/
theorem lines_split (lines : List (List Nat)) (t : Nat) (h : t < lines.length) :
    lines = lines.take t ++ [line_data lines t] ++ lines.drop (t + 1) := by
  have h1 : line_data lines t = lines[t] := by
    simp [line_data, List.getD_eq_getElem?_getD, List.getElem?_eq_getElem h]
  rw [h1, List.append_assoc, List.singleton_append, ← List.drop_eq_getElem_cons h,
    List.take_append_drop]

/-- The line in the middle of a spliced list. -/
theorem line_data_splice (l1 l2 : List (List Nat)) (X : List Nat) :
    line_data (l1 ++ [X] ++ l2) l1.length = X := by
  simp [line_data, List.getD_eq_getElem?_getD, List.getElem_append_right]

/-- The lines before the middle of a spliced list. -/
theorem take_splice (l1 l2 : List (List Nat)) (X : List Nat) :
    (l1 ++ [X] ++ l2).take l1.length = l1 := by
  rw [List.append_assoc, List.take_left]

/-- The lines after the middle of a spliced list. -/
theorem drop_splice (l1 l2 : List (List Nat)) (X : List Nat) :
    (l1 ++ [X] ++ l2).drop (l1.length + 1) = l2 := by
  have : (l1 ++ [X]).length = l1.length + 1 := by simp
  rw [← this, List.drop_left]

/-- The text spliced out of the lines and inserted again where it was gives
the lines back. -/
theorem paste_lines_text_between (lines : List (List Nat))
    (t tx b bx : Nat) (hb : b < lines.length) (htb : t ≤ b)
    (htx : tx ≤ (line_data lines t).length) (hx : t = b → tx ≤ bx) :
    paste_lines (text_without lines t tx b bx) t tx
      (text_between lines t tx b bx) = lines := by
  have hlen : (lines.take t).length = t := by
    rw [List.length_take]; omega
  have hline : line_data (text_without lines t tx b bx) t =
      (line_data lines t).take tx ++ (line_data lines b).drop bx := by
    have := line_data_splice (lines.take t) (lines.drop (b + 1))
      ((line_data lines t).take tx ++ (line_data lines b).drop bx)
    rw [hlen] at this
    exact this
  have htake : (text_without lines t tx b bx).take t = lines.take t := by
    have := take_splice (lines.take t) (lines.drop (b + 1))
      ((line_data lines t).take tx ++ (line_data lines b).drop bx)
    rw [hlen] at this
    exact this
  have hdrop : (text_without lines t tx b bx).drop (t + 1) =
      lines.drop (b + 1) := by
    have := drop_splice (lines.take t) (lines.drop (b + 1))
      ((line_data lines t).take tx ++ (line_data lines b).drop bx)
    rw [hlen] at this
    exact this
  have hl : ((line_data lines t).take tx).length = tx := by
    rw [List.length_take]; omega
  have hhead : ((line_data lines t).take tx ++ (line_data lines b).drop bx).take tx
      = (line_data lines t).take tx := by
    have := List.take_left ((line_data lines t).take tx)
      ((line_data lines b).drop bx)
    rw [hl] at this
    exact this
  have htail : ((line_data lines t).take tx ++ (line_data lines b).drop bx).drop tx
      = (line_data lines b).drop bx := by
    have := List.drop_left ((line_data lines t).take tx)
      ((line_data lines b).drop bx)
    rw [hl] at this
    exact this
  have hs : ∀ x d : List Nat, [x].getLastD d = x := fun _ _ => rfl
  simp only [paste_lines, hline, htake, hdrop, hhead, htail]
  by_cases heq : t = b
  · subst heq
    have htx2 := hx rfl
    have hmid : (line_data lines t).take tx ++
        ((line_data lines t).take bx).drop tx ++ (line_data lines t).drop bx
        = line_data lines t := by
      have e1 : (line_data lines t).take tx =
          ((line_data lines t).take bx).take tx := by
        rw [List.take_take, Nat.min_eq_left htx2]
      rw [e1, List.take_append_drop, List.take_append_drop]
    simp only [text_between, if_true, append_text, List.dropLast_single,
      List.nil_append, List.append_nil, hs, hmid]
    exact (lines_split lines t hb).symm
  · have hlt : t < b := by omega
    have hmid : lines.drop (t + 1) =
        (lines.take b).drop (t + 1) ++ [line_data lines b] ++
          lines.drop (b + 1) := by
      have h1 := lines_split lines b hb
      have h2 : (lines.take b ++ [line_data lines b] ++ lines.drop (b + 1)).drop
          (t + 1) = (lines.take b).drop (t + 1) ++ [line_data lines b] ++
            lines.drop (b + 1) := by
        rw [List.append_assoc, List.drop_append_of_le_length, List.append_assoc]
        rw [List.length_take]; omega
      rw [← h1] at h2
      exact h2
    simp only [text_between, if_neg heq, append_text, List.dropLast_single,
      List.nil_append, List.singleton_append, List.cons_append, hs,
      List.append_nil]
    have hdl : ((line_data lines t).take tx ++ (line_data lines t).drop tx) ::
        ((lines.take b).drop (t + 1) ++ [(line_data lines b).take bx]) =
        (line_data lines t :: (lines.take b).drop (t + 1)) ++
          [(line_data lines b).take bx] := by
      rw [List.take_append_drop]; rfl
    rw [hdl, List.dropLast_concat, List.getLastD_concat, List.take_append_drop]
    have h0 := lines_split lines t (by omega)
    rw [hmid] at h0
    simp only [List.append_assoc, List.singleton_append, List.cons_append,
      List.nil_append] at h0 ⊢
    exact h0.symm
/-- The lines `do_uncut_text` leaves: unchanged with no cut buffer, the cut
buffer pasted at the cursor otherwise. -/
theorem do_uncut_text_lines (E : Env) (c : CutState) :
    (do_uncut_text E c).openfile.lines =
      match c.cutbuffer with
      | none => c.openfile.lines
      | some cb =>
        paste_lines c.openfile.lines c.openfile.current c.openfile.current_x cb := by
  unfold do_uncut_text
  cases c.cutbuffer with
  | none => rfl
  | some cb =>
    simp only [set_modified, copy_from_filestruct]
    split_ifs <;> rfl

/-- Whatever state holds the cut buffer, the lines and the cursor that
`move_to_filestruct` leaves from an empty cut buffer, `do_uncut_text` gives
the lines of the file back. -/
theorem move_then_uncut (E : Env) (f : OpenFile) (t tx b bx : Nat)
    (hb : b < f.lines.length) (htb : t ≤ b)
    (htx : tx ≤ (line_data f.lines t).length) (hx : t = b → tx ≤ bx)
    (c : CutState)
    (h1 : c.cutbuffer = (move_to_filestruct none f t tx b bx).1)
    (h2 : c.openfile.lines = (move_to_filestruct none f t tx b bx).2.lines)
    (h3 : c.openfile.current = (move_to_filestruct none f t tx b bx).2.current)
    (h4 : c.openfile.current_x =
      (move_to_filestruct none f t tx b bx).2.current_x) :
    (do_uncut_text E c).openfile.lines = f.lines := by
  rw [do_uncut_text_lines]
  unfold move_to_filestruct at h1 h2 h3 h4
  by_cases he : t = b ∧ tx = bx
  · rw [if_pos he] at h1 h2 h3 h4
    simp only at h1 h2
    rw [h1]
    exact h2
  · rw [if_neg he] at h1 h2 h3 h4
    simp only at h1 h2 h3 h4
    rw [h1]
    simp only [h2, h3, h4]
    exact paste_lines_text_between f.lines t tx b bx hb htb htx hx

/-- Cut-then-paste from an empty cut buffer.  For every file, every cursor
on a line of the file at an offset within that line and every mark likewise,
starting from a `NULL` cut buffer: one cut (`cut_line`, `cut_marked`,
`cut_to_eol`, `do_cut_till_end`, or `do_cut_text` whichever of the three it
chooses) and then `do_uncut_text` at the cursor the cut leaves restores the
lines of the file exactly. -/
theorem cut_uncut_from_null (E : Env) (c : CutState)
    (hcb : c.cutbuffer = none)
    (hcur : c.openfile.current < c.openfile.lines.length)
    (hcx : c.openfile.current_x ≤
      (line_data c.openfile.lines c.openfile.current).length)
    (hm : c.openfile.mark_begin < c.openfile.lines.length)
    (hmx : c.openfile.mark_begin_x ≤
      (line_data c.openfile.lines c.openfile.mark_begin).length) :
    (do_uncut_text E (cut_line c)).openfile.lines = c.openfile.lines ∧
    (do_uncut_text E (cut_marked E c)).openfile.lines = c.openfile.lines ∧
    (do_uncut_text E (cut_to_eol E c)).openfile.lines = c.openfile.lines ∧
    (do_uncut_text E (do_cut_till_end c)).openfile.lines = c.openfile.lines ∧
    (∀ cut_to_end : Bool,
      (do_uncut_text E (do_cut_text E cut_to_end c)).openfile.lines =
        c.openfile.lines) := by
  obtain ⟨f, cb, k⟩ := c
  simp only at hcb hcur hcx hm hmx
  subst hcb
  have hline : ∀ k', (do_uncut_text E (cut_line ⟨f, none, k'⟩)).openfile.lines
      = f.lines := by
    intro k'
    by_cases hbot : f.current ≠ filebot f
    · have hb : f.current + 1 < f.lines.length := by
        unfold filebot at hbot; omega
      refine move_then_uncut E f f.current 0 (f.current + 1) 0 hb (by omega)
        (by omega) (by omega) _ ?_ ?_ ?_ ?_ <;>
        simp only [cut_line, if_pos hbot]
    · refine move_then_uncut E f f.current 0 f.current
        (line_data f.lines f.current).length hcur (le_refl _)
        (by omega) (by omega) _ ?_ ?_ ?_ ?_ <;>
        simp only [cut_line, if_neg hbot]
  have hmark : ∀ k', (do_uncut_text E (cut_marked E ⟨f, none, k'⟩)).openfile.lines
      = f.lines := by
    intro k'
    by_cases hord : f.mark_begin < f.current ∨
        (f.mark_begin = f.current ∧ f.mark_begin_x < f.current_x)
    · refine move_then_uncut E f f.mark_begin f.mark_begin_x f.current
        f.current_x hcur (by omega) hmx (by omega) _ ?_ ?_ ?_ ?_ <;>
        simp only [cut_marked, mark_order, if_pos hord]
    · refine move_then_uncut E f f.current f.current_x f.mark_begin
        f.mark_begin_x hm (by omega) hcx (by omega) _ ?_ ?_ ?_ ?_ <;>
        simp only [cut_marked, mark_order, if_neg hord]
  have heol : ∀ k', (do_uncut_text E (cut_to_eol E ⟨f, none, k'⟩)).openfile.lines
      = f.lines := by
    intro k'
    by_cases hlt : f.current_x < (line_data f.lines f.current).length
    · refine move_then_uncut E f f.current f.current_x f.current
        (line_data f.lines f.current).length hcur (le_refl _) hcx
        (by omega) _ ?_ ?_ ?_ ?_ <;>
        simp only [cut_to_eol, if_pos hlt]
    · by_cases hbot : f.current ≠ filebot f
      · have hb : f.current + 1 < f.lines.length := by
          unfold filebot at hbot; omega
        refine move_then_uncut E f f.current f.current_x (f.current + 1) 0
          hb (by omega) hcx (by omega) _ ?_ ?_ ?_ ?_ <;>
          simp only [cut_to_eol, if_neg hlt, if_pos hbot]
      · simp only [cut_to_eol, if_neg hlt, if_neg hbot]
        rfl
  refine ⟨hline k, hmark k, heol k, ?_, ?_⟩
  · refine move_then_uncut E f f.current f.current_x (filebot f)
      (line_data f.lines (filebot f)).length (by unfold filebot; omega)
      (by unfold filebot; omega) hcx ?_ _ ?_ ?_ ?_ ?_
    · intro h; rw [← h]; exact hcx
    all_goals simp only [do_cut_till_end, set_modified]
    all_goals split_ifs <;> rfl
  · intro cte
    have hsm : ∀ c' : CutState,
        (do_uncut_text E { c' with openfile := set_modified c'.openfile }).openfile.lines
          = (do_uncut_text E c').openfile.lines := by
      intro c'
      rw [do_uncut_text_lines, do_uncut_text_lines]
      simp only [set_modified]
      split_ifs <;> rfl
    have hms : ∀ c' : CutState,
        (do_uncut_text E
          { c' with openfile := { c'.openfile with mark_set := false } }).openfile.lines
          = (do_uncut_text E c').openfile.lines := by
      intro c'
      rw [do_uncut_text_lines, do_uncut_text_lines]
    simp only [do_cut_text, Option.some_ne_none, ne_eq, not_true, and_false,
      if_false, not_false_eq_true]
    rw [hsm]
    split_ifs
    · rw [hms]; exact hmark true
    · exact heol true
    · exact hline true
/-- With `keep_cutbuffer` clear `do_cut_text` starts from an empty cut
buffer whatever the buffer holds. -/
theorem do_cut_text_discards (E : Env) (cut_to_end : Bool) (c : CutState)
    (hk : c.keep_cutbuffer = false) :
    do_cut_text E cut_to_end c =
      do_cut_text E cut_to_end { c with cutbuffer := none } := by
  obtain ⟨f, cb, k⟩ := c
  simp only at hk
  subst hk
  cases cb <;> simp [do_cut_text]

/-- Cut-then-paste from a reset cut buffer with `do_cut_text`: whatever the
cut buffer holds after `cutbuffer_reset`, `do_cut_text` and then
`do_uncut_text` restore the lines of the file. -/
theorem do_cut_text_uncut_reset (E : Env) (cut_to_end : Bool) (c : CutState)
    (hcur : c.openfile.current < c.openfile.lines.length)
    (hcx : c.openfile.current_x ≤
      (line_data c.openfile.lines c.openfile.current).length)
    (hm : c.openfile.mark_begin < c.openfile.lines.length)
    (hmx : c.openfile.mark_begin_x ≤
      (line_data c.openfile.lines c.openfile.mark_begin).length) :
    (do_uncut_text E
      (do_cut_text E cut_to_end (cutbuffer_reset c))).openfile.lines =
        c.openfile.lines := by
  rw [do_cut_text_discards E cut_to_end (cutbuffer_reset c) rfl]
  exact (cut_uncut_from_null E
    { cutbuffer_reset c with cutbuffer := none } rfl hcur hcx hm hmx).2.2.2.2
    cut_to_end

/-- The marked span from the middle of the first line to the middle of the
third is cut, which leaves one line, and pasted back. -/
theorem cut_uncut_from_null_example :
    (cut_marked (byte_env 8 80)
        ⟨⟨[[97, 98], [99], [100, 101]], 0, 1, 0, true, 2, 1, false⟩, none,
          false⟩).openfile.lines = [[97, 101]] ∧
    (do_uncut_text (byte_env 8 80) (cut_marked (byte_env 8 80)
        ⟨⟨[[97, 98], [99], [100, 101]], 0, 1, 0, true, 2, 1, false⟩, none,
          false⟩)).openfile.lines = [[97, 98], [99], [100, 101]] :=
  ⟨by decide,
    (cut_uncut_from_null (byte_env 8 80)
      ⟨⟨[[97, 98], [99], [100, 101]], 0, 1, 0, true, 2, 1, false⟩, none, false⟩
      rfl (by decide) (by decide) (by decide) (by decide)).2.1⟩

/-- C22: cut-then-paste does not restore the text after `do_cut_till_end`
from a reset cut buffer that still holds text.  The file is the line ab with
the cursor after the a; the cut buffer holds the line x from an earlier cut
and `cutbuffer_reset` has cleared `keep_cutbuffer`.  The function
`do_cut_till_end` adds the b it cuts to the x, and `do_uncut_text` then
pastes xb: the file ends as axb.  With `do_cut_text` (`CUT_TO_END` set) in
its place the x is thrown away first and the file ends as ab again. -/
theorem do_cut_till_end_uncut_not_restored :
    (do_cut_till_end (cutbuffer_reset
        ⟨⟨[[97, 98]], 0, 1, 0, false, 0, 0, false⟩, some [[120]], true⟩)
      ).cutbuffer = some [[120, 98]] ∧
    (do_uncut_text (byte_env 8 80) (do_cut_till_end (cutbuffer_reset
        ⟨⟨[[97, 98]], 0, 1, 0, false, 0, 0, false⟩, some [[120]], true⟩))
      ).openfile.lines = [[97, 120, 98]] ∧
    (do_uncut_text (byte_env 8 80) (do_cut_text (byte_env 8 80) true
        (cutbuffer_reset
          ⟨⟨[[97, 98]], 0, 1, 0, false, 0, 0, false⟩, some [[120]], true⟩))
      ).openfile.lines = [[97, 98]] := by
  refine ⟨?_, ?_, ?_⟩ <;> decide

/-- The function `set_modified` leaves the file marked modified. -/
theorem set_modified_modified (f : OpenFile) :
    (set_modified f).modified = true := by
  unfold set_modified
  cases h : f.modified <;> simp [h]

/-- The function `set_modified` changes nothing but the flag. -/
theorem set_modified_eq (f : OpenFile) :
    set_modified f = { f with modified := true } := by
  unfold set_modified
  cases h : f.modified
  · simp
  · obtain ⟨l, c, x, p, ms, mb, mbx, m⟩ := f
    simp only at h
    subst h
    simp

/-- C21 (counterexample): a cut with an empty range still marks the file
modified.  With `CUT_TO_END` set and the cursor at the end of the only line,
and with `cut_line` on an empty only line, `do_cut_text` leaves the text and
the empty cut buffer as they were and sets the modified flag of an
unmodified file. -/
theorem do_cut_text_noop_modified :
    do_cut_text (byte_env 8 80) true
        ⟨⟨[[97]], 0, 1, 0, false, 0, 0, false⟩, none, false⟩ =
      ⟨⟨[[97]], 0, 1, 0, false, 0, 0, true⟩, none, true⟩ ∧
    do_cut_text (byte_env 8 80) false
        ⟨⟨[[]], 0, 0, 0, false, 0, 0, false⟩, none, false⟩ =
      ⟨⟨[[]], 0, 0, 0, false, 0, 0, true⟩, none, true⟩ := by
  constructor <;> decide

/-- C21: `do_cut_text` and `do_cut_till_end` always leave the file marked
modified, whether or not any text was cut.  When the cut range is empty
(mark off and either `CUT_TO_END` set with the cursor at the end of the last
line, or `CUT_TO_END` clear with the cursor on an empty last line)
`do_cut_text` changes nothing in the file but the modified flag, which it
sets, and `placewewant`, which `cut_line` sets to 0; it sets
`keep_cutbuffer`; and it leaves the cut buffer as it was unless
`keep_cutbuffer` was clear and the buffer held text, which is then thrown
away. -/
theorem do_cut_text_modified (E : Env) (cut_to_end : Bool) (c : CutState) :
    (do_cut_text E cut_to_end c).openfile.modified = true ∧
    (do_cut_till_end c).openfile.modified = true ∧
    (c.openfile.mark_set = false → cut_to_end = true →
      c.openfile.current = filebot c.openfile →
      (line_data c.openfile.lines c.openfile.current).length ≤
        c.openfile.current_x →
      do_cut_text E cut_to_end c =
        { openfile := { c.openfile with modified := true },
          cutbuffer :=
            if c.keep_cutbuffer = false ∧ c.cutbuffer ≠ none then none
            else c.cutbuffer,
          keep_cutbuffer := true }) ∧
    (c.openfile.mark_set = false → cut_to_end = false →
      c.openfile.current = filebot c.openfile →
      (line_data c.openfile.lines c.openfile.current).length = 0 →
      do_cut_text E cut_to_end c =
        { openfile := { c.openfile with placewewant := 0, modified := true },
          cutbuffer :=
            if c.keep_cutbuffer = false ∧ c.cutbuffer ≠ none then none
            else c.cutbuffer,
          keep_cutbuffer := true }) := by
  refine ⟨?_, ?_, ?_, ?_⟩
  · simp only [do_cut_text]
    exact set_modified_modified _
  · simp only [do_cut_till_end]
    exact set_modified_modified _
  · intro hm hc hbot hlen
    obtain ⟨f, cb, k⟩ := c
    simp only at hm hbot hlen
    have h1 : ¬ (f.current_x < (line_data f.lines f.current).length) := by
      omega
    have h2 : ¬ (f.current ≠ filebot f) := by simp [hbot.symm]
    subst hc
    cases k <;> cases cb <;>
      simp [do_cut_text, hm, cut_to_eol, h1, hbot.symm, set_modified_eq]
  · intro hm hc hbot hlen
    obtain ⟨f, cb, k⟩ := c
    simp only at hm hbot hlen
    subst hc
    cases k <;> cases cb <;>
      simp [do_cut_text, hm, cut_line, hbot.symm, hlen, move_to_filestruct,
        set_modified_eq]

/-- C21 (witness): an unmodified file with nothing to cut is marked
modified.  With the cursor at the end of the only line and `CUT_TO_END` set,
the line x in the cut buffer is thrown away when `keep_cutbuffer` is clear;
with the cursor on an empty only line and `CUT_TO_END` clear, the line x
stays in the cut buffer when `keep_cutbuffer` is set. -/
theorem do_cut_text_modified_witness :
    do_cut_text (byte_env 8 80) true
        ⟨⟨[[97]], 0, 1, 0, false, 0, 0, false⟩, some [[120]], false⟩ =
      ⟨⟨[[97]], 0, 1, 0, false, 0, 0, true⟩,
        (if false = false ∧ some [[120]] ≠ none then none else some [[120]]),
        true⟩ ∧
    do_cut_text (byte_env 8 80) false
        ⟨⟨[[]], 0, 0, 5, false, 0, 0, false⟩, some [[120]], true⟩ =
      ⟨⟨[[]], 0, 0, 0, false, 0, 0, true⟩,
        (if true = false ∧ some [[120]] ≠ none then none else some [[120]]),
        true⟩ :=
  ⟨(do_cut_text_modified (byte_env 8 80) true
      ⟨⟨[[97]], 0, 1, 0, false, 0, 0, false⟩, some [[120]], false⟩).2.2.1
      rfl rfl (by decide) (by decide),
    (do_cut_text_modified (byte_env 8 80) false
      ⟨⟨[[]], 0, 0, 5, false, 0, 0, false⟩, some [[120]], true⟩).2.2.2
      rfl rfl (by decide) (by decide)⟩

/-! ## Theorems: the character helpers of the two locales -/

/-- In a single-byte locale every character is one byte: no character runs
over a NUL or a newline. -/
theorem byte_env_NoBreak (tabsize COLS : Nat) : (byte_env tabsize COLS).NoBreak := by
  intro b rest c hc
  simp [byte_env] at hc

/-- In a UTF-8 locale the bytes of a character after its first are
continuation bytes, 128 to 191: no character runs over a NUL or a newline. -/
theorem utf8_env_NoBreak (tabsize COLS : Nat) : (utf8_env tabsize COLS).NoBreak := by
  intro b rest c hc
  simp only [utf8_env] at hc
  match rest, hc with
  | [], hc => simp at hc
  | [b1], hc =>
    simp only [utf8_len] at hc
    split_ifs at hc with h1
    · simp at hc; subst hc; omega
    · simp at hc
  | [b1, b2], hc =>
    simp only [utf8_len] at hc
    split_ifs at hc with h1 h2
    · simp at hc; subst hc; omega
    · simp at hc; rcases hc with rfl | rfl <;> omega
    · simp at hc
  | b1 :: b2 :: b3 :: t, hc =>
    simp only [utf8_len] at hc
    split_ifs at hc with h1 h2 h3
    · simp at hc; subst hc; omega
    · simp at hc; rcases hc with rfl | rfl <;> omega
    · simp at hc; rcases hc with rfl | rfl | rfl <;> omega
    · simp at hc

/-! ## Theorems: the statusbar prompt -/

/-- The offset of the first character. -/
theorem char_off_zero (cs : List (List Nat)) : char_off cs 0 = 0 := by
  simp [char_off]

/-- The offsets of a text that starts with the character `c`. -/
theorem char_off_cons (c : List Nat) (t : List (List Nat)) (k : Nat) :
    char_off (c :: t) (k + 1) = c.length + char_off t k := by
  simp [char_off]

/-- Past the last character the offset is the length of the text. -/
theorem char_off_length : ∀ (cs : List (List Nat)) (k : Nat),
    cs.length ≤ k → char_off cs k = cs.flatten.length := by
  intro cs k h
  simp [char_off, List.take_of_length_le h]

/-- Every character has at least one byte, so character `k` starts at byte
`k` or later. -/
theorem le_char_off (E : Env) : ∀ (cs : List (List Nat)) (k : Nat),
    chars_ok E cs → k ≤ cs.length → k ≤ char_off cs k := by
  intro cs
  induction cs with
  | nil => intro k _ h; simp at h; subst h; simp [char_off]
  | cons c t ih =>
    intro k hok h
    cases k with
    | zero => exact Nat.zero_le _
    | succ k =>
      rw [char_off_cons]
      have h1 : c ≠ [] := hok.1
      have h2 : 1 ≤ c.length := Nat.pos_of_ne_zero (fun h0 => h1 (List.length_eq_zero.mp h0))
      have h3 := ih k hok.2.2 (by simpa using h)
      omega

/-- The offsets grow with the index. -/
theorem char_off_mono : ∀ (cs : List (List Nat)) (j k : Nat),
    j ≤ k → char_off cs j ≤ char_off cs k := by
  intro cs
  induction cs with
  | nil => intro j k _; simp [char_off]
  | cons c t ih =>
    intro j k h
    cases j with
    | zero => simp [char_off_zero]
    | succ j =>
      cases k with
      | zero => omega
      | succ k =>
        rw [char_off_cons, char_off_cons]
        have := ih j k (by omega)
        omega

/-- The text from the start of character `k` on. -/
theorem drop_char_off : ∀ (cs : List (List Nat)) (k : Nat),
    cs.flatten.drop (char_off cs k) = (cs.drop k).flatten := by
  intro cs k
  have h : cs.flatten = (cs.take k).flatten ++ (cs.drop k).flatten := by
    rw [← List.flatten_append, List.take_append_drop]
  rw [char_off]
  conv_lhs => rw [h]
  rw [List.drop_left]

/-- What `parse_mbchar` finds at the start of character `k`: a character of
one byte or more that ends where character `k + 1` starts. -/
theorem parse_char_off (E : Env) : ∀ (cs : List (List Nat)) (k : Nat),
    chars_ok E cs → k < cs.length →
      (cs.drop k).flatten ≠ [] ∧
      1 ≤ parse_mbchar_len E (cs.drop k).flatten ∧
      char_off cs k + parse_mbchar_len E (cs.drop k).flatten =
        char_off cs (k + 1) := by
  intro cs
  induction cs with
  | nil => intro k _ h; simp at h
  | cons c t ih =>
    intro k hok h
    cases k with
    | zero =>
      have h1 : c ≠ [] := hok.1
      have h2 : 1 ≤ c.length :=
        Nat.pos_of_ne_zero (fun h0 => h1 (List.length_eq_zero.mp h0))
      have hne : (c :: t).flatten ≠ [] := by
        simp [List.flatten_cons, h1]
      have hl : parse_mbchar_len E (c :: t).flatten = c.length := by
        unfold parse_mbchar_len
        split
        · next heq => exact absurd heq hne
        · rw [List.flatten_cons]; exact hok.2.1
      simp only [List.drop_zero]
      refine ⟨hne, by omega, ?_⟩
      rw [hl, char_off_zero, char_off_cons, char_off_zero]
      omega
    | succ k =>
      have := ih k hok.2.2 (by simpa using h)
      simp only [List.drop_succ_cons]
      rw [char_off_cons, char_off_cons]
      refine ⟨this.1, this.2.1, ?_⟩
      omega

/-- The loop of `move_mbleft` stops at the character that ends at `pos`, with
the length of that character left. -/
theorem move_mbleft_loop_char (E : Env) : ∀ (cs : List (List Nat)) (k fuel : Nat),
    chars_ok E cs → k < cs.length → k < fuel →
      move_mbleft_loop E fuel cs.flatten (char_off cs (k + 1)) =
        char_off cs (k + 1) - char_off cs k := by
  intro cs
  induction cs with
  | nil => intro k fuel _ h _; simp at h
  | cons c t ih =>
    intro k fuel hok h hf
    obtain ⟨fuel, rfl⟩ : ∃ f, fuel = f + 1 := ⟨fuel - 1, by omega⟩
    have h1 : c ≠ [] := hok.1
    have hne : (c :: t).flatten ≠ [] := by simp [List.flatten_cons, h1]
    have hl : parse_mbchar_len E (c :: t).flatten = c.length := by
      unfold parse_mbchar_len
      split
      · next heq => exact absurd heq hne
      · rw [List.flatten_cons]; exact hok.2.1
    simp only [move_mbleft_loop, hl]
    cases k with
    | zero =>
      rw [char_off_cons, char_off_zero, char_off_zero]
      simp
    | succ k =>
      have hk : k < t.length := by simpa using h
      have h3 := le_char_off E t (k + 1) hok.2.2 (by omega)
      rw [char_off_cons, char_off_cons]
      rw [if_neg (by omega)]
      have hd : (c :: t).flatten.drop c.length = t.flatten := by
        rw [List.flatten_cons, List.drop_left]
      rw [hd, Nat.add_sub_cancel_left, ih k fuel hok.2.2 hk (by omega)]
      omega

/-- The function `move_mbleft` at the start of character `k + 1` gives the
start of character `k`. -/
theorem move_mbleft_char (E : Env) (cs : List (List Nat)) (k : Nat)
    (hok : chars_ok E cs) (h : k < cs.length) :
    move_mbleft E cs.flatten (char_off cs (k + 1)) = char_off cs k := by
  unfold move_mbleft
  have h1 := le_char_off E cs (k + 1) hok (by omega)
  rw [move_mbleft_loop_char E cs k _ hok h (by omega)]
  have := char_off_mono cs k (k + 1) (by omega)
  omega
/-- A forward loop of `do_statusbar_next_word` started at character `k`: it
stops at a character `j` at or after `k`, having stepped only over characters
it does not stop on; it stops on `j` unless it ran into the end of the
text. -/
theorem sb_forward_scan (E : Env) (is_word : List Nat → Bool → Bool)
    (allow_punct : Bool) (cs : List (List Nat)) (hok : chars_ok E cs)
    (stop mark : Bool) :
    ∀ (fuel k : Nat) (st : WordScan), k ≤ cs.length → cs.length - k < fuel →
      st.x = char_off cs k → st.at_end = false →
      ∃ j, k ≤ j ∧ j ≤ cs.length ∧
        (sb_forward E is_word allow_punct cs.flatten stop mark fuel st).x =
          char_off cs j ∧
        (∀ m, k ≤ m → m < j → word_at E is_word allow_punct cs m ≠ stop) ∧
        ((sb_forward E is_word allow_punct cs.flatten stop mark fuel st).at_end
            = false →
          word_at E is_word allow_punct cs j = stop ∧
          (sb_forward E is_word allow_punct cs.flatten stop mark fuel
            st).char_mb_len = parse_mbchar_len E (cs.drop j).flatten) ∧
        ((sb_forward E is_word allow_punct cs.flatten stop mark fuel st).at_end
            = true → j = cs.length) := by
  intro fuel
  induction fuel with
  | zero => intro k st _ h; omega
  | succ fuel ih =>
    intro k st hk hf hx he
    simp only [sb_forward, he, Bool.false_eq_true, if_false, hx, drop_char_off]
    by_cases hw : is_word (parse_mbchar_chr E (cs.drop k).flatten) allow_punct
        = stop
    · rw [if_pos hw]
      exact ⟨k, le_refl _, hk, rfl, fun m h1 h2 => by omega,
        fun _ => ⟨hw, rfl⟩, fun h => by simp [he] at h⟩
    · rw [if_neg hw]
      by_cases hnil : (cs.drop k).flatten = []
      · rw [if_pos hnil]
        have hkn : k = cs.length := by
          by_contra hne
          exact (parse_char_off E cs k hok (by omega)).1 hnil
        refine ⟨k, le_refl _, hk, rfl, fun m h1 h2 => by omega,
          fun h => by simp at h, fun _ => hkn⟩
      · rw [if_neg hnil]
        have hkn : k < cs.length := by
          by_contra hne
          have : cs.drop k = [] := List.drop_eq_nil_of_le (by omega)
          exact hnil (by rw [this]; rfl)
        have hp := parse_char_off E cs k hok hkn
        obtain ⟨j, h1, h2, h3, h4, h5, h6⟩ :=
          ih (k + 1)
            { x := char_off cs k + parse_mbchar_len E (cs.drop k).flatten,
              char_mb_len := parse_mbchar_len E (cs.drop k).flatten,
              at_end := false, started := st.started || mark }
            (by omega) (by omega) hp.2.2 rfl
        refine ⟨j, by omega, h2, h3, ?_, h5, h6⟩
        intro m hm1 hm2
        by_cases hmk : m = k
        · subst hmk; exact hw
        · exact h4 m (by omega) hm2

/-- A backward loop of `do_statusbar_prev_word` started at character `k`: it
stops at a character `j` at or before `k`; it stops on `j` unless it ran into
the start of the text. -/
theorem sb_backward_scan (E : Env) (is_word : List Nat → Bool → Bool)
    (allow_punct : Bool) (cs : List (List Nat)) (hok : chars_ok E cs)
    (stop mark : Bool) :
    ∀ (fuel k : Nat) (st : WordScan), k ≤ cs.length → k < fuel →
      st.x = char_off cs k → st.at_end = false →
      ∃ j, j ≤ k ∧
        (sb_backward E is_word allow_punct cs.flatten stop mark fuel st).x =
          char_off cs j ∧
        ((sb_backward E is_word allow_punct cs.flatten stop mark fuel st).at_end
            = false →
          word_at E is_word allow_punct cs j = stop ∧
          (sb_backward E is_word allow_punct cs.flatten stop mark fuel
            st).char_mb_len = parse_mbchar_len E (cs.drop j).flatten) ∧
        ((sb_backward E is_word allow_punct cs.flatten stop mark fuel st).at_end
            = true → j = 0) := by
  intro fuel
  induction fuel with
  | zero => intro k st _ h; omega
  | succ fuel ih =>
    intro k st hk hf hx he
    simp only [sb_backward, he, Bool.false_eq_true, if_false, hx, drop_char_off]
    by_cases hw : is_word (parse_mbchar_chr E (cs.drop k).flatten) allow_punct
        = stop
    · rw [if_pos hw]
      exact ⟨k, le_refl _, rfl, fun _ => ⟨hw, rfl⟩, fun h => by simp [he] at h⟩
    · rw [if_neg hw]
      by_cases h0 : char_off cs k = 0
      · rw [if_pos h0]
        have hk0 : k = 0 := by
          have := le_char_off E cs k hok hk
          omega
        exact ⟨k, le_refl _, rfl, fun h => by simp at h, fun _ => hk0⟩
      · rw [if_neg h0]
        obtain ⟨k, rfl⟩ : ∃ k', k = k' + 1 := by
          refine ⟨k - 1, ?_⟩
          have : k ≠ 0 := fun h => h0 (by rw [h, char_off_zero])
          omega
        obtain ⟨j, h1, h3, h5, h6⟩ :=
          ih k
            { x := move_mbleft E cs.flatten (char_off cs (k + 1)),
              char_mb_len := parse_mbchar_len E (cs.drop (k + 1)).flatten,
              at_end := false, started := st.started || mark }
            (by omega) (by omega) (move_mbleft_char E cs k hok (by omega)) rfl
        exact ⟨j, by omega, h3, h5, h6⟩
/-- A forward loop that starts with `end_line` set does nothing. -/
theorem sb_forward_at_end (E : Env) (is_word : List Nat → Bool → Bool)
    (allow_punct : Bool) (answer : List Nat) (stop mark : Bool) (fuel : Nat)
    (st : WordScan) (h : st.at_end = true) :
    sb_forward E is_word allow_punct answer stop mark fuel st = st := by
  cases fuel with
  | zero => rfl
  | succ fuel => simp [sb_forward, h]

/-- A backward loop that starts with `begin_line` set does nothing. -/
theorem sb_backward_at_end (E : Env) (is_word : List Nat → Bool → Bool)
    (allow_punct : Bool) (answer : List Nat) (stop mark : Bool) (fuel : Nat)
    (st : WordScan) (h : st.at_end = true) :
    sb_backward E is_word allow_punct answer stop mark fuel st = st := by
  cases fuel with
  | zero => rfl
  | succ fuel => simp [sb_backward, h]

/-- Where `do_statusbar_next_word` leaves the cursor, started at character
`i`: at the start of a character `y`, after a run of word characters from `i`
up to a character `a` and a run of other characters from `a` up to `y`. -/
theorem do_statusbar_next_word_spec (E : Env) (is_word : List Nat → Bool → Bool)
    (allow_punct : Bool) (cs : List (List Nat)) (hok : chars_ok E cs)
    (i : Nat) (hi : i ≤ cs.length) :
    ∃ a y, i ≤ a ∧ a ≤ y ∧ y ≤ cs.length ∧
      (do_statusbar_next_word E is_word allow_punct
        ⟨cs.flatten, char_off cs i⟩).2 = ⟨cs.flatten, char_off cs y⟩ ∧
      (∀ m, i ≤ m → m < a → word_at E is_word allow_punct cs m = true) ∧
      (∀ m, a ≤ m → m < y → word_at E is_word allow_punct cs m = false) := by
  have hn : cs.length ≤ cs.flatten.length := by
    have := le_char_off E cs cs.length hok (le_refl _)
    rw [char_off_length cs cs.length (le_refl _)] at this
    exact this
  obtain ⟨a, ha1, ha2, ha3, ha4, ha5, ha6⟩ :=
    sb_forward_scan E is_word allow_punct cs hok false true
      (cs.flatten.length + 1) i ⟨char_off cs i, 0, false, false⟩ hi (by omega)
      rfl rfl
  have hN1 : ∀ m, i ≤ m → m < a → word_at E is_word allow_punct cs m = true := by
    intro m h1 h2
    have := ha4 m h1 h2
    simpa using this
  simp only [do_statusbar_next_word]
  generalize sb_forward E is_word allow_punct cs.flatten false true
    (cs.flatten.length + 1) ⟨char_off cs i, 0, false, false⟩ = st1 at *
  by_cases hnil : (cs.drop a).flatten = []
  · have hst2 : sb_step_forward cs.flatten st1 = { st1 with at_end := true } := by
      simp only [sb_step_forward, ha3, drop_char_off, if_pos hnil]
    rw [hst2, sb_forward_at_end _ _ _ _ _ _ _ _ rfl]
    exact ⟨a, a, ha1, le_refl _, ha2, by simp only [ha3], hN1,
      fun m h1 h2 => by omega⟩
  · have han : a < cs.length := by
      by_contra hne
      have : cs.drop a = [] := List.drop_eq_nil_of_le (by omega)
      exact hnil (by rw [this]; rfl)
    have he1 : st1.at_end = false := by
      cases h : st1.at_end
      · rfl
      · have := ha6 h; omega
    have hp := parse_char_off E cs a hok han
    have hst2 : sb_step_forward cs.flatten st1 =
        { st1 with x := st1.x + st1.char_mb_len } := by
      simp only [sb_step_forward, ha3, drop_char_off, if_neg hnil]
    obtain ⟨y, hy1, hy2, hy3, hy4, _, _⟩ :=
      sb_forward_scan E is_word allow_punct cs hok true false
        (cs.flatten.length + 1) (a + 1)
        { st1 with x := st1.x + st1.char_mb_len } (by omega) (by omega)
        (by simp only [ha3, (ha5 he1).2]; exact hp.2.2) he1
    rw [hst2]
    refine ⟨a, y, ha1, by omega, hy2, by simp only [hy3], hN1, ?_⟩
    intro m h1 h2
    by_cases hma : m = a
    · subst hma; exact (ha5 he1).1
    · have := hy4 m (by omega) h2
      simpa using this

/-- Where `do_statusbar_prev_word` leaves the cursor, started at character
`y`: at the start of the text, or right after a character `d` that is no word
character and that comes before a word character `c` before `y`. -/
theorem do_statusbar_prev_word_spec (E : Env) (is_word : List Nat → Bool → Bool)
    (allow_punct : Bool) (cs : List (List Nat)) (hok : chars_ok E cs)
    (y : Nat) (hy : y ≤ cs.length) :
    ∃ x2, (do_statusbar_prev_word E is_word allow_punct
        ⟨cs.flatten, char_off cs y⟩).2 = ⟨cs.flatten, x2⟩ ∧
      (x2 = 0 ∨ ∃ c d, d < c ∧ c < y ∧
        word_at E is_word allow_punct cs c = true ∧
        word_at E is_word allow_punct cs d = false ∧
        x2 = char_off cs (d + 1)) := by
  have hn : cs.length ≤ cs.flatten.length := by
    have := le_char_off E cs cs.length hok (le_refl _)
    rw [char_off_length cs cs.length (le_refl _)] at this
    exact this
  obtain ⟨b, hb1, hb3, hb5, hb6⟩ :=
    sb_backward_scan E is_word allow_punct cs hok false true
      (cs.flatten.length + 1) y ⟨char_off cs y, 0, false, false⟩ hy (by omega)
      rfl rfl
  simp only [do_statusbar_prev_word]
  generalize sb_backward E is_word allow_punct cs.flatten false true
    (cs.flatten.length + 1) ⟨char_off cs y, 0, false, false⟩ = st1 at *
  by_cases hx0 : st1.x = 0
  · have hst2 : sb_step_backward E cs.flatten st1 = { st1 with at_end := true } := by
      simp only [sb_step_backward, if_pos hx0]
    rw [hst2, sb_backward_at_end _ _ _ _ _ _ _ _ rfl]
    simp only [Bool.not_true, Bool.false_eq_true, if_false]
    exact ⟨st1.x, rfl, Or.inl hx0⟩
  · have hb0 : b ≠ 0 := fun h => hx0 (by rw [hb3, h, char_off_zero])
    obtain ⟨b, rfl⟩ : ∃ b', b = b' + 1 := ⟨b - 1, by omega⟩
    have he1 : st1.at_end = false := by
      cases h : st1.at_end
      · rfl
      · have := hb6 h; omega
    have hst2 : sb_step_backward E cs.flatten st1 =
        { st1 with x := move_mbleft E cs.flatten st1.x } := by
      simp only [sb_step_backward, if_neg hx0]
    obtain ⟨c, hc1, hc3, hc5, hc6⟩ :=
      sb_backward_scan E is_word allow_punct cs hok true false
        (cs.flatten.length + 1) b
        { st1 with x := move_mbleft E cs.flatten st1.x } (by omega) (by omega)
        (by simp only [hb3]; exact move_mbleft_char E cs b hok (by omega)) he1
    rw [hst2]
    generalize sb_backward E is_word allow_punct cs.flatten true false
      (cs.flatten.length + 1) { st1 with x := move_mbleft E cs.flatten st1.x }
      = st3 at *
    cases he3 : st3.at_end
    · simp only [Bool.not_false, if_true]
      have hwc := (hc5 he3).1
      by_cases hc0 : st3.x = 0
      · have hst5 : sb_step_backward E cs.flatten st3 =
            { st3 with at_end := true } := by
          simp only [sb_step_backward, if_pos hc0]
        rw [hst5, sb_backward_at_end _ _ _ _ _ _ _ _ rfl]
        simp only [Bool.not_true, Bool.false_eq_true, if_false]
        exact ⟨st3.x, rfl, Or.inl hc0⟩
      · have hcn : c ≠ 0 := fun h => hc0 (by rw [hc3, h, char_off_zero])
        obtain ⟨c, rfl⟩ : ∃ c', c = c' + 1 := ⟨c - 1, by omega⟩
        have hst5 : sb_step_backward E cs.flatten st3 =
            { st3 with x := move_mbleft E cs.flatten st3.x } := by
          simp only [sb_step_backward, if_neg hc0]
        obtain ⟨d, hd1, hd3, hd5, hd6⟩ :=
          sb_backward_scan E is_word allow_punct cs hok false false
            (cs.flatten.length + 1) c
            { st3 with x := move_mbleft E cs.flatten st3.x } (by omega)
            (by omega)
            (by simp only [hc3]; exact move_mbleft_char E cs c hok (by omega))
            he3
        rw [hst5]
        generalize sb_backward E is_word allow_punct cs.flatten false false
          (cs.flatten.length + 1)
          { st3 with x := move_mbleft E cs.flatten st3.x } = st6 at *
        cases he6 : st6.at_end
        · simp only [Bool.not_false, if_true]
          have hp := parse_char_off E cs d hok (by omega)
          refine ⟨_, rfl, Or.inr ⟨c + 1, d, by omega, by omega, hwc,
            (hd5 he6).1, ?_⟩⟩
          rw [hd3, (hd5 he6).2]
          exact hp.2.2
        · simp only [Bool.not_true, Bool.false_eq_true, if_false]
          refine ⟨_, rfl, Or.inl ?_⟩
          rw [hd3, hd6 he6, char_off_zero]
    · simp only [Bool.not_true, Bool.false_eq_true, if_false]
      refine ⟨_, rfl, Or.inl ?_⟩
      rw [hc3, hc6 he3, char_off_zero]
/-- Every text is a sequence of characters as `parse_mbchar` reads them. -/
theorem chars_exist (E : Env) (hE : E.WF) : ∀ (n : Nat) (buf : List Nat),
    buf.length ≤ n → ∃ cs, chars_ok E cs ∧ cs.flatten = buf := by
  intro n
  induction n with
  | zero =>
    intro buf h
    have : buf = [] := List.length_eq_zero.mp (by omega)
    subst this
    exact ⟨[], trivial, rfl⟩
  | succ n ih =>
    intro buf h
    by_cases hnil : buf = []
    · subst hnil; exact ⟨[], trivial, rfl⟩
    · have h1 := hE.mblen_pos buf hnil
      have h2 := hE.mblen_le buf hnil
      obtain ⟨cs, hcs, hfl⟩ := ih (buf.drop (E.mblen buf))
        (by rw [List.length_drop]; omega)
      refine ⟨buf.take (E.mblen buf) :: cs, ⟨?_, ?_, hcs⟩, ?_⟩
      · intro h0
        have := congrArg List.length h0
        simp only [List.length_take, List.length_nil, List.length_cons] at this h2
        omega
      · rw [hfl, List.take_append_drop, List.length_take]
        omega
      · rw [List.flatten_cons, hfl, List.take_append_drop]

/-- A character boundary of a text is the start of one of its characters (or
its end). -/
theorem char_boundary_chars (E : Env) (hE : E.WF) :
    ∀ (fuel : Nat) (buf : List Nat) (o : Nat),
      char_boundary E fuel buf o = true →
      ∃ cs i, chars_ok E cs ∧ cs.flatten = buf ∧ i ≤ cs.length ∧
        char_off cs i = o := by
  intro fuel
  induction fuel with
  | zero =>
    intro buf o h
    cases o with
    | zero =>
      obtain ⟨cs, h1, h2⟩ := chars_exist E hE buf.length buf (le_refl _)
      exact ⟨cs, 0, h1, h2, Nat.zero_le _, char_off_zero cs⟩
    | succ o => simp [char_boundary] at h
  | succ fuel ih =>
    intro buf o h
    cases o with
    | zero =>
      obtain ⟨cs, h1, h2⟩ := chars_exist E hE buf.length buf (le_refl _)
      exact ⟨cs, 0, h1, h2, Nat.zero_le _, char_off_zero cs⟩
    | succ o =>
      cases buf with
      | nil => simp [char_boundary] at h
      | cons b t =>
        simp only [char_boundary, Bool.and_eq_true, decide_eq_true_eq] at h
        have hne : (b :: t) ≠ [] := by simp
        have hl : parse_mbchar_len E (b :: t) = E.mblen (b :: t) := rfl
        have h1 := hE.mblen_pos (b :: t) hne
        have h2 := hE.mblen_le (b :: t) hne
        rw [hl] at h
        obtain ⟨cs, i, hcs, hfl, hi, hoff⟩ := ih _ _ h.2
        refine ⟨(b :: t).take (E.mblen (b :: t)) :: cs, i + 1, ⟨?_, ?_, hcs⟩,
          ?_, by simpa using hi, ?_⟩
        · intro h0
          have := congrArg List.length h0
          simp only [List.length_take, List.length_nil, List.length_cons] at this h2
          omega
        · rw [hfl, List.take_append_drop, List.length_take]
          omega
        · rw [List.flatten_cons, hfl, List.take_append_drop]
        · rw [char_off_cons, hoff, List.length_take]
          omega

/-- C29: word-motion symmetry at the prompt.  For every answer, every cursor
offset `x0` on a character boundary of it and either value of `allow_punct`,
`do_statusbar_next_word` leaves the answer as it is and the cursor at an
offset from `x0` up to the length of the answer, and `do_statusbar_prev_word`
run after it leaves the answer as it is and the cursor at an offset of at
most `x0`. -/
theorem do_statusbar_word_symmetry (E : Env) (hE : E.WF)
    (is_word : List Nat → Bool → Bool) (allow_punct : Bool)
    (answer : List Nat) (x0 : Nat)
    (hb : char_boundary E answer.length answer x0 = true) :
    x0 ≤ answer.length ∧
    (do_statusbar_next_word E is_word allow_punct ⟨answer, x0⟩).2.answer
      = answer ∧
    x0 ≤ (do_statusbar_next_word E is_word allow_punct
      ⟨answer, x0⟩).2.statusbar_x ∧
    (do_statusbar_next_word E is_word allow_punct ⟨answer, x0⟩).2.statusbar_x
      ≤ answer.length ∧
    (do_statusbar_prev_word E is_word allow_punct
      (do_statusbar_next_word E is_word allow_punct ⟨answer, x0⟩).2).2.answer
      = answer ∧
    (do_statusbar_prev_word E is_word allow_punct
      (do_statusbar_next_word E is_word allow_punct
        ⟨answer, x0⟩).2).2.statusbar_x ≤ x0 := by
  obtain ⟨cs, i, hok, hfl, hi, hoff⟩ :=
    char_boundary_chars E hE answer.length answer x0 hb
  subst hfl hoff
  obtain ⟨a, y, h1, h2, h3, hnext, hN1, hN2⟩ :=
    do_statusbar_next_word_spec E is_word allow_punct cs hok i hi
  obtain ⟨x2, hprev, hx2⟩ :=
    do_statusbar_prev_word_spec E is_word allow_punct cs hok y h3
  have hlen : ∀ k, char_off cs k ≤ cs.flatten.length := by
    intro k
    have := char_off_mono cs k (max k cs.length) (le_max_left _ _)
    rw [char_off_length cs _ (le_max_right _ _)] at this
    exact this
  rw [hnext, hprev]
  refine ⟨hlen i, rfl, char_off_mono cs i y (by omega), hlen y, rfl, ?_⟩
  simp only
  rcases hx2 with h0 | ⟨c, d, hdc, hcy, hwc, hwd, hx⟩
  · omega
  · rw [hx]
    apply char_off_mono
    by_contra hlt
    have hda : a ≤ d := by
      by_contra hlt2
      have := hN1 d (by omega) (by omega)
      rw [hwd] at this
      exact absurd this (by decide)
    have := hN2 c (by omega) hcy
    rw [hwc] at this
    exact absurd this (by decide)

/-- C29 (witness): in a UTF-8 locale, the answer `éb c` (five bytes) with
the cursor on `b`, after the two bytes of `é`: the next word starts at offset
4, and the previous word from there at offset 0. -/
theorem do_statusbar_word_symmetry_witness :
    (do_statusbar_next_word (utf8_env 8 80)
        (fun c _ => decide (c ≠ [32] ∧ c ≠ [0])) false
        ⟨[195, 169, 98, 32, 99], 2⟩).2.statusbar_x ≤
      [195, 169, 98, 32, 99].length ∧
    (do_statusbar_prev_word (utf8_env 8 80)
        (fun c _ => decide (c ≠ [32] ∧ c ≠ [0])) false
        (do_statusbar_next_word (utf8_env 8 80)
          (fun c _ => decide (c ≠ [32] ∧ c ≠ [0])) false
          ⟨[195, 169, 98, 32, 99], 2⟩).2).2.statusbar_x ≤ 2 :=
  ⟨(do_statusbar_word_symmetry (utf8_env 8 80) (utf8_env_WF 8 80 (by decide))
      (fun c _ => decide (c ≠ [32] ∧ c ≠ [0])) false [195, 169, 98, 32, 99] 2
      (by decide)).2.2.2.1,
    (do_statusbar_word_symmetry (utf8_env 8 80) (utf8_env_WF 8 80 (by decide))
      (fun c _ => decide (c ≠ [32] ∧ c ≠ [0])) false [195, 169, 98, 32, 99] 2
      (by decide)).2.2.2.2.2⟩

/-- Text inserted at offset `x`: what lies before its end and after it. -/
theorem take_drop_insert (a cb : List Nat) (x : Nat) (hx : x ≤ a.length) :
    (a.take x ++ cb ++ a.drop x).take (x + cb.length) = a.take x ++ cb ∧
    (a.take x ++ cb ++ a.drop x).drop (x + cb.length) = a.drop x := by
  have hl : (a.take x ++ cb).length = x + cb.length := by
    rw [List.length_append, List.length_take]; omega
  rw [← hl]
  exact ⟨List.take_left _ _, List.drop_left _ _⟩

/-- The function `do_statusbar_output` with `allow_cntrls` set: the bytes up
to the first newline are inserted at the cursor in their order, a NUL as a
newline; a newline sets `got_enter` and is put back on the keystroke buffer
with what follows it. -/
theorem do_statusbar_output_loop_cntrls (E : Env) (hE : E.WF)
    (hT : E.NoBreak) :
    ∀ (fuel : Nat) (out : List Nat) (p : Prompt) (s : KbState),
      out.length ≤ fuel → p.statusbar_x ≤ p.answer.length →
      do_statusbar_output_loop E true fuel out p s =
        (⟨p.answer.take p.statusbar_x ++
            (out.takeWhile (fun b => b != 10)).map nul_to_newline ++
            p.answer.drop p.statusbar_x,
          p.statusbar_x + (out.takeWhile (fun b => b != 10)).length⟩,
          !(out.dropWhile (fun b => b != 10)).isEmpty,
          unparse_kbinput E.char_signed (out.dropWhile (fun b => b != 10)) s)
      := by
  intro fuel
  induction fuel with
  | zero =>
    intro out p s h _
    have : out = [] := List.length_eq_zero.mp (by omega)
    subst this
    obtain ⟨a, x⟩ := p
    simp [do_statusbar_output_loop, unparse_kbinput]
  | succ fuel ih =>
    intro out p s h hx
    cases out with
    | nil =>
      obtain ⟨a, x⟩ := p
      simp [do_statusbar_output_loop, unparse_kbinput]
    | cons b rest =>
      obtain ⟨a, x⟩ := p
      simp only at hx
      by_cases hb : b = 10
      · subst hb
        obtain ⟨a, x⟩ := (⟨a, x⟩ : Prompt)
        simp [do_statusbar_output_loop]
      · have hc1 : ¬ (True ∧ b ≠ 0 ∧ b = 10) := fun h => hb h.2.2
        have hout : (if True ∧ b = 0 then 10 :: rest else b :: rest) =
            nul_to_newline b :: rest := by
          unfold nul_to_newline
          by_cases h0 : b = 0 <;> simp [h0]
        have hne : nul_to_newline b :: rest ≠ [] := by simp
        have hl1 := hE.mblen_pos _ hne
        have hl2 := hE.mblen_le _ hne
        simp only [List.length_cons] at hl2 h
        have hlen : parse_mbchar_len E (nul_to_newline b :: rest) =
            E.mblen (nul_to_newline b :: rest) := rfl
        have hchr : parse_mbchar_chr E (nul_to_newline b :: rest) =
            nul_to_newline b ::
              rest.take (E.mblen (nul_to_newline b :: rest) - 1) := by
          show (nul_to_newline b :: rest).take _ = _
          obtain ⟨m, hm⟩ : ∃ m, E.mblen (nul_to_newline b :: rest) = m + 1 :=
            ⟨E.mblen (nul_to_newline b :: rest) - 1, by omega⟩
          rw [hm]; simp
        have hdrop : (nul_to_newline b :: rest).drop
            (E.mblen (nul_to_newline b :: rest)) =
              rest.drop (E.mblen (nul_to_newline b :: rest) - 1) := by
          obtain ⟨m, hm⟩ : ∃ m, E.mblen (nul_to_newline b :: rest) = m + 1 :=
            ⟨E.mblen (nul_to_newline b :: rest) - 1, by omega⟩
          rw [hm]; simp
        have htail := hT (nul_to_newline b) rest
        generalize hm : E.mblen (nul_to_newline b :: rest) - 1 = m at *
        have hml : E.mblen (nul_to_newline b :: rest) = m + 1 := by omega
        have hcl : (nul_to_newline b :: rest.take m).length = m + 1 := by
          rw [List.length_cons, List.length_take]; omega
        have hsplit : rest = rest.take m ++ rest.drop m :=
          (List.take_append_drop m rest).symm
        have htw : rest.takeWhile (fun b => b != 10) =
            rest.take m ++ (rest.drop m).takeWhile (fun b => b != 10) := by
          conv_lhs => rw [hsplit]
          exact List.takeWhile_append_of_pos
            (fun c hc => by simpa using (htail c hc).2)
        have hdw : rest.dropWhile (fun b => b != 10) =
            (rest.drop m).dropWhile (fun b => b != 10) := by
          conv_lhs => rw [hsplit]
          exact List.dropWhile_append_of_pos
            (fun c hc => by simpa using (htail c hc).2)
        have hmap : (rest.take m).map nul_to_newline = rest.take m := by
          conv_rhs => rw [← List.map_id (rest.take m)]
          apply List.map_congr_left
          intro c hc
          simp [nul_to_newline, (htail c hc).1]
        have hins := take_drop_insert a (nul_to_newline b :: rest.take m) x hx
        rw [hcl] at hins
        have hb10 : (b != 10) = true := by simpa using hb
        simp only [do_statusbar_output_loop, if_neg hc1, hout, hlen, hchr,
          hml, List.drop_succ_cons, Bool.true_eq_false, false_and, if_false]
        rw [ih (rest.drop m) _ s (by rw [List.length_drop]; omega)
          (by simp only [List.length_append, List.length_cons, List.length_take,
                List.length_drop]; omega)]
        simp only [hins.1, hins.2]
        simp only [← Nat.add_assoc, List.takeWhile_cons, hb10,
          if_true, List.dropWhile_cons, htw, hdw, List.map_cons,
          List.map_append, hmap, List.length_cons, List.length_append,
          List.length_take, List.append_assoc, List.cons_append]
        have hmin : min m rest.length = m := by omega
        rw [hmin]
        have e : x + m + 1 + ((rest.drop m).takeWhile (fun b => b != 10)).length =
            x + m + ((rest.drop m).takeWhile (fun b => b != 10)).length + 1 := by
          omega
        rw [e]
/-- A code other than the digits 0 and 1 does not start a Unicode sequence:
`parse_verbatim_kbinput` puts it back and returns the whole keystroke buffer
as it is. -/
theorem parse_verbatim_kbinput_plain (cfg : KbCfg) (s : KbState) (k : Int)
    (rest : List Int) (hq : s.key_buffer = k :: rest) (hud : s.uni_digits = 0)
    (hk0 : 0 ≤ k) (hk : k ≠ 48 ∧ k ≠ 49) (hlen : rest.length + 1 < 2 ^ 64) :
    parse_verbatim_kbinput cfg s =
      some (k :: rest, { s with key_buffer := [], uni_digits := 0, uni := 0 }) := by
  obtain ⟨kb, e, bd, gd, gb, ud, u, m, f⟩ := s
  simp only at hq hud
  subst hq hud
  have hne : k ≠ ERR := by unfold ERR; omega
  have hok : unicode_digit_ok 0 u k = false := by
    unfold unicode_digit_ok
    cases hh : hex_value k with
    | none => rfl
    | some d =>
      have := hex_value_some k d hh
      simp only [if_true, decide_eq_false_iff_not]
      omega
  have hr := get_unicode_kbinput_reject
    ⟨rest, e, bd, gd, gb, 0, u, m, f⟩ k hne (by simp) hok
  have hu := unget_input_eq [k] ⟨rest, e, bd, gd, gb, 0, 0, m, f⟩
    (by simpa using hlen)
  simp only [parse_verbatim_kbinput, get_input, List.length_cons,
    Nat.add_one_ne_zero, if_false, List.take_succ_cons, List.take_zero,
    List.drop_succ_cons, List.drop_zero, hr, ne_eq, hne, not_false_eq_true,
    if_true, hu, get_key_buffer_len, List.singleton_append, List.take_length,
    List.drop_length]

/-- C30 (counterexample): verbatim input at the prompt does not insert every
byte literally.  With the answer `xy` and the cursor after `x`: of the bytes
`a`, newline, `b` only `a` is inserted, `got_enter` is set and the newline
and `b` are put back on the keystroke buffer; of the bytes `a`, NUL, `b` the
NUL is stored as a newline; and of the bytes `0`, `x` only `x` is inserted,
the digit being taken as the start of a Unicode sequence. -/
theorem do_statusbar_verbatim_input_not_literal :
    do_statusbar_verbatim_input (byte_env 8 80) ⟨false, false⟩ ⟨[120, 121], 1⟩
        (KbState.reset [97, 10, 98]) =
      some (⟨[120, 97, 121], 2⟩, true, KbState.reset [10, 98]) ∧
    do_statusbar_verbatim_input (byte_env 8 80) ⟨false, false⟩ ⟨[120, 121], 1⟩
        (KbState.reset [97, 0, 98]) =
      some (⟨[120, 97, 10, 98, 121], 4⟩, false, KbState.reset []) ∧
    do_statusbar_verbatim_input (byte_env 8 80) ⟨false, false⟩ ⟨[120, 121], 1⟩
        (KbState.reset [48, 120]) =
      some (⟨[120, 120, 121], 2⟩, false, KbState.reset []) := by
  refine ⟨?_, ?_, ?_⟩ <;> decide

/-- On an empty keystroke buffer `unparse_kbinput` leaves the bytes of
`output`, each as the `int` its `char` converts to. -/
theorem unparse_kbinput_empty (char_signed : Bool) (output : List Nat)
    (s : KbState) (hq : s.key_buffer = []) (hlen : output.length < 2 ^ 64) :
    unparse_kbinput char_signed output s =
      { s with key_buffer := output.map (char_to_int char_signed) } := by
  unfold unparse_kbinput
  by_cases h0 : output.length = 0
  · have : output = [] := List.length_eq_zero.mp h0
    subst this
    obtain ⟨kb, e, bd, gd, gb, ud, u, m, f⟩ := s
    simp only at hq
    subst hq
    simp
  · rw [if_neg h0, unget_input_eq _ _ (by
      rw [hq, List.length_map]; simpa using hlen), hq, List.append_nil]

/-- C30: for every run of bytes delivered to `do_statusbar_verbatim_input`
whose first byte is not the digit 0 or 1, the bytes up to the first newline
are inserted in the answer at the cursor, in their order and none dropped,
a NUL being stored as a newline; the cursor moves past them.  When the run
holds a newline, `got_enter` is set and the newline and what follows it are
not inserted but put back on the keystroke buffer, each byte as the `int`
that a plain `char` converts to: the byte itself, or the byte less 256 for a
byte of 128 or more where `char` is signed. -/
theorem do_statusbar_verbatim_input_bytes (E : Env) (hE : E.WF)
    (hT : E.NoBreak) (cfg : KbCfg) (p : Prompt) (s : KbState) (b : Nat)
    (bytes : List Nat) (hx : p.statusbar_x ≤ p.answer.length)
    (hq : s.key_buffer = (b :: bytes).map (fun (c : Nat) => (c : Int)))
    (hbyte : ∀ c ∈ b :: bytes, c < 256) (hud : s.uni_digits = 0)
    (hb : b ≠ 48 ∧ b ≠ 49) (hlen : bytes.length + 1 < 2 ^ 64) :
    do_statusbar_verbatim_input E cfg p s =
      some
        (⟨p.answer.take p.statusbar_x ++
            ((b :: bytes).takeWhile (fun c => c != 10)).map nul_to_newline ++
            p.answer.drop p.statusbar_x,
          p.statusbar_x + ((b :: bytes).takeWhile (fun c => c != 10)).length⟩,
          !((b :: bytes).dropWhile (fun c => c != 10)).isEmpty,
          { s with
            key_buffer := ((b :: bytes).dropWhile (fun c => c != 10)).map
              (char_to_int E.char_signed),
            uni_digits := 0, uni := 0 }) := by
  have hpv := parse_verbatim_kbinput_plain cfg s (b : Int)
    (bytes.map (fun (c : Nat) => (c : Int))) (by simpa using hq) hud (by omega)
    (by omega) (by simpa using hlen)
  have hmap : ((b : Int) :: bytes.map (fun (c : Nat) => (c : Int))).map
      (fun k => (k % 256).toNat) = b :: bytes := by
    have h1 : ((b : Int) :: bytes.map (fun (c : Nat) => (c : Int))) =
        (b :: bytes).map (fun (c : Nat) => (c : Int)) := rfl
    rw [h1, List.map_map]
    conv_rhs => rw [← List.map_id (b :: bytes)]
    apply List.map_congr_left
    intro c hc
    have := hbyte c hc
    simp only [Function.comp, id]
    omega
  have hdl : ((b :: bytes).dropWhile (fun c => c != 10)).length < 2 ^ 64 := by
    have := (List.dropWhile_sublist (fun c => c != 10)
      (l := b :: bytes)).length_le
    simp only [List.length_cons] at this
    omega
  simp only [do_statusbar_verbatim_input, get_verbatim_kbinput, hpv, hmap,
    do_statusbar_output]
  rw [do_statusbar_output_loop_cntrls E hE hT _ (b :: bytes) p _ (le_refl _) hx,
    unparse_kbinput_empty E.char_signed _ _ rfl hdl]

/-- C30 (witness): the bytes `a`, ESC, `b` typed verbatim after the `x` of
the answer `xy` are inserted as they are; and of the bytes `a`, newline, 200
the `a` is inserted and the newline and the 200 are put back, the 200 as
-56 where `char` is signed. -/
theorem do_statusbar_verbatim_input_bytes_witness :
    do_statusbar_verbatim_input (byte_env 8 80) ⟨false, false⟩ ⟨[120, 121], 1⟩
        (KbState.reset [97, 27, 98]) =
      some (⟨[120, 97, 27, 98, 121], 4⟩, false, KbState.reset []) ∧
    do_statusbar_verbatim_input (byte_env 8 80) ⟨false, false⟩ ⟨[120, 121], 1⟩
        (KbState.reset [97, 10, 200]) =
      some (⟨[120, 97, 121], 2⟩, true, KbState.reset [10, -56]) :=
  ⟨do_statusbar_verbatim_input_bytes (byte_env 8 80)
    (byte_env_WF 8 80 (by decide)) (byte_env_NoBreak 8 80)
    ⟨false, false⟩ ⟨[120, 121], 1⟩ (KbState.reset [97, 27, 98]) 97 [27, 98]
    (by decide) rfl (by decide) rfl (by decide) (by decide),
   do_statusbar_verbatim_input_bytes (byte_env 8 80)
    (byte_env_WF 8 80 (by decide)) (byte_env_NoBreak 8 80)
    ⟨false, false⟩ ⟨[120, 121], 1⟩ (KbState.reset [97, 10, 200]) 97 [10, 200]
    (by decide) rfl (by decide) rfl (by decide) (by decide)⟩

/-! ## Theorems: the queue, the escape counter, the cut buffer and the cursor line -/

/-- At the capacity bound `unget_input` keeps only as much of `input` as
brings the queue to `(size_t)-1` codes. -/
theorem unget_input_clips (input : List Int) (s : KbState)
    (hi : input.length < 2 ^ 64) (hs : s.key_buffer.length < 2 ^ 64)
    (h : 2 ^ 64 ≤ s.key_buffer.length + input.length) :
    unget_input input s =
      { s with key_buffer :=
        input.take (SIZE_MAX - s.key_buffer.length) ++ s.key_buffer } := by
  unfold unget_input
  have h0 : ¬ input.length = 0 := by omega
  have hmod : (s.key_buffer.length + input.length) % 2 ^ 64 <
      s.key_buffer.length := by
    have : (s.key_buffer.length + input.length) % 2 ^ 64 =
        s.key_buffer.length + input.length - 2 ^ 64 := by
      rw [Nat.mod_eq_sub_mod h, Nat.mod_eq_of_lt (by omega)]
    omega
  simp only [h0, if_false, hmod, if_true]

/-- C33: the pending-input queue is first-in first-out with pushback at the
front.  With the lengths below the `size_t` range, `unget_input` puts the
whole sequence before the queue; `get_input(NULL, n)` returns `NULL` exactly
when the queue is empty and otherwise the first `min n len` codes, leaving
the rest in order; so pushing back a sequence and reading as many codes
returns the sequence and restores the queue, `NULL` being returned only when
the queue is empty then, which is when nothing was pushed back onto an empty
queue. -/
theorem unget_get_input_round_trip (q : KbState) (s : List Int) (n : Nat)
    (hfit : q.key_buffer.length + s.length < 2 ^ 64) :
    unget_input s q = { q with key_buffer := s ++ q.key_buffer } ∧
    (get_input n q = none ↔ q.key_buffer = []) ∧
    (q.key_buffer ≠ [] →
      get_input n q =
        some (q.key_buffer.take (min n q.key_buffer.length),
          { q with key_buffer :=
            q.key_buffer.drop (min n q.key_buffer.length) })) ∧
    (s ≠ [] ∨ q.key_buffer ≠ [] →
      get_input s.length (unget_input s q) = some (s, q)) ∧
    (s = [] → q.key_buffer = [] →
      (unget_input s q).key_buffer = [] ∧
        get_input s.length (unget_input s q) = none) := by
  have hu := unget_input_eq s q hfit
  refine ⟨hu, ?_, ?_, ?_, ?_⟩
  · unfold get_input
    by_cases h : q.key_buffer.length = 0
    · simp [h, List.length_eq_zero.mp h]
    · have : q.key_buffer ≠ [] := fun h0 => h (by rw [h0]; rfl)
      simp [h, this]
  · intro h
    have hl : q.key_buffer.length ≠ 0 := fun h0 => h (List.length_eq_zero.mp h0)
    unfold get_input
    rw [if_neg hl]
    rcases Nat.le_total n q.key_buffer.length with hn | hn
    · rw [Nat.min_eq_left hn]
    · rw [Nat.min_eq_right hn, List.take_of_length_le hn,
        List.drop_of_length_le hn, List.take_length, List.drop_length]
  · intro hs
    rw [hu]
    have hl : ¬ (s ++ q.key_buffer).length = 0 := by
      rw [List.length_append]
      rcases hs with hs | hs
      · have : s.length ≠ 0 := fun h0 => hs (List.length_eq_zero.mp h0)
        omega
      · have : q.key_buffer.length ≠ 0 :=
          fun h0 => hs (List.length_eq_zero.mp h0)
        omega
    unfold get_input
    simp only [hl, if_false, List.take_left, List.drop_left]
  · intro hs hq
    rw [hu]
    subst hs
    simp [get_input, hq]

/-- C33 (witness): two codes pushed back before a queue of one code, then
read back; and nothing pushed back onto an empty queue, where `get_input`
returns `NULL`. -/
theorem unget_get_input_round_trip_witness :
    unget_input [27, 91] (KbState.reset [65]) = KbState.reset [27, 91, 65] ∧
    get_input 2 (unget_input [27, 91] (KbState.reset [65])) =
      some ([27, 91], KbState.reset [65]) ∧
    get_input 0 (unget_input [] (KbState.reset [])) = none :=
  ⟨(unget_get_input_round_trip (KbState.reset [65]) [27, 91] 2
      (by decide)).1,
    (unget_get_input_round_trip (KbState.reset [65]) [27, 91] 2
      (by decide)).2.2.2.1 (Or.inl (by decide)),
    ((unget_get_input_round_trip (KbState.reset []) [] 0
      (by decide)).2.2.2.2 rfl rfl).2⟩

/-- C37: the escape counter wraps at three.  From the reset state the first
`ESC` returns no key and leaves the counter at 1, the second leaves it at 2,
the third puts it back to 0: the decoder is in the reset state again.  A
byte that follows is then decoded by the table of the ground state, with
`meta_key` clear and no byte or control literal started, and `get_kbinput`
returns it as the first key. -/
theorem parse_kbinput_three_escapes (cfg : KbCfg) (k : Int) (rest : List Int)
    (h0 : 0 ≤ k) (h255 : k ≤ 255) (hesc : k ≠ NANO_CONTROL_3) :
    parse_kbinput cfg (KbState.reset
        (NANO_CONTROL_3 :: NANO_CONTROL_3 :: NANO_CONTROL_3 :: k :: rest)) =
      some (ERR, { KbState.reset (NANO_CONTROL_3 :: NANO_CONTROL_3 :: k :: rest)
        with escapes := 1 }) ∧
    parse_kbinput cfg
        { KbState.reset (NANO_CONTROL_3 :: NANO_CONTROL_3 :: k :: rest)
          with escapes := 1 } =
      some (ERR, { KbState.reset (NANO_CONTROL_3 :: k :: rest)
        with escapes := 2 }) ∧
    parse_kbinput cfg
        { KbState.reset (NANO_CONTROL_3 :: k :: rest) with escapes := 2 } =
      some (ERR, KbState.reset (k :: rest)) ∧
    parse_kbinput cfg (KbState.reset (k :: rest)) =
      some (ground_key cfg k, KbState.reset rest) ∧
    get_kbinput cfg 4 (KbState.reset
        (NANO_CONTROL_3 :: NANO_CONTROL_3 :: NANO_CONTROL_3 :: k :: rest)) =
      some (ground_key cfg k, KbState.reset rest) ∧
    ground_key cfg k =
      (if k = NANO_CONTROL_8 then
        (if cfg.rebind_delete then NANO_DELETE_KEY else NANO_BACKSPACE_KEY)
      else k) := by
  have hg : ground_key cfg k =
      (if k = NANO_CONTROL_8 then
        (if cfg.rebind_delete then NANO_DELETE_KEY else NANO_BACKSPACE_KEY)
      else k) := by
    unfold ground_key
    by_cases h8 : k = NANO_CONTROL_8
    · rw [if_pos h8, if_pos h8]
    · rw [if_neg h8, if_neg h8]
      simp only [KEY_DOWN, KEY_UP, KEY_LEFT, KEY_RIGHT, KEY_HOME, KEY_BACKSPACE,
        KEY_DC, KEY_IC, KEY_NPAGE, KEY_PPAGE, KEY_ENTER, KEY_A1, KEY_A3, KEY_B2,
        KEY_C1, KEY_C3, KEY_BEG, KEY_END, KEY_SUSPEND, KEY_SLEFT, KEY_SRIGHT]
      repeat rw [if_neg (by omega)]
  have hgb : ground_key cfg k ≠ ERR ∧ is_byte (ground_key cfg k) = true := by
    rw [hg]
    unfold ERR is_byte NANO_CONTROL_8 NANO_DELETE_KEY NANO_BACKSPACE_KEY
    split_ifs <;> first | decide | (simp; omega)
  have hkE : k ≠ ERR := by unfold ERR; omega
  have hkR : k ≠ KEY_RESIZE := by unfold KEY_RESIZE; omega
  have e1 : parse_kbinput cfg (KbState.reset
        (NANO_CONTROL_3 :: NANO_CONTROL_3 :: NANO_CONTROL_3 :: k :: rest)) =
      some (ERR, { KbState.reset (NANO_CONTROL_3 :: NANO_CONTROL_3 :: k :: rest)
        with escapes := 1 }) := by
    simp [parse_kbinput, get_input, KbState.reset, NANO_CONTROL_3, ERR]
  have e2 : parse_kbinput cfg
        { KbState.reset (NANO_CONTROL_3 :: NANO_CONTROL_3 :: k :: rest)
          with escapes := 1 } =
      some (ERR, { KbState.reset (NANO_CONTROL_3 :: k :: rest)
        with escapes := 2 }) := by
    simp [parse_kbinput, get_input, KbState.reset, NANO_CONTROL_3, ERR]
  have e3 : parse_kbinput cfg
        { KbState.reset (NANO_CONTROL_3 :: k :: rest) with escapes := 2 } =
      some (ERR, KbState.reset (k :: rest)) := by
    simp [parse_kbinput, get_input, KbState.reset, NANO_CONTROL_3, ERR]
  have e4 : parse_kbinput cfg (KbState.reset (k :: rest)) =
      some (ground_key cfg k, KbState.reset rest) := by
    simp only [parse_kbinput, get_input, KbState.reset, List.length_cons,
      Nat.succ_ne_zero, if_false, List.take_succ_cons, List.take_zero,
      List.drop_succ_cons, List.drop_zero, if_neg hkE, if_neg hesc, if_neg hkR,
      if_true, if_pos hgb.1, hgb.2, Bool.not_true]
  refine ⟨e1, e2, e3, e4, ?_, hg⟩
  simp only [get_kbinput, e1, e2, e3, e4, if_true, if_neg hgb.1]

/-- C37 (witness): `ESC ESC ESC a`: the fourth round returns the letter
itself, where `ESC a` would give a meta key. -/
theorem parse_kbinput_three_escapes_witness :
    get_kbinput ⟨false, false⟩ 4 (KbState.reset
        [NANO_CONTROL_3, NANO_CONTROL_3, NANO_CONTROL_3, 97]) =
      some (ground_key ⟨false, false⟩ 97, KbState.reset []) ∧
    ground_key ⟨false, false⟩ 97 = 97 :=
  ⟨(parse_kbinput_three_escapes ⟨false, false⟩ 97 [] (by decide) (by decide)
      (by decide)).2.2.2.2.1,
    (parse_kbinput_three_escapes ⟨false, false⟩ 97 [] (by decide) (by decide)
      (by decide)).2.2.2.2.2⟩

/-- C38 (counterexample): a cut with an empty range destroys the text cut
before and puts nothing in its place.  With `CUT_TO_END` set, the cursor at
the end of the only line, `keep_cutbuffer` clear and the line x in the cut
buffer, `do_cut_text` leaves the cut buffer `NULL`. -/
theorem do_cut_text_empties_cutbuffer :
    do_cut_text (byte_env 8 80) true
        ⟨⟨[[97]], 0, 1, 0, false, 0, 0, false⟩, some [[120]], false⟩ =
      ⟨⟨[[97]], 0, 1, 0, false, 0, 0, true⟩, none, true⟩ := by
  decide

/-- C38: with `keep_cutbuffer` clear and text in the cut buffer,
`do_cut_text` first throws that text away: what it leaves is what it leaves
from a `NULL` cut buffer.  Afterwards the cut buffer holds the newly cut
text and nothing else: the rest of the line when `CUT_TO_END` is set and the
cursor is before the end of its line; and it is `NULL` when nothing is cut,
as with `CUT_TO_END` set and the cursor at the end of the last line. -/
theorem do_cut_text_replaces_cutbuffer (E : Env) (cut_to_end : Bool)
    (c : CutState) (hk : c.keep_cutbuffer = false) (hcb : c.cutbuffer ≠ none) :
    do_cut_text E cut_to_end c =
        do_cut_text E cut_to_end { c with cutbuffer := none } ∧
    (c.openfile.mark_set = false → cut_to_end = true →
      c.openfile.current_x <
        (line_data c.openfile.lines c.openfile.current).length →
      (do_cut_text E cut_to_end c).cutbuffer =
        some [(line_data c.openfile.lines c.openfile.current).drop
          c.openfile.current_x]) ∧
    (c.openfile.mark_set = false → cut_to_end = true →
      c.openfile.current = filebot c.openfile →
      (line_data c.openfile.lines c.openfile.current).length ≤
        c.openfile.current_x →
      (do_cut_text E cut_to_end c).cutbuffer = none) := by
  obtain ⟨f, cb, k⟩ := c
  simp only at hk hcb
  subst hk
  have hc1 : (!false) = true ∧ cb ≠ none := ⟨rfl, hcb⟩
  refine ⟨?_, ?_, ?_⟩
  · simp [do_cut_text, hcb]
  · intro hm hc hlt
    simp only at hm hlt
    subst hc
    have hne : ¬ (True ∧
        f.current_x = (line_data f.lines f.current).length) := by omega
    simp only [do_cut_text, if_pos hc1, hm, Bool.false_eq_true, if_false,
      if_true, cut_to_eol, if_pos hlt, move_to_filestruct, if_neg hne,
      text_between, List.take_length]
  · intro hm hc hbot hlen
    simp only at hm hbot hlen
    subst hc
    have h1 : ¬ (f.current_x < (line_data f.lines f.current).length) := by
      omega
    have h2 : ¬ (f.current ≠ filebot f) := by simp [hbot.symm]
    simp only [do_cut_text, if_pos hc1, hm, Bool.false_eq_true, if_false,
      if_true, cut_to_eol, if_neg h1, if_neg h2]

/-- C38 (witness): the line x in the cut buffer, `keep_cutbuffer` clear and
`CUT_TO_END` set.  With the cursor after the a of ab the cut buffer ends
with b alone; with the cursor at the end of the only line it ends `NULL`. -/
theorem do_cut_text_replaces_cutbuffer_witness :
    (do_cut_text (byte_env 8 80) true
        ⟨⟨[[97, 98]], 0, 1, 0, false, 0, 0, false⟩, some [[120]], false⟩
      ).cutbuffer = some [[98]] ∧
    (do_cut_text (byte_env 8 80) true
        ⟨⟨[[97]], 0, 1, 0, false, 0, 0, false⟩, some [[120]], false⟩
      ).cutbuffer = none :=
  ⟨(do_cut_text_replaces_cutbuffer (byte_env 8 80) true
      ⟨⟨[[97, 98]], 0, 1, 0, false, 0, 0, false⟩, some [[120]], false⟩
      rfl (by decide)).2.1 rfl rfl (by decide),
    (do_cut_text_replaces_cutbuffer (byte_env 8 80) true
      ⟨⟨[[97]], 0, 1, 0, false, 0, 0, false⟩, some [[120]], false⟩
      rfl (by decide)).2.2 rfl rfl (by decide) (by decide)⟩

/-- The function `edit_update` puts the top line at or above the cursor
line and, in a window of at least one row, less than a window above it. -/
theorem edit_update_in_range (editwinrows : Nat) (location : update_type)
    (w : EditWin) (h : 1 ≤ editwinrows) :
    (edit_update editwinrows location w).edittop ≤ w.openfile.current ∧
    w.openfile.current <
      (edit_update editwinrows location w).edittop + editwinrows := by
  have hg : ∀ g : Int, g ≤ (editwinrows : Int) - 1 →
      edit_update_walk g.toNat w.openfile.current ≤ w.openfile.current ∧
      w.openfile.current <
        edit_update_walk g.toNat w.openfile.current + editwinrows := by
    intro g hgle
    rw [edit_update_walk_eq]
    have : g.toNat ≤ editwinrows - 1 := by omega
    omega
  simp only [edit_update]
  apply hg
  split_ifs with h1 h2
  · omega
  · omega
  · omega

/-- C36: in a window of at least one row the cursor line is in the window
after `edit_update`, with `CENTER` and with `NONE`, and after `edit_refresh`,
with and without smooth scrolling: the top line is at or above the cursor
line and less than `editwinrows` lines above it.  The function
`edit_refresh` leaves the top line where it is when the cursor line was in
the window already, and neither function moves the cursor line. -/
theorem edit_refresh_cursor_visible (E : Env) (editwinrows : Nat)
    (smooth : Bool) (location : update_type) (w : EditWin)
    (h : 1 ≤ editwinrows) :
    ((edit_update editwinrows location w).edittop ≤
        (edit_update editwinrows location w).openfile.current ∧
      (edit_update editwinrows location w).openfile.current <
        (edit_update editwinrows location w).edittop + editwinrows) ∧
    ((edit_refresh E editwinrows smooth w).1.edittop ≤
        (edit_refresh E editwinrows smooth w).1.openfile.current ∧
      (edit_refresh E editwinrows smooth w).1.openfile.current <
        (edit_refresh E editwinrows smooth w).1.edittop + editwinrows) ∧
    (w.edittop ≤ w.openfile.current ∧
        w.openfile.current < w.edittop + editwinrows →
      (edit_refresh E editwinrows smooth w).1.edittop = w.edittop) ∧
    (edit_update editwinrows location w).openfile = w.openfile ∧
    (edit_refresh E editwinrows smooth w).1.openfile = w.openfile := by
  have hu := edit_update_in_range editwinrows
  have hr : (edit_refresh E editwinrows smooth w).1.openfile = w.openfile := by
    simp only [edit_refresh, reset_cursor]
    split_ifs <;> rfl
  have he : (edit_refresh E editwinrows smooth w).1.edittop =
      (if w.openfile.current < w.edittop ∨
          w.openfile.current ≥ w.edittop + editwinrows then
        edit_update editwinrows
          (if smooth then update_type.NONE else update_type.CENTER) w
      else w).edittop := by
    simp only [edit_refresh, reset_cursor]
    split_ifs <;> rfl
  refine ⟨hu location w h, ?_, (edit_refresh_edittop E editwinrows smooth w).1,
    rfl, hr⟩
  rw [hr, he]
  by_cases hc : w.openfile.current < w.edittop ∨
      w.openfile.current ≥ w.edittop + editwinrows
  · rw [if_pos hc]
    exact hu _ w h
  · rw [if_neg hc]
    omega

/-- C36 (witness): five rows, ten lines, the top at line 0 and the cursor
on line 7: `edit_refresh` moves the top to line 5, and a second
`edit_refresh` leaves it there. -/
theorem edit_refresh_cursor_visible_witness :
    (edit_refresh (byte_env 8 80) 5 false
        ⟨⟨List.replicate 10 [97], 7, 0, 0, false, 0, 0, false⟩, 0, 0⟩
      ).1.edittop ≤ 7 ∧
    7 < (edit_refresh (byte_env 8 80) 5 false
        ⟨⟨List.replicate 10 [97], 7, 0, 0, false, 0, 0, false⟩, 0, 0⟩
      ).1.edittop + 5 ∧
    (edit_refresh (byte_env 8 80) 5 false
        ⟨⟨List.replicate 10 [97], 7, 0, 0, false, 0, 0, false⟩, 5, 2⟩
      ).1.edittop = 5 :=
  ⟨(edit_refresh_cursor_visible (byte_env 8 80) 5 false update_type.CENTER
      ⟨⟨List.replicate 10 [97], 7, 0, 0, false, 0, 0, false⟩, 0, 0⟩
      (by decide)).2.1.1,
    (edit_refresh_cursor_visible (byte_env 8 80) 5 false update_type.CENTER
      ⟨⟨List.replicate 10 [97], 7, 0, 0, false, 0, 0, false⟩, 0, 0⟩
      (by decide)).2.1.2,
    (edit_refresh_cursor_visible (byte_env 8 80) 5 false update_type.CENTER
      ⟨⟨List.replicate 10 [97], 7, 0, 0, false, 0, 0, false⟩, 5, 2⟩
      (by decide)).2.2.1 ⟨by decide, by decide⟩⟩

/-! ## Theorems: syntax highlighting and mouse clicks -/

/-- More rounds than the loop of `edit_add` needs do not change what it
does. -/
theorem edit_add_single_fuel
    (regexec : List Nat → Bool → Option (Nat × Nat)) (data : List Nat)
    (startpos endpos : Nat) :
    ∀ (fuel k : Nat) (evs : List (Nat × HlEvent)),
      edit_add_single regexec data startpos endpos fuel k = some evs →
      edit_add_single regexec data startpos endpos (fuel + 1) k = some evs := by
  intro fuel
  induction fuel with
  | zero => intro k evs h; simp [edit_add_single] at h
  | succ fuel ih =>
    intro k evs h
    rw [edit_add_single] at h
    rw [edit_add_single]
    by_cases hk : k < endpos
    · rw [if_pos hk] at h ⊢
      cases hr : regexec (data.drop k) (decide (k ≠ 0)) with
      | none => rw [hr] at h; exact h
      | some m =>
        obtain ⟨so, eo⟩ := m
        rw [hr] at h
        simp only at h ⊢
        split_ifs at h ⊢ with h1 h2
        · rcases Option.map_eq_some'.mp h with ⟨l, hl, he⟩
          rw [ih _ _ hl, Option.map_some', he]
        · rcases Option.map_eq_some'.mp h with ⟨l, hl, he⟩
          rw [ih _ _ hl, Option.map_some', he]
        · rcases Option.map_eq_some'.mp h with ⟨l, hl, he⟩
          rw [ih _ _ hl, Option.map_some', he]
    · rw [if_neg hk] at h ⊢
      exact h

/-- The loop of `edit_add` from position `k` on ends within
`endpos - k` rounds, every round starting further right than the one
before, when the matcher never reports a match that ends before it
starts. -/
theorem edit_add_single_rounds
    (regexec : List Nat → Bool → Option (Nat × Nat)) (data : List Nat)
    (startpos endpos : Nat)
    (hm : ∀ buf notbol so eo, regexec buf notbol = some (so, eo) → so ≤ eo) :
    ∀ (fuel k : Nat), endpos - k < fuel →
      ∃ evs, edit_add_single regexec data startpos endpos fuel k = some evs ∧
        evs.length ≤ endpos - k ∧
        (∀ e ∈ evs, k ≤ e.1 ∧ e.1 < endpos) ∧
        evs.Pairwise (fun a b => a.1 < b.1) := by
  intro fuel
  induction fuel with
  | zero => intro k h; omega
  | succ fuel ih =>
    intro k h
    rw [edit_add_single]
    by_cases hk : k < endpos
    · rw [if_pos hk]
      cases hr : regexec (data.drop k) (decide (k ≠ 0)) with
      | none => exact ⟨[], rfl, by simp, by simp, List.Pairwise.nil⟩
      | some m =>
        obtain ⟨so, eo⟩ := m
        have hle := hm _ _ _ _ hr
        have key : ∀ (k1 : Nat) (ev : HlEvent), k < k1 →
            ∃ evs,
              (edit_add_single regexec data startpos endpos fuel k1).map
                (fun l => (k, ev) :: l) = some evs ∧
              evs.length ≤ endpos - k ∧
              (∀ e ∈ evs, k ≤ e.1 ∧ e.1 < endpos) ∧
              evs.Pairwise (fun a b => a.1 < b.1) := by
          intro k1 ev hk1
          obtain ⟨l, hl, hlen, hmem, hpw⟩ := ih k1 (by omega)
          refine ⟨(k, ev) :: l, by rw [hl]; rfl, ?_, ?_, ?_⟩
          · simp only [List.length_cons]; omega
          · intro e he
            rcases List.mem_cons.mp he with he | he
            · subst he; exact ⟨le_refl _, hk⟩
            · exact ⟨by have := (hmem e he).1; omega, (hmem e he).2⟩
          · refine List.pairwise_cons.mpr ⟨?_, hpw⟩
            intro e he
            have := (hmem e he).1
            show k < e.1
            omega
        simp only
        split_ifs with h1 h2
        · exact key _ _ (by omega)
        · exact key _ _ (by omega)
        · exact key _ _ (by omega)
    · rw [if_neg hk]
      exact ⟨[], rfl, by simp, by simp, List.Pairwise.nil⟩

/-- C34: a zero-length match cannot stall the single-line highlight loop of
`edit_add`.  For every matcher whose matches do not end before they start,
every line and every window, the loop started at `k = 0` comes to its end
within `endpos` rounds; every round starts at a `k` below `endpos` that is
greater than the `k` of the round before; and allowing more rounds changes
nothing. -/
theorem edit_add_single_terminates
    (regexec : List Nat → Bool → Option (Nat × Nat)) (data : List Nat)
    (startpos endpos : Nat)
    (hm : ∀ buf notbol so eo, regexec buf notbol = some (so, eo) → so ≤ eo) :
    ∃ evs,
      edit_add_single regexec data startpos endpos (endpos + 1) 0 = some evs ∧
      evs.length ≤ endpos ∧
      (∀ e ∈ evs, e.1 < endpos) ∧
      evs.Pairwise (fun a b => a.1 < b.1) ∧
      ∀ n, edit_add_single regexec data startpos endpos (endpos + 1 + n) 0 =
        some evs := by
  obtain ⟨evs, he, hlen, hmem, hpw⟩ :=
    edit_add_single_rounds regexec data startpos endpos hm (endpos + 1) 0
      (by omega)
  refine ⟨evs, he, by omega, fun e h => (hmem e h).2, hpw, ?_⟩
  intro n
  induction n with
  | zero => exact he
  | succ n ih =>
    exact edit_add_single_fuel regexec data startpos endpos _ _ _ ih

/-- C34 (witness): a matcher that finds the empty match at the start of
whatever it is given, on the line abc in a window that shows all of it: the
loop refuses the match at 0, 1, 2 and 3 and ends after these four rounds. -/
theorem edit_add_single_terminates_witness :
    (∃ evs,
      edit_add_single (fun _ _ => some (0, 0)) [97, 98, 99] 0 4 (4 + 1) 0 =
        some evs ∧
      evs.length ≤ 4 ∧
      (∀ e ∈ evs, e.1 < 4) ∧
      evs.Pairwise (fun a b => a.1 < b.1) ∧
      ∀ n, edit_add_single (fun _ _ => some (0, 0)) [97, 98, 99] 0 4
        (4 + 1 + n) 0 = some evs) ∧
    edit_add_single (fun _ _ => some (0, 0)) [97, 98, 99] 0 4 (4 + 1) 0 =
      some [(0, HlEvent.refused 0), (1, HlEvent.refused 1),
        (2, HlEvent.refused 2), (3, HlEvent.refused 3)] :=
  ⟨edit_add_single_terminates (fun _ _ => some (0, 0)) [97, 98, 99] 0 4
    (by intro _ _ so eo h; simp only [Option.some.injEq, Prod.mk.injEq] at h
        omega),
    by decide⟩

/-- The width of a shortcut is zero exactly when the window has fewer
columns than the shortcut list has: six for a list of less than two
shortcuts, else half the number of shortcuts, rounded up. -/
theorem get_mouseinput_width_zero (COLS currslen : Nat) :
    get_mouseinput_width COLS currslen = 0 ↔
      COLS < (if currslen < 2 then 6 else (currslen / 2) + (currslen % 2)) := by
  unfold get_mouseinput_width
  split_ifs with h
  · exact Nat.div_eq_zero_iff (by decide)
  · exact Nat.div_eq_zero_iff (by omega)

/-- When `get_mouseinput` comes to walk the shortcut list, the width it
divided by is not zero and the index `j` is a position in the list shown. -/
theorem get_mouseinput_index_range (COLS editwinrows MAIN_VISIBLE : Nat)
    (no_help no_more_space main_list : Bool) (length_of_list : Nat)
    (mouse_x mouse_y : Nat) (allow_shortcuts enclosed : Bool) (i : Nat)
    (j : Int)
    (h : get_mouseinput COLS editwinrows MAIN_VISIBLE no_help no_more_space
      main_list length_of_list mouse_x mouse_y allow_shortcuts enclosed =
        MouseIndex.shortcut i j) :
    0 < i ∧ 0 ≤ j ∧
      j < (get_mouseinput_currslen MAIN_VISIBLE main_list length_of_list : Nat)
      := by
  unfold get_mouseinput at h
  simp only at h
  generalize (mouse_y : Int) - ((2 - (if no_more_space then 1 else 0)) + 1) -
    (editwinrows : Int) = j0 at h
  generalize get_mouseinput_width COLS
    (get_mouseinput_currslen MAIN_VISIBLE main_list length_of_list) = w at h
  generalize get_mouseinput_currslen MAIN_VISIBLE main_list length_of_list =
    c at h ⊢
  split_ifs at h with h1 h2 h3 h4 h5
  simp only [MouseIndex.shortcut.injEq] at h
  obtain ⟨hi, hj⟩ := h
  subst hi
  refine ⟨Nat.pos_of_ne_zero h3, ?_, ?_⟩
  · rw [← hj]
    have : (0 : Int) ≤ ((mouse_x / w : Nat) : Int) := Int.ofNat_nonneg _
    omega
  · rw [← hj]
    omega

/-- The function `get_mouseinput` divides by zero exactly on a click in the
shortcut rows, shortcuts allowed and shown, in a window with fewer columns
than the shortcut list. -/
theorem get_mouseinput_div_by_zero_iff (COLS editwinrows MAIN_VISIBLE : Nat)
    (no_help no_more_space main_list : Bool) (length_of_list : Nat)
    (mouse_x mouse_y : Nat) (allow_shortcuts enclosed : Bool) :
    get_mouseinput COLS editwinrows MAIN_VISIBLE no_help no_more_space
      main_list length_of_list mouse_x mouse_y allow_shortcuts enclosed =
        MouseIndex.div_by_zero ↔
      (allow_shortcuts = true ∧ no_help = false ∧ enclosed = true) ∧
      (0 : Int) ≤ (mouse_y : Int) -
        ((2 - (if no_more_space then 1 else 0)) + 1) - (editwinrows : Int) ∧
      get_mouseinput_width COLS
        (get_mouseinput_currslen MAIN_VISIBLE main_list length_of_list) = 0 := by
  unfold get_mouseinput
  simp only
  generalize (mouse_y : Int) - ((2 - (if no_more_space then 1 else 0)) + 1) -
    (editwinrows : Int) = j0
  generalize get_mouseinput_width COLS
    (get_mouseinput_currslen MAIN_VISIBLE main_list length_of_list) = w
  split_ifs with h1 h2 h3 h4 h5 <;> simp_all

/-- C39: `get_mouseinput` divides by zero in a window of five columns.  With
the main list of twelve visible shortcuts, and with a list of one shortcut,
a click at column 0 of the first shortcut row (twenty edit rows, two title
rows, one status row: screen row 23) finds the width `i` zero and divides
`*mouse_x` by it.  In a window of eighty columns the same click walks to
shortcut 0. -/
theorem get_mouseinput_divides_by_zero :
    get_mouseinput 5 20 12 false false true 20 0 23 true true =
      MouseIndex.div_by_zero ∧
    get_mouseinput 5 20 12 false false false 1 0 23 true true =
      MouseIndex.div_by_zero ∧
    get_mouseinput 80 20 12 false false true 20 0 23 true true =
      MouseIndex.shortcut 13 0 := by
  refine ⟨?_, ?_, ?_⟩ <;> decide

/-! ## Theorems: editing at the statusbar prompt -/

/-- C32: `do_statusbar_home` puts the cursor at offset 0 when `SMART_HOME` is
off.  When it is on, the cursor goes to `indent_length(answer)`, but to 0
when it was there already or when that is the length of the answer (the
answer is all blanks); the text is left alone.  Pressed twice, it ends at 0
or at the indent: at 0 when the answer is all blanks, otherwise at the
indent when the first press ended at 0 and at 0 when the first press ended
at the indent. -/
theorem do_statusbar_home_smart (E : Env) (is_blank : List Nat → Bool)
    (p : Prompt) :
    do_statusbar_home E is_blank false p = { p with statusbar_x := 0 } ∧
    (do_statusbar_home E is_blank true p).answer = p.answer ∧
    (do_statusbar_home E is_blank true p).statusbar_x =
      (if indent_length E is_blank p.answer = p.statusbar_x ∨
          indent_length E is_blank p.answer = p.answer.length then 0
        else indent_length E is_blank p.answer) ∧
    ((do_statusbar_home E is_blank true p).statusbar_x = 0 ∨
      (do_statusbar_home E is_blank true p).statusbar_x =
        indent_length E is_blank p.answer) ∧
    (do_statusbar_home E is_blank true
        (do_statusbar_home E is_blank true p)).statusbar_x =
      (if indent_length E is_blank p.answer = p.answer.length then 0
        else if (do_statusbar_home E is_blank true p).statusbar_x = 0 then
          indent_length E is_blank p.answer
        else 0) := by
  obtain ⟨a, x⟩ := p
  generalize hi : indent_length E is_blank a = n
  have h1 : (do_statusbar_home E is_blank true ⟨a, x⟩) =
      ⟨a, if n = x ∨ n = a.length then 0 else n⟩ := by
    simp only [do_statusbar_home, if_true, hi]
    split_ifs <;> rfl
  have h2 : ∀ y, do_statusbar_home E is_blank true ⟨a, y⟩ =
      ⟨a, if n = y ∨ n = a.length then 0 else n⟩ := by
    intro y
    simp only [do_statusbar_home, if_true, hi]
    split_ifs <;> rfl
  refine ⟨by simp [do_statusbar_home], ?_, ?_, ?_, ?_⟩
  · rw [h1]
  · rw [h1]
  · rw [h1]
    simp only
    split_ifs
    · exact Or.inl rfl
    · exact Or.inr rfl
  · rw [h1, h2]
    simp only
    split_ifs <;> omega

/-- The answer of two blanks and ab with the cursor on the b: the first
press of home goes to the indent at 2, the second to 0, the third to the
indent again; in an answer of two blanks every press goes to 0. -/
theorem do_statusbar_home_example :
    do_statusbar_home (byte_env 8 80) (fun c => decide (c = [32])) true
        ⟨[32, 32, 97, 98], 3⟩ = ⟨[32, 32, 97, 98], 2⟩ ∧
    do_statusbar_home (byte_env 8 80) (fun c => decide (c = [32])) true
        ⟨[32, 32, 97, 98], 2⟩ = ⟨[32, 32, 97, 98], 0⟩ ∧
    do_statusbar_home (byte_env 8 80) (fun c => decide (c = [32])) true
        ⟨[32, 32, 97, 98], 0⟩ = ⟨[32, 32, 97, 98], 2⟩ ∧
    do_statusbar_home (byte_env 8 80) (fun c => decide (c = [32])) true
        ⟨[32, 32], 1⟩ = ⟨[32, 32], 0⟩ ∧
    do_statusbar_home (byte_env 8 80) (fun c => decide (c = [32])) true
        ⟨[32, 32], 0⟩ = ⟨[32, 32], 0⟩ := by
  refine ⟨?_, ?_, ?_, ?_, ?_⟩ <;> decide

/-- The loop of `do_statusbar_output` with `allow_cntrls` clear, on a text
given as its characters: the characters that are no control characters are
inserted at the cursor in their order, and the cursor ends after them. -/
theorem do_statusbar_output_loop_filter (E : Env) :
    ∀ (cs : List (List Nat)) (fuel : Nat) (p : Prompt) (s : KbState),
      chars_ok E cs → cs.flatten.length ≤ fuel →
      p.statusbar_x ≤ p.answer.length →
      do_statusbar_output_loop E false fuel cs.flatten p s =
        (⟨p.answer.take p.statusbar_x ++
            (cs.filter (fun c => !E.is_cntrl_mbchar c)).flatten ++
            p.answer.drop p.statusbar_x,
          p.statusbar_x +
            (cs.filter (fun c => !E.is_cntrl_mbchar c)).flatten.length⟩,
          false, s) := by
  intro cs
  induction cs with
  | nil =>
    intro fuel p s _ _ _
    obtain ⟨a, x⟩ := p
    cases fuel <;> simp [do_statusbar_output_loop]
  | cons c t ih =>
    intro fuel p s hok hf hx
    obtain ⟨a, x⟩ := p
    simp only at hx
    obtain ⟨hc, hml, hokt⟩ := hok
    obtain ⟨b, c1, rfl⟩ : ∃ b c1, c = b :: c1 := by
      cases c with
      | nil => exact absurd rfl hc
      | cons b c1 => exact ⟨b, c1, rfl⟩
    have hfl : ((b :: c1) :: t).flatten = b :: (c1 ++ t.flatten) := by
      simp [List.flatten_cons]
    have hlen : (b :: (c1 ++ t.flatten)).length =
        c1.length + 1 + t.flatten.length := by
      simp only [List.length_cons, List.length_append]; omega
    rw [hfl] at hf ⊢
    rw [hlen] at hf
    obtain ⟨fuel, rfl⟩ : ∃ f, fuel = f + 1 := ⟨fuel - 1, by omega⟩
    have hml1 : E.mblen (b :: (c1 ++ t.flatten)) = c1.length + 1 := by
      have : (b :: c1) ++ t.flatten = b :: (c1 ++ t.flatten) := rfl
      rw [← this, hml]; rfl
    have hchr : parse_mbchar_chr E (b :: (c1 ++ t.flatten)) = b :: c1 := by
      simp only [parse_mbchar_chr, hml1, List.take_succ_cons, List.take_left]
    have hpl : parse_mbchar_len E (b :: (c1 ++ t.flatten)) = c1.length + 1 := by
      simp only [parse_mbchar_len, hml1]
    have hdrop : (b :: (c1 ++ t.flatten)).drop (c1.length + 1) = t.flatten := by
      simp only [List.drop_succ_cons, List.drop_left]
    have hnot : ¬ (false = true ∧ b ≠ 0 ∧ b = 10) := by simp
    have hnot2 : ¬ (false = true ∧ b = 0) := by simp
    rw [do_statusbar_output_loop, if_neg hnot]
    simp only [if_neg hnot2, hchr, hpl, hdrop, true_and]
    by_cases hctl : E.is_cntrl_mbchar (b :: c1) = true
    · rw [if_pos hctl, ih fuel ⟨a, x⟩ s hokt (by omega) hx]
      simp [List.filter_cons, hctl]
    · rw [if_neg hctl]
      have hins := take_drop_insert a (b :: c1) x hx
      have hx2 : x + (c1.length + 1) ≤
          (a.take x ++ (b :: c1) ++ a.drop x).length := by
        simp only [List.length_append, List.length_take, List.length_drop,
          List.length_cons]
        omega
      rw [ih fuel ⟨a.take x ++ (b :: c1) ++ a.drop x, x + (c1.length + 1)⟩ s
        hokt (by omega) hx2]
      have hl : (b :: c1).length = c1.length + 1 := rfl
      rw [hl] at hins
      simp only [hins.1, hins.2]
      have hf2 : E.is_cntrl_mbchar (b :: c1) = false := by
        cases h : E.is_cntrl_mbchar (b :: c1) with
        | true => exact absurd h hctl
        | false => rfl
      simp only [List.filter_cons, hf2, Bool.not_false, if_true,
        List.flatten_cons, List.length_append, List.length_cons,
        List.append_assoc, Prod.mk.injEq, Prompt.mk.injEq, and_true]
      refine ⟨trivial, ?_⟩
      omega

/-- C31: `do_statusbar_output` with `allow_cntrls` clear inserts what was
typed at the cursor, the control characters left out.  For every answer,
every cursor within it and every output, read as the characters that
`parse_mbchar` finds in it, the new answer is the text before the cursor,
the characters of the output that are no control characters in their order,
and the text from the cursor on; the cursor moves on by the bytes inserted;
`got_enter` is `FALSE` and nothing is put back on the keystroke buffer. -/
theorem do_statusbar_output_filter (E : Env) (hE : E.WF) (a : List Nat)
    (x : Nat) (o : List Nat) (s : KbState) (hx : x ≤ a.length) :
    ∃ cs, chars_ok E cs ∧ cs.flatten = o ∧
      do_statusbar_output E o false ⟨a, x⟩ s =
        (⟨a.take x ++ (cs.filter (fun c => !E.is_cntrl_mbchar c)).flatten ++
            a.drop x,
          x + (cs.filter (fun c => !E.is_cntrl_mbchar c)).flatten.length⟩,
          false, s) := by
  obtain ⟨cs, hok, hfl⟩ := chars_exist E hE o.length o (le_refl _)
  refine ⟨cs, hok, hfl, ?_⟩
  unfold do_statusbar_output
  have := do_statusbar_output_loop_filter E cs o.length ⟨a, x⟩ s hok
    (by rw [hfl]) hx
  rw [hfl] at this
  exact this
/-- C31 (witness): the bytes a, BEL, b typed into the answer xy with the
cursor after the x: the answer becomes xaby, the cursor is after the b. -/
theorem do_statusbar_output_filter_witness :
    (∃ cs, chars_ok (byte_env 8 80) cs ∧ cs.flatten = [97, 7, 98] ∧
      do_statusbar_output (byte_env 8 80) [97, 7, 98] false ⟨[120, 121], 1⟩
          (KbState.reset []) =
        (⟨[120, 121].take 1 ++
            (cs.filter
              (fun c => !(byte_env 8 80).is_cntrl_mbchar c)).flatten ++
            [120, 121].drop 1,
          1 + (cs.filter
            (fun c => !(byte_env 8 80).is_cntrl_mbchar c)).flatten.length⟩,
          false, KbState.reset [])) ∧
    do_statusbar_output (byte_env 8 80) [97, 7, 98] false ⟨[120, 121], 1⟩
        (KbState.reset []) =
      (⟨[120, 97, 98, 121], 3⟩, false, KbState.reset []) :=
  ⟨do_statusbar_output_filter (byte_env 8 80) (byte_env_WF 8 80 (by decide))
      [120, 121] 1 [97, 7, 98] (KbState.reset []) (by decide),
    by decide⟩

/-- A character is at least one byte long. -/
theorem parse_mbchar_len_pos (E : Env) (hE : E.WF) (buf : List Nat) :
    1 ≤ parse_mbchar_len E buf := by
  cases buf with
  | nil => exact le_refl _
  | cons b t => exact (parse_mbchar_len_bounds E hE b t).1

/-- A character does not run over the end of the text. -/
theorem parse_mbchar_len_le (E : Env) (hE : E.WF) (buf : List Nat)
    (h : buf ≠ []) : parse_mbchar_len E buf ≤ buf.length := by
  cases buf with
  | nil => exact absurd rfl h
  | cons b t => exact (parse_mbchar_len_bounds E hE b t).2

/-- The bytes `parse_mbchar` hands back are as many as it counts. -/
theorem parse_mbchar_chr_length (E : Env) (hE : E.WF) (buf : List Nat)
    (h : buf ≠ []) :
    (parse_mbchar_chr E buf).length = parse_mbchar_len E buf := by
  have := parse_mbchar_len_le E hE buf h
  cases buf with
  | nil => exact absurd rfl h
  | cons b t =>
    simp only [parse_mbchar_chr, parse_mbchar_len, List.length_take] at this ⊢
    omega

/-- The loop of `move_mbleft` ends with at least one byte and at most
`pos_prev` bytes left. -/
theorem move_mbleft_loop_bounds (E : Env) (hE : E.WF) :
    ∀ (fuel : Nat) (buf : List Nat) (pos_prev : Nat), 1 ≤ pos_prev →
      1 ≤ move_mbleft_loop E fuel buf pos_prev ∧
        move_mbleft_loop E fuel buf pos_prev ≤ pos_prev := by
  intro fuel
  induction fuel with
  | zero => intro buf pp h; exact ⟨h, le_refl _⟩
  | succ fuel ih =>
    intro buf pp h
    simp only [move_mbleft_loop]
    split_ifs with h1
    · exact ⟨h, le_refl _⟩
    · have hp := parse_mbchar_len_pos E hE buf
      have := ih (buf.drop (parse_mbchar_len E buf))
        (pp - parse_mbchar_len E buf) (by omega)
      omega

/-- The function `move_mbleft` moves left from every offset but 0. -/
theorem move_mbleft_lt (E : Env) (hE : E.WF) (buf : List Nat) (pos : Nat)
    (h : 0 < pos) : move_mbleft E buf pos < pos := by
  unfold move_mbleft
  have := move_mbleft_loop_bounds E hE pos buf pos h
  omega

/-- The count of `indent_length` stays within the line. -/
theorem indent_length_loop_le (E : Env) (hE : E.WF)
    (is_blank : List Nat → Bool) :
    ∀ (fuel : Nat) (line : List Nat),
      indent_length_loop E is_blank fuel line ≤ line.length := by
  intro fuel
  induction fuel with
  | zero => intro line; exact Nat.zero_le _
  | succ fuel ih =>
    intro line
    simp only [indent_length_loop]
    split_ifs with h1 h2
    · exact Nat.zero_le _
    · have hl := parse_mbchar_len_le E hE line h1
      have := ih (line.drop (parse_mbchar_len E line))
      rw [List.length_drop] at this
      omega
    · exact Nat.zero_le _

/-- The loop of `do_statusbar_output` keeps the cursor within the answer,
whether or not control characters are allowed. -/
theorem do_statusbar_output_loop_bound (E : Env) (hE : E.WF)
    (allow_cntrls : Bool) :
    ∀ (fuel : Nat) (out : List Nat) (p : Prompt) (s : KbState),
      p.statusbar_x ≤ p.answer.length →
      (do_statusbar_output_loop E allow_cntrls fuel out p s).1.statusbar_x ≤
        (do_statusbar_output_loop E allow_cntrls fuel out p s).1.answer.length
      := by
  intro fuel
  induction fuel with
  | zero => intro out p s h; exact h
  | succ fuel ih =>
    intro out p s h
    cases out with
    | nil => exact h
    | cons b rest =>
      have step : ∀ output : List Nat, output ≠ [] →
          (if allow_cntrls = false ∧
              E.is_cntrl_mbchar (parse_mbchar_chr E output) = true then
            do_statusbar_output_loop E allow_cntrls fuel
              (output.drop (parse_mbchar_len E output)) p s
          else
            do_statusbar_output_loop E allow_cntrls fuel
              (output.drop (parse_mbchar_len E output))
              { answer := p.answer.take p.statusbar_x ++
                  parse_mbchar_chr E output ++ p.answer.drop p.statusbar_x,
                statusbar_x := p.statusbar_x + parse_mbchar_len E output }
              s).1.statusbar_x ≤
          (if allow_cntrls = false ∧
              E.is_cntrl_mbchar (parse_mbchar_chr E output) = true then
            do_statusbar_output_loop E allow_cntrls fuel
              (output.drop (parse_mbchar_len E output)) p s
          else
            do_statusbar_output_loop E allow_cntrls fuel
              (output.drop (parse_mbchar_len E output))
              { answer := p.answer.take p.statusbar_x ++
                  parse_mbchar_chr E output ++ p.answer.drop p.statusbar_x,
                statusbar_x := p.statusbar_x + parse_mbchar_len E output }
              s).1.answer.length := by
        intro output hne
        split_ifs with h3
        · exact ih _ _ _ h
        · apply ih
          have := parse_mbchar_chr_length E hE output hne
          simp only [List.length_append, List.length_take, List.length_drop,
            this]
          omega
      rw [do_statusbar_output_loop]
      by_cases h1 : allow_cntrls = true ∧ b ≠ 0 ∧ b = 10
      · rw [if_pos h1]
        exact h
      · rw [if_neg h1]
        by_cases h2 : allow_cntrls = true ∧ b = 0
        · simp only [if_pos h2]
          exact step (10 :: rest) (by simp)
        · simp only [if_neg h2]
          exact step (b :: rest) (by simp)

/-- A forward loop of `do_statusbar_next_word` started within the answer
ends within it, at the end of the text when it says so, and otherwise with
the length of a character that lies within the text. -/
theorem sb_forward_bound (E : Env) (hE : E.WF)
    (is_word : List Nat → Bool → Bool) (allow_punct : Bool)
    (answer : List Nat) (stop mark : Bool) :
    ∀ (fuel : Nat) (st : WordScan), st.x ≤ answer.length →
      (st.at_end = true → answer.drop st.x = []) →
      answer.length - st.x < fuel →
      (sb_forward E is_word allow_punct answer stop mark fuel st).x ≤
          answer.length ∧
        ((sb_forward E is_word allow_punct answer stop mark fuel st).at_end =
            true →
          answer.drop
            (sb_forward E is_word allow_punct answer stop mark fuel st).x =
              []) ∧
        (answer.drop
            (sb_forward E is_word allow_punct answer stop mark fuel st).x ≠
              [] →
          (sb_forward E is_word allow_punct answer stop mark fuel st).x +
            (sb_forward E is_word allow_punct answer stop mark fuel
              st).char_mb_len ≤ answer.length) := by
  intro fuel
  induction fuel with
  | zero => intro st _ _ h; omega
  | succ fuel ih =>
    intro st hx hend hf
    rw [sb_forward]
    by_cases he : st.at_end = true
    · rw [if_pos he]
      exact ⟨hx, hend, fun h => absurd (hend he) h⟩
    · rw [if_neg he]
      simp only
      by_cases hw : is_word (parse_mbchar_chr E (answer.drop st.x))
          allow_punct = stop
      · rw [if_pos hw]
        refine ⟨hx, fun h => absurd h he, ?_⟩
        intro hne
        have hne2 : answer.drop st.x ≠ [] := hne
        have := parse_mbchar_len_le E hE _ hne2
        rw [List.length_drop] at this
        show st.x + parse_mbchar_len E (answer.drop st.x) ≤ answer.length
        omega
      · rw [if_neg hw]
        by_cases hd : answer.drop st.x = []
        · rw [if_pos hd]
          exact ⟨hx, fun _ => hd, fun h => absurd hd h⟩
        · rw [if_neg hd]
          have h1 := parse_mbchar_len_le E hE _ hd
          have h2 := parse_mbchar_len_pos E hE (answer.drop st.x)
          rw [List.length_drop] at h1
          exact ih (WordScan.mk (st.x + parse_mbchar_len E (answer.drop st.x))
            (parse_mbchar_len E (answer.drop st.x)) st.at_end
            (st.started || mark))
            (by show st.x + parse_mbchar_len E (answer.drop st.x) ≤
                  answer.length
                omega)
            (fun h => absurd h he)
            (by show answer.length -
                  (st.x + parse_mbchar_len E (answer.drop st.x)) < fuel
                omega)

/-- A backward loop of `do_statusbar_prev_word` does not move right; when
it starts and ends with the start of the text not reached, it ends with the
length of the character at the cursor. -/
theorem sb_backward_bound (E : Env) (hE : E.WF)
    (is_word : List Nat → Bool → Bool) (allow_punct : Bool)
    (answer : List Nat) (stop mark : Bool) :
    ∀ (fuel : Nat) (st : WordScan), st.x < fuel →
      (sb_backward E is_word allow_punct answer stop mark fuel st).x ≤ st.x ∧
        (st.at_end = true →
          (sb_backward E is_word allow_punct answer stop mark fuel
            st).at_end = true) ∧
        (st.at_end = false →
          (sb_backward E is_word allow_punct answer stop mark fuel
            st).at_end = false →
          (sb_backward E is_word allow_punct answer stop mark fuel
              st).char_mb_len =
            parse_mbchar_len E (answer.drop
              (sb_backward E is_word allow_punct answer stop mark fuel
                st).x)) := by
  intro fuel
  induction fuel with
  | zero => intro st h; omega
  | succ fuel ih =>
    intro st hf
    rw [sb_backward]
    by_cases he : st.at_end = true
    · rw [if_pos he]
      exact ⟨le_refl _, fun _ => he, fun h => by rw [he] at h; cases h⟩
    · rw [if_neg he]
      simp only
      by_cases hw : is_word (parse_mbchar_chr E (answer.drop st.x))
          allow_punct = stop
      · rw [if_pos hw]
        exact ⟨le_refl _, fun h => absurd h he, fun _ _ => rfl⟩
      · rw [if_neg hw]
        by_cases h0 : st.x = 0
        · rw [if_pos h0]
          refine ⟨le_refl _, fun _ => rfl, fun _ h => ?_⟩
          simp at h
        · rw [if_neg h0]
          have hl := move_mbleft_lt E hE answer st.x (by omega)
          have := ih (WordScan.mk (move_mbleft E answer st.x)
            (parse_mbchar_len E (answer.drop st.x)) st.at_end
            (st.started || mark))
            (by show move_mbleft E answer st.x < fuel; omega)
          refine ⟨?_, fun h => absurd h he, fun _ h => ?_⟩
          · have := this.1
            simp only at this
            omega
          · have hf : st.at_end = false := by
              cases h' : st.at_end with
              | true => exact absurd h' he
              | false => rfl
            exact this.2.2 hf h

/-- The step between the loops of `do_statusbar_prev_word` does not move
right, and left of where it was unless it says it is at the start. -/
theorem sb_step_backward_bound (E : Env) (hE : E.WF) (answer : List Nat)
    (st : WordScan) :
    (sb_step_backward E answer st).x ≤ st.x ∧
      ((sb_step_backward E answer st).at_end = false →
        st.at_end = false ∧ (sb_step_backward E answer st).x < st.x) := by
  unfold sb_step_backward
  by_cases h0 : st.x = 0
  · rw [if_pos h0]
    exact ⟨le_refl _, fun h => by simp at h⟩
  · rw [if_neg h0]
    have := move_mbleft_lt E hE answer st.x (by omega)
    exact ⟨by show move_mbleft E answer st.x ≤ st.x; omega, fun h => ⟨h, this⟩⟩

/-- The function `do_statusbar_next_word` leaves the cursor within the
answer. -/
theorem do_statusbar_next_word_bound (E : Env) (hE : E.WF)
    (is_word : List Nat → Bool → Bool) (allow_punct : Bool) (p : Prompt)
    (h : p.statusbar_x ≤ p.answer.length) :
    (do_statusbar_next_word E is_word allow_punct p).2.statusbar_x ≤
      (do_statusbar_next_word E is_word allow_punct p).2.answer.length := by
  simp only [do_statusbar_next_word]
  obtain ⟨h1, h2, h3⟩ := sb_forward_bound E hE is_word allow_punct p.answer
    false true (p.answer.length + 1) ⟨p.statusbar_x, 0, false, false⟩ h
    (fun h => by simp at h) (by show p.answer.length - p.statusbar_x < _; omega)
  generalize sb_forward E is_word allow_punct p.answer false true
    (p.answer.length + 1) ⟨p.statusbar_x, 0, false, false⟩ = st1 at h1 h2 h3 ⊢
  have hs : (sb_step_forward p.answer st1).x ≤ p.answer.length ∧
      ((sb_step_forward p.answer st1).at_end = true →
        p.answer.drop (sb_step_forward p.answer st1).x = []) := by
    unfold sb_step_forward
    by_cases hd : p.answer.drop st1.x = []
    · rw [if_pos hd]
      exact ⟨h1, fun _ => hd⟩
    · rw [if_neg hd]
      exact ⟨h3 hd, fun he => absurd (h2 he) hd⟩
  exact (sb_forward_bound E hE is_word allow_punct p.answer true false
    (p.answer.length + 1) _ hs.1 hs.2 (by omega)).1

/-- The function `do_statusbar_prev_word` leaves the cursor within the
answer. -/
theorem do_statusbar_prev_word_bound (E : Env) (hE : E.WF)
    (is_word : List Nat → Bool → Bool) (allow_punct : Bool) (p : Prompt)
    (h : p.statusbar_x ≤ p.answer.length) :
    (do_statusbar_prev_word E is_word allow_punct p).2.statusbar_x ≤
      (do_statusbar_prev_word E is_word allow_punct p).2.answer.length := by
  simp only [do_statusbar_prev_word]
  have h1 := (sb_backward_bound E hE is_word allow_punct p.answer false true
    (p.answer.length + 1) ⟨p.statusbar_x, 0, false, false⟩
    (by show p.statusbar_x < _; omega)).1
  generalize sb_backward E is_word allow_punct p.answer false true
    (p.answer.length + 1) ⟨p.statusbar_x, 0, false, false⟩ = st1 at h1 ⊢
  have h1x : st1.x ≤ p.answer.length := le_trans h1 h
  have h2 := (sb_step_backward_bound E hE p.answer st1).1
  generalize sb_step_backward E p.answer st1 = st2 at h2 ⊢
  have h3 := (sb_backward_bound E hE is_word allow_punct p.answer true false
    (p.answer.length + 1) st2 (by omega)).1
  generalize sb_backward E is_word allow_punct p.answer true false
    (p.answer.length + 1) st2 = st3 at h3 ⊢
  have h3x : st3.x ≤ p.answer.length := by omega
  by_cases ha : (!st3.at_end) = true
  · rw [if_pos ha]
    have h5 := sb_step_backward_bound E hE p.answer st3
    generalize sb_step_backward E p.answer st3 = st5 at h5 ⊢
    have h6 := sb_backward_bound E hE is_word allow_punct p.answer false false
      (p.answer.length + 1) st5 (by omega)
    generalize sb_backward E is_word allow_punct p.answer false false
      (p.answer.length + 1) st5 = st6 at h6 ⊢
    by_cases hb : (!st6.at_end) = true
    · rw [if_pos hb]
      have hb6 : st6.at_end = false := by
        cases h' : st6.at_end with
        | true => rw [h'] at hb; cases hb
        | false => rfl
      have hb5 : st5.at_end = false := by
        cases h' : st5.at_end with
        | true => have := h6.2.1 h'; rw [hb6] at this; cases this
        | false => rfl
      have hlt := (h5.2 hb5).2
      have hcm := h6.2.2 hb5 hb6
      have hne : p.answer.drop st6.x ≠ [] := by
        intro hd
        have := congrArg List.length hd
        rw [List.length_drop, List.length_nil] at this
        omega
      have hle := parse_mbchar_len_le E hE _ hne
      rw [List.length_drop] at hle
      show st6.x + st6.char_mb_len ≤ p.answer.length
      omega
    · rw [if_neg hb]
      show st6.x ≤ p.answer.length
      omega
  · rw [if_neg ha]
    exact h3x

/-- The function `do_statusbar_delete` takes the character at the cursor
out of the answer and leaves the cursor where it is. -/
theorem do_statusbar_delete_eq (E : Env) (hE : E.WF) (p : Prompt)
    (h : p.statusbar_x < p.answer.length) :
    do_statusbar_delete E p =
      ⟨p.answer.take p.statusbar_x ++
          p.answer.drop (p.statusbar_x +
            parse_mbchar_len E (p.answer.drop p.statusbar_x)),
        p.statusbar_x⟩ := by
  obtain ⟨a, x⟩ := p
  simp only at h
  have hne : a.drop x ≠ [] := by
    intro hd
    have := congrArg List.length hd
    rw [List.length_drop, List.length_nil] at this
    omega
  have hle := parse_mbchar_len_le E hE _ hne
  rw [List.length_drop] at hle
  simp only [do_statusbar_delete, if_pos hne, null_at, Prompt.mk.injEq,
    and_true]
  apply List.take_of_length_le
  simp only [List.length_append, List.length_take, List.length_drop]
  omega

/-- The function `do_statusbar_delete` leaves the cursor within the
answer. -/
theorem do_statusbar_delete_bound (E : Env) (hE : E.WF) (p : Prompt)
    (h : p.statusbar_x ≤ p.answer.length) :
    (do_statusbar_delete E p).statusbar_x ≤
      (do_statusbar_delete E p).answer.length := by
  by_cases hlt : p.statusbar_x < p.answer.length
  · rw [do_statusbar_delete_eq E hE p hlt]
    have hne : p.answer.drop p.statusbar_x ≠ [] := by
      intro hd
      have := congrArg List.length hd
      rw [List.length_drop, List.length_nil] at this
      omega
    have hle := parse_mbchar_len_le E hE _ hne
    rw [List.length_drop] at hle
    simp only [List.length_append, List.length_take, List.length_drop]
    omega
  · have hd : p.answer.drop p.statusbar_x = [] :=
      List.drop_of_length_le (by omega)
    simp only [do_statusbar_delete, hd, ne_eq, not_true_eq_false, if_false]
    exact h

/-- C35: the cursor of the prompt stays within the answer.  If
`statusbar_x <= strlen(answer)` holds before, it holds after
`do_statusbar_output` (control characters allowed or not),
`do_statusbar_home` (`SMART_HOME` on or off), `do_statusbar_end`,
`do_statusbar_left`, `do_statusbar_right`, `do_statusbar_backspace`,
`do_statusbar_delete`, `do_statusbar_cut_text` (`CUT_TO_END` on or off),
`do_statusbar_next_word` and `do_statusbar_prev_word`, for character
helpers that find in a non-empty text a character of at least one byte
that does not run over its end. -/
theorem statusbar_x_invariant (E : Env) (hE : E.WF)
    (is_word : List Nat → Bool → Bool) (is_blank : List Nat → Bool)
    (p : Prompt) (h : p.statusbar_x ≤ p.answer.length) :
    (∀ (output : List Nat) (allow_cntrls : Bool) (s : KbState),
      (do_statusbar_output E output allow_cntrls p s).1.statusbar_x ≤
        (do_statusbar_output E output allow_cntrls p s).1.answer.length) ∧
    (∀ smart_home : Bool,
      (do_statusbar_home E is_blank smart_home p).statusbar_x ≤
        (do_statusbar_home E is_blank smart_home p).answer.length) ∧
    (do_statusbar_end p).statusbar_x ≤ (do_statusbar_end p).answer.length ∧
    (do_statusbar_left E p).statusbar_x ≤
      (do_statusbar_left E p).answer.length ∧
    (do_statusbar_right E p).statusbar_x ≤
      (do_statusbar_right E p).answer.length ∧
    (do_statusbar_backspace E p).statusbar_x ≤
      (do_statusbar_backspace E p).answer.length ∧
    (do_statusbar_delete E p).statusbar_x ≤
      (do_statusbar_delete E p).answer.length ∧
    (∀ cut_to_end : Bool,
      (do_statusbar_cut_text cut_to_end p).statusbar_x ≤
        (do_statusbar_cut_text cut_to_end p).answer.length) ∧
    (∀ allow_punct : Bool,
      (do_statusbar_next_word E is_word allow_punct p).2.statusbar_x ≤
        (do_statusbar_next_word E is_word allow_punct p).2.answer.length) ∧
    (∀ allow_punct : Bool,
      (do_statusbar_prev_word E is_word allow_punct p).2.statusbar_x ≤
        (do_statusbar_prev_word E is_word allow_punct p).2.answer.length) := by
  have hleft : (do_statusbar_left E p).statusbar_x ≤
      (do_statusbar_left E p).answer.length := by
    unfold do_statusbar_left
    split_ifs with h0
    · have := move_mbleft_lt E hE p.answer p.statusbar_x h0
      show move_mbleft E p.answer p.statusbar_x ≤ p.answer.length
      omega
    · exact h
  refine ⟨?_, ?_, ?_, hleft, ?_, ?_, do_statusbar_delete_bound E hE p h, ?_,
    fun ap => do_statusbar_next_word_bound E hE is_word ap p h,
    fun ap => do_statusbar_prev_word_bound E hE is_word ap p h⟩
  · intro output allow_cntrls s
    exact do_statusbar_output_loop_bound E hE allow_cntrls _ _ _ _ h
  · intro smart_home
    have hi := indent_length_loop_le E hE is_blank p.answer.length p.answer
    simp only [do_statusbar_home]
    split_ifs
    · exact Nat.zero_le _
    · exact hi
    · exact Nat.zero_le _
  · exact le_refl _
  · unfold do_statusbar_right
    split_ifs with h0
    · have hne : p.answer.drop p.statusbar_x ≠ [] := by
        intro hd
        have := congrArg List.length hd
        rw [List.length_drop, List.length_nil] at this
        omega
      have hle := parse_mbchar_len_le E hE _ hne
      rw [List.length_drop] at hle
      show p.statusbar_x + parse_mbchar_len E (p.answer.drop p.statusbar_x) ≤
        p.answer.length
      omega
    · exact h
  · unfold do_statusbar_backspace
    split_ifs with h0
    · exact do_statusbar_delete_bound E hE _ hleft
    · exact h
  · intro cut_to_end
    unfold do_statusbar_cut_text null_at
    split_ifs with h0
    · show p.statusbar_x ≤ (p.answer.take p.statusbar_x).length
      rw [List.length_take]
      omega
    · exact Nat.zero_le _

/-- C35 (witness): in a UTF-8 locale, the answer `éb` (three bytes) with the
cursor after the two bytes of `é`: backspace takes the `é` out and leaves
the cursor at 0, within the one byte left; typing `é` again puts the cursor
at 4 of 5 bytes. -/
theorem statusbar_x_invariant_witness :
    (do_statusbar_backspace (utf8_env 8 80)
        ⟨[195, 169, 98], 2⟩).statusbar_x ≤
      (do_statusbar_backspace (utf8_env 8 80)
        ⟨[195, 169, 98], 2⟩).answer.length ∧
    do_statusbar_backspace (utf8_env 8 80) ⟨[195, 169, 98], 2⟩ = ⟨[98], 0⟩ ∧
    (do_statusbar_output (utf8_env 8 80) [195, 169] false
        ⟨[195, 169, 98], 2⟩ (KbState.reset [])).1.statusbar_x ≤
      (do_statusbar_output (utf8_env 8 80) [195, 169] false
        ⟨[195, 169, 98], 2⟩ (KbState.reset [])).1.answer.length ∧
    (do_statusbar_output (utf8_env 8 80) [195, 169] false
        ⟨[195, 169, 98], 2⟩ (KbState.reset [])).1 =
      ⟨[195, 169, 195, 169, 98], 4⟩ :=
  ⟨(statusbar_x_invariant (utf8_env 8 80) (utf8_env_WF 8 80 (by decide))
      (fun c _ => decide (c ≠ [32] ∧ c ≠ [0])) (fun c => decide (c = [32]))
      ⟨[195, 169, 98], 2⟩ (by decide)).2.2.2.2.2.1,
    by decide,
    (statusbar_x_invariant (utf8_env 8 80) (utf8_env_WF 8 80 (by decide))
      (fun c _ => decide (c ≠ [32] ∧ c ≠ [0])) (fun c => decide (c = [32]))
      ⟨[195, 169, 98], 2⟩ (by decide)).1 [195, 169] false (KbState.reset []),
    by decide⟩

end Nano
